import Mathlib

/-!
# SimpleFS (`fs.cpp`): a shallow embedding and its verified properties

The file system of `Project1-FileSytem/code/src/library/fs.cpp` is embedded
function by function.  A block is the list of its bytes; the `union Block`
views (`Super`, `Inodes`, `Pointers`, `Data`) are little-endian decodings of
those bytes at the offsets the C++ structs give them.  Calls that the C++
program cannot complete (a block number outside the device, an index outside
the free map, a null `disk`) yield `none`.

The header `sfs/fs.h` and the block device `Disk` are not part of the source
tree.  The block size, the number of inodes per block, the number of pointers
per block and the magic number are therefore parameters (`Geometry`);
`POINTERS_PER_INODE` is `5`, the value `read` hard-codes in `size_t j = i - 5`.
-/

namespace SimpleFS

/-! ## Bytes and blocks -/

/-- One byte of a block (`char`). -/
abbrev Byte := Fin 256

/-- The contents of a block, `Block::Data`: `BLOCK_SIZE` bytes. -/
abbrev Block := List Byte

/-- The byte holding `v mod 256`. -/
def byteOf (v : Nat) : Byte := ⟨v % 256, Nat.mod_lt _ (by decide)⟩

/-- The compile-time constants of `sfs/fs.h` and `sfs/disk.h` that the source
tree does not contain. -/
structure Geometry where
  /-- The constant `Disk::BLOCK_SIZE`. -/
  BLOCK_SIZE : Nat
  /-- The constant `FileSystem::INODES_PER_BLOCK`. -/
  INODES_PER_BLOCK : Nat
  /-- The constant `FileSystem::POINTERS_PER_BLOCK`. -/
  POINTERS_PER_BLOCK : Nat
  /-- The constant `FileSystem::MAGIC_NUMBER`. -/
  MAGIC_NUMBER : Nat
deriving DecidableEq, Repr

/-- The constant `POINTERS_PER_INODE`; `read` uses the literal `5` for it. -/
def POINTERS_PER_INODE : Nat := 5

/-- The size of `struct Inode`: `Valid`, `Size`, `Direct[5]`, `Indirect`, each
a `uint32_t`. -/
def INODE_SIZE : Nat := 32

/-- The values of the SimpleFS header this project derives from. -/
def stdGeometry : Geometry :=
  { BLOCK_SIZE := 4096, INODES_PER_BLOCK := 128, POINTERS_PER_BLOCK := 1024,
    MAGIC_NUMBER := 0xf0f03410 }

/-- A small geometry with the same layout, for evaluating the code on examples:
blocks of 64 bytes, two inodes and sixteen pointers per block. -/
def tinyGeometry : Geometry :=
  { BLOCK_SIZE := 64, INODES_PER_BLOCK := 2, POINTERS_PER_BLOCK := 16,
    MAGIC_NUMBER := 0xf0f03410 }

/-- The members of `union Block` fit in `Data`: the superblock, the inode array
and the pointer array all lie inside `BLOCK_SIZE` bytes, and the constants are
`uint32_t` values. -/
def Geometry.WF (g : Geometry) : Prop :=
  16 ≤ g.BLOCK_SIZE ∧ 0 < g.INODES_PER_BLOCK ∧
  g.INODES_PER_BLOCK * INODE_SIZE ≤ g.BLOCK_SIZE ∧
  0 < g.POINTERS_PER_BLOCK ∧ 4 * g.POINTERS_PER_BLOCK ≤ g.BLOCK_SIZE ∧
  g.BLOCK_SIZE < 4294967296 ∧ g.MAGIC_NUMBER < 4294967296

instance (g : Geometry) : Decidable g.WF := by
  unfold Geometry.WF
  exact inferInstance

/-- A block of zero bytes: `Block block = {0}`. -/
def zeroBlock (g : Geometry) : Block := List.replicate g.BLOCK_SIZE 0

/-- The bytes `off .. off + len - 1` of a buffer. -/
def readBytes (b : List Byte) (off len : Nat) : List Byte := (b.drop off).take len

/-- The effect of `memcpy(b + off, src, src.length)` on the buffer `b`. -/
def writeBytes (b : List Byte) (off : Nat) (src : List Byte) : List Byte :=
  b.take off ++ src ++ b.drop (off + src.length)

/-- The four bytes of a `uint32_t`, least significant first. -/
def u32le (v : Nat) : List Byte :=
  [byteOf v, byteOf (v / 256), byteOf (v / 65536), byteOf (v / 16777216)]

/-- The `uint32_t` stored at byte offset `off` of a buffer. -/
def getU32 (b : List Byte) (off : Nat) : Nat :=
  (b.getD off 0).val + 256 * (b.getD (off + 1) 0).val
    + 65536 * (b.getD (off + 2) 0).val + 16777216 * (b.getD (off + 3) 0).val

/-- Store a `uint32_t` at byte offset `off` of a buffer. -/
def putU32 (b : List Byte) (off v : Nat) : List Byte := writeBytes b off (u32le v)

/-! ## The views of `union Block` -/

/-- The record `struct Inode`. -/
structure Inode where
  /-- Whether the inode is in use. -/
  Valid : Nat
  /-- The size of the file in bytes. -/
  Size : Nat
  /-- The direct pointers, `Direct[POINTERS_PER_INODE]`. -/
  Direct : List Nat
  /-- The pointer to the indirect block. -/
  Indirect : Nat
deriving DecidableEq, Repr

/-- The 32 bytes of an inode record. -/
def Inode.encode (x : Inode) : List Byte :=
  u32le x.Valid ++ u32le x.Size
    ++ ((List.range POINTERS_PER_INODE).map fun k => u32le (x.Direct.getD k 0)).flatten
    ++ u32le x.Indirect

/-- The inode record held in 32 bytes. -/
def Inode.decode (b : List Byte) : Inode :=
  { Valid := getU32 b 0
    Size := getU32 b 4
    Direct := (List.range POINTERS_PER_INODE).map fun k => getU32 b (8 + 4 * k)
    Indirect := getU32 b 28 }

/-- The view `block.Inodes[j]`. -/
def getInode (blk : Block) (j : Nat) : Inode :=
  Inode.decode (readBytes blk (j * INODE_SIZE) INODE_SIZE)

/-- The assignment `block.Inodes[j] = x`. -/
def putInode (blk : Block) (j : Nat) (x : Inode) : Block :=
  writeBytes blk (j * INODE_SIZE) x.encode

/-- The view `block.Pointers[k]`. -/
def getPointer (blk : Block) (k : Nat) : Nat := getU32 blk (4 * k)

/-- The assignment `block.Pointers[k] = v`. -/
def putPointer (blk : Block) (k v : Nat) : Block := putU32 blk (4 * k) v

/-- The array `block.Pointers[0 .. POINTERS_PER_BLOCK - 1]`. -/
def pointersOf (g : Geometry) (blk : Block) : List Nat :=
  (List.range g.POINTERS_PER_BLOCK).map fun k => getPointer blk k

/-- The record `struct SuperBlock`. -/
structure SuperBlock where
  /-- The file system magic number. -/
  MagicNumber : Nat
  /-- The number of blocks of the file system. -/
  Blocks : Nat
  /-- The number of blocks reserved for inodes. -/
  InodeBlocks : Nat
  /-- The number of inodes. -/
  Inodes : Nat
deriving DecidableEq, Repr

/-- The view `block.Super`. -/
def getSuper (blk : Block) : SuperBlock :=
  { MagicNumber := getU32 blk 0, Blocks := getU32 blk 4,
    InodeBlocks := getU32 blk 8, Inodes := getU32 blk 12 }

/-! ## The block device -/

/-- Modelled from the spec: the block device `Disk` (`sfs/disk.h`, not in the
source tree) is a sequence of numbered fixed-size blocks with whole-block read
and write, a block count and a mount counter. -/
structure Disk where
  /-- The blocks of the device, block 0 first. -/
  blocks : List Block
  /-- The number of times the device has been mounted. -/
  Mounts : Nat
deriving DecidableEq, Repr

/-- Modelled from the spec: `Disk::size()`, the total block count. -/
def Disk.size (d : Disk) : Nat := d.blocks.length

/-- Modelled from the spec: `Disk::mounted()`, the device-level mount guard. -/
def Disk.mounted (d : Disk) : Bool := decide (0 < d.Mounts)

/-- Modelled from the spec: `Disk::mount()`. -/
def Disk.mount (d : Disk) : Disk := { d with Mounts := d.Mounts + 1 }

/-- Modelled from the spec: `Disk::read(blocknum, data)` copies the whole block;
a block number outside the device is a contract violation (`none`). -/
def Disk.read (d : Disk) (blocknum : Nat) : Option Block := d.blocks[blocknum]?

/-- Modelled from the spec: `Disk::write(blocknum, data)` replaces the whole
block; a block number outside the device is a contract violation (`none`). -/
def Disk.write (d : Disk) (blocknum : Nat) (data : Block) : Option Disk :=
  if blocknum < d.blocks.length then
    some { d with blocks := d.blocks.set blocknum data }
  else none

/-- Every block of the device has `BLOCK_SIZE` bytes. -/
def Disk.WF (g : Geometry) (d : Disk) : Prop :=
  ∀ blk ∈ d.blocks, blk.length = g.BLOCK_SIZE

/-! ## Format -/

/-- The value `(numOfBlocks - 1) / 10 + 1` in `size_t` arithmetic. -/
def inodeBlocksFor (numOfBlocks : Nat) : Nat :=
  (numOfBlocks + 18446744073709551616 - 1) % 18446744073709551616 / 10 + 1

/-- The superblock that `format` builds in `Block superBlock = {0}`. -/
def formatSuperBlock (g : Geometry) (numOfBlocks : Nat) : Block :=
  let numOfInodeBlocks := inodeBlocksFor numOfBlocks
  let b := zeroBlock g
  let b := putU32 b 0 g.MAGIC_NUMBER
  let b := putU32 b 4 numOfBlocks
  let b := putU32 b 8 numOfInodeBlocks
  putU32 b 12 (numOfInodeBlocks * g.INODES_PER_BLOCK)

/-- The loop `for (i = 1; i < numOfBlocks; i++) disk->write(i, block.Data)`,
started at `i` with `fuel` iterations left. -/
def formatClear (g : Geometry) : Nat → Nat → Disk → Option Disk
  | 0, _, d => some d
  | fuel + 1, i, d => do
    let d ← d.write i (zeroBlock g)
    formatClear g fuel (i + 1) d

/-- The function `FileSystem::format`: the result and the device afterwards. -/
def format (g : Geometry) (disk : Disk) : Option (Bool × Disk) :=
  if disk.mounted then some (false, disk)
  else do
    let numOfBlocks := disk.size
    let d ← disk.write 0 (formatSuperBlock g numOfBlocks)
    let d ← formatClear g (numOfBlocks - 1) 1 d
    some (true, d)

/-- The function `FileSystem::formatted`. -/
def formatted (g : Geometry) (disk : Disk) (superBlock : Block) : Bool :=
  let numOfBlocks := disk.size
  let numOfInodeBlocks := inodeBlocksFor numOfBlocks
  if (getSuper superBlock).MagicNumber ≠ g.MAGIC_NUMBER then false
  else if (getSuper superBlock).Blocks ≠ numOfBlocks then false
  else if (getSuper superBlock).InodeBlocks ≠ numOfInodeBlocks then false
  else if (getSuper superBlock).Inodes ≠ numOfInodeBlocks * g.INODES_PER_BLOCK then false
  else true

/-! ## The file system object -/

/-- The data members of a `FileSystem` object: the device it is mounted on (the
null pointer before `mount`), the copied superblock fields and the free map. -/
structure FileSystem where
  /-- The member `disk`: `none` is the null pointer. -/
  disk : Option Disk
  /-- The member `numOfBlocks`. -/
  numOfBlocks : Nat
  /-- The member `numOfInodeBlocks`. -/
  numOfInodeBlocks : Nat
  /-- The member `numOfInodes`. -/
  numOfInodes : Nat
  /-- The member `freemap`: `true` marks a free block. -/
  freemap : List Bool
deriving DecidableEq, Repr

/-- A file system object that has not been mounted. -/
def FileSystem.fresh : FileSystem :=
  { disk := none, numOfBlocks := 0, numOfInodeBlocks := 0, numOfInodes := 0, freemap := [] }

/-- The assignment `freemap[b] = v`; an index outside the array is undefined. -/
def setFree (freemap : List Bool) (b : Nat) (v : Bool) : Option (List Bool) :=
  if b < freemap.length then some (freemap.set b v) else none

/-- The loops `if (p[k]) freemap[p[k]] = v` over a pointer array. -/
def markPointers (v : Bool) : List Bool → List Nat → Option (List Bool)
  | freemap, [] => some freemap
  | freemap, p :: ps =>
    if p ≠ 0 then do
      let freemap ← setFree freemap p v
      markPointers v freemap ps
    else markPointers v freemap ps

/-! ## Mount -/

/-- The body of the loop of `mount` over the slots of an inode block, for one
inode. -/
def mountInode (g : Geometry) (disk : Disk) (freemap : List Bool) (inode : Inode) :
    Option (List Bool) :=
  if inode.Valid ≠ 0 then do
    let freemap ← markPointers false freemap inode.Direct
    if inode.Indirect = 0 then some freemap
    else do
      let freemap ← setFree freemap inode.Indirect false
      let indirectBlock ← disk.read inode.Indirect
      markPointers false freemap (pointersOf g indirectBlock)
  else some freemap

/-- The loop of `mount` over `j = 0 .. INODES_PER_BLOCK - 1`. -/
def mountSlots (g : Geometry) (disk : Disk) (inodeBlock : Block) (freemap : List Bool) :
    Option (List Bool) :=
  (List.range g.INODES_PER_BLOCK).foldlM
    (fun fm j => mountInode g disk fm (getInode inodeBlock j)) freemap

/-- The loop of `mount` over `i = 0 .. numOfInodeBlocks - 1`. -/
def mountBlocks (g : Geometry) (disk : Disk) (numOfInodeBlocks : Nat) (freemap : List Bool) :
    Option (List Bool) :=
  (List.range numOfInodeBlocks).foldlM
    (fun fm i => do
      let fm ← setFree fm (i + 1) false
      let inodeBlock ← disk.read (i + 1)
      mountSlots g disk inodeBlock fm) freemap

/-- The function `FileSystem::mount`: the result, the object and the device
afterwards. -/
def mount (g : Geometry) (fs : FileSystem) (disk : Disk) :
    Option (Bool × FileSystem × Disk) :=
  if fs.disk.isSome then some (false, fs, disk)
  else do
    let superBlock ← disk.read 0
    if ! formatted g disk superBlock then some (false, fs, disk)
    else do
      let disk := disk.mount
      let numOfBlocks := (getSuper superBlock).Blocks
      let numOfInodeBlocks := (getSuper superBlock).InodeBlocks
      let numOfInodes := (getSuper superBlock).Inodes
      let freemap := List.replicate numOfBlocks true
      let freemap ← setFree freemap 0 false
      let freemap ← mountBlocks g disk numOfInodeBlocks freemap
      some (true,
        { disk := some disk, numOfBlocks := numOfBlocks,
          numOfInodeBlocks := numOfInodeBlocks, numOfInodes := numOfInodes,
          freemap := freemap }, disk)

/-! ## Inodes -/

/-- The function `FileSystem::initialize_inode`. -/
def initialize_inode (inode : Inode) : Inode :=
  { inode with Size := 0, Direct := List.replicate POINTERS_PER_INODE 0, Indirect := 0 }

/-- The function `FileSystem::load_inode`: `some none` is the return value `-1`,
`some (some inode)` is the return value `inode.Size` with `*inode` loaded. -/
def load_inode (g : Geometry) (disk : Disk) (inumber : Nat) : Option (Option Inode) := do
  let inodeBlock ← disk.read (inumber / g.INODES_PER_BLOCK + 1)
  if (getInode inodeBlock (inumber % g.INODES_PER_BLOCK)).Valid = 0 then some none
  else some (some (getInode inodeBlock (inumber % g.INODES_PER_BLOCK)))

/-- The function `FileSystem::save_inode`: the result and the device afterwards. -/
def save_inode (g : Geometry) (disk : Disk) (inumber : Nat) (inode : Inode) :
    Option (Bool × Disk) := do
  let inodeBlock ← disk.read (inumber / g.INODES_PER_BLOCK + 1)
  if (getInode inodeBlock (inumber % g.INODES_PER_BLOCK)).Valid = 0 then some (false, disk)
  else do
    let inodeBlock := putInode inodeBlock (inumber % g.INODES_PER_BLOCK) inode
    let disk ← disk.write (inumber / g.INODES_PER_BLOCK + 1) inodeBlock
    some (true, disk)

/-- The inner loop of `create`: the first slot `j, j + 1, ..` of the block that
is not valid, with `fuel` slots left to look at. -/
def createSlot (inodeBlock : Block) : Nat → Nat → Option Nat
  | 0, _ => none
  | fuel + 1, j =>
    if (getInode inodeBlock j).Valid = 0 then some j
    else createSlot inodeBlock fuel (j + 1)

/-- The outer loop of `create`, at inode block `i` with `fuel` blocks left. -/
def createBlocks (g : Geometry) (disk : Disk) : Nat → Nat → Option (Int × Disk)
  | 0, _ => some (-1, disk)
  | fuel + 1, i => do
    let inodeBlock ← disk.read (i + 1)
    match createSlot inodeBlock g.INODES_PER_BLOCK 0 with
    | some j =>
      let inode := getInode inodeBlock j
      let inode := initialize_inode { inode with Valid := 1 }
      let disk ← disk.write (i + 1) (putInode inodeBlock j inode)
      some (((i * g.INODES_PER_BLOCK + j : Nat) : Int), disk)
    | none => createBlocks g disk fuel (i + 1)

/-- The function `FileSystem::create`. -/
def create (g : Geometry) (fs : FileSystem) : Option (Int × FileSystem) := do
  let disk ← fs.disk
  let (r, disk) ← createBlocks g disk fs.numOfInodeBlocks 0
  some (r, { fs with disk := some disk })

/-- The statement `if (inode.Indirect) { .. }` of `remove`: the free map and the
inode after it. -/
def removeIndirect (g : Geometry) (disk : Disk) (freemap : List Bool) (inode : Inode) :
    Option (List Bool × Inode) :=
  if inode.Indirect ≠ 0 then do
    let indirectBlock ← disk.read inode.Indirect
    let freemap ← markPointers true freemap (pointersOf g indirectBlock)
    let inode := { inode with Indirect := 0 }
    let freemap ← setFree freemap inode.Indirect true
    some (freemap, inode)
  else some (freemap, inode)

/-- The function `FileSystem::remove`.  The loop over `Direct` frees every block
a non-zero entry points to and leaves every entry zero. -/
def remove (g : Geometry) (fs : FileSystem) (inumber : Nat) : Option (Bool × FileSystem) :=
  if inumber ≥ fs.numOfInodes then some (false, fs)
  else do
    let disk ← fs.disk
    match ← load_inode g disk inumber with
    | none => some (false, fs)
    | some inode =>
      -- Free direct blocks
      let freemap ← markPointers true fs.freemap inode.Direct
      let inode := { inode with Direct := List.replicate POINTERS_PER_INODE 0 }
      -- Free indirect blocks
      let (freemap, inode) ← removeIndirect g disk freemap inode
      -- Clear inode in inode table
      let inode := { inode with Valid := 0, Size := 0 }
      let (r, disk) ← save_inode g disk inumber inode
      some (r, { fs with disk := some disk, freemap := freemap })

/-- The function `FileSystem::stat`. -/
def stat (g : Geometry) (fs : FileSystem) (inumber : Nat) : Option Int :=
  if inumber ≥ fs.numOfInodes then some (-1)
  else do
    let disk ← fs.disk
    match ← load_inode g disk inumber with
    | none => some (-1)
    | some inode => some (inode.Size : Int)

/-! ## Read -/

/-- The local variables of the copying loops of `read`: the bytes copied so far
to `data[0 .. hasRead - 1]`, their number, and the offset in the next block. -/
structure ReadState where
  /-- The bytes copied to `data` so far. -/
  out : List Byte
  /-- The variable `hasRead`. -/
  hasRead : Nat
  /-- The variable `startByte`. -/
  startByte : Nat
deriving DecidableEq, Repr

/-- The body shared by the two loops of `read` once the block number `ptr` of
block `blockIndex` of the file is known to be non-zero: read the block and copy
`size` bytes of it. -/
def readBlock (g : Geometry) (disk : Disk) (inode : Inode) (rlength ptr blockIndex : Nat)
    (st : ReadState) : Option ReadState := do
  let dataBlock ← disk.read ptr
  let size := min (inode.Size - g.BLOCK_SIZE * blockIndex) g.BLOCK_SIZE - st.startByte
  let size := min size (rlength - st.hasRead)
  some { out := st.out ++ readBytes dataBlock st.startByte size,
         hasRead := st.hasRead + size, startByte := 0 }

/-- The loop of `read` over the direct pointers, at index `i` with `fuel`
pointers left.  The flag of the result tells that the loop executed
`return hasRead`. -/
def readDirect (g : Geometry) (disk : Disk) (inode : Inode) (rlength : Nat) :
    Nat → Nat → ReadState → Option (Bool × Nat × ReadState)
  | 0, i, st => some (false, i, st)
  | fuel + 1, i, st =>
    if st.hasRead < rlength then
      if inode.Direct.getD i 0 = 0 then some (true, i, st)
      else do
        let st ← readBlock g disk inode rlength (inode.Direct.getD i 0) i st
        readDirect g disk inode rlength fuel (i + 1) st
    else some (false, i, st)

/-- The loop of `read` over the pointers of the indirect block, at index `j`
with `fuel` pointers left. -/
def readIndirect (g : Geometry) (disk : Disk) (inode : Inode) (indirectBlock : Block)
    (rlength : Nat) : Nat → Nat → ReadState → Option ReadState
  | 0, _, st => some st
  | fuel + 1, j, st =>
    if st.hasRead < rlength then
      if getPointer indirectBlock j = 0 then some st
      else do
        let st ← readBlock g disk inode rlength (getPointer indirectBlock j)
          (POINTERS_PER_INODE + j) st
        readIndirect g disk inode indirectBlock rlength fuel (j + 1) st
    else some st

/-- The function `FileSystem::read`: the return value and the bytes it copied
to `data[0 ..]`.  The subtractions of the source are taken in `Nat`: up to the
last executed copy `offset + hasRead < inode.Size`, so none of them wraps,
except `i - 5`, which is taken in `size_t`. -/
def read (g : Geometry) (fs : FileSystem) (inumber length offset : Nat) :
    Option (Int × List Byte) :=
  if inumber ≥ fs.numOfInodes then some (-1, [])
  else do
    let disk ← fs.disk
    match ← load_inode g disk inumber with
    | none => some (-1, [])
    | some inode =>
      if offset ≥ inode.Size then some (-1, [])
      else do
        let rlength := min length (inode.Size - offset)
        let startBlock := offset / g.BLOCK_SIZE
        let startByte := offset % g.BLOCK_SIZE
        let (returned, i, st) ← readDirect g disk inode rlength
          (POINTERS_PER_INODE - startBlock) startBlock
          { out := [], hasRead := 0, startByte := startByte }
        if returned then some ((st.hasRead : Int), st.out)
        else if st.hasRead = rlength ∨ inode.Indirect = 0 then
          some ((st.hasRead : Int), st.out)
        else do
          let indirectBlock ← disk.read inode.Indirect
          let j := (i + 18446744073709551616 - 5) % 18446744073709551616
          let st ← readIndirect g disk inode indirectBlock rlength
            (g.POINTERS_PER_BLOCK - j) j st
          some ((st.hasRead : Int), st.out)

/-! ## Write -/

/-- The function `FileSystem::write_data`, with `data` the bytes at the pointer
passed: the return value and the device afterwards. -/
def write_data (g : Geometry) (disk : Disk) (blockNumber : Nat) (data : List Byte)
    (length offset : Nat) : Option (Int × Disk) :=
  if blockNumber ≥ disk.size then some (-1, disk)
  else do
    let dataBlock ← disk.read blockNumber
    let wlength := min length (g.BLOCK_SIZE - offset)
    let dataBlock := writeBytes dataBlock offset (data.take wlength)
    let disk ← disk.write blockNumber dataBlock
    some ((wlength : Int), disk)

/-- The function `FileSystem::init_data_block`. -/
def init_data_block (g : Geometry) (disk : Disk) (blockNumber : Nat) : Option Disk :=
  if blockNumber > disk.size then some disk
  else disk.write blockNumber (zeroBlock g)

/-- The loop of `find_free_block`, at index `i` with `fuel` indices left. -/
def findFree (freemap : List Bool) : Nat → Nat → Option Nat
  | 0, _ => some 0
  | fuel + 1, i => do
    let free ← freemap[i]?
    if free then some i else findFree freemap fuel (i + 1)

/-- The function `FileSystem::find_free_block`; reading the free map outside
its bounds is undefined. -/
def find_free_block (numOfBlocks : Nat) (freemap : List Bool) : Option Nat :=
  findFree freemap numOfBlocks 0

/-- The local variables of `write` that its loops change, with the device and
the free map. -/
structure WriteState where
  /-- The device. -/
  disk : Disk
  /-- The member `freemap`. -/
  freemap : List Bool
  /-- The variable `inode`. -/
  inode : Inode
  /-- The variable `indirectBlock`. -/
  indirectBlock : Block
  /-- The variable `hasWrite`. -/
  hasWrite : Nat
  /-- The variable `startByte`. -/
  startByte : Nat
deriving DecidableEq, Repr

/-- The choice of the block for a pointer slot holding `cur`: the slot itself
when it is set, else `find_free_block()` assigned to the `uint32_t freeBlock`.
The result `none` inside is `goto ret`. -/
def chooseBlock (numOfBlocks : Nat) (freemap : List Bool) (cur : Nat) : Option (Option Nat) :=
  if cur = 0 then do
    let freeBlock ← find_free_block numOfBlocks freemap
    if freeBlock % 4294967296 = 0 then some none else some (some (freeBlock % 4294967296))
  else some (some cur)

/-- The loop of `write` over the direct pointers, at index `i` with `fuel`
pointers left.  The flag of the result tells that the loop executed
`goto ret`. -/
def writeDirect (g : Geometry) (numOfBlocks : Nat) (data : List Byte) (length : Nat) :
    Nat → Nat → WriteState → Option (Bool × Nat × WriteState)
  | 0, i, st => some (false, i, st)
  | fuel + 1, i, st =>
    if st.hasWrite < length then do
      match ← chooseBlock numOfBlocks st.freemap (st.inode.Direct.getD i 0) with
      | none => some (true, i, st)
      | some freeBlock =>
        let (wlength, disk) ← write_data g st.disk freeBlock (data.drop st.hasWrite)
          (length - st.hasWrite) st.startByte
        if wlength = -1 then some (true, i, st)
        else do
          let inode := { st.inode with Direct := st.inode.Direct.set i freeBlock }
          let freemap ← setFree st.freemap freeBlock false
          writeDirect g numOfBlocks data length fuel (i + 1)
            { st with disk := disk, freemap := freemap, inode := inode,
                      hasWrite := st.hasWrite + wlength.toNat, startByte := 0 }
    else some (false, i, st)

/-- The allocation of the indirect block in `write`, taken when data is left
and the inode has no indirect block.  The flag of the result tells that it
executed `goto ret`. -/
def writeAllocIndirect (g : Geometry) (numOfBlocks : Nat) (st : WriteState) :
    Option (Bool × WriteState) := do
  let freeIndirect ← find_free_block numOfBlocks st.freemap
  let freeIndirect := freeIndirect % 4294967296
  if freeIndirect = 0 then some (true, st)
  else do
    let freemap ← setFree st.freemap freeIndirect false
    let freeBlock ← find_free_block numOfBlocks freemap
    if freeBlock % 4294967296 = 0 then do
      let freemap ← setFree freemap freeIndirect true
      some (true, { st with freemap := freemap })
    else do
      let inode := { st.inode with Indirect := freeIndirect }
      let disk ← init_data_block g st.disk freeIndirect
      let freemap ← setFree freemap freeIndirect false
      some (false, { st with disk := disk, freemap := freemap, inode := inode })

/-- The loop of `write` over the pointers of the indirect block, at index `j`
with `fuel` pointers left; it ends at `ret` in every case. -/
def writeIndirect (g : Geometry) (numOfBlocks : Nat) (data : List Byte) (length : Nat) :
    Nat → Nat → WriteState → Option WriteState
  | 0, _, st => some st
  | fuel + 1, j, st =>
    if st.hasWrite < length then do
      match ← chooseBlock numOfBlocks st.freemap (getPointer st.indirectBlock j) with
      | none => some st
      | some freeBlock =>
        let (wlength, disk) ← write_data g st.disk freeBlock (data.drop st.hasWrite)
          (length - st.hasWrite) st.startByte
        if wlength = -1 then some st
        else do
          let indirectBlock := putPointer st.indirectBlock j freeBlock
          let freemap ← setFree st.freemap freeBlock false
          writeIndirect g numOfBlocks data length fuel (j + 1)
            { st with disk := disk, freemap := freemap, indirectBlock := indirectBlock,
                      hasWrite := st.hasWrite + wlength.toNat, startByte := 0 }
    else some st

/-- The part of `write` from `disk->read(inode.Indirect, ..)` to the label
`ret`. -/
def writeIndirectPart (g : Geometry) (numOfBlocks : Nat) (data : List Byte) (length i : Nat)
    (st : WriteState) : Option WriteState := do
  let indirectBlock ← st.disk.read st.inode.Indirect
  let j := (i + 18446744073709551616 - POINTERS_PER_INODE) % 18446744073709551616
  writeIndirect g numOfBlocks data length (g.POINTERS_PER_BLOCK - j) j
    { st with indirectBlock := indirectBlock }

/-- The part of `write` between the loop over the direct pointers and the label
`ret`. -/
def writeTail (g : Geometry) (numOfBlocks : Nat) (data : List Byte) (length i : Nat)
    (st : WriteState) : Option WriteState :=
  if st.hasWrite < length ∧ st.inode.Indirect = 0 then do
    match ← writeAllocIndirect g numOfBlocks st with
    | (true, st) => some st
    | (false, st) => writeIndirectPart g numOfBlocks data length i st
  else writeIndirectPart g numOfBlocks data length i st

/-- The statement `if (indirectBlock.Pointers[0]) disk->write(inode.Indirect, ..)`
at the label `ret`. -/
def writeBackIndirect (st : WriteState) : Option Disk :=
  if getPointer st.indirectBlock 0 ≠ 0 then st.disk.write st.inode.Indirect st.indirectBlock
  else some st.disk

/-- The statements of `write` at the label `ret`. -/
def writeRet (g : Geometry) (fs : FileSystem) (inumber offset : Nat) (st : WriteState) :
    Option (Int × FileSystem) := do
  let disk ← writeBackIndirect st
  let inode := { st.inode with
    Size := max st.inode.Size ((offset + st.hasWrite) % 4294967296) }
  let (_, disk) ← save_inode g disk inumber inode
  some ((st.hasWrite : Int), { fs with disk := some disk, freemap := st.freemap })

/-- The function `FileSystem::write`, with `data` the bytes at the pointer
passed; reading more than the caller supplied is undefined.  The local
`indirectBlock` starts with `Pointers[0] = 0`; its other bytes are not looked at
before the block is read from the device. -/
def write (g : Geometry) (fs : FileSystem) (inumber : Nat) (data : List Byte)
    (length offset : Nat) : Option (Int × FileSystem) :=
  if data.length < length then none
  else if inumber ≥ fs.numOfInodes then some (-1, fs)
  else do
    let disk ← fs.disk
    match ← load_inode g disk inumber with
    | none => some (-1, fs)
    | some inode =>
      let startBlock := offset / g.BLOCK_SIZE
      let startByte := offset % g.BLOCK_SIZE
      let st : WriteState :=
        { disk := disk, freemap := fs.freemap, inode := inode,
          indirectBlock := zeroBlock g, hasWrite := 0, startByte := startByte }
      match ← writeDirect g fs.numOfBlocks data length
          (POINTERS_PER_INODE - startBlock) startBlock st with
      | (true, _, st) => writeRet g fs inumber offset st
      | (false, i, st) => do
        let st ← writeTail g fs.numOfBlocks data length i st
        writeRet g fs inumber offset st

/-! ## Predicates used in the statements -/

/-- The fields of an inode record are `uint32_t` values and `Direct` has
`POINTERS_PER_INODE` entries. -/
def Inode.WF (x : Inode) : Prop :=
  x.Valid < 4294967296 ∧ x.Size < 4294967296 ∧ x.Direct.length = POINTERS_PER_INODE ∧
  (∀ p ∈ x.Direct, p < 4294967296) ∧ x.Indirect < 4294967296

/-- The inode record that `initialize_inode` leaves in a claimed slot. -/
def Inode.created : Inode := { Valid := 1, Size := 0, Direct := [0, 0, 0, 0, 0], Indirect := 0 }

/-- The inode record number `inumber` of the inode table on the device. -/
def inodeAt (g : Geometry) (disk : Disk) (inumber : Nat) : Option Inode :=
  (disk.read (inumber / g.INODES_PER_BLOCK + 1)).map
    fun blk => getInode blk (inumber % g.INODES_PER_BLOCK)

/-- The smallest number of blocks that is at least a tenth of `n`. -/
def ceilTenth (n : Nat) : Nat := (n + 9) / 10

/-- `b` is a pointer held by the inode record `x`: an entry of `Direct`, the
field `Indirect`, or an entry of the indirect block when `Indirect` is set. -/
def HeldBy (g : Geometry) (disk : Disk) (x : Inode) (b : Nat) : Prop :=
  b ∈ x.Direct ∨ b = x.Indirect ∨
    (x.Indirect ≠ 0 ∧ ∃ blk, disk.read x.Indirect = some blk ∧ b ∈ pointersOf g blk)

/-- `b` is a non-zero pointer held by a valid inode among the first `numOfInodes`
records of the inode table. -/
def Referenced (g : Geometry) (disk : Disk) (numOfInodes b : Nat) : Prop :=
  b ≠ 0 ∧ ∃ inumber x, inumber < numOfInodes ∧ inodeAt g disk inumber = some x ∧
    x.Valid ≠ 0 ∧ HeldBy g disk x b

/-- A device of `n` blocks, each filled with the byte `b`, not mounted. -/
def filledDisk (g : Geometry) (n : Nat) (b : Byte) : Disk :=
  { blocks := List.replicate n (List.replicate g.BLOCK_SIZE b), Mounts := 0 }

/-- A call that changes the state of a mounted file system. -/
inductive Op where
  /-- The call `create()`. -/
  | create : Op
  /-- The call `write(inumber, data, length, offset)`. -/
  | write (inumber : Nat) (data : List Byte) (length offset : Nat) : Op
  /-- The call `remove(inumber)`. -/
  | remove (inumber : Nat) : Op
deriving DecidableEq, Repr

/-- The state after one call, whatever it returns. -/
def step (g : Geometry) (fs : FileSystem) : Op → Option FileSystem
  | .create => (create g fs).map Prod.snd
  | .write inumber data length offset => (write g fs inumber data length offset).map Prod.snd
  | .remove inumber => (remove g fs inumber).map Prod.snd

/-- The state after a sequence of calls. -/
def run (g : Geometry) (fs : FileSystem) : List Op → Option FileSystem
  | [] => some fs
  | op :: ops => (step g fs op).bind fun fs => run g fs ops

/-- The device image left by formatting a device of twelve blocks, creating a
file and writing 400 bytes to it, in the small geometry; it holds one valid
inode with five direct blocks, an indirect block and two more data blocks. -/
def exampleImage : Disk :=
  match (do
    let (_, d) ← format tinyGeometry (filledDisk tinyGeometry 12 7)
    let (_, fs, _) ← mount tinyGeometry FileSystem.fresh d
    let (_, fs) ← create tinyGeometry fs
    let (_, fs) ← write tinyGeometry fs 0 (List.replicate 400 65) 400 0
    fs.disk) with
  | some d => { d with Mounts := 0 }
  | none => filledDisk tinyGeometry 12 7

/-- A mounted file system object `fs` on the device `d`. -/
structure Mounted (g : Geometry) (fs : FileSystem) (d : Disk) : Prop where
  /-- The object refers to the device. -/
  disk : fs.disk = some d
  /-- The blocks of the device have `BLOCK_SIZE` bytes. -/
  wf : d.WF g
  /-- The recorded block count is the size of the device. -/
  blocks : fs.numOfBlocks = d.size
  /-- The inode table lies inside the device. -/
  inodeBlocks : fs.numOfInodeBlocks < fs.numOfBlocks
  /-- The recorded inode count is the capacity of the inode table. -/
  inodes : fs.numOfInodes = fs.numOfInodeBlocks * g.INODES_PER_BLOCK
  /-- The free map has one entry per block. -/
  freemap : fs.freemap.length = fs.numOfBlocks
  /-- The block count is a `uint32_t` value. -/
  small : fs.numOfBlocks < 4294967296

/-- The inode record number `inumber` of the device is valid. -/
def IsValid (g : Geometry) (d : Disk) (inumber : Nat) : Prop :=
  match inodeAt g d inumber with
  | some x => x.Valid ≠ 0
  | none => False

instance (g : Geometry) (d : Disk) (inumber : Nat) : Decidable (IsValid g d inumber) := by
  unfold IsValid
  split <;> exact inferInstance

/-- The file system object after mounting `exampleImage`. -/
def exampleFS : FileSystem :=
  match mount tinyGeometry FileSystem.fresh exampleImage with
  | some (_, fs, _) => fs
  | none => FileSystem.fresh

instance (g : Geometry) (d : Disk) : Decidable (d.WF g) := by
  unfold Disk.WF
  exact inferInstance

/-- The device a file system object refers to (an empty device for the null
pointer). -/
def diskOf (fs : FileSystem) : Disk := fs.disk.getD { blocks := [], Mounts := 0 }

/-- The object after formatting and mounting a device of `n` blocks. -/
def freshFS (g : Geometry) (n : Nat) : FileSystem :=
  match format g (filledDisk g n 7) with
  | some (_, d) =>
    match mount g FileSystem.fresh d with
    | some (_, fs, _) => fs
    | none => FileSystem.fresh
  | none => FileSystem.fresh

/-- A mounted object all of whose four inodes are in use, in the small
geometry. -/
def fullTableFS : FileSystem :=
  (run tinyGeometry (freshFS tinyGeometry 12) [.create, .create, .create, .create]).getD
    FileSystem.fresh

/-- The inode record `remove` leaves in the slot of a removed inode. -/
def Inode.cleared : Inode := { Valid := 0, Size := 0, Direct := [0, 0, 0, 0, 0], Indirect := 0 }

/-- The entries of the indirect block of an inode record (none when `Indirect`
is not set). -/
def indirectPointers (g : Geometry) (disk : Disk) (x : Inode) : List Nat :=
  if x.Indirect = 0 then []
  else
    match disk.read x.Indirect with
    | some blk => pointersOf g blk
    | none => []

/-- The pointers of inode `inumber` are block numbers below `n`: the entries of
`Direct`, the field `Indirect`, and the entries of the indirect block. -/
def PointersBelow (g : Geometry) (disk : Disk) (n inumber : Nat) : Prop :=
  match inodeAt g disk inumber with
  | some x => (∀ b ∈ x.Direct, b < n) ∧ x.Indirect < n ∧ ∀ b ∈ indirectPointers g disk x, b < n
  | none => True

instance (g : Geometry) (disk : Disk) (n inumber : Nat) :
    Decidable (PointersBelow g disk n inumber) := by
  unfold PointersBelow
  split <;> exact inferInstance

/-- The block number in pointer slot `b` of a file: `Direct[b]` for the first
`POINTERS_PER_INODE` slots, then entry `b - POINTERS_PER_INODE` of the indirect
block (0 when there is none). -/
def blockPointer (g : Geometry) (disk : Disk) (x : Inode) (b : Nat) : Nat :=
  if b < POINTERS_PER_INODE then x.Direct.getD b 0
  else if x.Indirect = 0 then 0
  else if g.POINTERS_PER_BLOCK ≤ b - POINTERS_PER_INODE then 0
  else
    match disk.read x.Indirect with
    | some indirectBlock => getPointer indirectBlock (b - POINTERS_PER_INODE)
    | none => 0

/-- The byte at position `p` of a file, taken from the block its pointer slot
maps. -/
def fileByte (g : Geometry) (disk : Disk) (x : Inode) (p : Nat) : Option Byte :=
  match disk.read (blockPointer g disk x (p / g.BLOCK_SIZE)) with
  | some blk => blk[p % g.BLOCK_SIZE]?
  | none => none

/-- Every pointer slot of the file that covers a byte of the range `lo .. hi - 1`
is set, to a block of the device. -/
def Covered (g : Geometry) (disk : Disk) (x : Inode) (lo hi : Nat) : Prop :=
  ∀ b, lo / g.BLOCK_SIZE ≤ b → b * g.BLOCK_SIZE < hi →
    blockPointer g disk x b ≠ 0 ∧ blockPointer g disk x b < disk.size

/-- The invariant of the copying loops of `read` at block `b` of the file: the
bytes copied so far are the bytes of the file from `offset`, and the next byte to
copy is byte `startByte` of block `b`. -/
structure ReadInv (g : Geometry) (d : Disk) (x : Inode) (offset rl b : Nat) (rs : ReadState) :
    Prop where
  len : rs.out.length = rs.hasRead
  le : rs.hasRead ≤ rl
  pos : rs.hasRead < rl → offset + rs.hasRead = b * g.BLOCK_SIZE + rs.startByte ∧
    rs.startByte < g.BLOCK_SIZE
  bytes : ∀ k, k < rs.hasRead → rs.out[k]? = fileByte g d x (offset + k)

/-- The block number that the local variables of `write` hold for pointer slot
`k` of the file: `inode.Direct[k]`, then `indirectBlock.Pointers[k - 5]`. -/
def WriteState.ptrOf (st : WriteState) (k : Nat) : Nat :=
  if k < POINTERS_PER_INODE then st.inode.Direct.getD k 0
  else getPointer st.indirectBlock (k - POINTERS_PER_INODE)

/-- The invariant of the loops of `write` on a file that had no blocks, at
pointer slot `b`, for the call `write(inumber, data, length, offset)` started with
free map `fm0` on device `d0`: the bytes written so far are in blocks that were
free at the start, every block used at the start is untouched, and the slots
from `b` on are empty. -/
structure WriteInv (g : Geometry) (nb : Nat) (data : List Byte) (length offset : Nat)
    (fm0 : List Bool) (d0 : Disk) (b : Nat) (st : WriteState) : Prop where
  wf : st.disk.WF g
  size : st.disk.size = nb
  fmlen : st.freemap.length = nb
  inodeWF : st.inode.WF
  le : st.hasWrite ≤ length
  pos : st.hasWrite < length →
    offset + st.hasWrite = b * g.BLOCK_SIZE + st.startByte ∧ st.startByte < g.BLOCK_SIZE
  done : st.hasWrite ≠ 0 → offset + st.hasWrite ≤ b * g.BLOCK_SIZE
  mono : ∀ k, fm0[k]? = some false →
    st.freemap[k]? = some false ∧ st.disk.read k = d0.read k
  content : ∀ p, offset ≤ p → p < offset + st.hasWrite →
    ∃ blk, st.disk.read (st.ptrOf (p / g.BLOCK_SIZE)) = some blk ∧
      blk[p % g.BLOCK_SIZE]? = data[p - offset]? ∧ st.ptrOf (p / g.BLOCK_SIZE) ≠ 0 ∧
      st.freemap[st.ptrOf (p / g.BLOCK_SIZE)]? = some false ∧
      fm0[st.ptrOf (p / g.BLOCK_SIZE)]? = some true ∧
      st.ptrOf (p / g.BLOCK_SIZE) ≠ st.inode.Indirect
  ahead : ∀ k, b ≤ k → st.ptrOf k = 0
  bound : ∀ k, st.ptrOf k < nb

/-- The state of a file after `write(inumber, data, length, offset)` has placed
all `length` bytes: the inode is valid with `Size = offset + length`, every
pointer slot covering the range is set, and the bytes of the range are the
bytes written. -/
structure Written (g : Geometry) (fs : FileSystem) (d : Disk) (inumber : Nat) (x : Inode)
    (data : List Byte) (length offset : Nat) : Prop where
  mounted : Mounted g fs d
  inode : inodeAt g d inumber = some x
  valid : x.Valid = 1
  size : x.Size = offset + length
  covered : Covered g d x offset (offset + length)
  bytes : ∀ p, offset ≤ p → p < offset + length → fileByte g d x p = data[p - offset]?
  below : PointersBelow g d fs.numOfBlocks inumber

/-- The state after a sequence of calls (the state before it when a call is
undefined). -/
def stateAfter (g : Geometry) (fs : FileSystem) (ops : List Op) : FileSystem :=
  (run g fs ops).getD fs

/-- The bytes of the string `hello`. -/
def hello : List Byte := [104, 101, 108, 108, 111]

/-- The return values of `create()`, then of `write(i, data, len(data), offset)`
and `read(i, buf, len(data), offset)` on the inode `i` that `create` returned
(passed on as a `size_t`), with the bytes that `read` copied. -/
def createWriteRead (g : Geometry) (fs : FileSystem) (data : List Byte) (offset : Nat) :
    Option (Int × Int × Int × List Byte) := do
  let (i, fs) ← create g fs
  let inumber := (i % 18446744073709551616).toNat
  let (w, fs) ← write g fs inumber data data.length offset
  let (r, out) ← read g fs inumber data.length offset
  some (i, w, r, out)

/-- The free map marks a block used exactly when it is block 0, an inode block,
or a non-zero pointer held by a valid inode. -/
def Conserved (g : Geometry) (fs : FileSystem) : Prop :=
  ∀ b, b < fs.numOfBlocks →
    (fs.freemap[b]? = some false ↔
      b = 0 ∨ (1 ≤ b ∧ b ≤ fs.numOfInodeBlocks) ∨ Referenced g (diskOf fs) fs.numOfInodes b)

/-- No block can be handed out by `find_free_block`: every block is marked used,
or block 0 is marked free, which `find_free_block` returns as its failure value. -/
def NoFree (nb : Nat) (fm : List Bool) : Prop :=
  (∀ k, k < nb → fm[k]? = some false) ∨ fm[0]? = some true

/-- The invariant of the loops of `write` on any file, at pointer slot `cur`, for
the call `write(inumber, data, length, offset)` started at slot `b0` with free map
`fm0` on device `d0`, where `old k` is the block number slot `k` held at the
start and `oldInd` the field `Indirect` at the start; `lim` is the number of
pointer slots the local variables hold (the direct ones before the indirect block
is loaded).  The free map marks used what it marked used at the start and the
blocks put into empty slots; block 0 and the blocks that were in use by others
are untouched; the blocks put into empty slots were free and are distinct; the
slots from `b0` up to `cur` are set, and the bytes of `data` written so far are
at their positions in the blocks of these slots. -/
structure GInv (g : Geometry) (nb : Nat) (data : List Byte) (length offset : Nat)
    (fm0 : List Bool) (d0 : Disk) (old : Nat → Nat) (oldInd lim b0 cur : Nat)
    (st : WriteState) : Prop where
  wf : st.disk.WF g
  size : st.disk.size = nb
  fmlen : st.freemap.length = nb
  inodeWF : st.inode.WF
  le : st.hasWrite ≤ length
  sb : st.startByte < g.BLOCK_SIZE
  range : b0 ≤ cur
  pos : st.hasWrite < length → offset + st.hasWrite = cur * g.BLOCK_SIZE + st.startByte
  used : ∀ b, st.freemap[b]? = some false ↔ (fm0[b]? = some false ∨
    (b ≠ 0 ∧ ((∃ k, k < lim ∧ old k = 0 ∧ st.ptrOf k = b) ∨
      (oldInd = 0 ∧ st.inode.Indirect = b))))
  frame : ∀ b, (b = 0 ∨ (fm0[b]? = some false ∧ ∀ k, k < lim → old k ≠ b)) →
    st.disk.read b = d0.read b
  slots : ∀ k, k < lim → st.ptrOf k = old k ∨
    (old k = 0 ∧ st.ptrOf k ≠ 0 ∧ st.ptrOf k < nb ∧ fm0[st.ptrOf k]? = some true ∧
      b0 ≤ k ∧ k < cur)
  ind : st.inode.Indirect = oldInd ∨
    (oldInd = 0 ∧ st.inode.Indirect ≠ 0 ∧ st.inode.Indirect < nb ∧
      fm0[st.inode.Indirect]? = some true)
  distinct : ∀ k k', k < lim → k' < lim → k ≠ k' → old k = 0 → old k' = 0 →
    st.ptrOf k ≠ 0 → st.ptrOf k ≠ st.ptrOf k'
  distinctInd : oldInd = 0 → st.inode.Indirect ≠ 0 → ∀ k, k < lim → old k = 0 →
    st.ptrOf k ≠ st.inode.Indirect
  stall : fm0[0]? = some true → st.freemap = fm0
  filled : ∀ k, b0 ≤ k → k < cur → k < lim ∧ st.ptrOf k ≠ 0
  tight : st.hasWrite ≠ 0 → b0 < cur ∧ (cur - 1) * g.BLOCK_SIZE < offset + st.hasWrite ∧
    offset + st.hasWrite ≤ cur * g.BLOCK_SIZE
  indNew : oldInd = 0 → st.inode.Indirect ≠ 0 →
    POINTERS_PER_INODE * g.BLOCK_SIZE < offset + length
  content : ∀ p, offset ≤ p → p < offset + st.hasWrite →
    p / g.BLOCK_SIZE < lim ∧ p / g.BLOCK_SIZE < cur ∧ st.ptrOf (p / g.BLOCK_SIZE) ≠ 0 ∧
    st.freemap[st.ptrOf (p / g.BLOCK_SIZE)]? = some false ∧
    ∃ blk, st.disk.read (st.ptrOf (p / g.BLOCK_SIZE)) = some blk ∧
      blk[p % g.BLOCK_SIZE]? = data[p - offset]?

/-- The block number in pointer slot `s` of an inode record, where slot 0 is the
field `Indirect` and slot `b + 1` is pointer slot `b` of the file. -/
def pointerAt (g : Geometry) (disk : Disk) (x : Inode) (s : Nat) : Nat :=
  if s = 0 then x.Indirect else blockPointer g disk x (s - 1)

/-- The state of a mounted file system on the device `d` that the calls keep:
the blocks of the inode table are marked used, every non-zero pointer of a valid
inode is a block behind the inode table that the free map marks used, and no
block number is in two pointer slots. -/
structure Sound (g : Geometry) (fs : FileSystem) (d : Disk) : Prop where
  mounted : Mounted g fs d
  table : ∀ b, 1 ≤ b → b ≤ fs.numOfInodeBlocks → fs.freemap[b]? = some false
  range : ∀ i x s, i < fs.numOfInodes → inodeAt g d i = some x → x.Valid ≠ 0 →
    pointerAt g d x s ≠ 0 →
    fs.numOfInodeBlocks < pointerAt g d x s ∧ pointerAt g d x s < fs.numOfBlocks ∧
      fs.freemap[pointerAt g d x s]? = some false
  distinct : ∀ i x s i' x' s', i < fs.numOfInodes → inodeAt g d i = some x → x.Valid ≠ 0 →
    i' < fs.numOfInodes → inodeAt g d i' = some x' → x'.Valid ≠ 0 →
    pointerAt g d x s ≠ 0 → (i ≠ i' ∨ s ≠ s') → pointerAt g d x s ≠ pointerAt g d x' s'

/-- The arguments of a call are what a caller can pass: `write` gets a buffer of
at least `length` bytes and a `size_t` offset. -/
def Op.WF : Op → Prop
  | .create => True
  | .write _ data length offset => length ≤ data.length ∧ offset < 18446744073709551616
  | .remove _ => True

/-- The largest number of bytes the pointer slots of one inode can map. -/
def maxFileSize (g : Geometry) : Nat :=
  (POINTERS_PER_INODE + g.POINTERS_PER_BLOCK) * g.BLOCK_SIZE

/-- The offset of a `write` call is at most the largest file size. -/
def Op.Within (g : Geometry) : Op → Prop
  | .create => True
  | .write _ _ _ offset => offset ≤ maxFileSize g
  | .remove _ => True

/-- Every valid inode of the inode table has `Size` at most `M`. -/
def SizesLe (g : Geometry) (fs : FileSystem) (d : Disk) (M : Nat) : Prop :=
  ∀ k y, k < fs.numOfInodes → inodeAt g d k = some y → y.Valid ≠ 0 → y.Size ≤ M

/-- The block numbers that the free map marks free. -/
def freeBlocks (fm : List Bool) : List Nat :=
  (List.range fm.length).filter fun b => fm.getD b false

/-- The state after `create()` on a freshly formatted and mounted device of eight
blocks in the small geometry: six blocks are free. -/
def smallFS : FileSystem :=
  stateAfter tinyGeometry (freshFS tinyGeometry 8) [.create]

/-- The local state of `write(0, data, 321, 0)` on `smallFS` after its loop over
the direct pointers: 320 bytes are in five direct blocks, one block is free. -/
def rollbackState : WriteState :=
  match writeDirect tinyGeometry 8 (List.replicate 321 65) 321 5 0
      { disk := diskOf smallFS, freemap := smallFS.freemap, inode := Inode.created,
        indirectBlock := zeroBlock tinyGeometry, hasWrite := 0, startByte := 0 } with
  | some (_, _, st) => st
  | none =>
    { disk := diskOf smallFS, freemap := smallFS.freemap, inode := Inode.created,
      indirectBlock := zeroBlock tinyGeometry, hasWrite := 0, startByte := 0 }

/-- The state after creating a file, writing 321 bytes to it (which takes an
indirect block), removing it, and creating a file again, on a freshly formatted
and mounted device of twelve blocks in the small geometry. -/
def reusedFS : FileSystem :=
  stateAfter tinyGeometry (freshFS tinyGeometry 12)
    [.create, .write 0 (List.replicate 321 65) 321 0, .remove 0, .create]

/-- The state after creating a file and writing one byte at offset 384, the start
of entry 1 of the indirect block, on a freshly formatted and mounted device of
twelve blocks in the small geometry. -/
def lostEntryFS : FileSystem :=
  stateAfter tinyGeometry (freshFS tinyGeometry 12) [.create, .write 0 [120] 1 384]

instance (op : Op) : Decidable op.WF := by
  cases op <;> (unfold Op.WF; exact inferInstance)

instance (g : Geometry) (op : Op) : Decidable (op.Within g) := by
  cases op <;> (unfold Op.Within; exact inferInstance)

/-- The state after creating a file and writing 321 bytes to it, which takes five
direct blocks, an indirect block and one more data block, on a freshly formatted
and mounted device of twelve blocks in the small geometry. -/
def indirectFS : FileSystem :=
  stateAfter tinyGeometry (freshFS tinyGeometry 12)
    [.create, .write 0 (List.replicate 321 65) 321 0]

/-! ## Properties

### Bytes, words and inode records -/

theorem length_writeBytes (b : List Byte) (off : Nat) (src : List Byte)
    (h : off + src.length ≤ b.length) : (writeBytes b off src).length = b.length := by
  simp only [writeBytes, List.length_append, List.length_take, List.length_drop]
  omega

theorem getElem?_writeBytes (b : List Byte) (off : Nat) (src : List Byte)
    (h : off + src.length ≤ b.length) (i : Nat) :
    (writeBytes b off src)[i]? =
      if i < off then b[i]? else if i < off + src.length then src[i - off]? else b[i]? := by
  unfold writeBytes
  have hl : (b.take off).length = off := by simp; omega
  by_cases h1 : i < off
  · rw [if_pos h1, List.append_assoc, List.getElem?_append_left (by omega)]
    rw [List.getElem?_take]; simp [h1]
  · rw [if_neg h1, List.append_assoc, List.getElem?_append_right (by omega), hl]
    by_cases h2 : i < off + src.length
    · rw [if_pos h2, List.getElem?_append_left (by omega)]
    · rw [if_neg h2, List.getElem?_append_right (by omega), List.getElem?_drop]
      congr 1; omega

theorem getElem?_readBytes (b : List Byte) (off len i : Nat) :
    (readBytes b off len)[i]? = if i < len then b[off + i]? else none := by
  unfold readBytes
  rw [List.getElem?_take]
  split
  · rw [List.getElem?_drop]
  · rfl

theorem length_readBytes (b : List Byte) (off len : Nat) (h : off + len ≤ b.length) :
    (readBytes b off len).length = len := by
  simp only [readBytes, List.length_take, List.length_drop]; omega

theorem readBytes_writeBytes_same (b : List Byte) (off : Nat) (src : List Byte)
    (h : off + src.length ≤ b.length) : readBytes (writeBytes b off src) off src.length = src := by
  apply List.ext_getElem?
  intro i
  rw [getElem?_readBytes, getElem?_writeBytes b off src h]
  by_cases hi : i < src.length
  · rw [if_pos hi, if_neg (by omega), if_pos (by omega)]
    congr 1; omega
  · rw [if_neg hi]
    exact (List.getElem?_eq_none (by omega)).symm

theorem readBytes_writeBytes_disjoint (b : List Byte) (off : Nat) (src : List Byte)
    (h : off + src.length ≤ b.length) (off' len : Nat)
    (hd : off' + len ≤ off ∨ off + src.length ≤ off') :
    readBytes (writeBytes b off src) off' len = readBytes b off' len := by
  apply List.ext_getElem?
  intro i
  rw [getElem?_readBytes, getElem?_readBytes, getElem?_writeBytes b off src h]
  by_cases hi : i < len
  · rw [if_pos hi, if_pos hi]
    rcases hd with hd | hd
    · rw [if_pos (by omega)]
    · rw [if_neg (by omega), if_neg (by omega)]
  · rw [if_neg hi, if_neg hi]

theorem getU32_lt (b : List Byte) (off : Nat) : getU32 b off < 4294967296 := by
  unfold getU32
  have h0 := (b.getD off 0).isLt
  have h1 := (b.getD (off + 1) 0).isLt
  have h2 := (b.getD (off + 2) 0).isLt
  have h3 := (b.getD (off + 3) 0).isLt
  omega

theorem getD_writeBytes (b : List Byte) (off : Nat) (src : List Byte)
    (h : off + src.length ≤ b.length) (i : Nat) :
    (writeBytes b off src).getD i 0 =
      if i < off then b.getD i 0 else if i < off + src.length then src.getD (i - off) 0
      else b.getD i 0 := by
  simp only [List.getD_eq_getElem?_getD, getElem?_writeBytes b off src h]
  split
  · rfl
  · split <;> rfl

theorem getD_readBytes (b : List Byte) (off len i : Nat) (hi : i < len) :
    (readBytes b off len).getD i 0 = b.getD (off + i) 0 := by
  simp only [List.getD_eq_getElem?_getD, getElem?_readBytes, if_pos hi]

theorem getU32_readBytes (b : List Byte) (off len k : Nat) (hk : k + 4 ≤ len) :
    getU32 (readBytes b off len) k = getU32 b (off + k) := by
  unfold getU32
  rw [getD_readBytes b off len k (by omega), getD_readBytes b off len (k+1) (by omega),
    getD_readBytes b off len (k+2) (by omega), getD_readBytes b off len (k+3) (by omega)]
  simp only [Nat.add_assoc]

theorem getD_writeBytes_outside (b : List Byte) (off : Nat) (src : List Byte)
    (h : off + src.length ≤ b.length) (i : Nat) (hi : i < off ∨ off + src.length ≤ i) :
    (writeBytes b off src).getD i 0 = b.getD i 0 := by
  rw [getD_writeBytes b off src h]
  rcases hi with hi | hi
  · rw [if_pos hi]
  · rw [if_neg (by omega), if_neg (by omega)]

theorem getU32_writeBytes_disjoint (b : List Byte) (off : Nat) (src : List Byte)
    (h : off + src.length ≤ b.length) (k : Nat)
    (hd : k + 4 ≤ off ∨ off + src.length ≤ k) :
    getU32 (writeBytes b off src) k = getU32 b k := by
  unfold getU32
  have hk : ∀ i, i < 4 → (writeBytes b off src).getD (k + i) 0 = b.getD (k + i) 0 := by
    intro i hi
    apply getD_writeBytes_outside b off src h
    omega
  rw [← Nat.add_zero k, hk 0 (by decide), hk 1 (by decide), hk 2 (by decide),
    hk 3 (by decide)]

theorem getU32_u32le (v : Nat) : getU32 (u32le v) 0 = v % 4294967296 := by
  simp only [getU32, u32le, byteOf, List.getD_cons_zero, List.getD_cons_succ]
  omega

theorem getU32_putU32_same (b : List Byte) (off v : Nat) (h : off + 4 ≤ b.length) :
    getU32 (putU32 b off v) off = v % 4294967296 := by
  have hl : (u32le v).length = 4 := rfl
  have := getU32_readBytes (putU32 b off v) off 4 0 (by omega)
  rw [Nat.add_zero] at this
  rw [← this, putU32]
  have h2 := readBytes_writeBytes_same b off (u32le v) (by rw [hl]; exact h)
  rw [hl] at h2
  rw [h2, getU32_u32le]

theorem getU32_putU32_other (b : List Byte) (off v k : Nat) (h : off + 4 ≤ b.length)
    (hd : k + 4 ≤ off ∨ off + 4 ≤ k) : getU32 (putU32 b off v) k = getU32 b k :=
  getU32_writeBytes_disjoint b off (u32le v) h k hd

theorem length_putU32 (b : List Byte) (off v : Nat) (h : off + 4 ≤ b.length) :
    (putU32 b off v).length = b.length :=
  length_writeBytes b off (u32le v) h

theorem getU32_replicate_zero (n off : Nat) : getU32 (List.replicate n (0 : Byte)) off = 0 := by
  have h : ∀ i, (List.replicate n (0 : Byte)).getD i 0 = 0 := by
    intro i
    rw [List.getD_eq_getElem?_getD, List.getElem?_replicate]
    split <;> rfl
  simp [getU32, h]


theorem Inode.length_encode (x : Inode) : x.encode.length = INODE_SIZE := by
  simp [Inode.encode, u32le, POINTERS_PER_INODE, INODE_SIZE, List.range_succ]

theorem list_length_five {α : Type} (l : List α) (h : l.length = 5) :
    ∃ a b c d e, l = [a, b, c, d, e] := by
  match l, h with
  | [a, b, c, d, e], _ => exact ⟨a, b, c, d, e, rfl⟩

theorem Inode.decode_encode (x : Inode) (h : x.WF) : Inode.decode x.encode = x := by
  obtain ⟨v, s, D, ind⟩ := x
  obtain ⟨hv, hs, hl, hD, hi⟩ := h
  simp only at hv hs hl hD hi
  obtain ⟨a, b, c, d, e, rfl⟩ := list_length_five D hl
  have ha := hD a (by simp)
  have hb := hD b (by simp)
  have hc := hD c (by simp)
  have hd := hD d (by simp)
  have he := hD e (by simp)
  simp only [Inode.decode, Inode.encode, POINTERS_PER_INODE, List.range_succ, List.range_zero,
    List.nil_append, List.cons_append, List.map_cons, List.map_nil, List.flatten_cons,
    List.flatten_nil, List.append_nil, u32le, getU32, byteOf, List.getD_cons_zero,
    List.getD_cons_succ, Inode.mk.injEq, List.cons.injEq, and_true]
  refine ⟨?_, ?_, ⟨?_, ?_, ?_, ?_, ?_⟩, ?_⟩ <;> omega

theorem Inode.decode_WF (b : List Byte) : (Inode.decode b).WF := by
  refine ⟨getU32_lt _ _, getU32_lt _ _, ?_, ?_, getU32_lt _ _⟩
  · simp [Inode.decode]
  · intro p hp
    simp only [Inode.decode, List.mem_map] at hp
    obtain ⟨k, _, rfl⟩ := hp
    exact getU32_lt _ _

theorem getInode_WF (blk : Block) (j : Nat) : (getInode blk j).WF := Inode.decode_WF _

theorem getInode_putInode_same (blk : Block) (j : Nat) (x : Inode) (hx : x.WF)
    (h : j * INODE_SIZE + INODE_SIZE ≤ blk.length) : getInode (putInode blk j x) j = x := by
  unfold getInode putInode
  have h2 := readBytes_writeBytes_same blk (j * INODE_SIZE) x.encode
    (by rw [Inode.length_encode]; exact h)
  rw [Inode.length_encode] at h2
  rw [h2, Inode.decode_encode x hx]

theorem getInode_putInode_other (blk : Block) (j j' : Nat) (x : Inode) (hj : j' ≠ j)
    (h : j * INODE_SIZE + INODE_SIZE ≤ blk.length) :
    getInode (putInode blk j x) j' = getInode blk j' := by
  unfold getInode putInode
  rw [readBytes_writeBytes_disjoint blk (j * INODE_SIZE) x.encode
    (by rw [Inode.length_encode]; exact h)]
  rw [Inode.length_encode]
  unfold INODE_SIZE
  rcases Nat.lt_or_gt_of_ne hj with h1 | h1
  · left; omega
  · right; omega

theorem length_putInode (blk : Block) (j : Nat) (x : Inode)
    (h : j * INODE_SIZE + INODE_SIZE ≤ blk.length) : (putInode blk j x).length = blk.length := by
  unfold putInode
  exact length_writeBytes _ _ _ (by rw [Inode.length_encode]; exact h)

theorem getInode_zeroBlock (g : Geometry) (j : Nat) :
    getInode (zeroBlock g) j = { Valid := 0, Size := 0, Direct := [0, 0, 0, 0, 0], Indirect := 0 } := by
  unfold getInode Inode.decode
  have h : ∀ k, k + 4 ≤ INODE_SIZE →
      getU32 (readBytes (zeroBlock g) (j * INODE_SIZE) INODE_SIZE) k = 0 := by
    intro k hk
    rw [getU32_readBytes _ _ _ _ hk, zeroBlock, getU32_replicate_zero]
  rw [h 0 (by decide), h 4 (by decide), h 28 (by decide)]
  simp only [POINTERS_PER_INODE, List.range_succ, List.range_zero, List.nil_append,
    List.cons_append, List.map_cons, List.map_nil]
  rw [h _ (by decide), h _ (by decide), h _ (by decide), h _ (by decide), h _ (by decide)]

/-! ### The block device and `format` -/

theorem Disk.read_write_same (d d' : Disk) (b : Nat) (blk : Block)
    (h : d.write b blk = some d') : d'.read b = some blk := by
  unfold Disk.write at h
  split at h
  · cases h
    simp only [Disk.read]
    rw [List.getElem?_set_self (by assumption)]
  · cases h

theorem Disk.read_write_other (d d' : Disk) (b b' : Nat) (blk : Block)
    (h : d.write b blk = some d') (hb : b' ≠ b) : d'.read b' = d.read b' := by
  unfold Disk.write at h
  split at h
  · cases h
    simp only [Disk.read]
    rw [List.getElem?_set_ne (Ne.symm hb)]
  · cases h

theorem Disk.size_write (d d' : Disk) (b : Nat) (blk : Block)
    (h : d.write b blk = some d') : d'.size = d.size := by
  unfold Disk.write at h
  split at h
  · cases h; simp [Disk.size]
  · cases h

theorem Disk.Mounts_write (d d' : Disk) (b : Nat) (blk : Block)
    (h : d.write b blk = some d') : d'.Mounts = d.Mounts := by
  unfold Disk.write at h
  split at h
  · cases h; rfl
  · cases h

theorem Disk.write_isSome (d : Disk) (b : Nat) (blk : Block) (h : b < d.size) :
    ∃ d', d.write b blk = some d' := by
  unfold Disk.write
  unfold Disk.size at h
  rw [if_pos h]
  exact ⟨_, rfl⟩

theorem Disk.read_isSome (d : Disk) (b : Nat) (h : b < d.size) :
    ∃ blk, d.read b = some blk ∧ blk ∈ d.blocks := by
  unfold Disk.read
  rw [List.getElem?_eq_getElem h]
  exact ⟨_, rfl, List.getElem_mem _⟩

theorem Disk.read_lt (d : Disk) (b : Nat) (blk : Block) (h : d.read b = some blk) :
    b < d.size ∧ blk ∈ d.blocks := by
  unfold Disk.read at h
  obtain ⟨hlt, heq⟩ := List.getElem?_eq_some_iff.mp h
  exact ⟨hlt, heq ▸ List.getElem_mem _⟩

theorem Disk.WF_write (g : Geometry) (d d' : Disk) (b : Nat) (blk : Block)
    (hd : d.WF g) (hb : blk.length = g.BLOCK_SIZE) (h : d.write b blk = some d') : d'.WF g := by
  unfold Disk.write at h
  split at h
  · cases h
    intro x hx
    rcases List.mem_or_eq_of_mem_set hx with hx | hx
    · exact hd x hx
    · rw [hx]; exact hb
  · cases h

theorem formatClear_spec (g : Geometry) (fuel : Nat) : ∀ (i : Nat) (d : Disk),
    i + fuel ≤ d.size →
    ∃ d', formatClear g fuel i d = some d' ∧ d'.size = d.size ∧ d'.Mounts = d.Mounts ∧
      ∀ k, d'.read k = if i ≤ k ∧ k < i + fuel then some (zeroBlock g) else d.read k := by
  induction fuel with
  | zero =>
    intro i d _
    refine ⟨d, rfl, rfl, rfl, ?_⟩
    intro k
    rw [if_neg (by omega)]
  | succ fuel ih =>
    intro i d h
    obtain ⟨d1, h1⟩ := Disk.write_isSome d i (zeroBlock g) (by omega)
    have hs1 := Disk.size_write d d1 i _ h1
    obtain ⟨d', h2, hs2, hm2, hr2⟩ := ih (i + 1) d1 (by omega)
    refine ⟨d', ?_, by omega, ?_, ?_⟩
    · simp only [formatClear, h1, Option.bind_eq_bind, Option.some_bind]
      exact h2
    · rw [hm2, Disk.Mounts_write d d1 i _ h1]
    · intro k
      rw [hr2 k]
      by_cases hk : i + 1 ≤ k ∧ k < i + 1 + fuel
      · rw [if_pos hk, if_pos (by omega)]
      · rw [if_neg hk]
        by_cases hki : k = i
        · rw [hki, Disk.read_write_same d d1 i _ h1, if_pos (by omega)]
        · rw [Disk.read_write_other d d1 i k _ h1 hki, if_neg (by omega)]

theorem inodeBlocksFor_eq (n : Nat) (h1 : 1 ≤ n) (h64 : n < 18446744073709551616) :
    inodeBlocksFor n = ceilTenth n := by
  unfold inodeBlocksFor ceilTenth
  omega

theorem length_zeroBlock (g : Geometry) : (zeroBlock g).length = g.BLOCK_SIZE := by
  simp [zeroBlock]

theorem getSuper_formatSuperBlock (g : Geometry) (hg : g.WF) (n : Nat) :
    (formatSuperBlock g n).length = g.BLOCK_SIZE ∧
    getSuper (formatSuperBlock g n) =
      { MagicNumber := g.MAGIC_NUMBER % 4294967296, Blocks := n % 4294967296,
        InodeBlocks := inodeBlocksFor n % 4294967296,
        Inodes := (inodeBlocksFor n * g.INODES_PER_BLOCK) % 4294967296 } := by
  obtain ⟨h16, _⟩ := hg
  have l0 := length_zeroBlock g
  have l1 := length_putU32 (zeroBlock g) 0 g.MAGIC_NUMBER (by omega)
  have l2 := length_putU32 (putU32 (zeroBlock g) 0 g.MAGIC_NUMBER) 4 n (by omega)
  have l3 := length_putU32 (putU32 (putU32 (zeroBlock g) 0 g.MAGIC_NUMBER) 4 n) 8
    (inodeBlocksFor n) (by omega)
  have l4 := length_putU32 (putU32 (putU32 (putU32 (zeroBlock g) 0 g.MAGIC_NUMBER) 4 n) 8
    (inodeBlocksFor n)) 12 (inodeBlocksFor n * g.INODES_PER_BLOCK) (by omega)
  refine ⟨by simp only [formatSuperBlock]; omega, ?_⟩
  simp only [getSuper, formatSuperBlock]
  rw [getU32_putU32_same _ 12 _ (by omega),
    getU32_putU32_other _ 12 _ 8 (by omega) (by omega), getU32_putU32_same _ 8 _ (by omega),
    getU32_putU32_other _ 12 _ 4 (by omega) (by omega),
    getU32_putU32_other _ 8 _ 4 (by omega) (by omega), getU32_putU32_same _ 4 _ (by omega),
    getU32_putU32_other _ 12 _ 0 (by omega) (by omega),
    getU32_putU32_other _ 8 _ 0 (by omega) (by omega),
    getU32_putU32_other _ 4 _ 0 (by omega) (by omega), getU32_putU32_same _ 0 _ (by omega)]

theorem format_spec (g : Geometry) (d : Disk) (hn : 1 ≤ d.size) (hm : d.mounted = false) :
    ∃ d', format g d = some (true, d') ∧ d'.size = d.size ∧ d'.Mounts = d.Mounts ∧
      d'.read 0 = some (formatSuperBlock g d.size) ∧
      ∀ k, 1 ≤ k → k < d.size → d'.read k = some (zeroBlock g) := by
  obtain ⟨d1, h1⟩ := Disk.write_isSome d 0 (formatSuperBlock g d.size) (by omega)
  have hs1 := Disk.size_write d d1 0 _ h1
  obtain ⟨d', h2, hs2, hm2, hr2⟩ := formatClear_spec g (d.size - 1) 1 d1 (by omega)
  refine ⟨d', ?_, by omega, ?_, ?_, ?_⟩
  · simp only [format, hm, Bool.false_eq_true, if_false, h1, Option.bind_eq_bind,
      Option.some_bind, h2]
  · rw [hm2, Disk.Mounts_write d d1 0 _ h1]
  · rw [hr2 0, if_neg (by omega), Disk.read_write_same d d1 0 _ h1]
  · intro k hk1 hk2
    rw [hr2 k, if_pos (by omega)]

theorem format_mounted (g : Geometry) (d : Disk) (hm : d.mounted = true) :
    format g d = some (false, d) := by
  simp [format, hm]

theorem size_filledDisk (g : Geometry) (n : Nat) (b : Byte) : (filledDisk g n b).size = n := by
  simp [filledDisk, Disk.size]

/-! ### The free map and `mount` -/

theorem setFree_some (fm fm' : List Bool) (b : Nat) (v : Bool) :
    setFree fm b v = some fm' ↔ b < fm.length ∧ fm' = fm.set b v := by
  unfold setFree
  split
  · simp [*, eq_comm]
  · simp [*]

theorem setFree_spec (fm fm' : List Bool) (p : Nat) (v : Bool) (h : setFree fm p v = some fm') :
    fm'.length = fm.length ∧ p < fm.length ∧
    (∀ b, fm'[b]? = some v ↔ (fm[b]? = some v ∨ b = p)) ∧
    (∀ b, b ≠ p → fm'[b]? = fm[b]?) := by
  obtain ⟨hp, rfl⟩ := (setFree_some fm fm' p v).mp h
  refine ⟨by simp, hp, ?_, ?_⟩
  · intro b
    by_cases hb : b = p
    · subst hb
      simp [List.getElem?_set_self hp]
    · rw [List.getElem?_set_ne (Ne.symm hb)]
      simp [hb]
  · intro b hb
    rw [List.getElem?_set_ne (Ne.symm hb)]

theorem markPointers_some (v : Bool) : ∀ (ps : List Nat) (fm fm' : List Bool),
    markPointers v fm ps = some fm' →
    fm'.length = fm.length ∧ (∀ p ∈ ps, p ≠ 0 → p < fm.length) ∧
    (∀ b, fm'[b]? = some v ↔ (fm[b]? = some v ∨ (b ≠ 0 ∧ b ∈ ps))) ∧
    (∀ b, ¬ (b ≠ 0 ∧ b ∈ ps) → fm'[b]? = fm[b]?) := by
  intro ps
  induction ps with
  | nil =>
    intro fm fm' h
    cases h
    simp
  | cons p ps ih =>
    intro fm fm' h
    unfold markPointers at h
    by_cases hp : p = 0
    · rw [if_neg (by simpa using hp)] at h
      obtain ⟨h1, h2, h3, h4⟩ := ih fm fm' h
      refine ⟨h1, ?_, ?_, ?_⟩
      · intro q hq hq0
        rcases List.mem_cons.mp hq with rfl | hq
        · exact absurd hp hq0
        · exact h2 q hq hq0
      · intro b
        rw [h3 b]
        constructor
        · rintro (hb | ⟨hb0, hb⟩)
          · exact Or.inl hb
          · exact Or.inr ⟨hb0, List.mem_cons_of_mem _ hb⟩
        · rintro (hb | ⟨hb0, hb⟩)
          · exact Or.inl hb
          · rcases List.mem_cons.mp hb with rfl | hb
            · exact absurd hp hb0
            · exact Or.inr ⟨hb0, hb⟩
      · intro b hb
        apply h4
        rintro ⟨hb0, hbm⟩
        exact hb ⟨hb0, List.mem_cons_of_mem _ hbm⟩
    · rw [if_pos hp] at h
      simp only [Option.bind_eq_bind, Option.bind_eq_some] at h
      obtain ⟨fm1, hs, h⟩ := h
      obtain ⟨l1, hp1, s3, s4⟩ := setFree_spec fm fm1 p v hs
      obtain ⟨h1, h2, h3, h4⟩ := ih fm1 fm' h
      refine ⟨by omega, ?_, ?_, ?_⟩
      · intro q hq hq0
        rcases List.mem_cons.mp hq with rfl | hq
        · exact hp1
        · have := h2 q hq hq0
          omega
      · intro b
        rw [h3 b, s3 b]
        constructor
        · rintro ((hb | rfl) | ⟨hb0, hb⟩)
          · exact Or.inl hb
          · exact Or.inr ⟨hp, List.mem_cons_self _ _⟩
          · exact Or.inr ⟨hb0, List.mem_cons_of_mem _ hb⟩
        · rintro (hb | ⟨hb0, hb⟩)
          · exact Or.inl (Or.inl hb)
          · rcases List.mem_cons.mp hb with rfl | hb
            · exact Or.inl (Or.inr rfl)
            · exact Or.inr ⟨hb0, hb⟩
      · intro b hb
        have hbp : b ≠ p := by
          rintro rfl
          exact hb ⟨hp, List.mem_cons_self _ _⟩
        rw [h4 b (fun ⟨hb0, hbm⟩ => hb ⟨hb0, List.mem_cons_of_mem _ hbm⟩), s4 b hbp]

theorem markPointers_isSome (v : Bool) : ∀ (ps : List Nat) (fm : List Bool),
    (∀ p ∈ ps, p ≠ 0 → p < fm.length) → ∃ fm', markPointers v fm ps = some fm' := by
  intro ps
  induction ps with
  | nil => intro fm _; exact ⟨fm, rfl⟩
  | cons p ps ih =>
    intro fm h
    unfold markPointers
    by_cases hp : p = 0
    · rw [if_neg (by simpa using hp)]
      exact ih fm (fun q hq => h q (List.mem_cons_of_mem _ hq))
    · rw [if_pos hp]
      have hlt := h p (List.mem_cons_self _ _) hp
      have hs : setFree fm p v = some (fm.set p v) := (setFree_some _ _ _ _).mpr ⟨hlt, rfl⟩
      simp only [hs, Option.bind_eq_bind, Option.some_bind]
      apply ih
      intro q hq hq0
      simpa using h q (List.mem_cons_of_mem _ hq) hq0

theorem foldlM_marks {α : Type} (f : List Bool → α → Option (List Bool)) (C : α → Nat → Prop)
    (hf : ∀ fm a fm', f fm a = some fm' →
      fm'.length = fm.length ∧ ∀ b, (fm'[b]? = some false ↔ fm[b]? = some false ∨ C a b)) :
    ∀ (l : List α) (fm fm' : List Bool), l.foldlM f fm = some fm' →
      fm'.length = fm.length ∧
      ∀ b, (fm'[b]? = some false ↔ fm[b]? = some false ∨ ∃ a ∈ l, C a b) := by
  intro l
  induction l with
  | nil =>
    intro fm fm' h
    simp only [List.foldlM_nil, pure, Option.some.injEq] at h
    subst h
    simp
  | cons a l ih =>
    intro fm fm' h
    simp only [List.foldlM_cons, Option.bind_eq_bind, Option.bind_eq_some] at h
    obtain ⟨fm1, h1, h2⟩ := h
    obtain ⟨l1, c1⟩ := hf fm a fm1 h1
    obtain ⟨l2, c2⟩ := ih fm1 fm' h2
    refine ⟨by omega, ?_⟩
    intro b
    rw [c2 b, c1 b]
    constructor
    · rintro ((hb | hb) | ⟨a', ha', hb⟩)
      · exact Or.inl hb
      · exact Or.inr ⟨a, List.mem_cons_self _ _, hb⟩
      · exact Or.inr ⟨a', List.mem_cons_of_mem _ ha', hb⟩
    · rintro (hb | ⟨a', ha', hb⟩)
      · exact Or.inl (Or.inl hb)
      · rcases List.mem_cons.mp ha' with rfl | ha'
        · exact Or.inl (Or.inr hb)
        · exact Or.inr ⟨a', ha', hb⟩

theorem foldlM_marks_isSome {α : Type} (f : List Bool → α → Option (List Bool)) (n : Nat)
    (P : α → Prop)
    (hf : ∀ fm a, P a → fm.length = n → ∃ fm', f fm a = some fm' ∧ fm'.length = n) :
    ∀ (l : List α) (fm : List Bool), (∀ a ∈ l, P a) → fm.length = n →
      ∃ fm', l.foldlM f fm = some fm' := by
  intro l
  induction l with
  | nil => intro fm _ _; exact ⟨fm, rfl⟩
  | cons a l ih =>
    intro fm hP hn
    obtain ⟨fm1, h1, l1⟩ := hf fm a (hP a (List.mem_cons_self _ _)) hn
    obtain ⟨fm', h2⟩ := ih fm1 (fun a' ha' => hP a' (List.mem_cons_of_mem _ ha')) l1
    refine ⟨fm', ?_⟩
    simp only [List.foldlM_cons, Option.bind_eq_bind, h1, Option.some_bind]
    exact h2

theorem mountInode_some (g : Geometry) (d : Disk) (fm fm' : List Bool) (x : Inode)
    (h : mountInode g d fm x = some fm') :
    fm'.length = fm.length ∧
    ∀ b, (fm'[b]? = some false ↔
      fm[b]? = some false ∨ (x.Valid ≠ 0 ∧ b ≠ 0 ∧ HeldBy g d x b)) := by
  unfold mountInode at h
  by_cases hv : x.Valid = 0
  · rw [if_neg (by simpa using hv)] at h
    cases h
    simp [hv]
  · rw [if_pos hv] at h
    simp only [Option.bind_eq_bind, Option.bind_eq_some] at h
    obtain ⟨fm1, h1, h⟩ := h
    obtain ⟨l1, _, c1, _⟩ := markPointers_some false _ _ _ h1
    by_cases hi : x.Indirect = 0
    · rw [if_pos hi] at h
      cases h
      refine ⟨l1, ?_⟩
      intro b
      rw [c1 b]
      unfold HeldBy
      constructor
      · rintro (hb | ⟨hb0, hb⟩)
        · exact Or.inl hb
        · exact Or.inr ⟨hv, hb0, Or.inl hb⟩
      · rintro (hb | ⟨_, hb0, hb | hb | ⟨hb, _⟩⟩)
        · exact Or.inl hb
        · exact Or.inr ⟨hb0, hb⟩
        · exact absurd (hb.trans hi) hb0
        · exact absurd hi hb
    · rw [if_neg hi] at h
      simp only [Option.bind_eq_some] at h
      obtain ⟨fm2, h2, blk, h3, h4⟩ := h
      obtain ⟨l2, _, c2, _⟩ := setFree_spec _ _ _ _ h2
      obtain ⟨l3, _, c3, _⟩ := markPointers_some false _ _ _ h4
      refine ⟨by omega, ?_⟩
      intro b
      rw [c3 b, c2 b, c1 b]
      unfold HeldBy
      constructor
      · rintro (((hb | ⟨hb0, hb⟩) | hb) | ⟨hb0, hb⟩)
        · exact Or.inl hb
        · exact Or.inr ⟨hv, hb0, Or.inl hb⟩
        · exact Or.inr ⟨hv, hb ▸ hi, Or.inr (Or.inl hb)⟩
        · exact Or.inr ⟨hv, hb0, Or.inr (Or.inr ⟨hi, blk, h3, hb⟩)⟩
      · rintro (hb | ⟨_, hb0, hb | hb | ⟨_, blk', hr, hb⟩⟩)
        · exact Or.inl (Or.inl (Or.inl hb))
        · exact Or.inl (Or.inl (Or.inr ⟨hb0, hb⟩))
        · exact Or.inl (Or.inr hb)
        · rw [h3] at hr
          cases hr
          exact Or.inr ⟨hb0, hb⟩

theorem mountInode_isSome (g : Geometry) (d : Disk) (fm : List Bool) (x : Inode)
    (hlen : fm.length = d.size)
    (hr : x.Valid ≠ 0 → ∀ b, b ≠ 0 → HeldBy g d x b → b < d.size) :
    ∃ fm', mountInode g d fm x = some fm' := by
  unfold mountInode
  by_cases hv : x.Valid = 0
  · rw [if_neg (by simpa using hv)]
    exact ⟨fm, rfl⟩
  · rw [if_pos hv]
    obtain ⟨fm1, h1⟩ := markPointers_isSome false x.Direct fm
      (fun p hp hp0 => hlen ▸ hr hv p hp0 (Or.inl hp))
    obtain ⟨l1, _, _, _⟩ := markPointers_some false _ _ _ h1
    simp only [h1, Option.bind_eq_bind, Option.some_bind]
    by_cases hi : x.Indirect = 0
    · rw [if_pos hi]
      exact ⟨fm1, rfl⟩
    · rw [if_neg hi]
      have hlt : x.Indirect < d.size := hr hv _ hi (Or.inr (Or.inl rfl))
      have h2 : setFree fm1 x.Indirect false = some (fm1.set x.Indirect false) :=
        (setFree_some _ _ _ _).mpr ⟨by omega, rfl⟩
      obtain ⟨blk, h3, _⟩ := Disk.read_isSome d x.Indirect hlt
      simp only [h2, h3, Option.bind_eq_bind, Option.some_bind]
      apply markPointers_isSome
      intro p hp hp0
      have := hr hv p hp0 (Or.inr (Or.inr ⟨hi, blk, h3, hp⟩))
      simp only [List.length_set]
      omega

theorem mountSlots_some (g : Geometry) (d : Disk) (blk : Block) (fm fm' : List Bool)
    (h : mountSlots g d blk fm = some fm') :
    fm'.length = fm.length ∧
    ∀ b, (fm'[b]? = some false ↔ fm[b]? = some false ∨
      ∃ j, j < g.INODES_PER_BLOCK ∧ (getInode blk j).Valid ≠ 0 ∧ b ≠ 0 ∧
        HeldBy g d (getInode blk j) b) := by
  unfold mountSlots at h
  obtain ⟨h1, h2⟩ := foldlM_marks (fun fm j => mountInode g d fm (getInode blk j))
    (fun j b => (getInode blk j).Valid ≠ 0 ∧ b ≠ 0 ∧ HeldBy g d (getInode blk j) b)
    (fun fm a fm' hf => mountInode_some g d fm fm' _ hf) _ fm fm' h
  refine ⟨h1, fun b => ?_⟩
  rw [h2 b]
  simp only [List.mem_range]

theorem mountSlots_isSome (g : Geometry) (d : Disk) (blk : Block) (fm : List Bool)
    (hlen : fm.length = d.size)
    (hr : ∀ j, j < g.INODES_PER_BLOCK → (getInode blk j).Valid ≠ 0 →
      ∀ b, b ≠ 0 → HeldBy g d (getInode blk j) b → b < d.size) :
    ∃ fm', mountSlots g d blk fm = some fm' := by
  unfold mountSlots
  apply foldlM_marks_isSome (fun fm j => mountInode g d fm (getInode blk j)) d.size
    (fun j => j < g.INODES_PER_BLOCK) _ _ fm (fun a ha => List.mem_range.mp ha) hlen
  intro fm j hj hl
  obtain ⟨fm', h⟩ := mountInode_isSome g d fm (getInode blk j) hl (hr j hj)
  exact ⟨fm', h, (mountInode_some g d fm fm' _ h).1.trans hl⟩

/-- The inode blocks and the pointers of the valid inodes in the first
`numOfInodeBlocks` blocks of the inode table. -/
theorem mountBlocks_some (g : Geometry) (d : Disk) (n : Nat) (fm fm' : List Bool)
    (h : mountBlocks g d n fm = some fm') :
    fm'.length = fm.length ∧
    ∀ b, (fm'[b]? = some false ↔ fm[b]? = some false ∨
      ∃ i, i < n ∧ (b = i + 1 ∨ ∃ blk, d.read (i + 1) = some blk ∧
        ∃ j, j < g.INODES_PER_BLOCK ∧ (getInode blk j).Valid ≠ 0 ∧ b ≠ 0 ∧
          HeldBy g d (getInode blk j) b)) := by
  unfold mountBlocks at h
  have hstep : ∀ (fm : List Bool) (i : Nat) (fm' : List Bool),
      (do
        let fm ← setFree fm (i + 1) false
        let inodeBlock ← d.read (i + 1)
        mountSlots g d inodeBlock fm) = some fm' →
      fm'.length = fm.length ∧ ∀ b, (fm'[b]? = some false ↔ fm[b]? = some false ∨
        (b = i + 1 ∨ ∃ blk, d.read (i + 1) = some blk ∧
          ∃ j, j < g.INODES_PER_BLOCK ∧ (getInode blk j).Valid ≠ 0 ∧ b ≠ 0 ∧
            HeldBy g d (getInode blk j) b)) := by
    intro fm i fm' hf
    simp only [Option.bind_eq_bind, Option.bind_eq_some] at hf
    obtain ⟨fm1, hs, blk, hr, hm⟩ := hf
    obtain ⟨l1, _, c1, _⟩ := setFree_spec _ _ _ _ hs
    obtain ⟨l2, c2⟩ := mountSlots_some g d blk fm1 fm' hm
    refine ⟨by omega, fun b => ?_⟩
    rw [c2 b, c1 b]
    constructor
    · rintro ((hb | hb) | hb)
      · exact Or.inl hb
      · exact Or.inr (Or.inl hb)
      · exact Or.inr (Or.inr ⟨blk, hr, hb⟩)
    · rintro (hb | hb | ⟨blk', hr', hb⟩)
      · exact Or.inl (Or.inl hb)
      · exact Or.inl (Or.inr hb)
      · rw [hr] at hr'
        cases hr'
        exact Or.inr hb
  obtain ⟨h1, h2⟩ := foldlM_marks _ _ hstep _ fm fm' h
  refine ⟨h1, fun b => ?_⟩
  rw [h2 b]
  simp only [List.mem_range]

theorem mountBlocks_isSome (g : Geometry) (d : Disk) (n : Nat) (fm : List Bool)
    (hlen : fm.length = d.size) (hn : n < d.size)
    (hr : ∀ i, i < n → ∀ blk, d.read (i + 1) = some blk →
      ∀ j, j < g.INODES_PER_BLOCK → (getInode blk j).Valid ≠ 0 →
      ∀ b, b ≠ 0 → HeldBy g d (getInode blk j) b → b < d.size) :
    ∃ fm', mountBlocks g d n fm = some fm' := by
  unfold mountBlocks
  apply foldlM_marks_isSome _ d.size (fun i => i < n) _ _ fm
    (fun a ha => List.mem_range.mp ha) hlen
  intro fm i hi hl
  have h1 : setFree fm (i + 1) false = some (fm.set (i + 1) false) :=
    (setFree_some _ _ _ _).mpr ⟨by omega, rfl⟩
  obtain ⟨blk, h2, _⟩ := Disk.read_isSome d (i + 1) (by omega)
  obtain ⟨fm', h3⟩ := mountSlots_isSome g d blk (fm.set (i + 1) false)
    (by simpa using hl) (hr i hi blk h2)
  refine ⟨fm', ?_, ?_⟩
  · simp only [h1, h2, Option.bind_eq_bind, Option.some_bind]
    exact h3
  · rw [(mountSlots_some g d blk _ fm' h3).1]
    simpa using hl

theorem formatted_true (g : Geometry) (d : Disk) (sb : Block) :
    formatted g d sb = true ↔
      (getSuper sb).MagicNumber = g.MAGIC_NUMBER ∧ (getSuper sb).Blocks = d.size ∧
      (getSuper sb).InodeBlocks = inodeBlocksFor d.size ∧
      (getSuper sb).Inodes = inodeBlocksFor d.size * g.INODES_PER_BLOCK := by
  unfold formatted
  simp only [ne_eq, ite_not]
  split
  · split
    · split
      · split
        · simp [*]
        · simp [*]
      · simp [*]
    · simp [*]
  · simp [*]

theorem inodeAt_mul_add (g : Geometry) (d : Disk) (i j : Nat) (hj : j < g.INODES_PER_BLOCK) :
    inodeAt g d (i * g.INODES_PER_BLOCK + j) = (d.read (i + 1)).map fun blk => getInode blk j := by
  unfold inodeAt
  have h0 : 0 < g.INODES_PER_BLOCK := by omega
  rw [Nat.add_comm (i * g.INODES_PER_BLOCK) j, Nat.add_mul_div_right _ _ h0,
    Nat.add_mul_mod_self_right, Nat.div_eq_of_lt hj, Nat.mod_eq_of_lt hj, Nat.zero_add]

theorem inodeAt_some (g : Geometry) (d : Disk) (inumber : Nat) (x : Inode) :
    inodeAt g d inumber = some x ↔
      ∃ blk, d.read (inumber / g.INODES_PER_BLOCK + 1) = some blk ∧
        getInode blk (inumber % g.INODES_PER_BLOCK) = x := by
  unfold inodeAt
  simp [Option.map_eq_some']

/-- The blocks that `mount` marks used are the pointers of the valid inodes. -/
theorem referenced_iff (g : Geometry) (hg : g.WF) (d : Disk) (n b : Nat) :
    Referenced g d (n * g.INODES_PER_BLOCK) b ↔
      ∃ i, i < n ∧ ∃ blk, d.read (i + 1) = some blk ∧
        ∃ j, j < g.INODES_PER_BLOCK ∧ (getInode blk j).Valid ≠ 0 ∧ b ≠ 0 ∧
          HeldBy g d (getInode blk j) b := by
  have h0 : 0 < g.INODES_PER_BLOCK := hg.2.1
  unfold Referenced
  constructor
  · rintro ⟨hb0, inumber, x, hlt, hx, hv, hh⟩
    obtain ⟨blk, hr, rfl⟩ := (inodeAt_some g d inumber x).mp hx
    refine ⟨inumber / g.INODES_PER_BLOCK, ?_, blk, hr, inumber % g.INODES_PER_BLOCK,
      Nat.mod_lt _ h0, hv, hb0, hh⟩
    exact Nat.div_lt_of_lt_mul (by rwa [Nat.mul_comm] at hlt)
  · rintro ⟨i, hi, blk, hr, j, hj, hv, hb0, hh⟩
    refine ⟨hb0, i * g.INODES_PER_BLOCK + j, getInode blk j, ?_, ?_, hv, hh⟩
    · calc i * g.INODES_PER_BLOCK + j < i * g.INODES_PER_BLOCK + g.INODES_PER_BLOCK := by omega
        _ = (i + 1) * g.INODES_PER_BLOCK := by ring
        _ ≤ n * g.INODES_PER_BLOCK := Nat.mul_le_mul_right _ (by omega)
    · rw [inodeAt_mul_add g d i j hj, hr]
      rfl

theorem getElem?_replicate_true_ne (n b : Nat) : (List.replicate n true)[b]? ≠ some false := by
  rw [List.getElem?_replicate]
  split <;> simp

theorem mount_true_spec (g : Geometry) (hg : g.WF) (fs fs' : FileSystem) (d d' : Disk)
    (h : mount g fs d = some (true, fs', d')) :
    fs.disk = none ∧ d' = d.mount ∧ fs'.disk = some d.mount ∧
    (∃ sb, d.read 0 = some sb ∧ formatted g d sb = true) ∧
    fs'.numOfBlocks = d.size ∧ fs'.numOfInodeBlocks = inodeBlocksFor d.size ∧
    fs'.numOfInodes = inodeBlocksFor d.size * g.INODES_PER_BLOCK ∧
    d.size < 4294967296 ∧ fs'.numOfInodes < 4294967296 ∧
    fs'.freemap.length = d.size ∧
    ∀ b, (fs'.freemap[b]? = some false ↔
      (b = 0 ∨ (1 ≤ b ∧ b ≤ fs'.numOfInodeBlocks) ∨ Referenced g d fs'.numOfInodes b)) := by
  unfold mount at h
  split at h
  · cases h
  · rename_i hnone
    simp only [Option.bind_eq_bind, Option.bind_eq_some] at h
    obtain ⟨sb, h0, h⟩ := h
    split at h
    · cases h
    · rename_i hfm
      simp only [Bool.not_eq_true, Bool.not_eq_false'] at hfm
      simp only [Option.bind_eq_some] at h
      obtain ⟨fm1, h1, fm2, h2, h3⟩ := h
      simp only [Option.some.injEq, Prod.mk.injEq, true_and] at h3
      obtain ⟨rfl, rfl⟩ := h3
      obtain ⟨f1, f2, f3, f4⟩ := (formatted_true g d sb).mp hfm
      obtain ⟨l1, _, c1, _⟩ := setFree_spec _ _ _ _ h1
      obtain ⟨l2, c2⟩ := mountBlocks_some g d.mount _ fm1 fm2 h2
      simp only [List.length_replicate] at l1
      refine ⟨by simpa using hnone, rfl, rfl, ⟨sb, h0, hfm⟩, f2, f3, f4, ?_, ?_, ?_, ?_⟩
      · rw [← f2]; exact getU32_lt _ _
      · show (getSuper sb).Inodes < _
        exact getU32_lt _ _
      · show fm2.length = _
        omega
      · intro b
        show fm2[b]? = some false ↔ _
        rw [c2 b, c1 b]
        have hrep := getElem?_replicate_true_ne (getSuper sb).Blocks b
        have href := referenced_iff g hg d (getSuper sb).InodeBlocks b
        show _ ↔ (b = 0 ∨ (1 ≤ b ∧ b ≤ (getSuper sb).InodeBlocks) ∨
          Referenced g d (getSuper sb).Inodes b)
        rw [f4, ← f3, href]
        constructor
        · rintro ((hb | hb) | ⟨i, hi, hb | hb⟩)
          · exact absurd hb hrep
          · exact Or.inl hb
          · exact Or.inr (Or.inl (by omega))
          · exact Or.inr (Or.inr ⟨i, hi, hb⟩)
        · rintro (hb | hb | ⟨i, hi, hb⟩)
          · exact Or.inl (Or.inr hb)
          · exact Or.inr ⟨b - 1, by omega, Or.inl (by omega)⟩
          · exact Or.inr ⟨i, hi, Or.inr hb⟩

theorem inodeBlocksFor_lt (n : Nat) (h2 : 2 ≤ n) (h : n < 4294967296) :
    inodeBlocksFor n < n := by
  unfold inodeBlocksFor
  omega

theorem mount_isSome (g : Geometry) (hg : g.WF) (fs : FileSystem) (d : Disk) (sb : Block)
    (hfs : fs.disk = none) (h0 : d.read 0 = some sb) (hf : formatted g d sb = true)
    (h2 : 2 ≤ d.size)
    (hr : ∀ b, Referenced g d (getSuper sb).Inodes b → b < d.size) :
    ∃ fs', mount g fs d = some (true, fs', d.mount) := by
  obtain ⟨f1, f2, f3, f4⟩ := (formatted_true g d sb).mp hf
  have hlt : d.size < 4294967296 := by rw [← f2]; exact getU32_lt _ _
  have h1 : setFree (List.replicate (getSuper sb).Blocks true) 0 false
      = some ((List.replicate (getSuper sb).Blocks true).set 0 false) :=
    (setFree_some _ _ _ _).mpr ⟨by simp; omega, rfl⟩
  obtain ⟨fm2, hm⟩ := mountBlocks_isSome g d.mount (getSuper sb).InodeBlocks
    ((List.replicate (getSuper sb).Blocks true).set 0 false)
    (by simp [f2]; rfl) (by rw [f3]; exact inodeBlocksFor_lt _ h2 hlt)
    (by
      intro i hi blk hrd j hj hv b hb0 hh
      apply hr b
      rw [f4, ← f3]
      exact (referenced_iff g hg d (getSuper sb).InodeBlocks b).mpr
        ⟨i, hi, blk, hrd, j, hj, hv, hb0, hh⟩)
  refine ⟨{ disk := some d.mount, numOfBlocks := (getSuper sb).Blocks,
            numOfInodeBlocks := (getSuper sb).InodeBlocks, numOfInodes := (getSuper sb).Inodes,
            freemap := fm2 }, ?_⟩
  unfold mount
  rw [if_neg (by simp [hfs])]
  simp only [h0, Option.bind_eq_bind, Option.some_bind, hf, Bool.not_true, Bool.false_eq_true,
    if_false, h1, hm]

theorem Disk.WF_read (g : Geometry) (d : Disk) (hd : d.WF g) (k : Nat) (blk : Block)
    (h : d.read k = some blk) : blk.length = g.BLOCK_SIZE :=
  hd blk (Disk.read_lt d k blk h).2

theorem WF_of_read (g : Geometry) (d : Disk)
    (h : ∀ k blk, d.read k = some blk → blk.length = g.BLOCK_SIZE) : d.WF g := by
  intro blk hb
  obtain ⟨k, hk, rfl⟩ := List.getElem_of_mem hb
  apply h k
  unfold Disk.read
  exact List.getElem?_eq_getElem hk

/-- The state of a freshly formatted device: the superblock in block 0 and zero
blocks after it. -/
theorem format_fresh (g : Geometry) (hg : g.WF) (d d1 : Disk)
    (hfmt : format g d = some (true, d1)) (hn : 1 ≤ d.size) :
    d1.size = d.size ∧ d1.Mounts = d.Mounts ∧ d.mounted = false ∧ d1.WF g ∧
    d1.read 0 = some (formatSuperBlock g d.size) ∧
    ∀ k, 1 ≤ k → k < d.size → d1.read k = some (zeroBlock g) := by
  cases hm : d.mounted with
  | true =>
    rw [format_mounted g d hm] at hfmt
    cases hfmt
  | false =>
    obtain ⟨d', h1, h2, h3, h4, h5⟩ := format_spec g d hn hm
    rw [h1] at hfmt
    cases hfmt
    refine ⟨h2, h3, rfl, ?_, h4, h5⟩
    apply WF_of_read
    intro k blk hk
    have hlt := (Disk.read_lt d1 k blk hk).1
    by_cases hk0 : k = 0
    · subst hk0
      rw [h4] at hk
      cases hk
      exact (getSuper_formatSuperBlock g hg d.size).1
    · rw [h5 k (by omega) (by omega)] at hk
      cases hk
      exact length_zeroBlock g

theorem not_referenced_of_zero (g : Geometry) (d : Disk) (ib b : Nat)
    (hz : ∀ k, 1 ≤ k → k ≤ ib → d.read k = some (zeroBlock g)) :
    ¬ Referenced g d (ib * g.INODES_PER_BLOCK) b := by
  rintro ⟨_, inumber, x, hlt, hx, hv, _⟩
  obtain ⟨blk, hr, rfl⟩ := (inodeAt_some g d inumber x).mp hx
  have hi : inumber / g.INODES_PER_BLOCK < ib :=
    Nat.div_lt_of_lt_mul (by rwa [Nat.mul_comm] at hlt)
  rw [hz (inumber / g.INODES_PER_BLOCK + 1) (Nat.le_add_left 1 _) hi] at hr
  cases hr
  rw [getInode_zeroBlock] at hv
  exact hv rfl

/-- A freshly formatted device of at least two blocks whose counts fit the
superblock mounts, and the free map marks exactly block 0 and the inode blocks
used. -/
theorem mount_fresh (g : Geometry) (hg : g.WF) (d d1 : Disk)
    (hfmt : format g d = some (true, d1)) (h2 : 2 ≤ d.size) (hlt : d.size < 4294967296)
    (hI : ceilTenth d.size * g.INODES_PER_BLOCK < 4294967296) :
    ∃ fs, mount g FileSystem.fresh d1 = some (true, fs, d1.mount) ∧
      fs.disk = some d1.mount ∧ fs.numOfBlocks = d.size ∧
      fs.numOfInodeBlocks = ceilTenth d.size ∧
      fs.numOfInodes = ceilTenth d.size * g.INODES_PER_BLOCK ∧
      fs.freemap.length = d.size ∧
      ∀ b, (fs.freemap[b]? = some false ↔ b ≤ ceilTenth d.size) := by
  obtain ⟨s1, m1, _, w1, r0, rz⟩ := format_fresh g hg d d1 hfmt (by omega)
  have hib := inodeBlocksFor_eq d.size (by omega) (by omega)
  have hiblt := inodeBlocksFor_lt d.size h2 hlt
  have hct : ceilTenth d.size < 4294967296 := by unfold ceilTenth; omega
  obtain ⟨_, hsup⟩ := getSuper_formatSuperBlock g hg d.size
  rw [hib, Nat.mod_eq_of_lt hg.2.2.2.2.2.2, Nat.mod_eq_of_lt hlt, Nat.mod_eq_of_lt hct,
    Nat.mod_eq_of_lt hI] at hsup
  have hf : formatted g d1 (formatSuperBlock g d.size) = true := by
    rw [formatted_true, hsup, s1, hib]
    exact ⟨rfl, rfl, rfl, rfl⟩
  have hnr : ∀ b, ¬ Referenced g d1 (ceilTenth d.size * g.INODES_PER_BLOCK) b :=
    fun b => not_referenced_of_zero g d1 _ b (fun k hk1 hk2 => rz k hk1 (by omega))
  obtain ⟨fs, hmnt⟩ := mount_isSome g hg FileSystem.fresh d1 _ rfl r0 hf (by omega)
    (by
      intro b hb
      rw [hsup] at hb
      exact absurd hb (hnr b))
  obtain ⟨_, _, t3, _, t5, t6, t7, _, _, t10, t11⟩ := mount_true_spec g hg _ fs d1 _ hmnt
  rw [s1] at t5 t6 t7 t10
  rw [hib] at t6 t7
  refine ⟨fs, hmnt, t3, t5, t6, t7, t10, ?_⟩
  intro b
  rw [t11 b, t6, t7]
  constructor
  · rintro (hb | hb | hb)
    · omega
    · omega
    · exact absurd hb (hnr b)
  · intro hb
    by_cases hb0 : b = 0
    · exact Or.inl hb0
    · exact Or.inr (Or.inl (by omega))

/-! ### Sequences of calls keep the object mounted -/

theorem create_disk_isSome (g : Geometry) (fs fs' : FileSystem) (r : Int)
    (h : create g fs = some (r, fs')) : fs'.disk.isSome = true := by
  unfold create at h
  simp only [Option.bind_eq_bind, Option.bind_eq_some] at h
  obtain ⟨d, _, ⟨r', d'⟩, _, h⟩ := h
  cases h
  rfl

theorem remove_disk_isSome (g : Geometry) (fs fs' : FileSystem) (inumber : Nat) (r : Bool)
    (hfs : fs.disk.isSome = true) (h : remove g fs inumber = some (r, fs')) :
    fs'.disk.isSome = true := by
  unfold remove at h
  split at h
  · cases h; exact hfs
  · simp only [Option.bind_eq_bind, Option.bind_eq_some] at h
    obtain ⟨d, _, x, _, h⟩ := h
    cases x with
    | none => cases h; exact hfs
    | some inode =>
      simp only [Option.bind_eq_some] at h
      obtain ⟨fm, _, ⟨fm', inode'⟩, _, ⟨r', d'⟩, _, h⟩ := h
      cases h
      rfl

theorem writeRet_disk_isSome (g : Geometry) (fs fs' : FileSystem) (inumber offset : Nat)
    (st : WriteState) (r : Int) (h : writeRet g fs inumber offset st = some (r, fs')) :
    fs'.disk.isSome = true := by
  unfold writeRet at h
  simp only [Option.bind_eq_bind, Option.bind_eq_some] at h
  obtain ⟨d, _, ⟨r', d'⟩, _, h⟩ := h
  cases h
  rfl

theorem write_disk_isSome (g : Geometry) (fs fs' : FileSystem) (inumber : Nat)
    (data : List Byte) (length offset : Nat) (r : Int)
    (hfs : fs.disk.isSome = true) (h : write g fs inumber data length offset = some (r, fs')) :
    fs'.disk.isSome = true := by
  unfold write at h
  split at h
  · cases h
  · split at h
    · cases h; exact hfs
    · simp only [Option.bind_eq_bind, Option.bind_eq_some] at h
      obtain ⟨d, _, x, _, h⟩ := h
      cases x with
      | none => cases h; exact hfs
      | some inode =>
        simp only [Option.bind_eq_some] at h
        obtain ⟨⟨j, i, st⟩, _, h⟩ := h
        cases j with
        | true => exact writeRet_disk_isSome g fs fs' _ _ _ r h
        | false =>
          simp only [Option.bind_eq_some] at h
          obtain ⟨st', _, h⟩ := h
          exact writeRet_disk_isSome g fs fs' _ _ _ r h

theorem step_disk_isSome (g : Geometry) (fs fs' : FileSystem) (op : Op)
    (hfs : fs.disk.isSome = true) (h : step g fs op = some fs') : fs'.disk.isSome = true := by
  cases op with
  | create =>
    simp only [step, Option.map_eq_some'] at h
    obtain ⟨⟨r, fs1⟩, h, rfl⟩ := h
    exact create_disk_isSome g fs _ r h
  | write inumber data length offset =>
    simp only [step, Option.map_eq_some'] at h
    obtain ⟨⟨r, fs1⟩, h, rfl⟩ := h
    exact write_disk_isSome g fs _ _ _ _ _ r hfs h
  | remove inumber =>
    simp only [step, Option.map_eq_some'] at h
    obtain ⟨⟨r, fs1⟩, h, rfl⟩ := h
    exact remove_disk_isSome g fs _ _ r hfs h

theorem run_disk_isSome (g : Geometry) (ops : List Op) : ∀ (fs fs' : FileSystem),
    fs.disk.isSome = true → run g fs ops = some fs' → fs'.disk.isSome = true := by
  induction ops with
  | nil =>
    intro fs fs' hfs h
    cases h
    exact hfs
  | cons op ops ih =>
    intro fs fs' hfs h
    simp only [run, Option.bind_eq_some] at h
    obtain ⟨fs1, h1, h2⟩ := h
    exact ih fs1 fs' (step_disk_isSome g fs fs1 op hfs h1) h2

/-! ### Claims about `format` and `mount` -/

/-- C5 (as amended): on a device of `n ≥ 1` blocks `format` returns true exactly
when the device is not mounted.  When it returns true, block 0 holds the
superblock with `MagicNumber = MAGIC_NUMBER` and with `Blocks`, `InodeBlocks`
and `Inodes` equal to `n`, `ceil(n / 10)` and `ceil(n / 10) * INODES_PER_BLOCK`
reduced modulo `2^32` (the fields are `uint32_t`), and every block `1 .. n - 1`
is all zero bytes.  When it returns false the device is unchanged. -/
theorem format_contract (g : Geometry) (hg : g.WF) (d : Disk) (hn : 1 ≤ d.size)
    (h64 : d.size < 18446744073709551616) :
    ∃ r d', format g d = some (r, d') ∧ (r = true ↔ d.mounted = false) ∧
      (r = true →
        (∃ sb, d'.read 0 = some sb ∧
          getSuper sb =
            { MagicNumber := g.MAGIC_NUMBER, Blocks := d.size % 4294967296,
              InodeBlocks := ceilTenth d.size % 4294967296,
              Inodes := (ceilTenth d.size * g.INODES_PER_BLOCK) % 4294967296 }) ∧
        d'.size = d.size ∧ ∀ k, 1 ≤ k → k < d.size → d'.read k = some (zeroBlock g)) ∧
      (r = false → d' = d) := by
  cases hm : d.mounted with
  | true =>
    exact ⟨false, d, format_mounted g d hm, by simp, by simp, fun _ => rfl⟩
  | false =>
    obtain ⟨d', h1, h2, _, h4, h5⟩ := format_spec g d hn hm
    refine ⟨true, d', h1, by simp, fun _ => ⟨⟨_, h4, ?_⟩, h2, h5⟩, by simp⟩
    rw [(getSuper_formatSuperBlock g hg d.size).2, inodeBlocksFor_eq d.size hn h64,
      Nat.mod_eq_of_lt hg.2.2.2.2.2.2]

/-- C5, witness: a device of twenty blocks filled with the byte 7. -/
theorem format_contract_witness :
    stdGeometry.WF ∧ 1 ≤ (filledDisk stdGeometry 20 7).size ∧
    (filledDisk stdGeometry 20 7).size < 18446744073709551616 ∧
    ∃ r d', format stdGeometry (filledDisk stdGeometry 20 7) = some (r, d') ∧
      (r = true ↔ (filledDisk stdGeometry 20 7).mounted = false) ∧
      (r = true →
        (∃ sb, d'.read 0 = some sb ∧
          getSuper sb =
            { MagicNumber := stdGeometry.MAGIC_NUMBER,
              Blocks := (filledDisk stdGeometry 20 7).size % 4294967296,
              InodeBlocks := ceilTenth (filledDisk stdGeometry 20 7).size % 4294967296,
              Inodes := (ceilTenth (filledDisk stdGeometry 20 7).size
                * stdGeometry.INODES_PER_BLOCK) % 4294967296 }) ∧
        d'.size = (filledDisk stdGeometry 20 7).size ∧
        ∀ k, 1 ≤ k → k < (filledDisk stdGeometry 20 7).size →
          d'.read k = some (zeroBlock stdGeometry)) ∧
      (r = false → d' = filledDisk stdGeometry 20 7) :=
  ⟨by decide, by rw [size_filledDisk]; decide, by rw [size_filledDisk]; decide,
    format_contract stdGeometry (by decide) (filledDisk stdGeometry 20 7)
      (by rw [size_filledDisk]; decide) (by rw [size_filledDisk]; decide)⟩

/-- C5, counterexample: on an unmounted device of 335544311 blocks, with 128
inodes per block, `format` returns true and stores `Inodes = 0`, while
`InodeBlocks * INODES_PER_BLOCK` is `33554432 * 128 = 2^32`. -/
theorem format_inodes_field_wraps :
    ∃ d' sb, format stdGeometry (filledDisk stdGeometry 335544311 0) = some (true, d') ∧
      d'.read 0 = some sb ∧ (getSuper sb).InodeBlocks = ceilTenth 335544311 ∧
      (getSuper sb).Inodes = 0 ∧
      (getSuper sb).Inodes ≠ (getSuper sb).InodeBlocks * stdGeometry.INODES_PER_BLOCK := by
  obtain ⟨d', h1, _, _, h4, _⟩ := format_spec stdGeometry (filledDisk stdGeometry 335544311 0)
    (by rw [size_filledDisk]; decide) rfl
  rw [size_filledDisk] at h4
  have hs := (getSuper_formatSuperBlock stdGeometry (by decide) 335544311).2
  refine ⟨d', _, h1, h4, ?_, ?_, ?_⟩
  · rw [hs]; decide
  · rw [hs]; decide
  · rw [hs]; decide

/-- C4: on a device whose block 0 passes `formatted`, a successful `mount` on an
unmounted object builds a free map with one entry per block of the superblock
count, in which a block is marked used exactly when it is block 0, an inode
block, or a non-zero pointer held by a valid inode (a `Direct` entry, the
`Indirect` field, or an entry of the indirect block); every other block is
marked free.  Such a mount does succeed when the device has at least two
blocks and the pointers held by valid inodes are smaller than the block
count. -/
theorem mount_rebuilds_freemap (g : Geometry) (hg : g.WF) (fs : FileSystem) (d : Disk)
    (sb : Block) (hfs : fs.disk = none) (h0 : d.read 0 = some sb)
    (hf : formatted g d sb = true) :
    (∀ fs' d', mount g fs d = some (true, fs', d') →
      fs'.freemap.length = (getSuper sb).Blocks ∧
      ∀ b, b < (getSuper sb).Blocks →
        ((b = 0 ∨ (1 ≤ b ∧ b ≤ (getSuper sb).InodeBlocks) ∨
            Referenced g d (getSuper sb).Inodes b) → fs'.freemap[b]? = some false) ∧
        (¬ (b = 0 ∨ (1 ≤ b ∧ b ≤ (getSuper sb).InodeBlocks) ∨
            Referenced g d (getSuper sb).Inodes b) → fs'.freemap[b]? = some true)) ∧
    (2 ≤ d.size → (∀ b, Referenced g d (getSuper sb).Inodes b → b < (getSuper sb).Blocks) →
      ∃ fs', mount g fs d = some (true, fs', d.mount)) := by
  obtain ⟨_, f2, f3, f4⟩ := (formatted_true g d sb).mp hf
  constructor
  · intro fs' d' h
    obtain ⟨_, _, _, _, t5, t6, t7, _, _, t10, t11⟩ := mount_true_spec g hg fs fs' d d' h
    rw [f2, f4, ← t7, f3, ← t6]
    refine ⟨t10, fun b hb => ⟨(t11 b).mpr, fun hn => ?_⟩⟩
    have hne : fs'.freemap[b]? ≠ some false := fun hc => hn ((t11 b).mp hc)
    have hlt : b < fs'.freemap.length := by omega
    rw [List.getElem?_eq_getElem hlt] at hne ⊢
    cases hv : fs'.freemap[b] with
    | true => rfl
    | false => rw [hv] at hne; exact absurd rfl hne
  · intro h2 hr
    exact mount_isSome g hg fs d sb hfs h0 hf h2 (fun b hb => f2 ▸ hr b hb)

set_option maxRecDepth 100000 in
/-- C4, witness: the example image, whose inode 0 holds eight blocks. -/
theorem mount_rebuilds_freemap_witness :
    tinyGeometry.WF ∧ FileSystem.fresh.disk = none ∧
    exampleImage.read 0 = some (formatSuperBlock tinyGeometry 12) ∧
    formatted tinyGeometry exampleImage (formatSuperBlock tinyGeometry 12) = true ∧
    (mount tinyGeometry FileSystem.fresh exampleImage).map (fun r => (r.1, r.2.1.freemap))
      = some (true, [false, false, false, false, false, false, false, false, false, false,
          false, true]) ∧
    ((∀ fs' d', mount tinyGeometry FileSystem.fresh exampleImage = some (true, fs', d') →
      fs'.freemap.length = (getSuper (formatSuperBlock tinyGeometry 12)).Blocks ∧
      ∀ b, b < (getSuper (formatSuperBlock tinyGeometry 12)).Blocks →
        ((b = 0 ∨ (1 ≤ b ∧ b ≤ (getSuper (formatSuperBlock tinyGeometry 12)).InodeBlocks) ∨
            Referenced tinyGeometry exampleImage
              (getSuper (formatSuperBlock tinyGeometry 12)).Inodes b) →
          fs'.freemap[b]? = some false) ∧
        (¬ (b = 0 ∨ (1 ≤ b ∧ b ≤ (getSuper (formatSuperBlock tinyGeometry 12)).InodeBlocks) ∨
            Referenced tinyGeometry exampleImage
              (getSuper (formatSuperBlock tinyGeometry 12)).Inodes b) →
          fs'.freemap[b]? = some true)) ∧
    (2 ≤ exampleImage.size →
      (∀ b, Referenced tinyGeometry exampleImage
          (getSuper (formatSuperBlock tinyGeometry 12)).Inodes b →
        b < (getSuper (formatSuperBlock tinyGeometry 12)).Blocks) →
      ∃ fs', mount tinyGeometry FileSystem.fresh exampleImage
        = some (true, fs', exampleImage.mount))) :=
  ⟨by decide, rfl, by decide, by decide, by decide,
    mount_rebuilds_freemap tinyGeometry (by decide) FileSystem.fresh exampleImage
      (formatSuperBlock tinyGeometry 12) rfl (by decide) (by decide)⟩

/-- C6: once `mount` has returned true on a file system object, every later
`mount` on it (directly, or after any sequence of `create`, `write` and `remove`
calls, with any device) returns false and leaves the object (its recorded
counts and its free map) and the device passed unchanged. -/
theorem mount_twice_fails (g : Geometry) (fs fs1 : FileSystem) (d d1 : Disk)
    (h : mount g fs d = some (true, fs1, d1)) :
    ∀ (ops : List Op) (fs2 : FileSystem), run g fs1 ops = some fs2 →
      ∀ d2, mount g fs2 d2 = some (false, fs2, d2) := by
  have hd : fs1.disk.isSome = true := by
    unfold mount at h
    split at h
    · cases h
    · simp only [Option.bind_eq_bind, Option.bind_eq_some] at h
      obtain ⟨sb, _, h⟩ := h
      split at h
      · cases h
      · simp only [Option.bind_eq_some] at h
        obtain ⟨fm, _, fm', _, h⟩ := h
        cases h
        rfl
  intro ops fs2 hrun d2
  have hd2 := run_disk_isSome g ops fs1 fs2 hd hrun
  unfold mount
  rw [if_pos hd2]

/-- C6, witness: a device of twenty blocks, formatted and mounted. -/
theorem mount_twice_fails_witness :
    ∃ d1 fs1, format stdGeometry (filledDisk stdGeometry 20 7) = some (true, d1) ∧
      mount stdGeometry FileSystem.fresh d1 = some (true, fs1, d1.mount) ∧
      ∀ (ops : List Op) (fs2 : FileSystem), run stdGeometry fs1 ops = some fs2 →
        ∀ d2, mount stdGeometry fs2 d2 = some (false, fs2, d2) := by
  obtain ⟨d1, hf, _⟩ := format_spec stdGeometry (filledDisk stdGeometry 20 7)
    (by rw [size_filledDisk]; decide) rfl
  obtain ⟨fs1, hm, _⟩ := mount_fresh stdGeometry (by decide) _ d1 hf
    (by rw [size_filledDisk]; decide) (by rw [size_filledDisk]; decide)
    (by rw [size_filledDisk]; decide)
  exact ⟨d1, fs1, hf, hm, mount_twice_fails stdGeometry _ fs1 d1 _ hm⟩

/-! ### `create` -/

theorem createSlot_some (blk : Block) : ∀ (fuel j k : Nat), createSlot blk fuel j = some k →
    j ≤ k ∧ k < j + fuel ∧ (getInode blk k).Valid = 0 ∧
    ∀ k', j ≤ k' → k' < k → (getInode blk k').Valid ≠ 0 := by
  intro fuel
  induction fuel with
  | zero => intro j k h; cases h
  | succ fuel ih =>
    intro j k h
    unfold createSlot at h
    split at h
    · cases h
      rename_i hv
      exact ⟨Nat.le_refl _, by omega, hv, fun k' h1 h2 => by omega⟩
    · rename_i hv
      obtain ⟨h1, h2, h3, h4⟩ := ih (j + 1) k h
      refine ⟨by omega, by omega, h3, fun k' hk1 hk2 => ?_⟩
      by_cases hkj : k' = j
      · rw [hkj]; exact hv
      · exact h4 k' (by omega) hk2

theorem createSlot_none (blk : Block) : ∀ (fuel j : Nat), createSlot blk fuel j = none →
    ∀ k', j ≤ k' → k' < j + fuel → (getInode blk k').Valid ≠ 0 := by
  intro fuel
  induction fuel with
  | zero => intro j _ k' h1 h2; omega
  | succ fuel ih =>
    intro j h k' hk1 hk2
    unfold createSlot at h
    split at h
    · cases h
    · rename_i hv
      by_cases hkj : k' = j
      · rw [hkj]; exact hv
      · exact ih (j + 1) h k' (by omega) (by omega)

theorem initialize_inode_created (x : Inode) :
    initialize_inode { x with Valid := 1 } = Inode.created := rfl

theorem Inode.created_WF : Inode.created.WF := by
  refine ⟨by decide, by decide, rfl, ?_, by decide⟩
  intro p hp
  simp only [Inode.created, List.mem_cons, List.mem_singleton, List.not_mem_nil, or_false,
    or_self] at hp
  omega

/-- The scan of `create` from inode block `i`: either every slot it looks at is
valid and it returns `-1`, or it claims the first slot that is not. -/
theorem createBlocks_spec (g : Geometry) (d : Disk) : ∀ (fuel i : Nat), i + fuel < d.size →
    (createBlocks g d fuel i = some (-1, d) ∧
      ∀ i', i ≤ i' → i' < i + fuel → ∀ j, j < g.INODES_PER_BLOCK →
        ∃ blk, d.read (i' + 1) = some blk ∧ (getInode blk j).Valid ≠ 0) ∨
    (∃ i' j blk d', i ≤ i' ∧ i' < i + fuel ∧ j < g.INODES_PER_BLOCK ∧
      d.read (i' + 1) = some blk ∧ (getInode blk j).Valid = 0 ∧
      (∀ i'', i ≤ i'' → i'' < i' → ∀ j', j' < g.INODES_PER_BLOCK →
        ∃ blk', d.read (i'' + 1) = some blk' ∧ (getInode blk' j').Valid ≠ 0) ∧
      (∀ j', j' < j → (getInode blk j').Valid ≠ 0) ∧
      d.write (i' + 1) (putInode blk j Inode.created) = some d' ∧
      createBlocks g d fuel i = some (((i' * g.INODES_PER_BLOCK + j : Nat) : Int), d')) := by
  intro fuel
  induction fuel with
  | zero =>
    intro i _
    exact Or.inl ⟨rfl, fun i' h1 h2 => by omega⟩
  | succ fuel ih =>
    intro i hi
    obtain ⟨blk, hr, _⟩ := Disk.read_isSome d (i + 1) (by omega)
    cases hs : createSlot blk g.INODES_PER_BLOCK 0 with
    | none =>
      have hall := createSlot_none blk _ 0 hs
      have hcb : createBlocks g d (fuel + 1) i = createBlocks g d fuel (i + 1) := by
        simp only [createBlocks, hr, Option.bind_eq_bind, Option.some_bind, hs]
      rcases ih (i + 1) (by omega) with ⟨h1, h2⟩ | ⟨i', j, blk', d', h1, h2, h3, h4, h5, h6, h7, h8, h9⟩
      · left
        refine ⟨hcb.trans h1, fun i' hi1 hi2 j hj => ?_⟩
        by_cases hii : i' = i
        · rw [hii]
          exact ⟨blk, hr, hall j (Nat.zero_le _) (by omega)⟩
        · exact h2 i' (by omega) (by omega) j hj
      · right
        refine ⟨i', j, blk', d', by omega, by omega, h3, h4, h5, ?_, h7, h8, hcb.trans h9⟩
        intro i'' hi1 hi2 j' hj'
        by_cases hii : i'' = i
        · rw [hii]
          exact ⟨blk, hr, hall j' (Nat.zero_le _) (by omega)⟩
        · exact h6 i'' (by omega) hi2 j' hj'
    | some j =>
      obtain ⟨_, hj, hv, hbefore⟩ := createSlot_some blk _ 0 j hs
      obtain ⟨d', hw⟩ := Disk.write_isSome d (i + 1) (putInode blk j Inode.created) (by omega)
      right
      refine ⟨i, j, blk, d', Nat.le_refl _, by omega, by omega, hr, hv,
        fun i'' h1 h2 => by omega, fun j' hj' => hbefore j' (Nat.zero_le _) hj', hw, ?_⟩
      simp only [createBlocks, hr, Option.bind_eq_bind, Option.some_bind, hs,
        initialize_inode_created, hw]

theorem isValid_iff (g : Geometry) (d : Disk) (inumber : Nat) :
    IsValid g d inumber ↔ ∃ x, inodeAt g d inumber = some x ∧ x.Valid ≠ 0 := by
  unfold IsValid
  split
  · rename_i x hx
    simp [hx]
  · rename_i hx
    simp [hx]

theorem isValid_mul_add (g : Geometry) (d : Disk) (i j : Nat) (hj : j < g.INODES_PER_BLOCK) :
    IsValid g d (i * g.INODES_PER_BLOCK + j) ↔
      ∃ blk, d.read (i + 1) = some blk ∧ (getInode blk j).Valid ≠ 0 := by
  rw [isValid_iff, inodeAt_mul_add g d i j hj]
  simp only [Option.map_eq_some']
  constructor
  · rintro ⟨x, ⟨blk, hr, rfl⟩, hv⟩
    exact ⟨blk, hr, hv⟩
  · rintro ⟨blk, hr, hv⟩
    exact ⟨_, ⟨blk, hr, rfl⟩, hv⟩

theorem slot_lt (g : Geometry) (i n k : Nat) (hi : i < n)
    (hk : k < g.INODES_PER_BLOCK) : i * g.INODES_PER_BLOCK + k < n * g.INODES_PER_BLOCK := by
  calc i * g.INODES_PER_BLOCK + k < i * g.INODES_PER_BLOCK + g.INODES_PER_BLOCK := by omega
    _ = (i + 1) * g.INODES_PER_BLOCK := by ring
    _ ≤ n * g.INODES_PER_BLOCK := Nat.mul_le_mul_right _ (by omega)

theorem slot_bounds (g : Geometry) (hg : g.WF) (blk : Block) (hb : blk.length = g.BLOCK_SIZE)
    (j : Nat) (hj : j < g.INODES_PER_BLOCK) : j * INODE_SIZE + INODE_SIZE ≤ blk.length := by
  obtain ⟨_, _, h3, _⟩ := hg
  rw [hb]
  have : (j + 1) * INODE_SIZE ≤ g.INODES_PER_BLOCK * INODE_SIZE :=
    Nat.mul_le_mul_right _ (by omega)
  have h4 : (j + 1) * INODE_SIZE = j * INODE_SIZE + INODE_SIZE := by ring
  omega

/-- The inode table after an inode record has been stored in slot `j` of inode
block `i`. -/
theorem inodeAt_write_putInode (g : Geometry) (hg : g.WF) (d d' : Disk) (hwf : d.WF g)
    (i j : Nat) (blk : Block) (x : Inode) (hx : x.WF) (hj : j < g.INODES_PER_BLOCK)
    (hr : d.read (i + 1) = some blk) (hw : d.write (i + 1) (putInode blk j x) = some d') :
    inodeAt g d' (i * g.INODES_PER_BLOCK + j) = some x ∧
    (∀ k, k ≠ i * g.INODES_PER_BLOCK + j → inodeAt g d' k = inodeAt g d k) ∧
    (∀ b, b ≠ i + 1 → d'.read b = d.read b) ∧ d'.WF g ∧ d'.size = d.size := by
  have hbl := Disk.WF_read g d hwf _ _ hr
  have hsb := slot_bounds g hg blk hbl j hj
  have h0 : 0 < g.INODES_PER_BLOCK := hg.2.1
  refine ⟨?_, ?_, fun b hb => Disk.read_write_other d d' _ b _ hw hb, ?_,
    Disk.size_write d d' _ _ hw⟩
  · rw [inodeAt_mul_add g d' i j hj, Disk.read_write_same d d' _ _ hw, Option.map_some',
      getInode_putInode_same blk j x hx hsb]
  · intro k hk
    unfold inodeAt
    by_cases hki : k / g.INODES_PER_BLOCK = i
    · have hkj : k % g.INODES_PER_BLOCK ≠ j := by
        intro hc
        apply hk
        rw [← Nat.div_add_mod' k g.INODES_PER_BLOCK, hki, hc]
      rw [hki, Disk.read_write_same d d' _ _ hw, hr, Option.map_some', Option.map_some',
        getInode_putInode_other blk j _ x hkj hsb]
    · rw [Disk.read_write_other d d' _ _ _ hw (by omega)]
  · exact Disk.WF_write g d d' _ _ hwf (by rw [length_putInode blk j x hsb]; exact hbl) hw

set_option maxRecDepth 100000 in
theorem exampleFS_mounted : Mounted tinyGeometry exampleFS (diskOf exampleFS) :=
  ⟨by decide, by decide, by decide, by decide, by decide, by decide, by decide⟩

set_option maxRecDepth 100000 in
theorem fullTableFS_mounted : Mounted tinyGeometry fullTableFS (diskOf fullTableFS) :=
  ⟨by decide, by decide, by decide, by decide, by decide, by decide, by decide⟩

/-- The scan of `create` on a mounted file system whose lowest invalid inode slot
is `k`: it claims slot `k` and leaves a mounted file system. -/
theorem create_lowest (g : Geometry) (hg : g.WF) (fs : FileSystem) (d : Disk)
    (hm : Mounted g fs d) (k : Nat) (hk : k < fs.numOfInodes) (hfree : ¬ IsValid g d k)
    (hmin : ∀ k', k' < k → IsValid g d k') :
    ∃ d', create g fs = some ((k : Int), { fs with disk := some d' }) ∧
      inodeAt g d' k = some Inode.created ∧
      (∀ k', k' ≠ k → inodeAt g d' k' = inodeAt g d k') ∧
      (∀ b, b ≠ k / g.INODES_PER_BLOCK + 1 → d'.read b = d.read b) ∧
      Mounted g { fs with disk := some d' } d' := by
  have h0 : 0 < g.INODES_PER_BLOCK := hg.2.1
  have hcr : ∀ r d', createBlocks g d fs.numOfInodeBlocks 0 = some (r, d') →
      create g fs = some (r, { fs with disk := some d' }) := by
    intro r d' h
    simp only [create, hm.disk, Option.bind_eq_bind, Option.some_bind, h]
  have hlt : 0 + fs.numOfInodeBlocks < d.size := by
    have := hm.inodeBlocks
    rw [hm.blocks] at this
    omega
  rw [hm.inodes] at hk
  rcases createBlocks_spec g d fs.numOfInodeBlocks 0 hlt with
    ⟨_, hall⟩ | ⟨i, j, blk, d', _, hi, hj, hr, hv, hb1, hb2, hw, hc⟩
  · exfalso
    apply hfree
    rw [← Nat.div_add_mod' k g.INODES_PER_BLOCK]
    rw [isValid_mul_add g d _ _ (Nat.mod_lt _ h0)]
    exact hall _ (Nat.zero_le _)
      (by rw [Nat.zero_add]; exact Nat.div_lt_of_lt_mul (by rwa [Nat.mul_comm] at hk)) _
      (Nat.mod_lt _ h0)
  · have hk0 : ¬ IsValid g d (i * g.INODES_PER_BLOCK + j) := by
      rw [isValid_mul_add g d i j hj]
      rintro ⟨blk', hr', hv'⟩
      rw [hr] at hr'
      cases hr'
      exact hv' hv
    have hbelow : ∀ k', k' < i * g.INODES_PER_BLOCK + j → IsValid g d k' := by
      intro k' hk'
      rw [← Nat.div_add_mod' k' g.INODES_PER_BLOCK]
      rw [isValid_mul_add g d _ _ (Nat.mod_lt _ h0)]
      have hdm := Nat.div_add_mod' k' g.INODES_PER_BLOCK
      have hml := Nat.mod_lt k' h0
      have hle : k' / g.INODES_PER_BLOCK ≤ i := by
        by_contra hc
        have : (i + 1) * g.INODES_PER_BLOCK ≤ k' / g.INODES_PER_BLOCK * g.INODES_PER_BLOCK :=
          Nat.mul_le_mul_right _ (by omega)
        have h4 : (i + 1) * g.INODES_PER_BLOCK = i * g.INODES_PER_BLOCK + g.INODES_PER_BLOCK := by
          ring
        omega
      rcases Nat.lt_or_eq_of_le hle with hlt' | heq
      · exact hb1 _ (Nat.zero_le _) hlt' _ hml
      · refine ⟨blk, by rw [heq]; exact hr, hb2 _ ?_⟩
        rw [heq] at hdm
        omega
    have hkeq : i * g.INODES_PER_BLOCK + j = k := by
      rcases Nat.lt_trichotomy (i * g.INODES_PER_BLOCK + j) k with h | h | h
      · exact absurd (hmin _ h) hk0
      · exact h
      · exact absurd (hbelow _ h) hfree
    obtain ⟨a1, a2, a3, a4, a5⟩ := inodeAt_write_putInode g hg d d' hm.wf i j blk Inode.created
      Inode.created_WF hj hr hw
    rw [hkeq] at a1 a2 hc
    have hki : k / g.INODES_PER_BLOCK = i := by
      rw [← hkeq, Nat.add_comm, Nat.add_mul_div_right _ _ h0, Nat.div_eq_of_lt hj, Nat.zero_add]
    refine ⟨d', hcr _ _ hc, a1, a2, ?_,
      ⟨rfl, a4, hm.blocks.trans a5.symm, hm.inodeBlocks, hm.inodes, hm.freemap, hm.small⟩⟩
    rw [hki]
    exact a3

/-- C7: on a mounted file system whose lowest invalid inode slot is `k`, `create`
returns `k`; afterwards slot `k` on the device holds `Valid = 1`, `Size = 0`,
five zero `Direct` pointers and `Indirect = 0`, every other inode slot and
every block outside the inode block of `k` are unchanged, and so are the free
map and the recorded counts. -/
theorem create_claims_lowest (g : Geometry) (hg : g.WF) (fs : FileSystem) (d : Disk)
    (hm : Mounted g fs d) (k : Nat) (hk : k < fs.numOfInodes) (hfree : ¬ IsValid g d k)
    (hmin : ∀ k', k' < k → IsValid g d k') :
    ∃ d', create g fs = some ((k : Int), { fs with disk := some d' }) ∧
      inodeAt g d' k = some Inode.created ∧
      (∀ k', k' ≠ k → inodeAt g d' k' = inodeAt g d k') ∧
      (∀ b, b ≠ k / g.INODES_PER_BLOCK + 1 → d'.read b = d.read b) := by
  obtain ⟨d', h1, h2, h3, h4, _⟩ := create_lowest g hg fs d hm k hk hfree hmin
  exact ⟨d', h1, h2, h3, h4⟩

/-- C8: on a mounted file system all of whose `numOfInodes` slots are valid,
`create` returns `-1` and leaves the object, its free map and every block of the
device unchanged. -/
theorem create_full_table (g : Geometry) (fs : FileSystem) (d : Disk)
    (hm : Mounted g fs d) (hfull : ∀ k, k < fs.numOfInodes → IsValid g d k) :
    create g fs = some (-1, fs) := by
  have hlt : 0 + fs.numOfInodeBlocks < d.size := by
    have := hm.inodeBlocks
    rw [hm.blocks] at this
    omega
  rcases createBlocks_spec g d fs.numOfInodeBlocks 0 hlt with
    ⟨hc, _⟩ | ⟨i, j, blk, d', _, hi, hj, hr, hv, _, _, _, _⟩
  · simp only [create, hm.disk, Option.bind_eq_bind, Option.some_bind, hc]
    rw [← hm.disk]
  · exfalso
    have := hfull (i * g.INODES_PER_BLOCK + j)
      (by rw [hm.inodes]; exact slot_lt g i _ j (by omega) hj)
    rw [isValid_mul_add g d i j hj] at this
    obtain ⟨blk', hr', hv'⟩ := this
    rw [hr] at hr'
    cases hr'
    exact hv' hv

set_option maxRecDepth 100000 in
/-- C7, witness: the mounted example image, whose inode 0 is in use. -/
theorem create_claims_lowest_witness :
    tinyGeometry.WF ∧ Mounted tinyGeometry exampleFS (diskOf exampleFS) ∧
    1 < exampleFS.numOfInodes ∧ ¬ IsValid tinyGeometry (diskOf exampleFS) 1 ∧
    (∀ k', k' < 1 → IsValid tinyGeometry (diskOf exampleFS) k') ∧
    ∃ d', create tinyGeometry exampleFS = some (((1 : Nat) : Int), { exampleFS with disk := some d' }) ∧
      inodeAt tinyGeometry d' 1 = some Inode.created ∧
      (∀ k', k' ≠ 1 → inodeAt tinyGeometry d' k' = inodeAt tinyGeometry (diskOf exampleFS) k') ∧
      (∀ b, b ≠ 1 / tinyGeometry.INODES_PER_BLOCK + 1 → d'.read b = (diskOf exampleFS).read b) :=
  ⟨by decide, exampleFS_mounted, by decide, by decide, by decide,
    create_claims_lowest tinyGeometry (by decide) exampleFS (diskOf exampleFS)
      exampleFS_mounted 1
      (by decide) (by decide) (by decide)⟩

set_option maxRecDepth 100000 in
/-- C8, witness: a mounted file system with all four inodes in use. -/
theorem create_full_table_witness :
    Mounted tinyGeometry fullTableFS (diskOf fullTableFS) ∧
    (∀ k, k < fullTableFS.numOfInodes → IsValid tinyGeometry (diskOf fullTableFS) k) ∧
    create tinyGeometry fullTableFS = some (-1, fullTableFS) :=
  ⟨fullTableFS_mounted, by decide,
    create_full_table tinyGeometry fullTableFS (diskOf fullTableFS)
      fullTableFS_mounted
      (by decide)⟩

/-! ### `remove` -/

theorem load_inode_eq (g : Geometry) (d : Disk) (inumber : Nat) (x : Inode)
    (hx : inodeAt g d inumber = some x) :
    load_inode g d inumber = some (if x.Valid = 0 then none else some x) := by
  obtain ⟨blk, hr, rfl⟩ := (inodeAt_some g d inumber x).mp hx
  simp only [load_inode, hr, Option.bind_eq_bind, Option.some_bind]
  split <;> rfl

theorem inodeAt_isSome (g : Geometry) (fs : FileSystem) (d : Disk)
    (hm : Mounted g fs d) (inumber : Nat) (hi : inumber < fs.numOfInodes) :
    ∃ x, inodeAt g d inumber = some x ∧ x.WF := by
  have hlt : inumber / g.INODES_PER_BLOCK < fs.numOfInodeBlocks := by
    apply Nat.div_lt_of_lt_mul
    rw [Nat.mul_comm, ← hm.inodes]
    exact hi
  have hb := hm.inodeBlocks
  rw [hm.blocks] at hb
  obtain ⟨blk, hr, _⟩ := Disk.read_isSome d (inumber / g.INODES_PER_BLOCK + 1) (by omega)
  exact ⟨_, (inodeAt_some g d inumber _).mpr ⟨blk, hr, rfl⟩, getInode_WF _ _⟩

/-- Storing an inode record over a valid one. -/
theorem save_inode_valid (g : Geometry) (hg : g.WF) (d : Disk) (hwf : d.WF g) (inumber : Nat)
    (x0 x : Inode) (hx0 : inodeAt g d inumber = some x0) (hv : x0.Valid ≠ 0) (hx : x.WF) :
    ∃ d', save_inode g d inumber x = some (true, d') ∧ inodeAt g d' inumber = some x ∧
      (∀ k, k ≠ inumber → inodeAt g d' k = inodeAt g d k) ∧
      (∀ b, b ≠ inumber / g.INODES_PER_BLOCK + 1 → d'.read b = d.read b) ∧
      d'.WF g ∧ d'.size = d.size := by
  have h0 : 0 < g.INODES_PER_BLOCK := hg.2.1
  obtain ⟨blk, hr, rfl⟩ := (inodeAt_some g d inumber x0).mp hx0
  have hlt := (Disk.read_lt d _ blk hr).1
  obtain ⟨d', hw⟩ := Disk.write_isSome d (inumber / g.INODES_PER_BLOCK + 1)
    (putInode blk (inumber % g.INODES_PER_BLOCK) x) hlt
  obtain ⟨a1, a2, a3, a4, a5⟩ := inodeAt_write_putInode g hg d d' hwf
    (inumber / g.INODES_PER_BLOCK) (inumber % g.INODES_PER_BLOCK) blk x hx (Nat.mod_lt _ h0) hr hw
  rw [Nat.div_add_mod'] at a1 a2
  refine ⟨d', ?_, a1, a2, a3, a4, a5⟩
  simp only [save_inode, hr, Option.bind_eq_bind, Option.some_bind, if_neg hv, hw]

theorem Inode.cleared_WF : Inode.cleared.WF := by
  refine ⟨by decide, by decide, rfl, ?_, by decide⟩
  intro p hp
  simp only [Inode.cleared, List.mem_cons, List.mem_singleton, List.not_mem_nil, or_false,
    or_self] at hp
  omega

theorem mem_indirectPointers (g : Geometry) (d : Disk) (x : Inode) (b : Nat) :
    b ∈ indirectPointers g d x ↔
      x.Indirect ≠ 0 ∧ ∃ blk, d.read x.Indirect = some blk ∧ b ∈ pointersOf g blk := by
  unfold indirectPointers
  split
  · rename_i h
    simp [h]
  · rename_i h
    split
    · rename_i blk hr
      simp [h, hr]
    · rename_i hr
      simp [hr]

/-- The run of `remove` on a valid inode whose pointers lie inside the free map:
it returns true, clears the slot, and sets free exactly the non-zero `Direct`
pointers, the non-zero entries of the indirect block and, when `Indirect` is
set, entry 0 of the free map. -/
theorem remove_valid (g : Geometry) (hg : g.WF) (fs : FileSystem) (d : Disk)
    (hm : Mounted g fs d) (i : Nat) (hi : i < fs.numOfInodes) (x : Inode)
    (hx : inodeAt g d i = some x) (hv : x.Valid ≠ 0)
    (hrange : PointersBelow g d fs.numOfBlocks i) :
    ∃ fm d', remove g fs i = some (true, { fs with disk := some d', freemap := fm }) ∧
      inodeAt g d' i = some Inode.cleared ∧
      (∀ k, k ≠ i → inodeAt g d' k = inodeAt g d k) ∧
      (∀ b, b ≠ i / g.INODES_PER_BLOCK + 1 → d'.read b = d.read b) ∧
      d'.WF g ∧ d'.size = d.size ∧ fm.length = fs.freemap.length ∧
      (∀ b, fm[b]? = some true ↔ (fs.freemap[b]? = some true ∨ (b ≠ 0 ∧ b ∈ x.Direct) ∨
        (b ≠ 0 ∧ b ∈ indirectPointers g d x) ∨ (x.Indirect ≠ 0 ∧ b = 0))) ∧
      (∀ b, ¬ ((b ≠ 0 ∧ b ∈ x.Direct) ∨ (b ≠ 0 ∧ b ∈ indirectPointers g d x) ∨
        (x.Indirect ≠ 0 ∧ b = 0)) → fm[b]? = fs.freemap[b]?) := by
  unfold PointersBelow at hrange
  rw [hx] at hrange
  obtain ⟨r1, r2, r3⟩ := hrange
  have hfl := hm.freemap
  have hnb : 0 < fs.numOfBlocks := by have := hm.inodeBlocks; omega
  obtain ⟨fm1, h1⟩ := markPointers_isSome true x.Direct fs.freemap
    (fun p hp _ => by rw [hfl]; exact r1 p hp)
  obtain ⟨l1, _, c1, n1⟩ := markPointers_some true _ _ _ h1
  obtain ⟨d', hs, a1, a2, a3, a4, a5⟩ := save_inode_valid g hg d hm.wf i x Inode.cleared hx hv
    Inode.cleared_WF
  have hload := load_inode_eq g d i x hx
  rw [if_neg hv] at hload
  by_cases hind : x.Indirect = 0
  · refine ⟨fm1, d', ?_, a1, a2, a3, a4, a5, l1, ?_, ?_⟩
    · unfold remove
      rw [if_neg (by omega)]
      simp only [hm.disk, Option.bind_eq_bind, Option.some_bind, hload, h1, removeIndirect,
        hind, ne_eq, not_true_eq_false, if_false]
      show (save_inode g d i Inode.cleared).bind _ = _
      rw [hs]
      rfl
    · intro b
      rw [c1 b]
      have he : ¬ b ∈ indirectPointers g d x := by
        rw [mem_indirectPointers]
        exact fun h => h.1 hind
      constructor
      · rintro (h | h)
        · exact Or.inl h
        · exact Or.inr (Or.inl h)
      · rintro (h | h | h | h)
        · exact Or.inl h
        · exact Or.inr h
        · exact absurd h.2 he
        · exact absurd hind h.1
    · intro b hb
      exact n1 b (fun h => hb (Or.inl h))
  · have hilt : x.Indirect < d.size := by rw [← hm.blocks]; exact r2
    obtain ⟨blk, hrd, _⟩ := Disk.read_isSome d x.Indirect hilt
    have hip : indirectPointers g d x = pointersOf g blk := by
      unfold indirectPointers
      rw [if_neg hind, hrd]
    rw [hip] at r3
    obtain ⟨fm2, h2⟩ := markPointers_isSome true (pointersOf g blk) fm1
      (fun p hp _ => by rw [l1, hfl]; exact r3 p hp)
    obtain ⟨l2, _, c2, n2⟩ := markPointers_some true _ _ _ h2
    have h3 : setFree fm2 0 true = some (fm2.set 0 true) :=
      (setFree_some _ _ _ _).mpr ⟨by omega, rfl⟩
    obtain ⟨l3, _, c3, n3⟩ := setFree_spec _ _ _ _ h3
    refine ⟨fm2.set 0 true, d', ?_, a1, a2, a3, a4, a5, by omega, ?_, ?_⟩
    · unfold remove
      rw [if_neg (by omega)]
      simp only [hm.disk, Option.bind_eq_bind, Option.some_bind, hload, h1, removeIndirect,
        ne_eq, hind, not_false_eq_true, if_true, hrd, h2, h3]
      show (save_inode g d i Inode.cleared).bind _ = _
      rw [hs]
      rfl
    · intro b
      rw [c3 b, c2 b, c1 b, hip]
      constructor
      · rintro (((h | h) | h) | h)
        · exact Or.inl h
        · exact Or.inr (Or.inl h)
        · exact Or.inr (Or.inr (Or.inl h))
        · exact Or.inr (Or.inr (Or.inr ⟨hind, h⟩))
      · rintro (h | h | h | h)
        · exact Or.inl (Or.inl (Or.inl h))
        · exact Or.inl (Or.inl (Or.inr h))
        · exact Or.inl (Or.inr h)
        · exact Or.inr h.2
    · intro b hb
      rw [hip] at hb
      have hb0 : b ≠ 0 := fun h => hb (Or.inr (Or.inr ⟨hind, h⟩))
      rw [n3 b hb0, n2 b (fun h => hb (Or.inr (Or.inl h))), n1 b (fun h => hb (Or.inl h))]

theorem getElem?_bool_of_ne {fm : List Bool} {b : Nat} (hb : b < fm.length) (v : Bool)
    (h : fm[b]? ≠ some v) : fm[b]? = some (!v) := by
  rw [List.getElem?_eq_getElem hb] at h ⊢
  cases hv : fm[b] <;> cases v <;> simp_all

/-- C9: on a mounted file system whose inode `i` holds only pointers below the
block count, `remove(i)` returns false and changes nothing exactly when `i` is
out of range or inode `i` is not valid; otherwise it returns true, the slot of
`i` on the device afterwards holds `Valid = 0`, `Size = 0`, five zero `Direct`
pointers and `Indirect = 0`, every block that was a non-zero `Direct` pointer of
the inode or a non-zero entry of its indirect block is marked free, and a second
`remove(i)` returns false. -/
theorem remove_contract (g : Geometry) (hg : g.WF) (fs : FileSystem) (d : Disk)
    (hm : Mounted g fs d) (i : Nat) (hrange : PointersBelow g d fs.numOfBlocks i) :
    (¬ (i < fs.numOfInodes ∧ IsValid g d i) → remove g fs i = some (false, fs)) ∧
    (i < fs.numOfInodes → IsValid g d i →
      ∃ fs' d' x, remove g fs i = some (true, fs') ∧ inodeAt g d i = some x ∧
        fs'.disk = some d' ∧ inodeAt g d' i = some Inode.cleared ∧
        (∀ b, b ≠ 0 → (b ∈ x.Direct ∨ b ∈ indirectPointers g d x) →
          fs'.freemap[b]? = some true) ∧
        remove g fs' i = some (false, fs')) := by
  constructor
  · intro hn
    by_cases hi : i < fs.numOfInodes
    · obtain ⟨x, hx, _⟩ := inodeAt_isSome g fs d hm i hi
      have hv : x.Valid = 0 := by
        by_contra hv
        exact hn ⟨hi, (isValid_iff g d i).mpr ⟨x, hx, hv⟩⟩
      have hload := load_inode_eq g d i x hx
      rw [if_pos hv] at hload
      unfold remove
      rw [if_neg (by omega)]
      simp only [hm.disk, Option.bind_eq_bind, Option.some_bind, hload]
    · unfold remove
      rw [if_pos (by omega)]
  · intro hi hv
    obtain ⟨x, hx, hxv⟩ := (isValid_iff g d i).mp hv
    obtain ⟨fm, d', h1, h2, _, _, _, _, _, h8, _⟩ :=
      remove_valid g hg fs d hm i hi x hx hxv hrange
    refine ⟨_, d', x, h1, hx, rfl, h2, ?_, ?_⟩
    · intro b hb0 hb
      show fm[b]? = some true
      rw [h8 b]
      rcases hb with hb | hb
      · exact Or.inr (Or.inl ⟨hb0, hb⟩)
      · exact Or.inr (Or.inr (Or.inl ⟨hb0, hb⟩))
    · have hload : load_inode g d' i = some none := load_inode_eq g d' i _ h2
      unfold remove
      rw [if_neg (by show ¬ i ≥ fs.numOfInodes; omega)]
      simp only [Option.bind_eq_bind, Option.some_bind, hload]

set_option maxRecDepth 100000 in
/-- C9, witness: inode 0 of the mounted example image, which holds five direct
blocks and an indirect block with two entries. -/
theorem remove_contract_witness :
    tinyGeometry.WF ∧ Mounted tinyGeometry exampleFS (diskOf exampleFS) ∧
    PointersBelow tinyGeometry (diskOf exampleFS) exampleFS.numOfBlocks 0 ∧
    0 < exampleFS.numOfInodes ∧ IsValid tinyGeometry (diskOf exampleFS) 0 ∧
    ((¬ (0 < exampleFS.numOfInodes ∧ IsValid tinyGeometry (diskOf exampleFS) 0) →
        remove tinyGeometry exampleFS 0 = some (false, exampleFS)) ∧
    (0 < exampleFS.numOfInodes → IsValid tinyGeometry (diskOf exampleFS) 0 →
      ∃ fs' d' x, remove tinyGeometry exampleFS 0 = some (true, fs') ∧
        inodeAt tinyGeometry (diskOf exampleFS) 0 = some x ∧
        fs'.disk = some d' ∧ inodeAt tinyGeometry d' 0 = some Inode.cleared ∧
        (∀ b, b ≠ 0 → (b ∈ x.Direct ∨ b ∈ indirectPointers tinyGeometry (diskOf exampleFS) x) →
          fs'.freemap[b]? = some true) ∧
        remove tinyGeometry fs' 0 = some (false, fs'))) :=
  ⟨by decide, exampleFS_mounted, by decide, by decide, by decide,
    remove_contract tinyGeometry (by decide) exampleFS (diskOf exampleFS) exampleFS_mounted 0
      (by decide)⟩

/-- C10, what the code does: on a mounted file system, for a valid inode `i`
whose `Indirect` pointer is a block `k ≠ 0` that is marked used and is not one
of the inode's own data pointers, `remove(i)` returns true and afterwards the
free map still marks block `k` used, while it marks block 0 free: the statement
`freemap[inode.Indirect] = true` runs after `inode.Indirect = 0`. -/
theorem remove_keeps_indirect_block (g : Geometry) (hg : g.WF) (fs : FileSystem) (d : Disk)
    (hm : Mounted g fs d) (i : Nat) (hi : i < fs.numOfInodes) (x : Inode)
    (hx : inodeAt g d i = some x) (hv : x.Valid ≠ 0)
    (hrange : PointersBelow g d fs.numOfBlocks i) (hk : x.Indirect ≠ 0)
    (hown : x.Indirect ∉ x.Direct ∧ x.Indirect ∉ indirectPointers g d x)
    (hused : fs.freemap[x.Indirect]? = some false) :
    ∃ fs', remove g fs i = some (true, fs') ∧ fs'.freemap[x.Indirect]? = some false ∧
      fs'.freemap[0]? = some true := by
  obtain ⟨fm, d', h1, _, _, _, _, _, _, h8, h9⟩ := remove_valid g hg fs d hm i hi x hx hv hrange
  refine ⟨_, h1, ?_, ?_⟩
  · show fm[x.Indirect]? = some false
    rw [h9 x.Indirect, hused]
    rintro (h | h | h)
    · exact hown.1 h.2
    · exact hown.2 h.2
    · exact hk h.2
  · show fm[0]? = some true
    rw [h8 0]
    exact Or.inr (Or.inr (Or.inr ⟨hk, rfl⟩))

set_option maxRecDepth 100000 in
/-- C10, witness: inode 0 of the mounted example image; its indirect block is
block 8. -/
theorem remove_keeps_indirect_block_witness :
    (inodeAt tinyGeometry (diskOf exampleFS) 0).map Inode.Indirect = some 8 ∧
    exampleFS.freemap[8]? = some false ∧
    ∃ fs', remove tinyGeometry exampleFS 0 = some (true, fs') ∧
      fs'.freemap[8]? = some false ∧ fs'.freemap[0]? = some true :=
  ⟨by decide, by decide,
    remove_keeps_indirect_block tinyGeometry (by decide) exampleFS (diskOf exampleFS)
      exampleFS_mounted 0 (by decide)
      { Valid := 1, Size := 400, Direct := [3, 4, 5, 6, 7], Indirect := 8 }
      (by decide) (by decide) (by decide) (by decide) (by decide) (by decide)⟩

/-! ### `find_free_block` and the allocation of one block -/

theorem findFree_spec (fm : List Bool) : ∀ (fuel i : Nat), i + fuel ≤ fm.length →
    ∃ r, findFree fm fuel i = some r ∧
      ((r = 0 ∧ ((∀ k, i ≤ k → k < i + fuel → fm[k]? = some false) ∨
          (i = 0 ∧ 0 < fuel ∧ fm[0]? = some true))) ∨
       (r ≠ 0 ∧ i ≤ r ∧ r < i + fuel ∧ fm[r]? = some true ∧
          ∀ k, i ≤ k → k < r → fm[k]? = some false)) := by
  intro fuel
  induction fuel with
  | zero =>
    intro i _
    exact ⟨0, rfl, Or.inl ⟨rfl, Or.inl (fun k h1 h2 => by omega)⟩⟩
  | succ fuel ih =>
    intro i hi
    have hlt : i < fm.length := by omega
    have hget : fm[i]? = some fm[i] := List.getElem?_eq_getElem hlt
    cases hv : fm[i] with
    | true =>
      rw [hv] at hget
      refine ⟨i, by simp only [findFree, hget, Option.bind_eq_bind, Option.some_bind, if_true], ?_⟩
      by_cases h0 : i = 0
      · exact Or.inl ⟨h0, Or.inr ⟨h0, by omega, h0 ▸ hget⟩⟩
      · exact Or.inr ⟨h0, Nat.le_refl _, by omega, hget, fun k h1 h2 => by omega⟩
    | false =>
      rw [hv] at hget
      obtain ⟨r, hr, hspec⟩ := ih (i + 1) (by omega)
      refine ⟨r, ?_, ?_⟩
      · simp only [findFree, hget, Option.bind_eq_bind, Option.some_bind, Bool.false_eq_true,
          if_false]
        exact hr
      · have hprev : ∀ k, i ≤ k → k < i + 1 → fm[k]? = some false := by
          intro k h1 h2
          have : k = i := by omega
          rw [this]; exact hget
        rcases hspec with ⟨h0, hall | ⟨hc, _⟩⟩ | ⟨h0, h1, h2, h3, h4⟩
        · refine Or.inl ⟨h0, Or.inl (fun k h1 h2 => ?_)⟩
          by_cases hk : k = i
          · rw [hk]; exact hget
          · exact hall k (by omega) (by omega)
        · omega
        · refine Or.inr ⟨h0, by omega, by omega, h3, fun k hk1 hk2 => ?_⟩
          by_cases hk : k = i
          · rw [hk]; exact hget
          · exact h4 k (by omega) hk2

/-- The value of `find_free_block()`: the lowest block marked free, unless that
is block 0 or no block is free, when it is 0. -/
theorem find_free_block_spec (nb : Nat) (fm : List Bool) (hlen : fm.length = nb) :
    ∃ r, find_free_block nb fm = some r ∧ r < nb + 1 ∧
      ((r = 0 ∧ ((∀ k, k < nb → fm[k]? = some false) ∨ fm[0]? = some true)) ∨
       (r ≠ 0 ∧ r < nb ∧ fm[r]? = some true ∧ ∀ k, k < r → fm[k]? = some false)) := by
  obtain ⟨r, hr, hspec⟩ := findFree_spec fm nb 0 (by omega)
  refine ⟨r, hr, ?_, ?_⟩
  · rcases hspec with ⟨h0, _⟩ | ⟨_, _, h2, _⟩ <;> omega
  · rcases hspec with ⟨h0, hall | ⟨_, _, hc⟩⟩ | ⟨h0, _, h2, h3, h4⟩
    · exact Or.inl ⟨h0, Or.inl (fun k hk => hall k (Nat.zero_le _) (by omega))⟩
    · exact Or.inl ⟨h0, Or.inr hc⟩
    · exact Or.inr ⟨h0, by omega, h3, fun k hk => h4 k (Nat.zero_le _) hk⟩

/-- The choice of a block for an empty pointer slot. -/
theorem chooseBlock_zero (nb : Nat) (fm : List Bool) (hlen : fm.length = nb)
    (hnb : nb < 4294967296) :
    (chooseBlock nb fm 0 = some none ∧
      ((∀ k, k < nb → fm[k]? = some false) ∨ fm[0]? = some true)) ∨
    (∃ f, chooseBlock nb fm 0 = some (some f) ∧ f ≠ 0 ∧ f < nb ∧ fm[f]? = some true ∧
      (∀ k, k < f → fm[k]? = some false) ∧ find_free_block nb fm = some f) := by
  obtain ⟨r, hr, _, hspec⟩ := find_free_block_spec nb fm hlen
  rcases hspec with ⟨h0, hc⟩ | ⟨h0, h1, h2, h3⟩
  · left
    refine ⟨?_, hc⟩
    simp only [chooseBlock, if_true, hr, Option.bind_eq_bind, Option.some_bind, h0,
      Nat.zero_mod]
  · right
    have hmod : r % 4294967296 = r := Nat.mod_eq_of_lt (by omega)
    refine ⟨r, ?_, h0, h1, h2, h3, hr⟩
    simp only [chooseBlock, if_true, hr, Option.bind_eq_bind, Option.some_bind, hmod, if_neg h0]

theorem chooseBlock_set (nb : Nat) (fm : List Bool) (cur : Nat) (hcur : cur ≠ 0) :
    chooseBlock nb fm cur = some (some cur) := by
  simp only [chooseBlock, if_neg hcur]

/-- The function `write_data` on a block inside the device. -/
theorem write_data_spec (g : Geometry) (d : Disk) (hwf : d.WF g) (f : Nat) (hf : f < d.size)
    (data : List Byte) (length sb : Nat) (hsb : sb < g.BLOCK_SIZE)
    (hdata : min length (g.BLOCK_SIZE - sb) ≤ data.length) :
    ∃ blk d', d.read f = some blk ∧ blk.length = g.BLOCK_SIZE ∧
      write_data g d f data length sb
        = some (((min length (g.BLOCK_SIZE - sb) : Nat) : Int), d') ∧
      d'.read f = some (writeBytes blk sb (data.take (min length (g.BLOCK_SIZE - sb)))) ∧
      (∀ b, b ≠ f → d'.read b = d.read b) ∧ d'.WF g ∧ d'.size = d.size := by
  obtain ⟨blk, hr, _⟩ := Disk.read_isSome d f hf
  have hbl := Disk.WF_read g d hwf f blk hr
  obtain ⟨d', hw⟩ := Disk.write_isSome d f
    (writeBytes blk sb (data.take (min length (g.BLOCK_SIZE - sb)))) hf
  have htl : (data.take (min length (g.BLOCK_SIZE - sb))).length
      = min length (g.BLOCK_SIZE - sb) := by
    rw [List.length_take]
    omega
  refine ⟨blk, d', hr, hbl, ?_, Disk.read_write_same d d' f _ hw,
    fun b hb => Disk.read_write_other d d' f b _ hw hb, ?_, Disk.size_write d d' f _ hw⟩
  · unfold write_data
    rw [if_neg (by omega)]
    simp only [hr, Option.bind_eq_bind, Option.some_bind, hw]
  · apply Disk.WF_write g d d' f _ hwf _ hw
    rw [length_writeBytes _ _ _ (by rw [htl]; omega)]
    exact hbl

/-! ### `read` -/

theorem mul_add_div_block (g : Geometry) (hg : g.WF) (b r : Nat) (hr : r < g.BLOCK_SIZE) :
    (b * g.BLOCK_SIZE + r) / g.BLOCK_SIZE = b ∧ (b * g.BLOCK_SIZE + r) % g.BLOCK_SIZE = r := by
  have h0 : 0 < g.BLOCK_SIZE := by have := hg.1; omega
  constructor
  · rw [Nat.add_comm, Nat.add_mul_div_right _ _ h0, Nat.div_eq_of_lt hr, Nat.zero_add]
  · rw [Nat.add_comm, Nat.add_mul_mod_self_right, Nat.mod_eq_of_lt hr]

/-- One copy of `read`: block `b` of the file, mapped to `ptr`. -/
theorem readBlock_spec (g : Geometry) (hg : g.WF) (d : Disk) (hwf : d.WF g) (x : Inode)
    (offset rl b : Nat) (rs : ReadState) (hrl : offset + rl ≤ x.Size)
    (hinv : ReadInv g d x offset rl b rs) (hlt : rs.hasRead < rl)
    (hptr : blockPointer g d x b < d.size) :
    ∃ rs', readBlock g d x rl (blockPointer g d x b) b rs = some rs' ∧
      ReadInv g d x offset rl (b + 1) rs' ∧ rs.hasRead < rs'.hasRead := by
  obtain ⟨hpos, hsb⟩ := hinv.pos hlt
  obtain ⟨blk, hr, _⟩ := Disk.read_isSome d _ hptr
  have hbl := Disk.WF_read g d hwf _ blk hr
  have hsize : min (min (x.Size - g.BLOCK_SIZE * b) g.BLOCK_SIZE - rs.startByte)
      (rl - rs.hasRead) = min (rl - rs.hasRead) (g.BLOCK_SIZE - rs.startByte) := by
    have hc : g.BLOCK_SIZE * b = b * g.BLOCK_SIZE := Nat.mul_comm _ _
    omega
  have heq : readBlock g d x rl (blockPointer g d x b) b rs = some
      { out := rs.out ++ readBytes blk rs.startByte
          (min (rl - rs.hasRead) (g.BLOCK_SIZE - rs.startByte)),
        hasRead := rs.hasRead + min (rl - rs.hasRead) (g.BLOCK_SIZE - rs.startByte),
        startByte := 0 } := by
    simp only [readBlock, hr, Option.bind_eq_bind, Option.some_bind, hsize]
  refine ⟨_, heq, ?_, ?_⟩
  · have hcl : (readBytes blk rs.startByte
        (min (rl - rs.hasRead) (g.BLOCK_SIZE - rs.startByte))).length
        = min (rl - rs.hasRead) (g.BLOCK_SIZE - rs.startByte) :=
      length_readBytes _ _ _ (by omega)
    refine ⟨?_, ?_, ?_, ?_⟩
    · simp only [List.length_append, hcl, hinv.len]
    · show rs.hasRead + min (rl - rs.hasRead) (g.BLOCK_SIZE - rs.startByte) ≤ rl
      omega
    · intro hlt'
      have hlt2 : rs.hasRead + min (rl - rs.hasRead) (g.BLOCK_SIZE - rs.startByte) < rl := hlt'
      show offset + (rs.hasRead + min (rl - rs.hasRead) (g.BLOCK_SIZE - rs.startByte))
        = (b + 1) * g.BLOCK_SIZE + 0 ∧ 0 < g.BLOCK_SIZE
      have h4 : (b + 1) * g.BLOCK_SIZE = b * g.BLOCK_SIZE + g.BLOCK_SIZE := by ring
      omega
    · intro k hk
      have hk2 : k < rs.hasRead + min (rl - rs.hasRead) (g.BLOCK_SIZE - rs.startByte) := hk
      show (rs.out ++ readBytes blk rs.startByte _)[k]? = _
      by_cases hkl : k < rs.hasRead
      · rw [List.getElem?_append_left (by rw [hinv.len]; exact hkl)]
        exact hinv.bytes k hkl
      · rw [List.getElem?_append_right (by rw [hinv.len]; omega), hinv.len,
          getElem?_readBytes, if_pos (by omega)]
        have hp : offset + k = b * g.BLOCK_SIZE + (rs.startByte + (k - rs.hasRead)) := by omega
        obtain ⟨hd, hm⟩ := mul_add_div_block g hg b (rs.startByte + (k - rs.hasRead)) (by omega)
        unfold fileByte
        rw [hp, hd, hm, hr]
  · show rs.hasRead < rs.hasRead + min (rl - rs.hasRead) (g.BLOCK_SIZE - rs.startByte)
    omega

theorem blockPointer_direct (g : Geometry) (d : Disk) (x : Inode) (b : Nat)
    (hb : b < POINTERS_PER_INODE) : blockPointer g d x b = x.Direct.getD b 0 := by
  unfold blockPointer
  rw [if_pos hb]

theorem blockPointer_indirect (g : Geometry) (d : Disk) (x : Inode) (b : Nat)
    (hb : POINTERS_PER_INODE ≤ b) (hne : blockPointer g d x b ≠ 0) :
    x.Indirect ≠ 0 ∧ b - POINTERS_PER_INODE < g.POINTERS_PER_BLOCK ∧
    ∃ ib, d.read x.Indirect = some ib ∧
      blockPointer g d x b = getPointer ib (b - POINTERS_PER_INODE) := by
  unfold blockPointer at hne ⊢
  rw [if_neg (by omega)] at hne ⊢
  by_cases hi : x.Indirect = 0
  · rw [if_pos hi] at hne
    exact absurd rfl hne
  · rw [if_neg hi] at hne ⊢
    by_cases hq : g.POINTERS_PER_BLOCK ≤ b - POINTERS_PER_INODE
    · rw [if_pos hq] at hne
      exact absurd rfl hne
    · rw [if_neg hq] at hne ⊢
      cases hr : d.read x.Indirect with
      | none =>
        rw [hr] at hne
        exact absurd rfl hne
      | some ib => exact ⟨hi, by omega, ib, rfl, rfl⟩

/-- The loop of `read` over the direct pointers copies the bytes of the file up
to the end of the request or of the direct region. -/
theorem readDirect_spec (g : Geometry) (hg : g.WF) (d : Disk) (hwf : d.WF g) (x : Inode)
    (offset rl : Nat) (hrl : offset + rl ≤ x.Size)
    (hcov : Covered g d x offset (offset + rl)) :
    ∀ (fuel i : Nat) (rs : ReadState), fuel = POINTERS_PER_INODE - i →
      offset / g.BLOCK_SIZE ≤ i → ReadInv g d x offset rl i rs →
      ∃ i' rs', readDirect g d x rl fuel i rs = some (false, i', rs') ∧
        ReadInv g d x offset rl i' rs' ∧ i ≤ i' ∧ i' ≤ max i POINTERS_PER_INODE ∧
        (rs'.hasRead < rl → POINTERS_PER_INODE ≤ i') := by
  intro fuel
  induction fuel with
  | zero =>
    intro i rs hf _ hinv
    exact ⟨i, rs, rfl, hinv, Nat.le_refl _, Nat.le_max_left _ _, fun _ => by omega⟩
  | succ fuel ih =>
    intro i rs hf hlo hinv
    have hi5 : i < POINTERS_PER_INODE := by omega
    by_cases hlt : rs.hasRead < rl
    · obtain ⟨hpos, hsb⟩ := hinv.pos hlt
      obtain ⟨hne, hin⟩ := hcov i hlo (by omega)
      obtain ⟨rs1, h1, hinv1, _⟩ := readBlock_spec g hg d hwf x offset rl i rs hrl hinv hlt hin
      obtain ⟨i', rs', h2, hinv2, hle, hmax, hend⟩ := ih (i + 1) rs1 (by omega) (by omega) hinv1
      rw [blockPointer_direct g d x i hi5] at hne h1
      refine ⟨i', rs', ?_, hinv2, by omega, ?_, hend⟩
      · simp only [readDirect, if_pos hlt, if_neg hne, h1, Option.bind_eq_bind, Option.some_bind]
        exact h2
      · have : max (i + 1) POINTERS_PER_INODE = max i POINTERS_PER_INODE := by omega
        omega
    · refine ⟨i, rs, ?_, hinv, Nat.le_refl _, Nat.le_max_left _ _, fun h => absurd h hlt⟩
      simp only [readDirect, if_neg hlt]

/-- The loop of `read` over the entries of the indirect block. -/
theorem readIndirect_spec (g : Geometry) (hg : g.WF) (d : Disk) (hwf : d.WF g) (x : Inode)
    (offset rl : Nat) (hrl : offset + rl ≤ x.Size)
    (hcov : Covered g d x offset (offset + rl)) (ib : Block)
    (hib : d.read x.Indirect = some ib) :
    ∀ (fuel j : Nat) (rs : ReadState), fuel = g.POINTERS_PER_BLOCK - j →
      offset / g.BLOCK_SIZE ≤ POINTERS_PER_INODE + j →
      ReadInv g d x offset rl (POINTERS_PER_INODE + j) rs →
      ∃ j' rs', readIndirect g d x ib rl fuel j rs = some rs' ∧
        ReadInv g d x offset rl (POINTERS_PER_INODE + j') rs' ∧
        (rs'.hasRead < rl → g.POINTERS_PER_BLOCK ≤ j') := by
  intro fuel
  induction fuel with
  | zero =>
    intro j rs hf _ hinv
    exact ⟨j, rs, rfl, hinv, fun _ => by omega⟩
  | succ fuel ih =>
    intro j rs hf hlo hinv
    by_cases hlt : rs.hasRead < rl
    · obtain ⟨hpos, hsb⟩ := hinv.pos hlt
      obtain ⟨hne, hin⟩ := hcov (POINTERS_PER_INODE + j) hlo (by omega)
      obtain ⟨_, _, ib', hib', hbp⟩ := blockPointer_indirect g d x _ (Nat.le_add_right _ _) hne
      rw [hib] at hib'
      cases hib'
      rw [Nat.add_sub_cancel_left] at hbp
      obtain ⟨rs1, h1, hinv1, _⟩ := readBlock_spec g hg d hwf x offset rl _ rs hrl hinv hlt hin
      obtain ⟨j', rs', h2, hinv2, hend⟩ := ih (j + 1) rs1 (by omega) (by omega) hinv1
      rw [hbp] at hne h1
      refine ⟨j', rs', ?_, hinv2, hend⟩
      simp only [readIndirect, if_pos hlt, if_neg hne, h1, Option.bind_eq_bind, Option.some_bind]
      exact h2
    · refine ⟨j, rs, ?_, hinv, fun h => absurd h hlt⟩
      simp only [readIndirect, if_neg hlt]

/-- The bytes `read` returns from a valid inode whose pointer slots cover the
request: as many as asked for, up to the end of the file, each the byte of the
file at its position. -/
theorem read_covered (g : Geometry) (hg : g.WF) (fs : FileSystem) (d : Disk)
    (hm : Mounted g fs d) (i : Nat) (hi : i < fs.numOfInodes) (x : Inode)
    (hx : inodeAt g d i = some x) (hv : x.Valid ≠ 0) (length offset : Nat)
    (hoff : offset < x.Size)
    (hmax : offset + min length (x.Size - offset)
      ≤ (POINTERS_PER_INODE + g.POINTERS_PER_BLOCK) * g.BLOCK_SIZE)
    (hcov : Covered g d x offset (offset + min length (x.Size - offset))) :
    ∃ out, read g fs i length offset = some (((min length (x.Size - offset) : Nat) : Int), out) ∧
      out.length = min length (x.Size - offset) ∧
      ∀ k, k < min length (x.Size - offset) → out[k]? = fileByte g d x (offset + k) := by
  have hB : 0 < g.BLOCK_SIZE := by have := hg.1; omega
  have hxwf : x.WF := by
    obtain ⟨blk, _, rfl⟩ := (inodeAt_some g d i x).mp hx
    exact getInode_WF _ _
  have hload := load_inode_eq g d i x hx
  rw [if_neg hv] at hload
  have hrl : offset + min length (x.Size - offset) ≤ x.Size := by omega
  have hinv0 : ReadInv g d x offset (min length (x.Size - offset)) (offset / g.BLOCK_SIZE)
      { out := [], hasRead := 0, startByte := offset % g.BLOCK_SIZE } :=
    ⟨rfl, Nat.zero_le _,
      fun _ => ⟨by show offset + 0 = _; rw [Nat.add_zero, Nat.div_add_mod'], Nat.mod_lt _ hB⟩,
      fun k hk => absurd hk (Nat.not_lt_zero _)⟩
  obtain ⟨i', rs', h1, hinv1, hle1, hmax1, hend1⟩ := readDirect_spec g hg d hm.wf x offset _ hrl
    hcov _ (offset / g.BLOCK_SIZE) _ rfl (Nat.le_refl _) hinv0
  have hread : ∀ r, (if (false : Bool) = true then some ((rs'.hasRead : Int), rs'.out)
        else if rs'.hasRead = min length (x.Size - offset) ∨ x.Indirect = 0 then
          some ((rs'.hasRead : Int), rs'.out)
        else do
          let indirectBlock ← d.read x.Indirect
          let st ← readIndirect g d x indirectBlock (min length (x.Size - offset))
            (g.POINTERS_PER_BLOCK - (i' + 18446744073709551616 - 5) % 18446744073709551616)
            ((i' + 18446744073709551616 - 5) % 18446744073709551616) rs'
          some ((st.hasRead : Int), st.out)) = some r →
      read g fs i length offset = some r := by
    intro r hr
    unfold read
    rw [if_neg (by omega)]
    simp only [hm.disk, Option.bind_eq_bind, Option.some_bind, hload, if_neg (by omega : ¬ offset ≥ x.Size), h1]
    exact hr
  by_cases hdone : rs'.hasRead = min length (x.Size - offset)
  · refine ⟨rs'.out, hread _ ?_, by rw [hinv1.len, hdone], fun k hk => hinv1.bytes k (by omega)⟩
    rw [if_neg (by decide), if_pos (Or.inl hdone), hdone]
  · have hlt : rs'.hasRead < min length (x.Size - offset) := by
      have := hinv1.le
      omega
    have hi5 := hend1 hlt
    obtain ⟨hpos, hsb⟩ := hinv1.pos hlt
    have hlo : offset / g.BLOCK_SIZE ≤ i' := hle1
    obtain ⟨hne, hin⟩ := hcov i' hlo (by omega)
    obtain ⟨hind, _, ib, hib, _⟩ := blockPointer_indirect g d x i' hi5 hne
    have hi'lt : i' < 18446744073709551616 := by
      have h1 : offset / g.BLOCK_SIZE ≤ offset := Nat.div_le_self _ _
      have h2 := hxwf.2.1
      unfold POINTERS_PER_INODE at hmax1
      omega
    have hj : (i' + 18446744073709551616 - 5) % 18446744073709551616 = i' - 5 := by
      unfold POINTERS_PER_INODE at hi5
      omega
    have hi'eq : POINTERS_PER_INODE + (i' - 5) = i' := by
      unfold POINTERS_PER_INODE at hi5 ⊢
      omega
    obtain ⟨j', rs2, h2, hinv2, hend2⟩ := readIndirect_spec g hg d hm.wf x offset _ hrl hcov ib
      hib _ (i' - 5) rs' rfl (by rw [hi'eq]; exact hlo) (by rw [hi'eq]; exact hinv1)
    have hfin : rs2.hasRead = min length (x.Size - offset) := by
      by_contra hc
      have hlt2 : rs2.hasRead < min length (x.Size - offset) := by
        have := hinv2.le
        omega
      have hq := hend2 hlt2
      obtain ⟨hpos2, _⟩ := hinv2.pos hlt2
      have : (POINTERS_PER_INODE + g.POINTERS_PER_BLOCK) * g.BLOCK_SIZE
          ≤ (POINTERS_PER_INODE + j') * g.BLOCK_SIZE :=
        Nat.mul_le_mul_right _ (by omega)
      omega
    refine ⟨rs2.out, hread _ ?_, by rw [hinv2.len, hfin], fun k hk => hinv2.bytes k (by omega)⟩
    rw [if_neg (by decide), if_neg (by rintro (h | h); exact hdone h; exact hind h)]
    simp only [hib, Option.bind_eq_bind, Option.some_bind, hj, h2, hfin]

/-! ### `write` on a file without blocks -/

theorem getElem?_writeBytes_inside (blk : List Byte) (sb : Nat) (src : List Byte)
    (h : sb + src.length ≤ blk.length) (t : Nat) (ht : t < src.length) :
    (writeBytes blk sb src)[sb + t]? = src[t]? := by
  rw [getElem?_writeBytes blk sb src h, if_neg (by omega), if_pos (by omega)]
  congr 1
  omega

/-- One block written by `write` into an empty pointer slot `b`: the invariant
moves on to slot `b + 1`. -/
theorem WriteInv.step (g : Geometry) (hg : g.WF) (nb : Nat) (data : List Byte)
    (length offset : Nat) (fm0 : List Bool) (d0 : Disk) (b : Nat) (st st1 : WriteState)
    (hlen : length ≤ data.length) (hfm0 : fm0.length = nb)
    (hinv : WriteInv g nb data length offset fm0 d0 b st) (hlt : st.hasWrite < length)
    (f : Nat) (hf0 : f ≠ 0) (hfnb : f < nb) (hfree : st.freemap[f]? = some true) (blk : Block)
    (hr : st.disk.read f = some blk)
    (hd1 : st1.disk.read f = some (writeBytes blk st.startByte
      ((data.drop st.hasWrite).take (min (length - st.hasWrite) (g.BLOCK_SIZE - st.startByte)))))
    (hd2 : ∀ k, k ≠ f → st1.disk.read k = st.disk.read k) (hwf1 : st1.disk.WF g)
    (hsz1 : st1.disk.size = st.disk.size) (hfm1 : st1.freemap = st.freemap.set f false)
    (hhw : st1.hasWrite = st.hasWrite + min (length - st.hasWrite) (g.BLOCK_SIZE - st.startByte))
    (hsb1 : st1.startByte = 0) (hind : st1.inode.Indirect = st.inode.Indirect)
    (hfind : f ≠ st.inode.Indirect) (hiwf : st1.inode.WF)
    (hptr : ∀ k, st1.ptrOf k = if k = b then f else st.ptrOf k) :
    WriteInv g nb data length offset fm0 d0 (b + 1) st1 := by
  obtain ⟨hpos, hsb⟩ := hinv.pos hlt
  have hB : 0 < g.BLOCK_SIZE := by have := hg.1; omega
  have h4 : (b + 1) * g.BLOCK_SIZE = b * g.BLOCK_SIZE + g.BLOCK_SIZE := by ring
  have hbl := Disk.WF_read g st.disk hinv.wf f blk hr
  have hflt : f < st.freemap.length := by rw [hinv.fmlen]; exact hfnb
  have hfm0free : fm0[f]? = some true := by
    apply getElem?_bool_of_ne (by omega) false
    intro hc
    have := (hinv.mono f hc).1
    rw [hfree] at this
    cases this
  have hother : ∀ k, st.freemap[k]? = some false → k ≠ f := by
    rintro k hk rfl
    rw [hfree] at hk
    cases hk
  refine ⟨hwf1, hsz1.trans hinv.size, by rw [hfm1, List.length_set]; exact hinv.fmlen, hiwf,
    by rw [hhw]; omega, ?_, ?_, ?_, ?_, ?_, ?_⟩
  · intro h
    rw [hhw] at h ⊢
    rw [hsb1]
    omega
  · intro _
    rw [hhw]
    omega
  · intro k hk
    obtain ⟨m1, m2⟩ := hinv.mono k hk
    have hkf := hother k m1
    rw [hfm1, List.getElem?_set_ne (Ne.symm hkf), hd2 k hkf]
    exact ⟨m1, m2⟩
  · intro p hp1 hp2
    rw [hhw] at hp2
    by_cases hpl : p < offset + st.hasWrite
    · obtain ⟨blk', c1, c2, c3, c4, c5, c6⟩ := hinv.content p hp1 hpl
      have hh0 : st.hasWrite ≠ 0 := by omega
      have hdone := hinv.done hh0
      have hpb : p / g.BLOCK_SIZE < b := by
        apply Nat.div_lt_of_lt_mul
        rw [Nat.mul_comm]
        omega
      have hpe : st1.ptrOf (p / g.BLOCK_SIZE) = st.ptrOf (p / g.BLOCK_SIZE) := by
        rw [hptr, if_neg (by omega)]
      have hne := hother _ c4
      rw [hpe, hd2 _ hne, hfm1, List.getElem?_set_ne (Ne.symm hne), hind]
      exact ⟨blk', c1, c2, c3, c4, c5, c6⟩
    · have hpe : p = b * g.BLOCK_SIZE + (st.startByte + (p - (offset + st.hasWrite))) := by
        omega
      obtain ⟨hdv, hmd⟩ := mul_add_div_block g hg b
        (st.startByte + (p - (offset + st.hasWrite))) (by omega)
      rw [← hpe] at hdv hmd
      have htl : ((data.drop st.hasWrite).take
          (min (length - st.hasWrite) (g.BLOCK_SIZE - st.startByte))).length
          = min (length - st.hasWrite) (g.BLOCK_SIZE - st.startByte) := by
        rw [List.length_take, List.length_drop]
        omega
      rw [hdv, hptr, if_pos rfl, hmd, hind]
      refine ⟨_, hd1, ?_, hf0, ?_, hfm0free, hfind⟩
      · rw [getElem?_writeBytes_inside _ _ _ (by rw [htl]; omega) _ (by rw [htl]; omega),
          List.getElem?_take, if_pos (by omega), List.getElem?_drop]
        congr 1
        omega
      · rw [hfm1, List.getElem?_set_self hflt]
  · intro k hk
    rw [hptr, if_neg (by omega)]
    exact hinv.ahead k (by omega)
  · intro k
    rw [hptr]
    split
    · exact hfnb
    · exact hinv.bound k

theorem getD_set_eq (l : List Nat) (i k v : Nat) (hi : i < l.length) :
    (l.set i v).getD k 0 = if k = i then v else l.getD k 0 := by
  simp only [List.getD_eq_getElem?_getD]
  by_cases hk : k = i
  · rw [if_pos hk, hk, List.getElem?_set_self hi]
    rfl
  · rw [if_neg hk, List.getElem?_set_ne (Ne.symm hk)]

theorem Inode.WF_set_direct (x : Inode) (hx : x.WF) (i f : Nat) (hf : f < 4294967296) :
    Inode.WF { x with Direct := x.Direct.set i f } := by
  obtain ⟨h1, h2, h3, h4, h5⟩ := hx
  refine ⟨h1, h2, by simp only [List.length_set]; exact h3, ?_, h5⟩
  intro p hp
  rcases List.mem_or_eq_of_mem_set hp with hp | hp
  · exact h4 p hp
  · rw [hp]; exact hf

/-- The loop of `write` over the direct pointers of a file without blocks. -/
theorem writeDirect_fresh (g : Geometry) (hg : g.WF) (nb : Nat) (data : List Byte)
    (length offset : Nat) (fm0 : List Bool) (d0 : Disk) (hlen : length ≤ data.length)
    (hfm0 : fm0.length = nb) (hnb : nb < 4294967296) :
    ∀ (fuel i : Nat) (st : WriteState), fuel = POINTERS_PER_INODE - i →
      WriteInv g nb data length offset fm0 d0 i st → st.inode.Indirect = 0 →
      ∃ jumped i' st', writeDirect g nb data length fuel i st = some (jumped, i', st') ∧
        WriteInv g nb data length offset fm0 d0 i' st' ∧ st'.inode.Indirect = 0 ∧
        st'.inode.Valid = st.inode.Valid ∧ st'.inode.Size = st.inode.Size ∧
        st'.indirectBlock = st.indirectBlock ∧ i ≤ i' ∧ i' ≤ max i POINTERS_PER_INODE ∧
        (jumped = true → st'.hasWrite < length) ∧
        (jumped = false → st'.hasWrite < length → POINTERS_PER_INODE ≤ i') := by
  intro fuel
  induction fuel with
  | zero =>
    intro i st hf hinv hind
    exact ⟨false, i, st, rfl, hinv, hind, rfl, rfl, rfl, Nat.le_refl _, Nat.le_max_left _ _,
      fun h => Bool.noConfusion h, fun _ _ => by omega⟩
  | succ fuel ih =>
    intro i st hf hinv hind
    have hi5 : i < POINTERS_PER_INODE := by omega
    by_cases hlt : st.hasWrite < length
    · obtain ⟨hpos, hsb⟩ := hinv.pos hlt
      have hcur : st.inode.Direct.getD i 0 = 0 := by
        have := hinv.ahead i (Nat.le_refl _)
        unfold WriteState.ptrOf at this
        rwa [if_pos hi5] at this
      rcases chooseBlock_zero nb st.freemap hinv.fmlen hnb with
        ⟨hc, _⟩ | ⟨f, hc, hf0, hfnb, hfree, _, _⟩
      · refine ⟨true, i, st, ?_, hinv, hind, rfl, rfl, rfl, Nat.le_refl _, Nat.le_max_left _ _,
          fun _ => hlt, fun h => Bool.noConfusion h⟩
        simp only [writeDirect, if_pos hlt, hcur, hc, Option.bind_eq_bind, Option.some_bind]
      · obtain ⟨blk, d', hr, _, hw, hd1, hd2, hwf1, hsz1⟩ := write_data_spec g st.disk hinv.wf f
          (by rw [hinv.size]; exact hfnb) (data.drop st.hasWrite) (length - st.hasWrite)
          st.startByte hsb (by rw [List.length_drop]; omega)
        have hset : setFree st.freemap f false = some (st.freemap.set f false) :=
          (setFree_some _ _ _ _).mpr ⟨by rw [hinv.fmlen]; exact hfnb, rfl⟩
        have hdl : i < st.inode.Direct.length := by rw [hinv.inodeWF.2.2.1]; exact hi5
        have hstep := WriteInv.step g hg nb data length offset fm0 d0 i st
          { st with disk := d', freemap := st.freemap.set f false,
                    inode := { st.inode with Direct := st.inode.Direct.set i f },
                    hasWrite := st.hasWrite
                      + min (length - st.hasWrite) (g.BLOCK_SIZE - st.startByte),
                    startByte := 0 }
          hlen hfm0 hinv hlt f hf0 hfnb hfree blk hr hd1 hd2 hwf1 hsz1 rfl rfl rfl rfl
          (by rw [hind]; exact hf0) (Inode.WF_set_direct _ hinv.inodeWF i f (by omega))
          (by
            intro k
            unfold WriteState.ptrOf
            show (if k < POINTERS_PER_INODE then (st.inode.Direct.set i f).getD k 0 else _) = _
            rw [getD_set_eq _ _ _ _ hdl]
            by_cases hk : k = i
            · rw [if_pos hk, if_pos hk, if_pos (by omega)]
            · rw [if_neg hk, if_neg hk])
        obtain ⟨jumped, i', st', h2, hinv2, a1, a2, a3, a4, a5, a6, a7, a8⟩ :=
          ih (i + 1) _ (by omega) hstep hind
        refine ⟨jumped, i', st', ?_, hinv2, a1, a2, a3, a4, by omega, ?_, a7, a8⟩
        · have hne : ¬ (((min (length - st.hasWrite) (g.BLOCK_SIZE - st.startByte) : Nat) : Int)
              = -1) := by omega
          simp only [writeDirect, if_pos hlt, hcur, hc, Option.bind_eq_bind, Option.some_bind,
            hw, if_neg hne, hset, Int.toNat_ofNat]
          exact h2
        · have : max (i + 1) POINTERS_PER_INODE = max i POINTERS_PER_INODE := by omega
          omega
    · refine ⟨false, i, st, ?_, hinv, hind, rfl, rfl, rfl, Nat.le_refl _, Nat.le_max_left _ _,
        fun h => Bool.noConfusion h, fun _ h => absurd h hlt⟩
      simp only [writeDirect, if_neg hlt]

theorem getPointer_putPointer (ib : Block) (j k v : Nat) (hj : 4 * j + 4 ≤ ib.length)
    (hv : v < 4294967296) :
    getPointer (putPointer ib j v) k = if k = j then v else getPointer ib k := by
  unfold getPointer putPointer
  by_cases hk : k = j
  · rw [if_pos hk, hk, getU32_putU32_same _ _ _ hj, Nat.mod_eq_of_lt hv]
  · rw [if_neg hk, getU32_putU32_other _ _ _ _ hj (by omega)]

theorem length_putPointer (ib : Block) (j v : Nat) (hj : 4 * j + 4 ≤ ib.length) :
    (putPointer ib j v).length = ib.length :=
  length_putU32 ib (4 * j) v hj

theorem getPointer_zeroBlock (g : Geometry) (k : Nat) : getPointer (zeroBlock g) k = 0 :=
  getU32_replicate_zero _ _

/-- The loop of `write` over the entries of a new indirect block. -/
theorem writeIndirect_fresh (g : Geometry) (hg : g.WF) (nb : Nat) (data : List Byte)
    (length offset : Nat) (fm0 : List Bool) (d0 : Disk) (hlen : length ≤ data.length)
    (hfm0 : fm0.length = nb) (hnb : nb < 4294967296) :
    ∀ (fuel j : Nat) (st : WriteState), fuel = g.POINTERS_PER_BLOCK - j →
      WriteInv g nb data length offset fm0 d0 (POINTERS_PER_INODE + j) st →
      st.inode.Indirect ≠ 0 → st.freemap[st.inode.Indirect]? = some false →
      st.indirectBlock.length = g.BLOCK_SIZE →
      ∃ j' st', writeIndirect g nb data length fuel j st = some st' ∧
        WriteInv g nb data length offset fm0 d0 (POINTERS_PER_INODE + j') st' ∧
        st'.inode = st.inode ∧ st'.indirectBlock.length = g.BLOCK_SIZE ∧
        st'.freemap[st.inode.Indirect]? = some false ∧ j ≤ j' ∧
        j' ≤ max j g.POINTERS_PER_BLOCK := by
  intro fuel
  induction fuel with
  | zero =>
    intro j st hf hinv hind hused hibl
    exact ⟨j, st, rfl, hinv, rfl, hibl, hused, Nat.le_refl _, Nat.le_max_left _ _⟩
  | succ fuel ih =>
    intro j st hf hinv hind hused hibl
    have hjq : j < g.POINTERS_PER_BLOCK := by omega
    have h4q := hg.2.2.2.2.1
    by_cases hlt : st.hasWrite < length
    · obtain ⟨hpos, hsb⟩ := hinv.pos hlt
      have hcur : getPointer st.indirectBlock j = 0 := by
        have := hinv.ahead (POINTERS_PER_INODE + j) (Nat.le_refl _)
        unfold WriteState.ptrOf at this
        rwa [if_neg (by omega), Nat.add_sub_cancel_left] at this
      rcases chooseBlock_zero nb st.freemap hinv.fmlen hnb with
        ⟨hc, _⟩ | ⟨f, hc, hf0, hfnb, hfree, _, _⟩
      · refine ⟨j, st, ?_, hinv, rfl, hibl, hused, Nat.le_refl _, Nat.le_max_left _ _⟩
        simp only [writeIndirect, if_pos hlt, hcur, hc, Option.bind_eq_bind, Option.some_bind]
      · obtain ⟨blk, d', hr, _, hw, hd1, hd2, hwf1, hsz1⟩ := write_data_spec g st.disk hinv.wf f
          (by rw [hinv.size]; exact hfnb) (data.drop st.hasWrite) (length - st.hasWrite)
          st.startByte hsb (by rw [List.length_drop]; omega)
        have hset : setFree st.freemap f false = some (st.freemap.set f false) :=
          (setFree_some _ _ _ _).mpr ⟨by rw [hinv.fmlen]; exact hfnb, rfl⟩
        have hfi : f ≠ st.inode.Indirect := by
          intro hc'
          rw [← hc', hfree] at hused
          cases hused
        have hstep := WriteInv.step g hg nb data length offset fm0 d0 (POINTERS_PER_INODE + j) st
          { st with disk := d', freemap := st.freemap.set f false,
                    indirectBlock := putPointer st.indirectBlock j f,
                    hasWrite := st.hasWrite
                      + min (length - st.hasWrite) (g.BLOCK_SIZE - st.startByte),
                    startByte := 0 }
          hlen hfm0 hinv hlt f hf0 hfnb hfree blk hr hd1 hd2 hwf1 hsz1 rfl rfl rfl rfl
          hfi hinv.inodeWF
          (by
            intro k
            unfold WriteState.ptrOf
            show (if k < POINTERS_PER_INODE then _
              else getPointer (putPointer st.indirectBlock j f) (k - POINTERS_PER_INODE)) = _
            by_cases hk : k < POINTERS_PER_INODE
            · rw [if_pos hk, if_pos hk, if_neg (by omega)]
            · rw [if_neg hk, if_neg hk,
                getPointer_putPointer _ _ _ _ (by rw [hibl]; omega) (by omega)]
              by_cases hkj : k = POINTERS_PER_INODE + j
              · rw [if_pos hkj, if_pos (by omega)]
              · rw [if_neg hkj, if_neg (by omega)])
        obtain ⟨j', st', h2, hinv2, a1, a2, a3, a4, a5⟩ := ih (j + 1) _ (by omega) hstep hind
          (by
            show (st.freemap.set f false)[st.inode.Indirect]? = some false
            rw [List.getElem?_set_ne hfi]
            exact hused)
          (by
            show (putPointer st.indirectBlock j f).length = _
            rw [length_putPointer _ _ _ (by rw [hibl]; omega)]
            exact hibl)
        refine ⟨j', st', ?_, hinv2, a1, a2, a3, by omega, ?_⟩
        · have hne : ¬ (((min (length - st.hasWrite) (g.BLOCK_SIZE - st.startByte) : Nat) : Int)
              = -1) := by omega
          simp only [writeIndirect, if_pos hlt, hcur, hc, Option.bind_eq_bind, Option.some_bind,
            hw, if_neg hne, hset, Int.toNat_ofNat]
          exact h2
        · have : max (j + 1) g.POINTERS_PER_BLOCK = max j g.POINTERS_PER_BLOCK := by omega
          omega
    · refine ⟨j, st, ?_, hinv, rfl, hibl, hused, Nat.le_refl _, Nat.le_max_left _ _⟩
      simp only [writeIndirect, if_neg hlt]

theorem writeIndirect_done (g : Geometry) (nb : Nat) (data : List Byte) (length fuel j : Nat)
    (st : WriteState) (h : ¬ st.hasWrite < length) :
    writeIndirect g nb data length fuel j st = some st := by
  cases fuel with
  | zero => rfl
  | succ fuel => simp only [writeIndirect, if_neg h]

/-- The allocation of the indirect block for a file without one: either no two
blocks are free and `write` goes to `ret` with nothing more written, or the new
indirect block is a zero block marked used. -/
theorem writeAllocIndirect_fresh (g : Geometry) (nb : Nat) (data : List Byte)
    (length offset : Nat) (fm0 : List Bool) (d0 : Disk) (hfm0 : fm0.length = nb)
    (hnb : nb < 4294967296) (b : Nat)
    (st : WriteState) (hinv : WriteInv g nb data length offset fm0 d0 b st) :
    (∃ st', writeAllocIndirect g nb st = some (true, st') ∧ st'.hasWrite = st.hasWrite) ∨
    (∃ st', writeAllocIndirect g nb st = some (false, st') ∧
      WriteInv g nb data length offset fm0 d0 b st' ∧ st'.inode.Indirect ≠ 0 ∧
      st'.freemap[st'.inode.Indirect]? = some false ∧
      fm0[st'.inode.Indirect]? = some true ∧
      st'.disk.read st'.inode.Indirect = some (zeroBlock g) ∧
      st'.inode.Valid = st.inode.Valid ∧ st'.inode.Size = st.inode.Size ∧
      st'.indirectBlock = st.indirectBlock ∧ st'.hasWrite = st.hasWrite) := by
  obtain ⟨fi, hfind, _, hspec⟩ := find_free_block_spec nb st.freemap hinv.fmlen
  rcases hspec with ⟨h0, _⟩ | ⟨h0, h1, h2, _⟩
  · left
    refine ⟨st, ?_, rfl⟩
    simp only [writeAllocIndirect, hfind, Option.bind_eq_bind, Option.some_bind, h0,
      Nat.zero_mod, if_true]
  · have hmod : fi % 4294967296 = fi := Nat.mod_eq_of_lt (by omega)
    have hfl : fi < st.freemap.length := by rw [hinv.fmlen]; exact h1
    have hset : setFree st.freemap fi false = some (st.freemap.set fi false) :=
      (setFree_some _ _ _ _).mpr ⟨hfl, rfl⟩
    obtain ⟨fb, hfb, _, _⟩ := find_free_block_spec nb (st.freemap.set fi false)
      (by rw [List.length_set]; exact hinv.fmlen)
    by_cases hfb0 : fb % 4294967296 = 0
    · left
      have hset2 : setFree (st.freemap.set fi false) fi true
          = some ((st.freemap.set fi false).set fi true) :=
        (setFree_some _ _ _ _).mpr ⟨by rw [List.length_set]; exact hfl, rfl⟩
      refine ⟨{ st with freemap := (st.freemap.set fi false).set fi true }, ?_, rfl⟩
      simp only [writeAllocIndirect, hfind, Option.bind_eq_bind, Option.some_bind, hmod,
        if_neg h0, hset, hfb, if_pos hfb0, hset2]
    · right
      obtain ⟨d', hw⟩ := Disk.write_isSome st.disk fi (zeroBlock g) (by rw [hinv.size]; exact h1)
      have hinit : init_data_block g st.disk fi = some d' := by
        unfold init_data_block
        rw [if_neg (by rw [hinv.size]; omega)]
        exact hw
      have hset3 : setFree (st.freemap.set fi false) fi false
          = some ((st.freemap.set fi false).set fi false) :=
        (setFree_some _ _ _ _).mpr ⟨by rw [List.length_set]; exact hfl, rfl⟩
      have hother : ∀ k, st.freemap[k]? = some false → k ≠ fi := by
        rintro k hk rfl
        rw [h2] at hk
        cases hk
      have hfmset : ∀ k, k ≠ fi → ((st.freemap.set fi false).set fi false)[k]? = st.freemap[k]? := by
        intro k hk
        rw [List.getElem?_set_ne (Ne.symm hk), List.getElem?_set_ne (Ne.symm hk)]
      have hfm0free : fm0[fi]? = some true := by
        apply getElem?_bool_of_ne (by omega) false
        intro hc
        have := (hinv.mono fi hc).1
        rw [h2] at this
        cases this
      refine ⟨{ st with disk := d', freemap := (st.freemap.set fi false).set fi false,
                        inode := { st.inode with Indirect := fi } }, ?_, ?_, h0, ?_, hfm0free,
        Disk.read_write_same st.disk d' fi _ hw, rfl, rfl, rfl, rfl⟩
      · simp only [writeAllocIndirect, hfind, Option.bind_eq_bind, Option.some_bind, hmod,
          if_neg h0, hset, hfb, if_neg hfb0, hinit, hset3]
      · refine ⟨Disk.WF_write g st.disk d' fi _ hinv.wf (length_zeroBlock g) hw,
          (Disk.size_write st.disk d' fi _ hw).trans hinv.size,
          by simp only [List.length_set]; exact hinv.fmlen, ?_, hinv.le, hinv.pos, hinv.done,
          ?_, ?_, hinv.ahead, hinv.bound⟩
        · obtain ⟨w1, w2, w3, w4, _⟩ := hinv.inodeWF
          exact ⟨w1, w2, w3, w4, by show fi < 4294967296; omega⟩
        · intro k hk
          obtain ⟨m1, m2⟩ := hinv.mono k hk
          have hkf := hother k m1
          exact ⟨(hfmset k hkf).trans m1,
            (Disk.read_write_other st.disk d' fi k _ hw hkf).trans m2⟩
        · intro p hp1 hp2
          obtain ⟨blk', c1, c2, c3, c4, c5, _⟩ := hinv.content p hp1 hp2
          have hne := hother _ c4
          exact ⟨blk', (Disk.read_write_other st.disk d' fi _ _ hw hne).trans c1, c2, c3,
            (hfmset _ hne).trans c4, c5, hne⟩
      · show ((st.freemap.set fi false).set fi false)[fi]? = some false
        rw [List.getElem?_set_self (by rw [List.length_set]; exact hfl)]

theorem Disk.write_read_self (d : Disk) (b : Nat) (blk : Block) (h : d.read b = some blk) :
    d.write b blk = some d := by
  obtain ⟨hlt, heq⟩ := List.getElem?_eq_some_iff.mp h
  unfold Disk.write
  rw [if_pos hlt]
  congr 1
  cases d with
  | mk blocks Mounts =>
    simp only [Disk.mk.injEq, and_true]
    apply List.ext_getElem?
    intro k
    by_cases hk : k = b
    · rw [hk, List.getElem?_set_self hlt, ← heq]
      exact (List.getElem?_eq_getElem hlt).symm
    · rw [List.getElem?_set_ne (Ne.symm hk)]

theorem getD_lt_of_forall (l : List Nat) (n : Nat) (hl : l.length = POINTERS_PER_INODE)
    (h : ∀ k, k < POINTERS_PER_INODE → l.getD k 0 < n) : ∀ b ∈ l, b < n := by
  intro b hb
  obtain ⟨k, hk, rfl⟩ := List.getElem_of_mem hb
  have := h k (by omega)
  rwa [List.getD_eq_getElem _ _ hk] at this

/-- The statements at the label `ret` when all `length` bytes have been placed in
a file that had no blocks. -/
theorem writeRet_fresh (g : Geometry) (hg : g.WF) (fs : FileSystem) (d : Disk)
    (hm : Mounted g fs d) (i : Nat) (hi : i < fs.numOfInodes)
    (hx : inodeAt g d i = some Inode.created)
    (htable : ∀ b, 1 ≤ b → b ≤ fs.numOfInodeBlocks → fs.freemap[b]? = some false)
    (data : List Byte) (length offset : Nat) (hL : 1 ≤ length)
    (hfit : offset + length < 4294967296) (b : Nat) (st : WriteState)
    (hinv : WriteInv g fs.numOfBlocks data length offset fs.freemap d b st)
    (hdone : st.hasWrite = length) (hvalid : st.inode.Valid = 1) (hsize : st.inode.Size = 0)
    (ib : Block)
    (hic : (st.inode.Indirect = 0 ∧ st.disk.read 0 = some ib ∧ b ≤ POINTERS_PER_INODE) ∨
      (st.inode.Indirect ≠ 0 ∧ ib = st.indirectBlock ∧
        fs.freemap[st.inode.Indirect]? = some true ∧
        st.indirectBlock.length = g.BLOCK_SIZE ∧ getPointer st.indirectBlock 0 ≠ 0 ∧
        b ≤ POINTERS_PER_INODE + g.POINTERS_PER_BLOCK)) :
    ∃ d2 x2, writeRet g fs i offset { st with indirectBlock := ib }
        = some ((length : Int), { fs with disk := some d2, freemap := st.freemap }) ∧
      Written g { fs with disk := some d2, freemap := st.freemap } d2 i x2 data length offset ∧
      (∀ k : Nat, fs.freemap[k]? = some false → st.freemap[k]? = some false) := by
  have h0 : 0 < g.INODES_PER_BLOCK := hg.2.1
  have hB : 0 < g.BLOCK_SIZE := by have := hg.1; omega
  have hnb : fs.numOfBlocks < 4294967296 := hm.small
  -- the inode block of `i` is marked used, so no allocated block is that block
  have htb1 : i / g.INODES_PER_BLOCK < fs.numOfInodeBlocks := by
    apply Nat.div_lt_of_lt_mul
    rw [Nat.mul_comm, ← hm.inodes]
    exact hi
  have htbused : fs.freemap[i / g.INODES_PER_BLOCK + 1]? = some false :=
    htable _ (Nat.le_add_left 1 _) htb1
  have hfree_ne : ∀ k, fs.freemap[k]? = some true → k ≠ i / g.INODES_PER_BLOCK + 1 := by
    rintro k hk rfl
    rw [htbused] at hk
    cases hk
  obtain ⟨mtb1, mtb2⟩ := hinv.mono _ htbused
  -- the indirect block is written back
  have hback : ∃ d5, writeBackIndirect { st with indirectBlock := ib } = some d5 ∧ d5.WF g ∧
      d5.size = fs.numOfBlocks ∧
      (∀ k, k ≠ st.inode.Indirect → d5.read k = st.disk.read k) ∧
      (st.inode.Indirect ≠ 0 → d5.read st.inode.Indirect = some st.indirectBlock) ∧
      st.inode.Indirect ≠ i / g.INODES_PER_BLOCK + 1 := by
    rcases hic with ⟨hz, hr0, _⟩ | ⟨hnz, rfl, hfr, hibl, hp0, _⟩
    · refine ⟨st.disk, ?_, hinv.wf, hinv.size, fun k _ => rfl, fun h => absurd hz h,
        by rw [hz]; exact (Nat.succ_ne_zero _).symm⟩
      unfold writeBackIndirect
      split
      · show st.disk.write st.inode.Indirect ib = some st.disk
        rw [hz]
        exact Disk.write_read_self st.disk 0 _ hr0
      · rfl
    · have hilt : st.inode.Indirect < st.disk.size := by
        have h1 := hinv.bound
        have h2 : st.inode.Indirect < fs.freemap.length := by
          by_contra hc
          rw [List.getElem?_eq_none (by omega)] at hfr
          cases hfr
        rw [hinv.size, ← hm.freemap]
        exact h2
      obtain ⟨d5, hw⟩ := Disk.write_isSome st.disk st.inode.Indirect st.indirectBlock hilt
      refine ⟨d5, ?_, Disk.WF_write g st.disk d5 _ _ hinv.wf hibl hw,
        (Disk.size_write st.disk d5 _ _ hw).trans hinv.size,
        fun k hk => Disk.read_write_other st.disk d5 _ k _ hw hk,
        fun _ => Disk.read_write_same st.disk d5 _ _ hw, hfree_ne _ hfr⟩
      unfold writeBackIndirect
      rw [if_pos hp0]
      exact hw
  obtain ⟨d5, hwb, hwf5, hsz5, hr5, hri5, hitb⟩ := hback
  -- the inode is stored over the valid record left by `create`
  have hx5 : inodeAt g d5 i = some Inode.created := by
    rw [← hx]
    unfold inodeAt
    rw [hr5 _ (Ne.symm hitb), mtb2]
  have hmod : (offset + length) % 4294967296 = offset + length := Nat.mod_eq_of_lt hfit
  have hx2wf : Inode.WF {
      Valid := st.inode.Valid, Size := max st.inode.Size (offset + length),
      Direct := st.inode.Direct, Indirect := st.inode.Indirect } := by
    obtain ⟨w1, _, w3, w4, w5⟩ := hinv.inodeWF
    exact ⟨w1, by show max st.inode.Size (offset + length) < _; rw [hsize]; omega, w3, w4, w5⟩
  obtain ⟨d2, hs, a1, a2, a3, a4, a5⟩ := save_inode_valid g hg d5 hwf5 i Inode.created
    {
      Valid := st.inode.Valid, Size := max st.inode.Size (offset + length),
      Direct := st.inode.Direct, Indirect := st.inode.Indirect } hx5 (by decide) hx2wf
  refine ⟨d2, {
      Valid := st.inode.Valid, Size := max st.inode.Size (offset + length),
      Direct := st.inode.Direct, Indirect := st.inode.Indirect }, ?_, ?_,
    fun k hk => (hinv.mono k hk).1⟩
  · simp only [writeRet, hwb, Option.bind_eq_bind, Option.some_bind]
    simp only [hdone, hmod, hs, Option.some_bind]
  -- the pointer slots of the stored inode are those of the loop state
  have hbp : ∀ k, k < b → blockPointer g d2 {
      Valid := st.inode.Valid, Size := max st.inode.Size (offset + length),
      Direct := st.inode.Direct, Indirect := st.inode.Indirect } k = st.ptrOf k := by
    intro k hk
    unfold blockPointer WriteState.ptrOf
    by_cases hk5 : k < POINTERS_PER_INODE
    · rw [if_pos hk5, if_pos hk5]
    · rw [if_neg hk5, if_neg hk5]
      rcases hic with ⟨_, _, hb5⟩ | ⟨hnz, _, _, _, _, hbq⟩
      · omega
      · show (if st.inode.Indirect = 0 then 0
          else if g.POINTERS_PER_BLOCK ≤ k - POINTERS_PER_INODE then 0
          else match d2.read st.inode.Indirect with
            | some indirectBlock => getPointer indirectBlock (k - POINTERS_PER_INODE)
            | none => 0) = _
        rw [if_neg hnz, if_neg (by omega), a3 _ hitb, hri5 hnz]
  have hblk : ∀ p, offset ≤ p → p < offset + length → p / g.BLOCK_SIZE < b := by
    intro p _ hp
    have := hinv.done (by omega)
    apply Nat.div_lt_of_lt_mul
    rw [Nat.mul_comm]
    omega
  have hdata : ∀ p, offset ≤ p → p < offset + length →
      d2.read (st.ptrOf (p / g.BLOCK_SIZE)) = st.disk.read (st.ptrOf (p / g.BLOCK_SIZE)) ∧
      st.ptrOf (p / g.BLOCK_SIZE) ≠ 0 ∧ st.ptrOf (p / g.BLOCK_SIZE) < d2.size := by
    intro p hp1 hp2
    obtain ⟨blk, c1, _, c3, _, c5, c6⟩ := hinv.content p hp1 (by rw [hdone]; exact hp2)
    refine ⟨?_, c3, ?_⟩
    · rw [a3 _ (hfree_ne _ c5), hr5 _ c6]
    · rw [a5, hsz5]
      exact hinv.bound _
  have hbelow : (∀ q ∈ st.inode.Direct, q < fs.numOfBlocks) := by
    apply getD_lt_of_forall _ _ hinv.inodeWF.2.2.1
    intro k hk
    have := hinv.bound k
    unfold WriteState.ptrOf at this
    rwa [if_pos hk] at this
  refine ⟨⟨rfl, a4, ?_, hm.inodeBlocks, hm.inodes, hinv.fmlen, hm.small⟩, a1, hvalid, ?_, ?_, ?_,
    ?_⟩
  · show fs.numOfBlocks = d2.size
    rw [a5, hsz5]
  · show max st.inode.Size (offset + length) = _
    rw [hsize]
    omega
  · intro k hk1 hk2
    have hp : offset ≤ max offset (k * g.BLOCK_SIZE) ∧
        max offset (k * g.BLOCK_SIZE) < offset + length := by omega
    have hdv : max offset (k * g.BLOCK_SIZE) / g.BLOCK_SIZE = k := by
      rcases Nat.le_total offset (k * g.BLOCK_SIZE) with hle | hle
      · rw [Nat.max_eq_right hle, Nat.mul_div_cancel _ hB]
      · rw [Nat.max_eq_left hle]
        exact Nat.le_antisymm hk1 ((Nat.le_div_iff_mul_le hB).mpr hle)
    obtain ⟨_, e2, e3⟩ := hdata _ hp.1 hp.2
    rw [hdv] at e2 e3
    rw [hbp k (by rw [← hdv]; exact hblk _ hp.1 hp.2)]
    exact ⟨e2, e3⟩
  · intro p hp1 hp2
    obtain ⟨blk, c1, c2, _⟩ := hinv.content p hp1 (by rw [hdone]; exact hp2)
    unfold fileByte
    rw [hbp _ (hblk p hp1 hp2), (hdata p hp1 hp2).1, c1]
    exact c2
  · unfold PointersBelow
    rw [a1]
    refine ⟨hbelow, ?_, ?_⟩
    · show st.inode.Indirect < fs.numOfBlocks
      rcases hic with ⟨hz, _, _⟩ | ⟨_, _, hfr, _⟩
      · rw [hz]
        have := hm.inodeBlocks
        omega
      · by_contra hc
        rw [List.getElem?_eq_none (by rw [hm.freemap]; omega)] at hfr
        cases hfr
    · intro q hq
      rw [mem_indirectPointers] at hq
      obtain ⟨hnz, blk, hrd, hmem⟩ := hq
      have hnz' : st.inode.Indirect ≠ 0 := hnz
      have hrd' : d2.read st.inode.Indirect = some blk := hrd
      rw [a3 _ hitb, hri5 hnz'] at hrd'
      cases hrd'
      unfold pointersOf at hmem
      obtain ⟨k, _, rfl⟩ := List.mem_map.mp hmem
      have := hinv.bound (POINTERS_PER_INODE + k)
      unfold WriteState.ptrOf at this
      rwa [if_neg (by omega), Nat.add_sub_cancel_left] at this

theorem writeRet_fst (g : Geometry) (fs fs2 : FileSystem) (i offset : Nat) (st : WriteState)
    (r : Int) (h : writeRet g fs i offset st = some (r, fs2)) : r = (st.hasWrite : Int) := by
  unfold writeRet at h
  simp only [Option.bind_eq_bind, Option.bind_eq_some] at h
  obtain ⟨d, _, ⟨r', d'⟩, _, h⟩ := h
  cases h
  rfl

theorem Inode.created_getD (k : Nat) : Inode.created.Direct.getD k 0 = 0 := by
  unfold Inode.created
  match k with
  | 0 | 1 | 2 | 3 | 4 => rfl
  | k + 5 => rfl

/-- The state of `write` before its first loop, on a file without blocks. -/
theorem WriteInv.init (g : Geometry) (hg : g.WF) (fs : FileSystem) (d : Disk)
    (hm : Mounted g fs d) (data : List Byte) (length offset : Nat) :
    WriteInv g fs.numOfBlocks data length offset fs.freemap d (offset / g.BLOCK_SIZE)
      { disk := d, freemap := fs.freemap, inode := Inode.created,
        indirectBlock := zeroBlock g, hasWrite := 0,
        startByte := offset % g.BLOCK_SIZE } := by
  have hB : 0 < g.BLOCK_SIZE := by have := hg.1; omega
  have hptr : ∀ k, WriteState.ptrOf
      { disk := d, freemap := fs.freemap, inode := Inode.created,
        indirectBlock := zeroBlock g, hasWrite := 0,
        startByte := offset % g.BLOCK_SIZE } k = 0 := by
    intro k
    unfold WriteState.ptrOf
    split
    · exact Inode.created_getD k
    · exact getPointer_zeroBlock g _
  refine ⟨hm.wf, hm.blocks.symm, hm.freemap, Inode.created_WF, Nat.zero_le _, ?_, ?_, ?_, ?_, ?_,
    ?_⟩
  · intro _
    exact ⟨by show offset + 0 = _; rw [Nat.add_zero, Nat.div_add_mod'], Nat.mod_lt _ hB⟩
  · intro h
    exact absurd rfl h
  · intro k hk
    exact ⟨hk, rfl⟩
  · intro p hp1 hp2
    have hp3 : p < offset + 0 := hp2
    omega
  · intro k _
    exact hptr k
  · intro k
    rw [hptr k]
    have := hm.inodeBlocks
    omega

/-- The call `write` on a valid inode `x`, once its first loop has run. -/
theorem write_eq_of_direct (g : Geometry) (fs : FileSystem) (d : Disk) (i : Nat)
    (data : List Byte) (length offset : Nat) (x : Inode) (hlen : length ≤ data.length)
    (hi : i < fs.numOfInodes) (hdisk : fs.disk = some d)
    (hload : load_inode g d i = some (some x)) (jumped : Bool) (i' : Nat) (st1 : WriteState)
    (h1 : writeDirect g fs.numOfBlocks data length
      (POINTERS_PER_INODE - offset / g.BLOCK_SIZE) (offset / g.BLOCK_SIZE)
      { disk := d, freemap := fs.freemap, inode := x, indirectBlock := zeroBlock g,
        hasWrite := 0, startByte := offset % g.BLOCK_SIZE } = some (jumped, i', st1)) :
    write g fs i data length offset =
      if jumped = true then writeRet g fs i offset st1
      else (writeTail g fs.numOfBlocks data length i' st1).bind
        fun st => writeRet g fs i offset st := by
  unfold write
  rw [if_neg (by omega), if_neg (by omega)]
  simp only [hdisk, Option.bind_eq_bind, Option.some_bind, hload, h1]
  cases jumped <;> rfl

/-- The second loop of `write` does nothing once every byte is written. -/
theorem writeIndirectPart_done (g : Geometry) (nb : Nat) (data : List Byte) (length i : Nat)
    (st : WriteState) (blk : Block) (hr : st.disk.read st.inode.Indirect = some blk)
    (h : ¬ st.hasWrite < length) :
    writeIndirectPart g nb data length i st = some { st with indirectBlock := blk } := by
  unfold writeIndirectPart
  rw [hr, Option.bind_eq_bind, Option.some_bind]
  exact writeIndirect_done g nb data length _ _ _ h

/-- The call `write(i, data, length, offset)` on a file without blocks, started in
its direct region or in the first entry of the indirect block: when it returns
`length`, the file holds the bytes written. -/
theorem write_fresh (g : Geometry) (hg : g.WF) (fs : FileSystem) (d : Disk)
    (hm : Mounted g fs d) (i : Nat) (hi : i < fs.numOfInodes)
    (hx : inodeAt g d i = some Inode.created)
    (htable : ∀ b, 1 ≤ b → b ≤ fs.numOfInodeBlocks → fs.freemap[b]? = some false)
    (data : List Byte) (length offset : Nat) (hL : 1 ≤ length) (hlen : length ≤ data.length)
    (hoff : offset / g.BLOCK_SIZE ≤ POINTERS_PER_INODE)
    (hfit : offset + length < 4294967296) (fs2 : FileSystem)
    (hw : write g fs i data length offset = some ((length : Int), fs2)) :
    ∃ d2 x2, fs2.disk = some d2 ∧ Written g fs2 d2 i x2 data length offset ∧
      fs2.numOfInodeBlocks = fs.numOfInodeBlocks ∧
      (∀ k : Nat, fs.freemap[k]? = some false → fs2.freemap[k]? = some false) := by
  have hB : 0 < g.BLOCK_SIZE := by have := hg.1; omega
  have hnbpos : 0 < fs.numOfBlocks := by have := hm.inodeBlocks; omega
  have hload : load_inode g d i = some (some Inode.created) := load_inode_eq g d i _ hx
  have hinv0 := WriteInv.init g hg fs d hm data length offset
  obtain ⟨jumped, i', st1, h1, hinv1, hind1, hval1, hsz1, hib1, hle1, hmax1, hj1, hnj1⟩ :=
    writeDirect_fresh g hg fs.numOfBlocks data length offset fs.freemap d hlen hm.freemap
      hm.small _ (offset / g.BLOCK_SIZE) _ rfl hinv0 rfl
  have hi'5 : i' ≤ POINTERS_PER_INODE := by omega
  -- every way of reaching `ret` with fewer than `length` bytes contradicts the result
  have hshort : ∀ st, st.hasWrite < length →
      write g fs i data length offset = writeRet g fs i offset st → False := by
    intro st hst heq
    rw [heq] at hw
    have := writeRet_fst g fs fs2 i offset st _ hw
    omega
  have hfinish : ∀ (st : WriteState) (ib : Block) (b : Nat),
      write g fs i data length offset = writeRet g fs i offset { st with indirectBlock := ib } →
      (∃ d2 x2, writeRet g fs i offset { st with indirectBlock := ib }
        = some ((length : Int), { fs with disk := some d2, freemap := st.freemap }) ∧
        Written g { fs with disk := some d2, freemap := st.freemap } d2 i x2 data length offset ∧
        (∀ k : Nat, fs.freemap[k]? = some false → st.freemap[k]? = some false)) →
      ∃ d2 x2, fs2.disk = some d2 ∧ Written g fs2 d2 i x2 data length offset ∧
        fs2.numOfInodeBlocks = fs.numOfInodeBlocks ∧
        (∀ k : Nat, fs.freemap[k]? = some false → fs2.freemap[k]? = some false) := by
    rintro st ib b heq ⟨d2, x2, e1, e2, e3⟩
    rw [heq, e1] at hw
    simp only [Option.some.injEq, Prod.mk.injEq, true_and] at hw
    subst hw
    exact ⟨d2, x2, rfl, e2, rfl, e3⟩
  have hunf := write_eq_of_direct g fs d i data length offset _ hlen hi hm.disk hload _ _ _ h1
  cases jumped with
  | true => exact absurd (hshort st1 (hj1 rfl) hunf) id
  | false =>
    rw [if_neg (by decide)] at hunf
    by_cases hlt : st1.hasWrite < length
    · have h5 := hnj1 rfl hlt
      have hi'eq : i' = POINTERS_PER_INODE := by omega
      rcases writeAllocIndirect_fresh g fs.numOfBlocks data length offset fs.freemap d
          hm.freemap hm.small i' st1 hinv1 with
        ⟨st', ha, hh⟩ | ⟨st2, ha, hinv2, hnz2, hused2, hfree2, hrd2, hval2, hsz2, hib2, hhw2⟩
      · exfalso
        apply hshort st' (by omega)
        rw [hunf]
        simp only [writeTail, if_pos (And.intro hlt hind1), ha, Option.bind_eq_bind,
          Option.some_bind]
      · have hzb : st2.indirectBlock = zeroBlock g := by rw [hib2, hib1]
        have hst2 : { st2 with indirectBlock := zeroBlock g } = st2 := by
          rw [← hzb]
        have hj0 : (i' + 18446744073709551616 - POINTERS_PER_INODE) % 18446744073709551616
            = 0 := by
          rw [hi'eq]
          unfold POINTERS_PER_INODE
          omega
        rw [hi'eq] at hinv2
        obtain ⟨j', st4, h4, hinv4, hino4, hibl4, hused4, _, hj'max⟩ :=
          writeIndirect_fresh g hg fs.numOfBlocks data length offset fs.freemap d hlen hm.freemap
            hm.small _ 0 st2 rfl hinv2 hnz2 hused2 (by rw [hzb]; exact length_zeroBlock g)
        rw [Nat.sub_zero] at h4
        have hunf2 : write g fs i data length offset = writeRet g fs i offset st4 := by
          rw [hunf]
          simp only [writeTail, if_pos (And.intro hlt hind1), ha, Option.bind_eq_bind,
            Option.some_bind, writeIndirectPart, hrd2, hj0, hst2, Nat.sub_zero, h4]
        have hdone : st4.hasWrite = length := by
          by_contra hc
          have := hinv4.le
          exact hshort st4 (by omega) hunf2
        have hp0 : getPointer st4.indirectBlock 0 ≠ 0 := by
          obtain ⟨hpos, hsb⟩ := hinv2.pos (by rw [hhw2]; exact hlt)
          obtain ⟨hdv, _⟩ := mul_add_div_block g hg POINTERS_PER_INODE st2.startByte hsb
          rw [← hpos] at hdv
          obtain ⟨_, _, _, c3, _⟩ := hinv4.content (offset + st2.hasWrite) (by omega)
            (by rw [hdone, hhw2]; omega)
          rw [hdv] at c3
          unfold WriteState.ptrOf at c3
          rwa [if_neg (by omega), Nat.sub_self] at c3
        apply hfinish st4 st4.indirectBlock (POINTERS_PER_INODE + j') hunf2
        apply writeRet_fresh g hg fs d hm i hi hx htable data length offset hL hfit _ st4 hinv4
          hdone (by rw [hino4, hval2, hval1]; rfl) (by rw [hino4, hsz2, hsz1]; rfl)
        right
        rw [hino4]
        exact ⟨hnz2, rfl, hfree2, hibl4, hp0, by omega⟩
    · have hdone : st1.hasWrite = length := by
        have := hinv1.le
        omega
      obtain ⟨blk0, hr0, _⟩ := Disk.read_isSome st1.disk 0 (by rw [hinv1.size]; exact hnbpos)
      have hunf2 : write g fs i data length offset
          = writeRet g fs i offset { st1 with indirectBlock := blk0 } := by
        rw [hunf]
        have hcond : ¬ (st1.hasWrite < length ∧ st1.inode.Indirect = 0) := fun h => hlt h.1
        unfold writeTail
        rw [if_neg hcond, writeIndirectPart_done g _ data length i' st1 blk0
          (by rw [hind1]; exact hr0) hlt, Option.some_bind]
      apply hfinish st1 blk0 i' hunf2
      apply writeRet_fresh g hg fs d hm i hi hx htable data length offset hL hfit _ st1 hinv1
        hdone (by rw [hval1]; rfl) (by rw [hsz1]; rfl)
      left
      exact ⟨hind1, hr0, hi'5⟩

/-! ### A file from `create` to `remove` -/

/-- A call of `create` that returns an inode number leaves that inode as a file
without blocks, on a mounted file system with the free map unchanged. -/
theorem create_some (g : Geometry) (hg : g.WF) (fs fs1 : FileSystem) (d : Disk)
    (hm : Mounted g fs d) (i : Nat) (hc : create g fs = some ((i : Int), fs1)) :
    ∃ d1, fs1 = { fs with disk := some d1 } ∧ Mounted g fs1 d1 ∧ i < fs.numOfInodes ∧
      inodeAt g d1 i = some Inode.created := by
  have hlt : 0 + fs.numOfInodeBlocks < d.size := by
    have := hm.inodeBlocks
    rw [hm.blocks] at this
    omega
  have hcr : ∀ r d', createBlocks g d fs.numOfInodeBlocks 0 = some (r, d') →
      create g fs = some (r, { fs with disk := some d' }) := by
    intro r d' h
    simp only [create, hm.disk, Option.bind_eq_bind, Option.some_bind, h]
  rcases createBlocks_spec g d fs.numOfInodeBlocks 0 hlt with
    ⟨h1, _⟩ | ⟨i', j, blk, d', _, hi, hj, hr, hv, _, _, hw, h9⟩
  · rw [hcr _ _ h1] at hc
    simp only [Option.some.injEq, Prod.mk.injEq] at hc
    have := hc.1
    omega
  · rw [hcr _ _ h9] at hc
    simp only [Option.some.injEq, Prod.mk.injEq, Nat.cast_inj] at hc
    obtain ⟨hi', hfs⟩ := hc
    obtain ⟨a1, _, _, a4, a5⟩ := inodeAt_write_putInode g hg d d' hm.wf i' j blk Inode.created
      Inode.created_WF hj hr hw
    subst hfs
    refine ⟨d', rfl,
      ⟨rfl, a4, hm.blocks.trans a5.symm, hm.inodeBlocks, hm.inodes, hm.freemap, hm.small⟩,
      ?_, ?_⟩
    · rw [← hi', hm.inodes]
      exact slot_lt g i' _ j (by omega) hj
    · rw [← hi']
      exact a1

/-- The value of `stat` on a mounted file system. -/
theorem stat_eq (g : Geometry) (fs : FileSystem) (d : Disk) (hd : fs.disk = some d) (i : Nat)
    (hi : i < fs.numOfInodes) (x : Inode) (hx : inodeAt g d i = some x) :
    stat g fs i = some (if x.Valid = 0 then -1 else (x.Size : Int)) := by
  unfold stat
  rw [if_neg (by omega)]
  by_cases hv : x.Valid = 0
  · simp only [hd, Option.bind_eq_bind, Option.some_bind, load_inode_eq g d i x hx, if_pos hv]
  · simp only [hd, Option.bind_eq_bind, Option.some_bind, load_inode_eq g d i x hx, if_neg hv]

/-- The bytes of a written range, read back. -/
theorem read_written (g : Geometry) (hg : g.WF) (fs : FileSystem) (d : Disk) (i : Nat)
    (x : Inode) (data : List Byte) (offset : Nat)
    (hW : Written g fs d i x data data.length offset) (hi : i < fs.numOfInodes)
    (hne : 1 ≤ data.length)
    (hmax : offset + data.length ≤ (POINTERS_PER_INODE + g.POINTERS_PER_BLOCK) * g.BLOCK_SIZE) :
    read g fs i data.length offset = some ((data.length : Int), data) := by
  have hmin : min data.length (x.Size - offset) = data.length := by
    rw [hW.size]
    omega
  obtain ⟨out, hr, hol, hob⟩ := read_covered g hg fs d hW.mounted i hi x hW.inode
    (by rw [hW.valid]; decide) data.length offset (by rw [hW.size]; omega)
    (by rw [hmin]; exact hmax) (by rw [hmin]; exact hW.covered)
  rw [hmin] at hr hol hob
  have hout : out = data := by
    apply List.ext_getElem?
    intro k
    by_cases hk : k < data.length
    · rw [hob k hk, hW.bytes (offset + k) (by omega) (by omega), Nat.add_sub_cancel_left]
    · rw [List.getElem?_eq_none (by omega), List.getElem?_eq_none (by omega)]
  rw [hr, hout]

/-- The object after `format` and `mount` of a device of at least two blocks: it
is mounted, no inode is valid, and the free map marks block 0 and the inode
blocks used and every other block free. -/
theorem mounted_fresh (g : Geometry) (hg : g.WF) (d : Disk) (hm : d.mounted = false)
    (h2 : 2 ≤ d.size) (hlt : d.size < 4294967296)
    (hI : ceilTenth d.size * g.INODES_PER_BLOCK < 4294967296) :
    ∃ d1 fs, format g d = some (true, d1) ∧
      mount g FileSystem.fresh d1 = some (true, fs, d1.mount) ∧ Mounted g fs d1.mount ∧
      fs.numOfBlocks = d.size ∧ fs.numOfInodeBlocks = ceilTenth d.size ∧
      (∀ b, fs.freemap[b]? = some false ↔ b ≤ ceilTenth d.size) ∧
      ∀ k, k < fs.numOfInodes → ¬ IsValid g d1.mount k := by
  have h0 : 0 < g.INODES_PER_BLOCK := hg.2.1
  obtain ⟨d1, hf, _⟩ := format_spec g d (by omega) hm
  obtain ⟨s1, _, _, w1, _, rz⟩ := format_fresh g hg d d1 hf (by omega)
  obtain ⟨fs, hmt, e1, e2, e3, e4, e5, e6⟩ := mount_fresh g hg d d1 hf h2 hlt hI
  have hct : ceilTenth d.size < d.size := by unfold ceilTenth; omega
  refine ⟨d1, fs, hf, hmt, ⟨e1, w1, by rw [e2]; exact s1.symm, by rw [e3, e2]; exact hct,
    by rw [e4, e3], by rw [e5, e2], by rw [e2]; exact hlt⟩, e2, e3, e6, ?_⟩
  intro k hk hv
  rw [e4] at hk
  have hdiv : k / g.INODES_PER_BLOCK < ceilTenth d.size :=
    Nat.div_lt_of_lt_mul (by rwa [Nat.mul_comm] at hk)
  rw [← Nat.div_add_mod' k g.INODES_PER_BLOCK,
    isValid_mul_add g _ _ _ (Nat.mod_lt _ h0)] at hv
  obtain ⟨blk, hr, hvv⟩ := hv
  have hz : d1.read (k / g.INODES_PER_BLOCK + 1) = some (zeroBlock g) :=
    rz _ (Nat.le_add_left 1 _) (by omega)
  have hr' : d1.read (k / g.INODES_PER_BLOCK + 1) = some blk := hr
  rw [hz] at hr'
  cases hr'
  rw [getInode_zeroBlock] at hvv
  exact hvv rfl

/-- The loop of `write` over the direct pointers does nothing once every byte is
written. -/
theorem writeDirect_stop (g : Geometry) (nb : Nat) (data : List Byte) (length fuel i : Nat)
    (st : WriteState) (h : ¬ st.hasWrite < length) :
    writeDirect g nb data length fuel i st = some (false, i, st) := by
  cases fuel with
  | zero => rfl
  | succ fuel => simp only [writeDirect, if_neg h]

/-- The loop of `write` over the direct pointers when at most one block of data
goes to offset 0 of a file without blocks, block 0 is marked used and a block is
free: one pass places all the bytes. -/
theorem writeDirect_one (g : Geometry) (hg : g.WF) (nb : Nat) (data : List Byte) (length : Nat)
    (st : WriteState) (hlen : length ≤ data.length) (hL : 1 ≤ length)
    (hLB : length ≤ g.BLOCK_SIZE) (hwf : st.disk.WF g) (hsz : st.disk.size = nb)
    (hfm : st.freemap.length = nb) (hnb : nb < 4294967296)
    (h0 : st.freemap[0]? = some false) (f : Nat) (hf : f < nb)
    (hfree : st.freemap[f]? = some true) (hd : st.inode.Direct.getD 0 0 = 0)
    (hhw : st.hasWrite = 0) (hsb : st.startByte = 0) :
    ∃ st', writeDirect g nb data length POINTERS_PER_INODE 0 st = some (false, 1, st') ∧
      st'.hasWrite = length := by
  have hB : 0 < g.BLOCK_SIZE := by have := hg.1; omega
  have hlt : st.hasWrite < length := by omega
  rcases chooseBlock_zero nb st.freemap hfm hnb with
    ⟨_, hall | hz⟩ | ⟨f', hc, hf0, hfnb, _, _, _⟩
  · have := hall f hf
    rw [hfree] at this
    cases this
  · rw [h0] at hz
    cases hz
  · obtain ⟨blk, d', _, _, hw, _, _, _, _⟩ := write_data_spec g st.disk hwf f'
      (by rw [hsz]; exact hfnb) (data.drop st.hasWrite) (length - st.hasWrite)
      st.startByte (by rw [hsb]; exact hB) (by rw [List.length_drop]; omega)
    have hmin : min (length - st.hasWrite) (g.BLOCK_SIZE - st.startByte) = length := by
      rw [hhw, hsb]
      omega
    rw [hmin] at hw
    have hset : setFree st.freemap f' false = some (st.freemap.set f' false) :=
      (setFree_some _ _ _ _).mpr ⟨by rw [hfm]; exact hfnb, rfl⟩
    have hne : ¬ ((length : Int) = -1) := by omega
    have hnlt : ¬ (st.hasWrite + length < length) := by omega
    refine ⟨{ st with disk := d', freemap := st.freemap.set f' false,
                      inode := { st.inode with Direct := st.inode.Direct.set 0 f' },
                      hasWrite := st.hasWrite + length, startByte := 0 }, ?_, ?_⟩
    · show writeDirect g nb data length (4 + 1) 0 st = _
      generalize 4 = fuel
      simp only [writeDirect, if_pos hlt, hd, hc, Option.bind_eq_bind, Option.some_bind, hw,
        if_neg hne, hset, Int.toNat_ofNat]
      exact writeDirect_stop g nb data length fuel _ _ hnlt
    · show st.hasWrite + length = length
      omega

/-- A call of `write` that places at most one block of data at offset 0 of a
file without blocks returns the number of bytes passed, when block 0 is marked
used and a block is free. -/
theorem write_one_block (g : Geometry) (hg : g.WF) (fs : FileSystem) (d : Disk)
    (hm : Mounted g fs d) (i : Nat) (hi : i < fs.numOfInodes)
    (hx : inodeAt g d i = some Inode.created)
    (htable : ∀ b, 1 ≤ b → b ≤ fs.numOfInodeBlocks → fs.freemap[b]? = some false)
    (h0 : fs.freemap[0]? = some false) (f : Nat) (hf : f < fs.numOfBlocks)
    (hfree : fs.freemap[f]? = some true) (data : List Byte) (length : Nat)
    (hlen : length ≤ data.length) (hL : 1 ≤ length) (hLB : length ≤ g.BLOCK_SIZE) :
    ∃ fs2, write g fs i data length 0 = some ((length : Int), fs2) := by
  have hnbpos : 0 < fs.numOfBlocks := by have := hm.inodeBlocks; omega
  have hBlt : g.BLOCK_SIZE < 4294967296 := hg.2.2.2.2.2.1
  have hload : load_inode g d i = some (some Inode.created) := load_inode_eq g d i _ hx
  have hinv0 := WriteInv.init g hg fs d hm data length 0
  rw [Nat.zero_div, Nat.zero_mod] at hinv0
  obtain ⟨jumped, i', st1, h1, hinv1, hind1, hval1, hsz1, _, _, _, _, _⟩ :=
    writeDirect_fresh g hg fs.numOfBlocks data length 0 fs.freemap d hlen hm.freemap
      hm.small POINTERS_PER_INODE 0 _ rfl hinv0 rfl
  obtain ⟨st', h1', hdone⟩ := writeDirect_one g hg fs.numOfBlocks data length
    { disk := d, freemap := fs.freemap, inode := Inode.created, indirectBlock := zeroBlock g,
      hasWrite := 0, startByte := 0 }
    hlen hL hLB hm.wf hm.blocks.symm hm.freemap hm.small h0 f hf hfree
    (Inode.created_getD 0) rfl rfl
  rw [h1'] at h1
  simp only [Option.some.injEq, Prod.mk.injEq] at h1
  obtain ⟨hj, hi', hst⟩ := h1
  subst hj hi' hst
  have hunf := write_eq_of_direct g fs d i data length 0 _ hlen hi hm.disk hload false 1 st'
    (by rw [Nat.zero_div, Nat.zero_mod]; exact h1')
  rw [if_neg (by decide)] at hunf
  obtain ⟨blk0, hr0, _⟩ := Disk.read_isSome st'.disk 0 (by rw [hinv1.size]; exact hnbpos)
  have hlt : ¬ st'.hasWrite < length := by omega
  have hcond : ¬ (st'.hasWrite < length ∧ st'.inode.Indirect = 0) := fun h => hlt h.1
  obtain ⟨d2, x2, e1, _, _⟩ := writeRet_fresh g hg fs d hm i hi hx htable data length 0 hL
    (by omega) 1 st' hinv1 hdone (by rw [hval1]; rfl) (by rw [hsz1]; rfl) blk0
    (Or.inl ⟨hind1, hr0, by decide⟩)
  refine ⟨{ fs with disk := some d2, freemap := st'.freemap }, ?_⟩
  rw [hunf]
  unfold writeTail
  rw [if_neg hcond, writeIndirectPart_done g _ data length 1 st' blk0
    (by rw [hind1]; exact hr0) hlt, Option.some_bind]
  exact e1

/-! ### Claims about the life of a file -/

set_option maxRecDepth 100000 in
/-- The object after `format` and `mount` of a device of twelve blocks of 64
bytes is mounted. -/
theorem freshFS_mounted :
    Mounted tinyGeometry (freshFS tinyGeometry 12) (diskOf (freshFS tinyGeometry 12)) :=
  ⟨by decide, by decide, by decide, by decide, by decide, by decide, by decide⟩

set_option maxRecDepth 100000 in
/-- C1, where the claim fails: on a freshly formatted and mounted device of twelve
blocks of 64 bytes, `create()` returns 0; then writing the empty byte string at
offset 0 returns 0, its length, and reading 0 bytes at offset 0 returns -1; and
writing one byte at offset `(P + 1) * BLOCK_SIZE = 384` returns 1, and reading
one byte at that offset returns 0 with nothing copied. -/
theorem round_trip_fails :
    createWriteRead tinyGeometry (freshFS tinyGeometry 12) [] 0 = some (0, 0, -1, []) ∧
    createWriteRead tinyGeometry (freshFS tinyGeometry 12) [120] 384 = some (0, 1, 0, []) := by
  decide

/-- The first `write` on the inode `i` that `create` returns, on a mounted file
system whose free map marks the inode blocks used: for every non-empty byte
string `data` and every offset below `(P + 1) * BLOCK_SIZE` with
`offset + len(data)` at most `(P + Q) * BLOCK_SIZE`, if `write(i, data, len(data),
offset)` returns `len(data)`, then `read(i, buf, len(data), offset)` returns
`len(data)` and copies exactly `data`. -/
theorem round_trip_after_create (g : Geometry) (hg : g.WF) (fs fs1 fs2 : FileSystem) (d : Disk)
    (hm : Mounted g fs d)
    (htable : ∀ b, 1 ≤ b → b ≤ fs.numOfInodeBlocks → fs.freemap[b]? = some false)
    (hcap : (POINTERS_PER_INODE + g.POINTERS_PER_BLOCK) * g.BLOCK_SIZE < 4294967296)
    (i : Nat) (hc : create g fs = some ((i : Int), fs1))
    (data : List Byte) (offset : Nat) (hne : data ≠ [])
    (hoff : offset < (POINTERS_PER_INODE + 1) * g.BLOCK_SIZE)
    (hmax : offset + data.length ≤ (POINTERS_PER_INODE + g.POINTERS_PER_BLOCK) * g.BLOCK_SIZE)
    (hw : write g fs1 i data data.length offset = some ((data.length : Int), fs2)) :
    read g fs2 i data.length offset = some ((data.length : Int), data) := by
  have hL : 1 ≤ data.length := by
    cases data with
    | nil => exact absurd rfl hne
    | cons a l => exact Nat.succ_le_succ (Nat.zero_le _)
  obtain ⟨d1, hfs1, hm1, hi, hx⟩ := create_some g hg fs fs1 d hm i hc
  subst hfs1
  have hdiv : offset / g.BLOCK_SIZE ≤ POINTERS_PER_INODE := by
    have : offset / g.BLOCK_SIZE < POINTERS_PER_INODE + 1 :=
      Nat.div_lt_of_lt_mul (by rwa [Nat.mul_comm] at hoff)
    omega
  obtain ⟨d2, x2, _, hW, hib, _⟩ := write_fresh g hg _ d1 hm1 i hi hx htable data data.length
    offset hL (Nat.le_refl _) hdiv (by omega) fs2 hw
  have hi2 : i < fs2.numOfInodes := by
    rw [hW.mounted.inodes, hib, ← hm1.inodes]
    exact hi
  exact read_written g hg fs2 d2 i x2 data offset hW hi2 hL hmax

/-- C3: for every device that is not mounted and has room for the superblock,
the inode table and one more block, `format` returns true, `mount` on a fresh
object returns true and `create()` returns 0; then, for every byte string `data`
of 1 to `BLOCK_SIZE` bytes, `write(0, data, len(data), 0)` returns `len(data)`,
`stat(0)` returns `len(data)`, `read(0, buf, len(data), 0)` returns `len(data)`
and copies `data`, `remove(0)` returns true, and after it `stat(0)` returns -1. -/
theorem small_file_life_cycle (g : Geometry) (hg : g.WF) (d : Disk) (hm : d.mounted = false)
    (hroom : ceilTenth d.size + 2 ≤ d.size) (hlt : d.size < 4294967296)
    (hI : ceilTenth d.size * g.INODES_PER_BLOCK < 4294967296)
    (data : List Byte) (h1 : 1 ≤ data.length) (hB : data.length ≤ g.BLOCK_SIZE) :
    ∃ d1 fs d2 fs1 fs2 fs3, format g d = some (true, d1) ∧
      mount g FileSystem.fresh d1 = some (true, fs, d2) ∧
      fs.numOfInodeBlocks = ceilTenth d.size ∧
      create g fs = some (0, fs1) ∧
      write g fs1 0 data data.length 0 = some ((data.length : Int), fs2) ∧
      stat g fs2 0 = some (data.length : Int) ∧
      read g fs2 0 data.length 0 = some ((data.length : Int), data) ∧
      remove g fs2 0 = some (true, fs3) ∧
      stat g fs3 0 = some (-1) := by
  have h0 : 0 < g.INODES_PER_BLOCK := hg.2.1
  have hBlt : g.BLOCK_SIZE < 4294967296 := hg.2.2.2.2.2.1
  have hct1 : 1 ≤ ceilTenth d.size := by unfold ceilTenth; omega
  obtain ⟨d1, fs, hf, hmt, hM, e2, e3, e6, hinv⟩ := mounted_fresh g hg d hm (by omega) hlt hI
  have hn0 : 0 < fs.numOfInodes := by
    rw [hM.inodes, e3]
    exact Nat.mul_pos hct1 h0
  obtain ⟨d', hc, hx, _, _, hM1⟩ := create_lowest g hg fs d1.mount hM 0 hn0 (hinv 0 hn0)
    (fun k hk => absurd hk (Nat.not_lt_zero k))
  have htable : ∀ b, 1 ≤ b → b ≤ fs.numOfInodeBlocks → fs.freemap[b]? = some false := by
    intro b _ hb
    rw [e3] at hb
    exact (e6 b).mpr hb
  have hz : fs.freemap[0]? = some false := (e6 0).mpr (Nat.zero_le _)
  have hfree : fs.freemap[ceilTenth d.size + 1]? = some true :=
    getElem?_bool_of_ne (by rw [hM.freemap, e2]; omega) false
      (fun h => by have := (e6 _).mp h; omega)
  obtain ⟨fs2, hw⟩ := write_one_block g hg { fs with disk := some d' } d' hM1 0 hn0 hx htable hz
    (ceilTenth d.size + 1) (by show _ < fs.numOfBlocks; rw [e2]; omega) hfree data data.length
    (Nat.le_refl _) h1 hB
  obtain ⟨d2, x2, hd2, hW, hib, _⟩ := write_fresh g hg { fs with disk := some d' } d' hM1 0 hn0
    hx htable data data.length 0 h1 (Nat.le_refl _)
    (by rw [Nat.zero_div]; exact Nat.zero_le _) (by omega) fs2 hw
  have hn2 : 0 < fs2.numOfInodes := by
    rw [hW.mounted.inodes, hib]
    show 0 < fs.numOfInodeBlocks * g.INODES_PER_BLOCK
    rw [← hM.inodes]
    exact hn0
  have hv2 : x2.Valid ≠ 0 := by rw [hW.valid]; decide
  have hcapc : g.BLOCK_SIZE ≤ (POINTERS_PER_INODE + g.POINTERS_PER_BLOCK) * g.BLOCK_SIZE :=
    Nat.le_mul_of_pos_left _ (Nat.add_pos_left (by decide) _)
  obtain ⟨fm, d3, hrm, hcl, _⟩ := remove_valid g hg fs2 d2 hW.mounted 0 hn2 x2 hW.inode hv2
    hW.below
  refine ⟨d1, fs, d1.mount, _, fs2, _, hf, hmt, e3, by exact_mod_cast hc, hw, ?_, ?_, hrm, ?_⟩
  · rw [stat_eq g fs2 d2 hd2 0 hn2 x2 hW.inode, if_neg hv2, hW.size, Nat.zero_add]
  · exact read_written g hg fs2 d2 0 x2 data 0 hW hn2 h1 (by omega)
  · rw [stat_eq g { fs2 with disk := some d3, freemap := fm } d3 rfl 0 hn2 Inode.cleared hcl]
    rfl

/-- C3, witness: a device of 20 blocks of 4096 bytes and the five bytes of
`hello`; the inode table has 2 blocks. -/
theorem small_file_life_cycle_witness :
    stdGeometry.WF ∧ (filledDisk stdGeometry 20 7).mounted = false ∧
    ceilTenth (filledDisk stdGeometry 20 7).size = 2 ∧
    ∃ d1 fs d2 fs1 fs2 fs3, format stdGeometry (filledDisk stdGeometry 20 7) = some (true, d1) ∧
      mount stdGeometry FileSystem.fresh d1 = some (true, fs, d2) ∧
      fs.numOfInodeBlocks = ceilTenth (filledDisk stdGeometry 20 7).size ∧
      create stdGeometry fs = some (0, fs1) ∧
      write stdGeometry fs1 0 hello hello.length 0 = some ((hello.length : Int), fs2) ∧
      stat stdGeometry fs2 0 = some (hello.length : Int) ∧
      read stdGeometry fs2 0 hello.length 0 = some ((hello.length : Int), hello) ∧
      remove stdGeometry fs2 0 = some (true, fs3) ∧
      stat stdGeometry fs3 0 = some (-1) :=
  ⟨by decide, rfl, by rw [size_filledDisk]; rfl,
    small_file_life_cycle stdGeometry (by decide) (filledDisk stdGeometry 20 7) rfl
      (by rw [size_filledDisk]; decide) (by rw [size_filledDisk]; decide)
      (by rw [size_filledDisk]; decide) hello (by decide) (by decide)⟩

set_option maxRecDepth 100000 in
/-- C2, what the code does: on a freshly formatted and mounted device of twenty
blocks of 64 bytes, after `create()`, `write(0, "x", 1, P * BLOCK_SIZE)` and
`remove(0)` no inode is valid, yet the free map marks block 0 free and block 3,
the indirect block that `write` allocated, used: the free map does not mark
exactly block 0, the inode blocks and the blocks held by valid inodes. -/
theorem conservation_fails_after_remove :
    ∃ fs, run tinyGeometry (freshFS tinyGeometry 20) [.create, .write 0 [120] 1 320, .remove 0]
        = some fs ∧
      fs.freemap[0]? = some true ∧ fs.freemap[3]? = some false ∧
      (∀ i, i < fs.numOfInodes → ¬ IsValid tinyGeometry (diskOf fs) i) ∧
      ¬ Conserved tinyGeometry fs := by
  refine ⟨stateAfter tinyGeometry (freshFS tinyGeometry 20)
    [.create, .write 0 [120] 1 320, .remove 0], by decide, by decide, by decide, by decide, ?_⟩
  intro h
  have h0 := (h 0 (by decide)).mpr (Or.inl rfl)
  revert h0
  decide

/-! ### The contract of `read` -/

/-- Every pointer slot of an inode whose pointers lie below `n` maps to a block
number below `n`. -/
theorem blockPointer_lt (g : Geometry) (d : Disk) (x : Inode) (n : Nat) (hn : 0 < n)
    (hd : ∀ b ∈ x.Direct, b < n) (hi : ∀ b ∈ indirectPointers g d x, b < n) (b : Nat) :
    blockPointer g d x b < n := by
  unfold blockPointer
  by_cases hb5 : b < POINTERS_PER_INODE
  · rw [if_pos hb5]
    by_cases hb : b < x.Direct.length
    · rw [List.getD_eq_getElem _ _ hb]
      exact hd _ (List.getElem_mem _)
    · rw [List.getD_eq_default _ _ (by omega)]
      exact hn
  · rw [if_neg hb5]
    by_cases hind : x.Indirect = 0
    · rw [if_pos hind]
      exact hn
    · rw [if_neg hind]
      by_cases hq : g.POINTERS_PER_BLOCK ≤ b - POINTERS_PER_INODE
      · rw [if_pos hq]
        exact hn
      · rw [if_neg hq]
        cases hr : d.read x.Indirect with
        | none => exact hn
        | some ib =>
          apply hi
          rw [mem_indirectPointers]
          refine ⟨hind, ib, hr, ?_⟩
          unfold pointersOf
          exact List.mem_map.mpr ⟨b - POINTERS_PER_INODE, List.mem_range.mpr (by omega), rfl⟩

/-- The pointer slot of entry `j` of the indirect block. -/
theorem blockPointer_entry (g : Geometry) (d : Disk) (x : Inode) (j : Nat) (ib : Block)
    (hind : x.Indirect ≠ 0) (hj : j < g.POINTERS_PER_BLOCK)
    (hib : d.read x.Indirect = some ib) :
    blockPointer g d x (POINTERS_PER_INODE + j) = getPointer ib j := by
  unfold blockPointer
  rw [if_neg (by omega), if_neg hind, Nat.add_sub_cancel_left, if_neg (by omega), hib]

/-- The loop of `read` over the direct pointers of any file whose pointers lie
inside the device: it copies bytes of the file and stops at the end of the
request, at the end of the direct region, or at an empty slot. -/
theorem readDirect_any (g : Geometry) (hg : g.WF) (d : Disk) (hwf : d.WF g) (x : Inode)
    (offset rl : Nat) (hrl : offset + rl ≤ x.Size)
    (hin : ∀ b, blockPointer g d x b < d.size) :
    ∀ (fuel i : Nat) (rs : ReadState), fuel = POINTERS_PER_INODE - i →
      ReadInv g d x offset rl i rs →
      ∃ ret i' rs', readDirect g d x rl fuel i rs = some (ret, i', rs') ∧
        ReadInv g d x offset rl i' rs' ∧ i ≤ i' ∧ i' ≤ max i POINTERS_PER_INODE ∧
        (ret = false → rs'.hasRead < rl → POINTERS_PER_INODE ≤ i') := by
  intro fuel
  induction fuel with
  | zero =>
    intro i rs hf hinv
    exact ⟨false, i, rs, rfl, hinv, Nat.le_refl _, Nat.le_max_left _ _, fun _ _ => by omega⟩
  | succ fuel ih =>
    intro i rs hf hinv
    have hi5 : i < POINTERS_PER_INODE := by omega
    by_cases hlt : rs.hasRead < rl
    · by_cases hz : x.Direct.getD i 0 = 0
      · refine ⟨true, i, rs, ?_, hinv, Nat.le_refl _, Nat.le_max_left _ _,
          fun h => Bool.noConfusion h⟩
        simp only [readDirect, if_pos hlt, if_pos hz]
      · obtain ⟨rs1, h1, hinv1, _⟩ := readBlock_spec g hg d hwf x offset rl i rs hrl hinv hlt
          (hin i)
        obtain ⟨ret, i', rs', h2, hinv2, hle, hmax, hend⟩ := ih (i + 1) rs1 (by omega) hinv1
        rw [blockPointer_direct g d x i hi5] at h1
        refine ⟨ret, i', rs', ?_, hinv2, by omega, ?_, hend⟩
        · simp only [readDirect, if_pos hlt, if_neg hz, h1, Option.bind_eq_bind,
            Option.some_bind]
          exact h2
        · have : max (i + 1) POINTERS_PER_INODE = max i POINTERS_PER_INODE := by omega
          omega
    · refine ⟨false, i, rs, ?_, hinv, Nat.le_refl _, Nat.le_max_left _ _,
        fun _ h => absurd h hlt⟩
      simp only [readDirect, if_neg hlt]

/-- The loop of `read` over the entries of the indirect block of any file whose
pointers lie inside the device. -/
theorem readIndirect_any (g : Geometry) (hg : g.WF) (d : Disk) (hwf : d.WF g) (x : Inode)
    (offset rl : Nat) (hrl : offset + rl ≤ x.Size)
    (hin : ∀ b, blockPointer g d x b < d.size) (ib : Block) (hind : x.Indirect ≠ 0)
    (hib : d.read x.Indirect = some ib) :
    ∀ (fuel j : Nat) (rs : ReadState), fuel = g.POINTERS_PER_BLOCK - j →
      ReadInv g d x offset rl (POINTERS_PER_INODE + j) rs →
      ∃ j' rs', readIndirect g d x ib rl fuel j rs = some rs' ∧
        ReadInv g d x offset rl (POINTERS_PER_INODE + j') rs' := by
  intro fuel
  induction fuel with
  | zero =>
    intro j rs hf hinv
    exact ⟨j, rs, rfl, hinv⟩
  | succ fuel ih =>
    intro j rs hf hinv
    by_cases hlt : rs.hasRead < rl
    · by_cases hz : getPointer ib j = 0
      · refine ⟨j, rs, ?_, hinv⟩
        simp only [readIndirect, if_pos hlt, if_pos hz]
      · obtain ⟨rs1, h1, hinv1, _⟩ := readBlock_spec g hg d hwf x offset rl _ rs hrl hinv hlt
          (hin _)
        obtain ⟨j', rs', h2, hinv2⟩ := ih (j + 1) rs1 (by omega) hinv1
        rw [blockPointer_entry g d x j ib hind (by omega) hib] at h1
        refine ⟨j', rs', ?_, hinv2⟩
        simp only [readIndirect, if_pos hlt, if_neg hz, h1, Option.bind_eq_bind,
          Option.some_bind]
        exact h2
    · refine ⟨j, rs, ?_, hinv⟩
      simp only [readIndirect, if_neg hlt]

/-- The result of `read` on a valid inode whose pointers lie inside the device,
for an offset inside the file: a count of at most the effective length, and that
many bytes of the file. -/
theorem read_any (g : Geometry) (hg : g.WF) (fs : FileSystem) (d : Disk)
    (hm : Mounted g fs d) (i : Nat) (hi : i < fs.numOfInodes) (x : Inode)
    (hx : inodeAt g d i = some x) (hv : x.Valid ≠ 0) (length offset : Nat)
    (hoff : offset < x.Size) (hd : ∀ b ∈ x.Direct, b < fs.numOfBlocks)
    (hind : x.Indirect < fs.numOfBlocks)
    (hip : ∀ b ∈ indirectPointers g d x, b < fs.numOfBlocks) :
    ∃ (r : Nat) (out : List Byte), read g fs i length offset = some ((r : Int), out) ∧
      r ≤ min length (x.Size - offset) ∧ out.length = r ∧
      ∀ k, k < r → out[k]? = fileByte g d x (offset + k) := by
  have hB : 0 < g.BLOCK_SIZE := by have := hg.1; omega
  have hnb : 0 < fs.numOfBlocks := by have := hm.inodeBlocks; omega
  have hxwf : x.WF := by
    obtain ⟨blk, _, rfl⟩ := (inodeAt_some g d i x).mp hx
    exact getInode_WF _ _
  have hin : ∀ b, blockPointer g d x b < d.size := by
    intro b
    rw [← hm.blocks]
    exact blockPointer_lt g d x _ hnb hd hip b
  have hload := load_inode_eq g d i x hx
  rw [if_neg hv] at hload
  have hrl : offset + min length (x.Size - offset) ≤ x.Size := by omega
  have hinv0 : ReadInv g d x offset (min length (x.Size - offset)) (offset / g.BLOCK_SIZE)
      { out := [], hasRead := 0, startByte := offset % g.BLOCK_SIZE } :=
    ⟨rfl, Nat.zero_le _,
      fun _ => ⟨by show offset + 0 = _; rw [Nat.add_zero, Nat.div_add_mod'], Nat.mod_lt _ hB⟩,
      fun k hk => absurd hk (Nat.not_lt_zero _)⟩
  obtain ⟨ret, i', rs', h1, hinv1, hle1, hmax1, hend1⟩ := readDirect_any g hg d hm.wf x offset
    _ hrl hin _ (offset / g.BLOCK_SIZE) _ rfl hinv0
  have hread : ∀ r, (if ret = true then some ((rs'.hasRead : Int), rs'.out)
        else if rs'.hasRead = min length (x.Size - offset) ∨ x.Indirect = 0 then
          some ((rs'.hasRead : Int), rs'.out)
        else do
          let indirectBlock ← d.read x.Indirect
          let st ← readIndirect g d x indirectBlock (min length (x.Size - offset))
            (g.POINTERS_PER_BLOCK - (i' + 18446744073709551616 - 5) % 18446744073709551616)
            ((i' + 18446744073709551616 - 5) % 18446744073709551616) rs'
          some ((st.hasRead : Int), st.out)) = some r →
      read g fs i length offset = some r := by
    intro r hr
    unfold read
    rw [if_neg (by omega)]
    simp only [hm.disk, Option.bind_eq_bind, Option.some_bind, hload,
      if_neg (by omega : ¬ offset ≥ x.Size), h1]
    exact hr
  by_cases hstop : ret = true ∨ rs'.hasRead = min length (x.Size - offset) ∨ x.Indirect = 0
  · refine ⟨rs'.hasRead, rs'.out, hread _ ?_, hinv1.le, hinv1.len, hinv1.bytes⟩
    by_cases hret : ret = true
    · rw [if_pos hret]
    · rw [if_neg hret, if_pos (by tauto)]
  · have hret : ret = false := by
      cases ret with
      | true => exact absurd (Or.inl rfl) hstop
      | false => rfl
    have hdone : ¬ rs'.hasRead = min length (x.Size - offset) := fun h => hstop (Or.inr (Or.inl h))
    have hindne : x.Indirect ≠ 0 := fun h => hstop (Or.inr (Or.inr h))
    have hlt : rs'.hasRead < min length (x.Size - offset) := by
      have := hinv1.le
      omega
    have hi5 := hend1 hret hlt
    obtain ⟨ib, hib, _⟩ := Disk.read_isSome d x.Indirect (by rw [← hm.blocks]; exact hind)
    have hi'lt : i' < 18446744073709551616 := by
      have h1 : offset / g.BLOCK_SIZE ≤ offset := Nat.div_le_self _ _
      have h2 := hxwf.2.1
      unfold POINTERS_PER_INODE at hmax1
      omega
    have hj : (i' + 18446744073709551616 - 5) % 18446744073709551616 = i' - 5 := by
      unfold POINTERS_PER_INODE at hi5
      omega
    have hi'eq : POINTERS_PER_INODE + (i' - 5) = i' := by
      unfold POINTERS_PER_INODE at hi5 ⊢
      omega
    obtain ⟨j', rs2, h2, hinv2⟩ := readIndirect_any g hg d hm.wf x offset _ hrl hin ib hindne
      hib _ (i' - 5) rs' rfl (by rw [hi'eq]; exact hinv1)
    refine ⟨rs2.hasRead, rs2.out, hread _ ?_, hinv2.le, hinv2.len, hinv2.bytes⟩
    rw [if_neg (by rw [hret]; decide), if_neg (by rintro (h | h); exact hdone h; exact hindne h)]
    simp only [hib, Option.bind_eq_bind, Option.some_bind, hj, h2]

/-- The failure of `read`: the inode number is out of range, the inode is not
valid, or the offset is not inside the file. -/
theorem read_fails (g : Geometry) (fs : FileSystem) (d : Disk) (hm : Mounted g fs d)
    (i length offset : Nat)
    (h : fs.numOfInodes ≤ i ∨ ¬ IsValid g d i ∨
      ∃ x, inodeAt g d i = some x ∧ x.Size ≤ offset) :
    read g fs i length offset = some (-1, []) := by
  unfold read
  by_cases hi : i ≥ fs.numOfInodes
  · rw [if_pos hi]
  · rw [if_neg hi]
    obtain ⟨x, hx, _⟩ := inodeAt_isSome g fs d hm i (by omega)
    have hload := load_inode_eq g d i x hx
    by_cases hv : x.Valid = 0
    · rw [if_pos hv] at hload
      simp only [hm.disk, Option.bind_eq_bind, Option.some_bind, hload]
    · rw [if_neg hv] at hload
      have hs : offset ≥ x.Size := by
        rcases h with h | h | ⟨x', hx', hs⟩
        · omega
        · exact absurd ((isValid_iff g d i).mpr ⟨x, hx, hv⟩) h
        · rw [hx] at hx'
          cases hx'
          exact hs
      simp only [hm.disk, Option.bind_eq_bind, Option.some_bind, hload, if_pos hs]

/-- C11: on a mounted file system whose inode `i` holds only pointers below the
block count, `read(i, buf, length, offset)` returns -1 exactly when `i` is out of
range, inode `i` is not valid, or `offset >= Size`; otherwise it returns a count
`r <= min(length, Size - offset)`, the `r` bytes it copies are the bytes
`offset .. offset + r - 1` of the file taken from the mapped blocks, and
`r = min(length, Size - offset)` when every pointer slot covering that range is
non-zero and `Size <= (P + Q) * BLOCK_SIZE`. -/
theorem read_contract (g : Geometry) (hg : g.WF) (fs : FileSystem) (d : Disk)
    (hm : Mounted g fs d) (i length offset : Nat)
    (hrange : PointersBelow g d fs.numOfBlocks i) :
    ((fs.numOfInodes ≤ i ∨ ¬ IsValid g d i ∨ ∃ x, inodeAt g d i = some x ∧ x.Size ≤ offset) →
      read g fs i length offset = some (-1, [])) ∧
    (∀ out, read g fs i length offset = some (-1, out) →
      fs.numOfInodes ≤ i ∨ ¬ IsValid g d i ∨ ∃ x, inodeAt g d i = some x ∧ x.Size ≤ offset) ∧
    (i < fs.numOfInodes → ∀ x, inodeAt g d i = some x → x.Valid ≠ 0 → offset < x.Size →
      ∃ (r : Nat) (out : List Byte), read g fs i length offset = some ((r : Int), out) ∧
        r ≤ min length (x.Size - offset) ∧ out.length = r ∧
        (∀ k, k < r → out[k]? = fileByte g d x (offset + k)) ∧
        ((∀ b, offset / g.BLOCK_SIZE ≤ b →
            b * g.BLOCK_SIZE < offset + min length (x.Size - offset) →
            blockPointer g d x b ≠ 0) →
          x.Size ≤ (POINTERS_PER_INODE + g.POINTERS_PER_BLOCK) * g.BLOCK_SIZE →
          r = min length (x.Size - offset))) := by
  have hnb : 0 < fs.numOfBlocks := by have := hm.inodeBlocks; omega
  have hgood : i < fs.numOfInodes → ∀ x, inodeAt g d i = some x → x.Valid ≠ 0 →
      offset < x.Size →
      ∃ (r : Nat) (out : List Byte), read g fs i length offset = some ((r : Int), out) ∧
        r ≤ min length (x.Size - offset) ∧ out.length = r ∧
        (∀ k, k < r → out[k]? = fileByte g d x (offset + k)) ∧
        ((∀ b, offset / g.BLOCK_SIZE ≤ b →
            b * g.BLOCK_SIZE < offset + min length (x.Size - offset) →
            blockPointer g d x b ≠ 0) →
          x.Size ≤ (POINTERS_PER_INODE + g.POINTERS_PER_BLOCK) * g.BLOCK_SIZE →
          r = min length (x.Size - offset)) := by
    intro hi x hx hv hoff
    unfold PointersBelow at hrange
    rw [hx] at hrange
    obtain ⟨r1, r2, r3⟩ := hrange
    obtain ⟨r, out, hr, hle, hlen, hbytes⟩ := read_any g hg fs d hm i hi x hx hv length offset
      hoff r1 r2 r3
    refine ⟨r, out, hr, hle, hlen, hbytes, fun hcov hmax => ?_⟩
    have hcov' : Covered g d x offset (offset + min length (x.Size - offset)) := by
      intro b hb1 hb2
      refine ⟨hcov b hb1 hb2, ?_⟩
      rw [← hm.blocks]
      exact blockPointer_lt g d x _ hnb r1 r3 b
    obtain ⟨out', hr', _, _⟩ := read_covered g hg fs d hm i hi x hx hv length offset hoff
      (by omega) hcov'
    rw [hr] at hr'
    simp only [Option.some.injEq, Prod.mk.injEq, Nat.cast_inj] at hr'
    exact hr'.1
  refine ⟨read_fails g fs d hm i length offset, fun out hout => ?_, hgood⟩
  by_contra hc
  have hi : i < fs.numOfInodes := by
    by_contra h
    exact hc (Or.inl (by omega))
  obtain ⟨x, hx, _⟩ := inodeAt_isSome g fs d hm i hi
  have hv : x.Valid ≠ 0 := fun h =>
    hc (Or.inr (Or.inl (fun hval => by
      obtain ⟨x', hx', hv'⟩ := (isValid_iff g d i).mp hval
      rw [hx] at hx'
      cases hx'
      exact hv' h)))
  have hoff : offset < x.Size := by
    by_contra h
    exact hc (Or.inr (Or.inr ⟨x, hx, by omega⟩))
  obtain ⟨r, out', hr, _⟩ := hgood hi x hx hv hoff
  rw [hr] at hout
  simp only [Option.some.injEq, Prod.mk.injEq] at hout
  have := hout.1
  omega

set_option maxRecDepth 100000 in
/-- C11, witness: 100 bytes from offset 300 of inode 0 of the mounted example
image, a file of 400 bytes; the request ends in the indirect region. -/
theorem read_contract_witness :
    tinyGeometry.WF ∧ Mounted tinyGeometry exampleFS (diskOf exampleFS) ∧
    PointersBelow tinyGeometry (diskOf exampleFS) exampleFS.numOfBlocks 0 ∧
    ((exampleFS.numOfInodes ≤ 0 ∨ ¬ IsValid tinyGeometry (diskOf exampleFS) 0 ∨
        ∃ x, inodeAt tinyGeometry (diskOf exampleFS) 0 = some x ∧ x.Size ≤ 300) →
      read tinyGeometry exampleFS 0 100 300 = some (-1, [])) ∧
    (∀ out, read tinyGeometry exampleFS 0 100 300 = some (-1, out) →
      exampleFS.numOfInodes ≤ 0 ∨ ¬ IsValid tinyGeometry (diskOf exampleFS) 0 ∨
        ∃ x, inodeAt tinyGeometry (diskOf exampleFS) 0 = some x ∧ x.Size ≤ 300) ∧
    (0 < exampleFS.numOfInodes → ∀ x, inodeAt tinyGeometry (diskOf exampleFS) 0 = some x →
      x.Valid ≠ 0 → 300 < x.Size →
      ∃ (r : Nat) (out : List Byte),
        read tinyGeometry exampleFS 0 100 300 = some ((r : Int), out) ∧
        r ≤ min 100 (x.Size - 300) ∧ out.length = r ∧
        (∀ k, k < r → out[k]? = fileByte tinyGeometry (diskOf exampleFS) x (300 + k)) ∧
        ((∀ b, 300 / tinyGeometry.BLOCK_SIZE ≤ b →
            b * tinyGeometry.BLOCK_SIZE < 300 + min 100 (x.Size - 300) →
            blockPointer tinyGeometry (diskOf exampleFS) x b ≠ 0) →
          x.Size ≤ (POINTERS_PER_INODE + tinyGeometry.POINTERS_PER_BLOCK)
            * tinyGeometry.BLOCK_SIZE →
          r = min 100 (x.Size - 300))) :=
  ⟨by decide, exampleFS_mounted, by decide,
    read_contract tinyGeometry (by decide) exampleFS (diskOf exampleFS) exampleFS_mounted
      0 100 300 (by decide)⟩

/-! ### `write` on any file: the loops -/

theorem set_same {α : Type} (l : List α) (i : Nat) (v : α) (h : l[i]? = some v) :
    l.set i v = l := by
  apply List.ext_getElem?
  intro k
  by_cases hk : k = i
  · have hi : i < l.length := (List.getElem?_eq_some_iff.mp h).1
    rw [hk, List.getElem?_set_self hi, h]
  · rw [List.getElem?_set_ne (Ne.symm hk)]

theorem set_set_restore {α : Type} (l : List α) (i : Nat) (u v : α) (h : l[i]? = some v) :
    (l.set i u).set i v = l := by
  apply List.ext_getElem?
  intro k
  by_cases hk : k = i
  · have hi : i < l.length := (List.getElem?_eq_some_iff.mp h).1
    rw [hk, List.getElem?_set_self (by rw [List.length_set]; exact hi), h]
  · rw [List.getElem?_set_ne (Ne.symm hk), List.getElem?_set_ne (Ne.symm hk)]

/-- The choice of the block for a pointer slot holding `cur`: the slot's own
block, or the lowest free block, or `goto ret` when none can be handed out. -/
theorem chooseBlock_cases (nb : Nat) (fm : List Bool) (hlen : fm.length = nb)
    (hnb : nb < 4294967296) (cur : Nat) :
    (chooseBlock nb fm cur = some none ∧ cur = 0 ∧ NoFree nb fm) ∨
    (∃ f, chooseBlock nb fm cur = some (some f) ∧ f ≠ 0 ∧
      (cur = f ∨ (cur = 0 ∧ f < nb ∧ fm[f]? = some true ∧ fm[0]? = some false))) := by
  by_cases hc : cur = 0
  · subst hc
    rcases chooseBlock_zero nb fm hlen hnb with ⟨h1, h2⟩ | ⟨f, h1, hf0, hfnb, hfree, hlow, _⟩
    · exact Or.inl ⟨h1, rfl, h2⟩
    · exact Or.inr ⟨f, h1, hf0, Or.inr ⟨rfl, hfnb, hfree, hlow 0 (by omega)⟩⟩
  · exact Or.inr ⟨cur, chooseBlock_set nb fm cur hc, hc, Or.inl rfl⟩

/-- One block written by `write` through pointer slot `cur`, into the block `f`
the slot held or into a free block `f`: the invariant moves on to slot
`cur + 1`. -/
theorem GInv.advance (g : Geometry) (hg : g.WF) (nb : Nat) (data : List Byte)
    (length offset : Nat) (fm0 : List Bool)
    (d0 : Disk) (old : Nat → Nat) (oldInd lim b0 cur : Nat) (st st1 : WriteState)
    (hlen : length ≤ data.length) (hfm0 : fm0.length = nb)
    (hold : ∀ k, k < lim → old k ≠ 0 → old k < nb ∧ fm0[old k]? = some false)
    (hdist : ∀ k k', k < lim → k' < lim → k ≠ k' → old k ≠ 0 → old k ≠ old k')
    (hinv : GInv g nb data length offset fm0 d0 old oldInd lim b0 cur st)
    (hlt : st.hasWrite < length) (hcur : cur < lim) (f : Nat) (hf0 : f ≠ 0)
    (hcase : st.ptrOf cur = f ∨
      (st.ptrOf cur = 0 ∧ f < nb ∧ st.freemap[f]? = some true ∧ st.freemap[0]? = some false))
    (blk : Block) (hr : st.disk.read f = some blk)
    (hd1 : st1.disk.read f = some (writeBytes blk st.startByte
      ((data.drop st.hasWrite).take (min (length - st.hasWrite) (g.BLOCK_SIZE - st.startByte)))))
    (hd2 : ∀ k, k ≠ f → st1.disk.read k = st.disk.read k) (hwf1 : st1.disk.WF g)
    (hsz1 : st1.disk.size = st.disk.size) (hfm1 : st1.freemap = st.freemap.set f false)
    (hhw : st1.hasWrite = st.hasWrite + min (length - st.hasWrite) (g.BLOCK_SIZE - st.startByte))
    (hsb1 : st1.startByte = 0) (hind : st1.inode.Indirect = st.inode.Indirect)
    (hiwf : st1.inode.WF)
    (hptr : ∀ k, st1.ptrOf k = if k = cur then f else st.ptrOf k) :
    GInv g nb data length offset fm0 d0 old oldInd lim b0 (cur + 1) st1 := by
  have hB : 0 < g.BLOCK_SIZE := by have := hg.1; omega
  have hsb := hinv.sb
  have hpos := hinv.pos hlt
  have h4 : (cur + 1) * g.BLOCK_SIZE = cur * g.BLOCK_SIZE + g.BLOCK_SIZE := by ring
  -- the two cases: the slot held `f`, or `f` was free
  have hkind : (old cur = f ∧ fm0[f]? = some false ∧ st.freemap[f]? = some false ∧ f < nb) ∨
      (old cur = 0 ∧ st.ptrOf cur = 0 ∧ f < nb ∧ fm0[f]? = some true ∧
        st.freemap[f]? = some true ∧ st.freemap[0]? = some false) := by
    rcases hcase with hre | ⟨hz, hfnb, hfree, hz0⟩
    · left
      have ho : old cur = f := by
        rcases hinv.slots cur hcur with h | ⟨_, _, _, _, _, h⟩
        · rw [← h, hre]
        · omega
      obtain ⟨h1, h2⟩ := hold cur hcur (by rw [ho]; exact hf0)
      rw [ho] at h1 h2
      exact ⟨ho, h2, (hinv.used f).mpr (Or.inl h2), h1⟩
    · right
      have ho : old cur = 0 := by
        rcases hinv.slots cur hcur with h | ⟨h, _⟩
        · rw [← h, hz]
        · exact h
      refine ⟨ho, hz, hfnb, ?_, hfree, hz0⟩
      apply getElem?_bool_of_ne (by omega) false
      intro hc
      have := (hinv.used f).mpr (Or.inl hc)
      rw [hfree] at this
      cases this
  have hfnb : f < nb := by
    rcases hkind with ⟨_, _, _, h⟩ | ⟨_, _, h, _⟩ <;> exact h
  have hflt : f < st.freemap.length := by rw [hinv.fmlen]; exact hfnb
  have hget : ∀ b, st1.freemap[b]? = if b = f then some false else st.freemap[b]? := by
    intro b
    rw [hfm1]
    by_cases hb : b = f
    · rw [if_pos hb, hb, List.getElem?_set_self hflt]
    · rw [if_neg hb, List.getElem?_set_ne (Ne.symm hb)]
  -- a block in an empty slot filled earlier is marked used
  have hnewused : ∀ k, k < lim → old k = 0 → st.ptrOf k ≠ 0 →
      st.freemap[st.ptrOf k]? = some false := fun k hk ho hne =>
    (hinv.used _).mpr (Or.inr ⟨hne, Or.inl ⟨k, hk, ho, rfl⟩⟩)
  refine ⟨hwf1, hsz1.trans hinv.size, by rw [hfm1, List.length_set]; exact hinv.fmlen, hiwf,
    by rw [hhw]; have := hinv.le; omega, by rw [hsb1]; exact hB, by have := hinv.range; omega,
    ?_, ?_, ?_, ?_, by rw [hind]; exact hinv.ind, ?_, ?_, ?_, ?_, ?_,
    by rw [hind]; exact hinv.indNew, ?_⟩
  · intro h
    rw [hhw] at h ⊢
    rw [hsb1]
    omega
  · intro b
    rw [hget b, hind]
    by_cases hb : b = f
    · rw [if_pos hb]
      refine ⟨fun _ => ?_, fun _ => rfl⟩
      rcases hkind with ⟨_, h2, _⟩ | ⟨ho, _, _, _, _, _⟩
      · exact Or.inl (by rw [hb]; exact h2)
      · exact Or.inr ⟨by rw [hb]; exact hf0,
          Or.inl ⟨cur, hcur, ho, by rw [hptr, if_pos rfl, hb]⟩⟩
    · rw [if_neg hb, hinv.used b]
      constructor
      · rintro (h | ⟨hb0, ⟨k, hk, ho, hp⟩ | h⟩)
        · exact Or.inl h
        · refine Or.inr ⟨hb0, Or.inl ⟨k, hk, ho, ?_⟩⟩
          rw [hptr]
          by_cases hkc : k = cur
          · exfalso
            rw [hkc] at hp ho
            rcases hkind with ⟨h1, _⟩ | ⟨_, h1, _⟩
            · rw [h1] at ho
              exact hf0 ho
            · rw [h1] at hp
              exact hb0 hp.symm
          · rw [if_neg hkc]
            exact hp
        · exact Or.inr ⟨hb0, Or.inr h⟩
      · rintro (h | ⟨hb0, ⟨k, hk, ho, hp⟩ | h⟩)
        · exact Or.inl h
        · refine Or.inr ⟨hb0, Or.inl ⟨k, hk, ho, ?_⟩⟩
          rw [hptr] at hp
          by_cases hkc : k = cur
          · rw [if_pos hkc] at hp
            exact absurd hp.symm hb
          · rw [if_neg hkc] at hp
            exact hp
        · exact Or.inr ⟨hb0, Or.inr h⟩
  · intro b hb
    have hbf : b ≠ f := by
      rcases hb with hb | ⟨hb1, hb2⟩
      · rw [hb]
        exact Ne.symm hf0
      · rcases hkind with ⟨h1, _⟩ | ⟨_, _, _, h1, _⟩
        · intro hc
          exact hb2 cur hcur (by rw [h1, hc])
        · intro hc
          rw [hc, h1] at hb1
          cases hb1
    rw [hd2 b hbf]
    exact hinv.frame b hb
  · intro k hk
    rw [hptr]
    by_cases hkc : k = cur
    · rw [if_pos hkc, hkc]
      rcases hkind with ⟨h1, _⟩ | ⟨h1, _, h2, h3, _⟩
      · exact Or.inl h1.symm
      · exact Or.inr ⟨h1, hf0, h2, h3, hinv.range, by omega⟩
    · rw [if_neg hkc]
      rcases hinv.slots k hk with h | ⟨a1, a2, a3, a4, a5, a6⟩
      · exact Or.inl h
      · exact Or.inr ⟨a1, a2, a3, a4, a5, by omega⟩
  · intro k k' hk hk' hne ho ho' hnz
    rw [hptr k, hptr k'] at *
    by_cases hkc : k = cur
    · rw [if_pos hkc] at hnz ⊢
      rw [if_neg (by omega)]
      intro hc
      rcases hkind with ⟨h1, _⟩ | ⟨_, _, _, _, h5, _⟩
      · rw [hkc, h1] at ho
        exact hf0 ho
      · have := hnewused k' hk' ho' (by rw [← hc]; exact hf0)
        rw [← hc, h5] at this
        cases this
    · rw [if_neg hkc] at hnz ⊢
      by_cases hkc' : k' = cur
      · rw [if_pos hkc']
        intro hc
        rcases hkind with ⟨h1, _⟩ | ⟨_, _, _, _, h5, _⟩
        · rw [hkc', h1] at ho'
          exact hf0 ho'
        · have := hnewused k hk ho hnz
          rw [hc, h5] at this
          cases this
      · rw [if_neg hkc']
        exact hinv.distinct k k' hk hk' hne ho ho' hnz
  · intro hoi hine k hk ho
    rw [hind] at hine ⊢
    rw [hptr]
    by_cases hkc : k = cur
    · rw [if_pos hkc]
      intro hc
      rcases hkind with ⟨h1, _⟩ | ⟨_, _, _, _, h5, _⟩
      · rw [hkc, h1] at ho
        exact hf0 ho
      · have := (hinv.used st.inode.Indirect).mpr (Or.inr ⟨hine, Or.inr ⟨hoi, rfl⟩⟩)
        rw [← hc, h5] at this
        cases this
    · rw [if_neg hkc]
      exact hinv.distinctInd hoi hine k hk ho
  · intro h0
    have heq := hinv.stall h0
    rw [hfm1, heq]
    rcases hkind with ⟨_, h2, _⟩ | ⟨_, _, _, _, _, h6⟩
    · exact set_same fm0 f false h2
    · rw [heq, h0] at h6
      cases h6
  · intro k h1 h2
    rw [hptr]
    by_cases hkc : k = cur
    · rw [if_pos hkc, hkc]
      exact ⟨hcur, hf0⟩
    · rw [if_neg hkc]
      exact hinv.filled k h1 (by omega)
  · intro _
    have hrg := hinv.range
    rw [Nat.add_sub_cancel, hhw]
    refine ⟨by omega, by omega, by omega⟩
  · intro p hp1 hp2
    rw [hhw] at hp2
    by_cases hpl : p < offset + st.hasWrite
    · obtain ⟨c1, c2, c3, c4, blk', c5, c6⟩ := hinv.content p hp1 hpl
      have hpe : st1.ptrOf (p / g.BLOCK_SIZE) = st.ptrOf (p / g.BLOCK_SIZE) := by
        rw [hptr, if_neg (by omega)]
      have hne : st.ptrOf (p / g.BLOCK_SIZE) ≠ f := by
        intro hc
        rcases hkind with ⟨h1, h2, _, _⟩ | ⟨_, _, _, _, h5, _⟩
        · rcases hinv.slots _ c1 with h | ⟨_, _, _, h4, _⟩
          · rw [hc] at h
            exact hdist cur (p / g.BLOCK_SIZE) hcur c1 (by omega) (by rw [h1]; exact hf0)
              (by rw [h1, h])
          · rw [hc, h2] at h4
            cases h4
        · rw [hc, h5] at c4
          cases c4
      rw [hpe, hd2 _ hne, hget, if_neg hne]
      exact ⟨c1, by omega, c3, c4, blk', c5, c6⟩
    · have hpe : p = cur * g.BLOCK_SIZE + (st.startByte + (p - (offset + st.hasWrite))) := by
        omega
      obtain ⟨hdv, hmd⟩ := mul_add_div_block g hg cur
        (st.startByte + (p - (offset + st.hasWrite))) (by omega)
      rw [← hpe] at hdv hmd
      have hbl := Disk.WF_read g st.disk hinv.wf f blk hr
      have htl : ((data.drop st.hasWrite).take
          (min (length - st.hasWrite) (g.BLOCK_SIZE - st.startByte))).length
          = min (length - st.hasWrite) (g.BLOCK_SIZE - st.startByte) := by
        rw [List.length_take, List.length_drop]
        omega
      rw [hdv, hptr, if_pos rfl, hmd, hget, if_pos rfl]
      refine ⟨hcur, Nat.lt_succ_self _, hf0, rfl, _, hd1, ?_⟩
      rw [getElem?_writeBytes_inside _ _ _ (by rw [htl]; omega) _ (by rw [htl]; omega),
        List.getElem?_take, if_pos (by omega), List.getElem?_drop]
      congr 1
      omega

theorem ptrOf_set_direct (st st1 : WriteState) (i f : Nat) (hi : i < POINTERS_PER_INODE)
    (hdl : st.inode.Direct.length = POINTERS_PER_INODE)
    (h1 : st1.inode.Direct = st.inode.Direct.set i f)
    (h2 : st1.indirectBlock = st.indirectBlock) (k : Nat) :
    st1.ptrOf k = if k = i then f else st.ptrOf k := by
  unfold WriteState.ptrOf
  rw [h1, h2, getD_set_eq _ _ _ _ (by omega)]
  by_cases hk : k = i
  · rw [if_pos hk, if_pos hk, if_pos (by omega)]
  · rw [if_neg hk, if_neg hk]

theorem ptrOf_putPointer (st st1 : WriteState) (j f : Nat)
    (hibl : 4 * j + 4 ≤ st.indirectBlock.length) (hf : f < 4294967296)
    (h1 : st1.inode.Direct = st.inode.Direct)
    (h2 : st1.indirectBlock = putPointer st.indirectBlock j f) (k : Nat) :
    st1.ptrOf k = if k = POINTERS_PER_INODE + j then f else st.ptrOf k := by
  unfold WriteState.ptrOf
  rw [h1, h2]
  by_cases hk : k < POINTERS_PER_INODE
  · rw [if_pos hk, if_pos hk, if_neg (by omega)]
  · rw [if_neg hk, if_neg hk, getPointer_putPointer _ _ _ _ hibl hf]
    by_cases hkj : k = POINTERS_PER_INODE + j
    · rw [if_pos hkj, if_pos (by omega)]
    · rw [if_neg hkj, if_neg (by omega)]

/-- The loop of `write` over the direct pointers of any file. -/
theorem writeDirect_gen (g : Geometry) (hg : g.WF) (nb : Nat) (data : List Byte)
    (length offset : Nat) (fm0 : List Bool) (d0 : Disk) (old : Nat → Nat) (oldInd b0 : Nat)
    (hlen : length ≤ data.length) (hfm0 : fm0.length = nb) (hnb : nb < 4294967296)
    (hold : ∀ k, k < POINTERS_PER_INODE → old k ≠ 0 → old k < nb ∧ fm0[old k]? = some false)
    (hdist : ∀ k k', k < POINTERS_PER_INODE → k' < POINTERS_PER_INODE → k ≠ k' →
      old k ≠ 0 → old k ≠ old k') :
    ∀ (fuel i : Nat) (st : WriteState), fuel = POINTERS_PER_INODE - i →
      GInv g nb data length offset fm0 d0 old oldInd POINTERS_PER_INODE b0 i st →
      ∃ jumped i' st', writeDirect g nb data length fuel i st = some (jumped, i', st') ∧
        GInv g nb data length offset fm0 d0 old oldInd POINTERS_PER_INODE b0 i' st' ∧
        st'.inode.Valid = st.inode.Valid ∧ st'.inode.Size = st.inode.Size ∧
        st'.inode.Indirect = st.inode.Indirect ∧
        st'.indirectBlock = st.indirectBlock ∧ i ≤ i' ∧ i' ≤ max i POINTERS_PER_INODE ∧
        (jumped = true → st'.hasWrite < length ∧ NoFree nb st'.freemap) ∧
        (jumped = false → st'.hasWrite < length → POINTERS_PER_INODE ≤ i') := by
  intro fuel
  induction fuel with
  | zero =>
    intro i st hf hinv
    exact ⟨false, i, st, rfl, hinv, rfl, rfl, rfl, rfl, Nat.le_refl _, Nat.le_max_left _ _,
      fun h => Bool.noConfusion h, fun _ _ => by omega⟩
  | succ fuel ih =>
    intro i st hf hinv
    have hi5 : i < POINTERS_PER_INODE := by omega
    by_cases hlt : st.hasWrite < length
    · have hptrc : st.ptrOf i = st.inode.Direct.getD i 0 := by
        unfold WriteState.ptrOf
        rw [if_pos hi5]
      rcases chooseBlock_cases nb st.freemap hinv.fmlen hnb (st.inode.Direct.getD i 0) with
        ⟨hc, _, hno⟩ | ⟨f, hc, hf0, hcase⟩
      · refine ⟨true, i, st, ?_, hinv, rfl, rfl, rfl, rfl, Nat.le_refl _, Nat.le_max_left _ _,
          fun _ => ⟨hlt, hno⟩, fun h => Bool.noConfusion h⟩
        simp only [writeDirect, if_pos hlt, hc, Option.bind_eq_bind, Option.some_bind]
      · have hfnb : f < nb := by
          rcases hcase with h | ⟨_, h, _⟩
          · rcases hinv.slots i hi5 with h' | ⟨_, _, _, _, _, h'⟩
            · rw [hptrc, h] at h'
              rw [h']
              exact (hold i hi5 (by rw [← h']; exact hf0)).1
            · omega
          · exact h
        have hcase' : st.ptrOf i = f ∨ (st.ptrOf i = 0 ∧ f < nb ∧ st.freemap[f]? = some true ∧
            st.freemap[0]? = some false) := by
          rw [hptrc]
          exact hcase
        obtain ⟨blk, d', hr, _, hw, hd1, hd2, hwf1, hsz1⟩ := write_data_spec g st.disk hinv.wf f
          (by rw [hinv.size]; exact hfnb) (data.drop st.hasWrite) (length - st.hasWrite)
          st.startByte hinv.sb (by rw [List.length_drop]; omega)
        have hset : setFree st.freemap f false = some (st.freemap.set f false) :=
          (setFree_some _ _ _ _).mpr ⟨by rw [hinv.fmlen]; exact hfnb, rfl⟩
        have hstep := GInv.advance g hg nb data length offset fm0 d0 old oldInd
          POINTERS_PER_INODE b0 i st
          { st with disk := d', freemap := st.freemap.set f false,
                    inode := { st.inode with Direct := st.inode.Direct.set i f },
                    hasWrite := st.hasWrite
                      + min (length - st.hasWrite) (g.BLOCK_SIZE - st.startByte),
                    startByte := 0 }
          hlen hfm0 hold hdist hinv hlt hi5 f hf0 hcase' blk hr hd1 hd2 hwf1 hsz1 rfl rfl rfl rfl
          (Inode.WF_set_direct _ hinv.inodeWF i f (by omega))
          (ptrOf_set_direct st _ i f hi5 hinv.inodeWF.2.2.1 rfl rfl)
        obtain ⟨jumped, i', st', h2, hinv2, a1, a2, a3, a4, a5, a6, a7, a8⟩ :=
          ih (i + 1) _ (by omega) hstep
        refine ⟨jumped, i', st', ?_, hinv2, a1, a2, a3, a4, by omega, ?_, a7, a8⟩
        · have hne : ¬ (((min (length - st.hasWrite) (g.BLOCK_SIZE - st.startByte) : Nat) : Int)
              = -1) := by omega
          simp only [writeDirect, if_pos hlt, hc, Option.bind_eq_bind, Option.some_bind,
            hw, if_neg hne, hset, Int.toNat_ofNat]
          exact h2
        · have : max (i + 1) POINTERS_PER_INODE = max i POINTERS_PER_INODE := by omega
          omega
    · refine ⟨false, i, st, ?_, hinv, rfl, rfl, rfl, rfl, Nat.le_refl _, Nat.le_max_left _ _,
        fun h => Bool.noConfusion h, fun _ h => absurd h hlt⟩
      simp only [writeDirect, if_neg hlt]

/-- The loop of `write` over the entries of the indirect block of any file; the
indirect block on the device is not touched by it. -/
theorem writeIndirect_gen (g : Geometry) (hg : g.WF) (nb : Nat) (data : List Byte)
    (length offset : Nat) (fm0 : List Bool) (d0 : Disk) (old : Nat → Nat) (oldInd b0 : Nat)
    (hlen : length ≤ data.length) (hfm0 : fm0.length = nb) (hnb : nb < 4294967296)
    (hold : ∀ k, k < POINTERS_PER_INODE + g.POINTERS_PER_BLOCK → old k ≠ 0 →
      old k < nb ∧ fm0[old k]? = some false ∧ old k ≠ oldInd)
    (hdist : ∀ k k', k < POINTERS_PER_INODE + g.POINTERS_PER_BLOCK →
      k' < POINTERS_PER_INODE + g.POINTERS_PER_BLOCK → k ≠ k' → old k ≠ 0 → old k ≠ old k')
    (holdInd : oldInd ≠ 0 → fm0[oldInd]? = some false) (ib0 : Block) :
    ∀ (fuel j : Nat) (st : WriteState), fuel = g.POINTERS_PER_BLOCK - j →
      GInv g nb data length offset fm0 d0 old oldInd (POINTERS_PER_INODE + g.POINTERS_PER_BLOCK) b0
        (POINTERS_PER_INODE + j) st →
      st.inode.Indirect ≠ 0 → st.indirectBlock.length = g.BLOCK_SIZE →
      st.disk.read st.inode.Indirect = some ib0 →
      ∃ j' st', writeIndirect g nb data length fuel j st = some st' ∧
        GInv g nb data length offset fm0 d0 old oldInd (POINTERS_PER_INODE + g.POINTERS_PER_BLOCK)
          b0 (POINTERS_PER_INODE + j') st' ∧
        st'.inode = st.inode ∧ st'.indirectBlock.length = g.BLOCK_SIZE ∧
        st'.disk.read st.inode.Indirect = some ib0 ∧ j ≤ j' ∧
        (st'.hasWrite < length → NoFree nb st'.freemap ∨ g.POINTERS_PER_BLOCK ≤ j') := by
  intro fuel
  induction fuel with
  | zero =>
    intro j st hf hinv hind hibl hdi
    exact ⟨j, st, rfl, hinv, rfl, hibl, hdi, Nat.le_refl _, fun _ => Or.inr (by omega)⟩
  | succ fuel ih =>
    intro j st hf hinv hind hibl hdi
    have hjq : j < g.POINTERS_PER_BLOCK := by omega
    have h4q := hg.2.2.2.2.1
    have hcur : POINTERS_PER_INODE + j < POINTERS_PER_INODE + g.POINTERS_PER_BLOCK := by omega
    by_cases hlt : st.hasWrite < length
    · have hptrc : st.ptrOf (POINTERS_PER_INODE + j) = getPointer st.indirectBlock j := by
        unfold WriteState.ptrOf
        rw [if_neg (by omega), Nat.add_sub_cancel_left]
      have hiused : st.freemap[st.inode.Indirect]? = some false := by
        rcases hinv.ind with h | ⟨h1, _⟩
        · exact (hinv.used _).mpr (Or.inl (by rw [h]; exact holdInd (by rw [← h]; exact hind)))
        · exact (hinv.used _).mpr (Or.inr ⟨hind, Or.inr ⟨h1, rfl⟩⟩)
      rcases chooseBlock_cases nb st.freemap hinv.fmlen hnb (getPointer st.indirectBlock j) with
        ⟨hc, _, hno⟩ | ⟨f, hc, hf0, hcase⟩
      · refine ⟨j, st, ?_, hinv, rfl, hibl, hdi, Nat.le_refl _, fun _ => Or.inl hno⟩
        simp only [writeIndirect, if_pos hlt, hc, Option.bind_eq_bind, Option.some_bind]
      · have hfacts : f < nb ∧ f ≠ st.inode.Indirect := by
          rcases hcase with h | ⟨_, h, hfree, _⟩
          · rcases hinv.slots _ hcur with h' | ⟨_, _, _, _, _, h'⟩
            · rw [hptrc, h] at h'
              obtain ⟨o1, o2, o3⟩ := hold _ hcur (by rw [← h']; exact hf0)
              rw [← h'] at o1 o2 o3
              refine ⟨o1, ?_⟩
              rcases hinv.ind with hi | ⟨_, _, _, hi⟩
              · rw [hi]
                exact o3
              · intro hc'
                rw [← hc', o2] at hi
                cases hi
            · omega
          · refine ⟨h, ?_⟩
            intro hc'
            rw [← hc', hfree] at hiused
            cases hiused
        obtain ⟨hfnb, hfi⟩ := hfacts
        have hcase' : st.ptrOf (POINTERS_PER_INODE + j) = f ∨
            (st.ptrOf (POINTERS_PER_INODE + j) = 0 ∧ f < nb ∧ st.freemap[f]? = some true ∧
              st.freemap[0]? = some false) := by
          rw [hptrc]
          exact hcase
        obtain ⟨blk, d', hr, _, hw, hd1, hd2, hwf1, hsz1⟩ := write_data_spec g st.disk hinv.wf f
          (by rw [hinv.size]; exact hfnb) (data.drop st.hasWrite) (length - st.hasWrite)
          st.startByte hinv.sb (by rw [List.length_drop]; omega)
        have hset : setFree st.freemap f false = some (st.freemap.set f false) :=
          (setFree_some _ _ _ _).mpr ⟨by rw [hinv.fmlen]; exact hfnb, rfl⟩
        have hstep := GInv.advance g hg nb data length offset fm0 d0 old oldInd
          (POINTERS_PER_INODE + g.POINTERS_PER_BLOCK) b0 (POINTERS_PER_INODE + j) st
          { st with disk := d', freemap := st.freemap.set f false,
                    indirectBlock := putPointer st.indirectBlock j f,
                    hasWrite := st.hasWrite
                      + min (length - st.hasWrite) (g.BLOCK_SIZE - st.startByte),
                    startByte := 0 }
          hlen hfm0 (fun k hk hne => ⟨(hold k hk hne).1, (hold k hk hne).2.1⟩) hdist hinv hlt
          hcur f hf0 hcase' blk hr hd1 hd2 hwf1 hsz1 rfl rfl rfl rfl hinv.inodeWF
          (ptrOf_putPointer st _ j f (by rw [hibl]; omega) (by omega) rfl rfl)
        obtain ⟨j', st', h2, hinv2, a1, a2, a3, a4, a5⟩ := ih (j + 1) _ (by omega) hstep hind
          (by
            show (putPointer st.indirectBlock j f).length = _
            rw [length_putPointer _ _ _ (by rw [hibl]; omega)]
            exact hibl)
          (by
            show d'.read st.inode.Indirect = some ib0
            rw [hd2 _ (Ne.symm hfi)]
            exact hdi)
        refine ⟨j', st', ?_, hinv2, a1, a2, a3, by omega, a5⟩
        have hne : ¬ (((min (length - st.hasWrite) (g.BLOCK_SIZE - st.startByte) : Nat) : Int)
            = -1) := by omega
        simp only [writeIndirect, if_pos hlt, hc, Option.bind_eq_bind, Option.some_bind,
          hw, if_neg hne, hset, Int.toNat_ofNat]
        exact h2
    · refine ⟨j, st, ?_, hinv, rfl, hibl, hdi, Nat.le_refl _, fun h => absurd h hlt⟩
      simp only [writeIndirect, if_neg hlt]

/-- The invariant does not look at local pointers beyond `lim`. -/
theorem GInv.congr (g : Geometry) (nb : Nat) {data : List Byte} (length offset : Nat)
    (fm0 : List Bool) (d0 : Disk)
    (old : Nat → Nat) (oldInd lim b0 cur : Nat) (st st1 : WriteState)
    (hinv : GInv g nb data length offset fm0 d0 old oldInd lim b0 cur st)
    (hd : st1.disk = st.disk) (hf : st1.freemap = st.freemap) (hi : st1.inode = st.inode)
    (hh : st1.hasWrite = st.hasWrite) (hs : st1.startByte = st.startByte)
    (hp : ∀ k, k < lim → st1.ptrOf k = st.ptrOf k) :
    GInv g nb data length offset fm0 d0 old oldInd lim b0 cur st1 := by
  refine ⟨by rw [hd]; exact hinv.wf, by rw [hd]; exact hinv.size, by rw [hf]; exact hinv.fmlen,
    by rw [hi]; exact hinv.inodeWF, by rw [hh]; exact hinv.le, by rw [hs]; exact hinv.sb,
    hinv.range, by rw [hh, hs]; exact hinv.pos, ?_, by rw [hd]; exact hinv.frame, ?_,
    by rw [hi]; exact hinv.ind, ?_, ?_, by rw [hf]; exact hinv.stall,
    fun k h1 h2 => ⟨(hinv.filled k h1 h2).1, by
      rw [hp k (hinv.filled k h1 h2).1]
      exact (hinv.filled k h1 h2).2⟩,
    by rw [hh]; exact hinv.tight, by rw [hi]; exact hinv.indNew, ?_⟩
  · intro b
    rw [hf, hi, hinv.used b]
    constructor
    · rintro (h | ⟨hb0, ⟨k, hk, ho, hpk⟩ | h⟩)
      · exact Or.inl h
      · exact Or.inr ⟨hb0, Or.inl ⟨k, hk, ho, by rw [hp k hk]; exact hpk⟩⟩
      · exact Or.inr ⟨hb0, Or.inr h⟩
    · rintro (h | ⟨hb0, ⟨k, hk, ho, hpk⟩ | h⟩)
      · exact Or.inl h
      · exact Or.inr ⟨hb0, Or.inl ⟨k, hk, ho, by rw [← hp k hk]; exact hpk⟩⟩
      · exact Or.inr ⟨hb0, Or.inr h⟩
  · intro k hk
    rw [hp k hk]
    exact hinv.slots k hk
  · intro k k' hk hk'
    rw [hp k hk, hp k' hk']
    exact hinv.distinct k k' hk hk'
  · intro hoi hne k hk
    rw [hi] at hne ⊢
    rw [hp k hk]
    exact hinv.distinctInd hoi hne k hk
  · intro p hp1 hp2
    rw [hh] at hp2
    obtain ⟨c1, c2, c3, c4, c5⟩ := hinv.content p hp1 hp2
    rw [hp _ c1, hd, hf]
    exact ⟨c1, c2, c3, c4, c5⟩

/-- The invariant extends to more pointer slots that hold what they held at the
start. -/
theorem GInv.extend (g : Geometry) (nb : Nat) {data : List Byte} (length offset : Nat)
    (fm0 : List Bool) (d0 : Disk)
    (old : Nat → Nat) (oldInd lim lim' b0 cur : Nat) (st : WriteState)
    (hinv : GInv g nb data length offset fm0 d0 old oldInd lim b0 cur st) (hle : lim ≤ lim')
    (hp : ∀ k, lim ≤ k → k < lim' → st.ptrOf k = old k) :
    GInv g nb data length offset fm0 d0 old oldInd lim' b0 cur st := by
  refine ⟨hinv.wf, hinv.size, hinv.fmlen, hinv.inodeWF, hinv.le, hinv.sb, hinv.range, hinv.pos,
    ?_, ?_, ?_, hinv.ind, ?_, ?_, hinv.stall,
    fun k h1 h2 => ⟨Nat.lt_of_lt_of_le (hinv.filled k h1 h2).1 hle, (hinv.filled k h1 h2).2⟩,
    hinv.tight, hinv.indNew,
    fun p h1 h2 => ⟨Nat.lt_of_lt_of_le (hinv.content p h1 h2).1 hle, (hinv.content p h1 h2).2⟩⟩
  · intro b
    rw [hinv.used b]
    constructor
    · rintro (h | ⟨hb0, ⟨k, hk, ho, hpk⟩ | h⟩)
      · exact Or.inl h
      · exact Or.inr ⟨hb0, Or.inl ⟨k, by omega, ho, hpk⟩⟩
      · exact Or.inr ⟨hb0, Or.inr h⟩
    · rintro (h | ⟨hb0, ⟨k, hk, ho, hpk⟩ | h⟩)
      · exact Or.inl h
      · by_cases hkl : k < lim
        · exact Or.inr ⟨hb0, Or.inl ⟨k, hkl, ho, hpk⟩⟩
        · exfalso
          rw [hp k (by omega) hk, ho] at hpk
          exact hb0 hpk.symm
      · exact Or.inr ⟨hb0, Or.inr h⟩
  · intro b hb
    apply hinv.frame b
    rcases hb with hb | ⟨hb1, hb2⟩
    · exact Or.inl hb
    · exact Or.inr ⟨hb1, fun k hk => hb2 k (by omega)⟩
  · intro k hk
    by_cases hkl : k < lim
    · exact hinv.slots k hkl
    · exact Or.inl (hp k (by omega) hk)
  · intro k k' hk hk' hne ho ho' hnz
    by_cases hkl : k < lim
    · by_cases hkl' : k' < lim
      · exact hinv.distinct k k' hkl hkl' hne ho ho' hnz
      · rw [hp k' (by omega) hk', ho']
        exact hnz
    · rw [hp k (by omega) hk, ho] at hnz
      exact absurd rfl hnz
  · intro hoi hne k hk ho
    by_cases hkl : k < lim
    · exact hinv.distinctInd hoi hne k hkl ho
    · rw [hp k (by omega) hk, ho]
      exact Ne.symm hne

/-- The state of `write` before its first loop. -/
theorem GInv.start (g : Geometry) (hg : g.WF) (fs : FileSystem) (d : Disk)
    (hm : Mounted g fs d) (x : Inode) (hxwf : x.WF) (data : List Byte) (length offset : Nat) :
    GInv g fs.numOfBlocks data length offset fs.freemap d (blockPointer g d x) x.Indirect
      POINTERS_PER_INODE (offset / g.BLOCK_SIZE) (offset / g.BLOCK_SIZE)
      { disk := d, freemap := fs.freemap, inode := x, indirectBlock := zeroBlock g,
        hasWrite := 0, startByte := offset % g.BLOCK_SIZE } := by
  have hB : 0 < g.BLOCK_SIZE := by have := hg.1; omega
  have hptr : ∀ k, k < POINTERS_PER_INODE → WriteState.ptrOf
      { disk := d, freemap := fs.freemap, inode := x, indirectBlock := zeroBlock g,
        hasWrite := 0, startByte := offset % g.BLOCK_SIZE } k = blockPointer g d x k := by
    intro k hk
    rw [blockPointer_direct g d x k hk]
    unfold WriteState.ptrOf
    rw [if_pos hk]
  refine ⟨hm.wf, hm.blocks.symm, hm.freemap, hxwf, Nat.zero_le _, Nat.mod_lt _ hB,
    Nat.le_refl _, ?_, ?_, fun _ _ => rfl, fun k hk => Or.inl (hptr k hk), Or.inl rfl, ?_, ?_,
    fun _ => rfl, fun k h1 h2 => absurd h1 (Nat.not_le_of_lt h2), fun h => absurd rfl h,
    fun ho hne => absurd ho hne,
    fun p h1 h2 => absurd h1 (Nat.not_le_of_lt h2)⟩
  · intro _
    show offset + 0 = _
    rw [Nat.add_zero, Nat.div_add_mod']
  · intro b
    constructor
    · exact fun h => Or.inl h
    · rintro (h | ⟨hb0, ⟨k, hk, ho, hpk⟩ | ⟨ho, hpk⟩⟩)
      · exact h
      · rw [hptr k hk, ho] at hpk
        exact absurd hpk.symm hb0
      · have hpk' : x.Indirect = b := hpk
        rw [ho] at hpk'
        exact absurd hpk'.symm hb0
  · intro k k' hk _ _ ho _ hnz
    rw [hptr k hk, ho] at hnz
    exact absurd rfl hnz
  · intro ho hne
    exact absurd ho hne

/-- The allocation of the indirect block for any file without one: `write` goes
to `ret` with its state unchanged when no block can be handed out or only one
block is free, else the new indirect block is a zero block marked used. -/
theorem writeAllocIndirect_gen (g : Geometry) (nb : Nat) {data : List Byte}
    (length offset : Nat) (fm0 : List Bool)
    (d0 : Disk) (old : Nat → Nat) (oldInd b0 cur : Nat) (hfm0 : fm0.length = nb)
    (hnb : nb < 4294967296) (st : WriteState)
    (hinv : GInv g nb data length offset fm0 d0 old oldInd POINTERS_PER_INODE b0 cur st)
    (hind : st.inode.Indirect = 0) (hlt : st.hasWrite < length)
    (h5 : POINTERS_PER_INODE ≤ cur) :
    (writeAllocIndirect g nb st = some (true, st) ∧
      (NoFree nb st.freemap ∨ ∃ F, F ≠ 0 ∧ st.freemap[F]? = some true ∧
        NoFree nb (st.freemap.set F false))) ∨
    (∃ st', writeAllocIndirect g nb st = some (false, st') ∧
      GInv g nb data length offset fm0 d0 old oldInd POINTERS_PER_INODE b0 cur st' ∧
      st'.inode.Indirect ≠ 0 ∧ oldInd = 0 ∧
      st'.disk.read st'.inode.Indirect = some (zeroBlock g) ∧
      st'.inode.Valid = st.inode.Valid ∧ st'.inode.Size = st.inode.Size ∧
      st'.indirectBlock = st.indirectBlock ∧ st'.hasWrite = st.hasWrite) := by
  have hoi : oldInd = 0 := by
    rcases hinv.ind with h | ⟨_, h, _⟩
    · rw [← h, hind]
    · exact absurd hind h
  obtain ⟨fi, hfind, _, hspec⟩ := find_free_block_spec nb st.freemap hinv.fmlen
  rcases hspec with ⟨h0, hno⟩ | ⟨h0, h1, h2, hlow⟩
  · left
    refine ⟨?_, Or.inl hno⟩
    simp only [writeAllocIndirect, hfind, Option.bind_eq_bind, Option.some_bind, h0,
      Nat.zero_mod, if_true]
  · have hmod : fi % 4294967296 = fi := Nat.mod_eq_of_lt (by omega)
    have hfl : fi < st.freemap.length := by rw [hinv.fmlen]; exact h1
    have hset : setFree st.freemap fi false = some (st.freemap.set fi false) :=
      (setFree_some _ _ _ _).mpr ⟨hfl, rfl⟩
    have hz0 : st.freemap[0]? = some false := hlow 0 (by omega)
    obtain ⟨fb, hfb, _, hspec2⟩ := find_free_block_spec nb (st.freemap.set fi false)
      (by rw [List.length_set]; exact hinv.fmlen)
    by_cases hfb0 : fb % 4294967296 = 0
    · left
      have hset2 : setFree (st.freemap.set fi false) fi true
          = some ((st.freemap.set fi false).set fi true) :=
        (setFree_some _ _ _ _).mpr ⟨by rw [List.length_set]; exact hfl, rfl⟩
      have hrest : (st.freemap.set fi false).set fi true = st.freemap :=
        set_set_restore st.freemap fi false true h2
      have hfbz : fb = 0 := by
        rcases hspec2 with ⟨h, _⟩ | ⟨_, h, _⟩
        · exact h
        · have := Nat.mod_eq_of_lt (by omega : fb < 4294967296)
          omega
      have hno2 : NoFree nb (st.freemap.set fi false) := by
        rcases hspec2 with ⟨_, h⟩ | ⟨h, _⟩
        · exact h
        · exact absurd hfbz h
      refine ⟨?_, Or.inr ⟨fi, h0, h2, hno2⟩⟩
      simp only [writeAllocIndirect, hfind, Option.bind_eq_bind, Option.some_bind, hmod,
        if_neg h0, hset, hfb, if_pos hfb0, hset2, hrest]
    · right
      obtain ⟨d', hw⟩ := Disk.write_isSome st.disk fi (zeroBlock g) (by rw [hinv.size]; exact h1)
      have hinit : init_data_block g st.disk fi = some d' := by
        unfold init_data_block
        rw [if_neg (by rw [hinv.size]; omega)]
        exact hw
      have hset3 : setFree (st.freemap.set fi false) fi false
          = some ((st.freemap.set fi false).set fi false) :=
        (setFree_some _ _ _ _).mpr ⟨by rw [List.length_set]; exact hfl, rfl⟩
      have hget : ∀ b, ((st.freemap.set fi false).set fi false)[b]?
          = if b = fi then some false else st.freemap[b]? := by
        intro b
        by_cases hb : b = fi
        · rw [if_pos hb, hb, List.getElem?_set_self (by rw [List.length_set]; exact hfl)]
        · rw [if_neg hb, List.getElem?_set_ne (Ne.symm hb), List.getElem?_set_ne (Ne.symm hb)]
      have hfm0free : fm0[fi]? = some true := by
        apply getElem?_bool_of_ne (by omega) false
        intro hc
        have := (hinv.used fi).mpr (Or.inl hc)
        rw [h2] at this
        cases this
      have hnewused : ∀ k, k < POINTERS_PER_INODE → old k = 0 → st.ptrOf k ≠ 0 →
          st.freemap[st.ptrOf k]? = some false := fun k hk ho hne =>
        (hinv.used _).mpr (Or.inr ⟨hne, Or.inl ⟨k, hk, ho, rfl⟩⟩)
      refine ⟨{ st with disk := d', freemap := (st.freemap.set fi false).set fi false,
                        inode := { st.inode with Indirect := fi } }, ?_, ?_, h0, hoi,
        Disk.read_write_same st.disk d' fi _ hw, rfl, rfl, rfl, rfl⟩
      · simp only [writeAllocIndirect, hfind, Option.bind_eq_bind, Option.some_bind, hmod,
          if_neg h0, hset, hfb, if_neg hfb0, hinit, hset3]
      · refine ⟨Disk.WF_write g st.disk d' fi _ hinv.wf (length_zeroBlock g) hw,
          (Disk.size_write st.disk d' fi _ hw).trans hinv.size,
          by simp only [List.length_set]; exact hinv.fmlen, ?_, hinv.le, hinv.sb, hinv.range,
          hinv.pos, ?_, ?_, hinv.slots, Or.inr ⟨hoi, h0, h1, hfm0free⟩, hinv.distinct, ?_, ?_,
          hinv.filled, hinv.tight, fun _ _ => ?_, ?_⟩
        · obtain ⟨w1, w2, w3, w4, _⟩ := hinv.inodeWF
          exact ⟨w1, w2, w3, w4, by show fi < 4294967296; omega⟩
        · intro b
          show ((st.freemap.set fi false).set fi false)[b]? = some false ↔ (_ ∨ (_ ∧ (_ ∨
            (oldInd = 0 ∧ fi = b))))
          rw [hget b]
          by_cases hb : b = fi
          · rw [if_pos hb]
            exact ⟨fun _ => Or.inr ⟨by rw [hb]; exact h0, Or.inr ⟨hoi, hb.symm⟩⟩, fun _ => rfl⟩
          · rw [if_neg hb, hinv.used b]
            constructor
            · rintro (h | ⟨hb0, h | ⟨_, h⟩⟩)
              · exact Or.inl h
              · exact Or.inr ⟨hb0, Or.inl h⟩
              · rw [hind] at h
                exact absurd h.symm hb0
            · rintro (h | ⟨hb0, h | ⟨_, h⟩⟩)
              · exact Or.inl h
              · exact Or.inr ⟨hb0, Or.inl h⟩
              · exact absurd h.symm hb
        · intro b hb
          have hbf : b ≠ fi := by
            rcases hb with hb | ⟨hb1, _⟩
            · rw [hb]
              exact Ne.symm h0
            · intro hc
              rw [hc, hfm0free] at hb1
              cases hb1
          show d'.read b = _
          rw [Disk.read_write_other st.disk d' fi b _ hw hbf]
          exact hinv.frame b hb
        · intro _ _ k hk ho hc
          have hc' : st.ptrOf k = fi := hc
          have := hnewused k hk ho (by rw [hc']; exact h0)
          rw [hc', h2] at this
          cases this
        · intro hz
          have heq := hinv.stall hz
          rw [heq, hz] at hz0
          cases hz0
        · have hp := hinv.pos hlt
          have h5b := Nat.mul_le_mul_right g.BLOCK_SIZE h5
          omega
        · intro p hp1 hp2
          obtain ⟨c1, c2, c3, c4, blk', c5, c6⟩ := hinv.content p hp1 hp2
          have hne : st.ptrOf (p / g.BLOCK_SIZE) ≠ fi := by
            intro hc
            rw [hc, h2] at c4
            cases c4
          refine ⟨c1, c2, c3, ?_, blk', ?_, c6⟩
          · show ((st.freemap.set fi false).set fi false)[st.ptrOf (p / g.BLOCK_SIZE)]? = _
            rw [hget, if_neg hne]
            exact c4
          · show d'.read (st.ptrOf (p / g.BLOCK_SIZE)) = _
            rw [Disk.read_write_other st.disk d' fi _ _ hw hne]
            exact c5

theorem blockPointer_no_indirect (g : Geometry) (d : Disk) (x : Inode) (k : Nat)
    (hind : x.Indirect = 0) (hk : POINTERS_PER_INODE ≤ k) : blockPointer g d x k = 0 := by
  unfold blockPointer
  rw [if_neg (by omega), if_pos hind]

/-- The part of `write` from the load of the indirect block to the label `ret`,
for any file that has an indirect block. -/
theorem writeIndirectPart_gen (g : Geometry) (hg : g.WF) (nb : Nat) (data : List Byte)
    (length offset : Nat) (fm0 : List Bool) (d0 : Disk) (old : Nat → Nat) (oldInd b0 : Nat)
    (hlen : length ≤ data.length) (hfm0 : fm0.length = nb) (hnb : nb < 4294967296)
    (hold : ∀ k, k < POINTERS_PER_INODE + g.POINTERS_PER_BLOCK → old k ≠ 0 →
      old k < nb ∧ fm0[old k]? = some false ∧ old k ≠ oldInd)
    (hdist : ∀ k k', k < POINTERS_PER_INODE + g.POINTERS_PER_BLOCK →
      k' < POINTERS_PER_INODE + g.POINTERS_PER_BLOCK → k ≠ k' → old k ≠ 0 → old k ≠ old k')
    (holdInd : oldInd ≠ 0 → fm0[oldInd]? = some false) (ib0 : Block) (i' : Nat)
    (st : WriteState)
    (hinv : GInv g nb data length offset fm0 d0 old oldInd POINTERS_PER_INODE b0 i' st)
    (hind : st.inode.Indirect ≠ 0) (hdi : st.disk.read st.inode.Indirect = some ib0)
    (hent : ∀ j, j < g.POINTERS_PER_BLOCK → getPointer ib0 j = old (POINTERS_PER_INODE + j))
    (hi5 : st.hasWrite < length → POINTERS_PER_INODE ≤ i')
    (hi64 : i' < 18446744073709551616) :
    ∃ cur st', writeIndirectPart g nb data length i' st = some st' ∧
      GInv g nb data length offset fm0 d0 old oldInd (POINTERS_PER_INODE + g.POINTERS_PER_BLOCK) b0
        cur st' ∧
      st'.inode = st.inode ∧ st'.indirectBlock.length = g.BLOCK_SIZE ∧
      st'.disk.read st.inode.Indirect = some ib0 ∧
      (st'.hasWrite < length →
        NoFree nb st'.freemap ∨ POINTERS_PER_INODE + g.POINTERS_PER_BLOCK ≤ cur) := by
  have hibl : ib0.length = g.BLOCK_SIZE := Disk.WF_read g st.disk hinv.wf _ _ hdi
  have hloaded : GInv g nb data length offset fm0 d0 old oldInd
      (POINTERS_PER_INODE + g.POINTERS_PER_BLOCK) b0 i' { st with indirectBlock := ib0 } := by
    apply GInv.extend g nb length offset fm0 d0 old oldInd POINTERS_PER_INODE _ b0 i'
    · apply GInv.congr g nb length offset fm0 d0 old oldInd POINTERS_PER_INODE b0 i' st
        { st with indirectBlock := ib0 } hinv rfl rfl rfl rfl rfl
      intro k hk
      unfold WriteState.ptrOf
      rw [if_pos hk, if_pos hk]
    · exact Nat.le_add_right _ _
    · intro k h1 h2
      unfold WriteState.ptrOf
      rw [if_neg (by omega)]
      show getPointer ib0 (k - POINTERS_PER_INODE) = old k
      rw [hent _ (by omega)]
      congr 1
      omega
  by_cases hlt : st.hasWrite < length
  · have h5 := hi5 hlt
    have hj : (i' + 18446744073709551616 - POINTERS_PER_INODE) % 18446744073709551616
        = i' - POINTERS_PER_INODE := by
      unfold POINTERS_PER_INODE at h5 ⊢
      omega
    have hcur : POINTERS_PER_INODE + (i' - POINTERS_PER_INODE) = i' := by omega
    obtain ⟨j', st', h2, hinv2, a1, a2, a3, _, a5⟩ := writeIndirect_gen g hg nb data length
      offset fm0 d0 old oldInd b0 hlen hfm0 hnb hold hdist holdInd ib0 _
      (i' - POINTERS_PER_INODE)
      { st with indirectBlock := ib0 } rfl (by rw [hcur]; exact hloaded) hind hibl hdi
    have hunf : writeIndirectPart g nb data length i' st
        = writeIndirect g nb data length
          (g.POINTERS_PER_BLOCK - (i' - POINTERS_PER_INODE)) (i' - POINTERS_PER_INODE)
          { st with indirectBlock := ib0 } := by
      unfold writeIndirectPart
      rw [hdi, Option.bind_eq_bind, Option.some_bind, hj]
    refine ⟨POINTERS_PER_INODE + j', st', by rw [hunf]; exact h2, hinv2, a1, a2, a3, ?_⟩
    intro h
    rcases a5 h with h | h
    · exact Or.inl h
    · exact Or.inr (by omega)
  · exact ⟨i', { st with indirectBlock := ib0 },
      writeIndirectPart_done g nb data length i' st ib0 hdi hlt, hloaded, rfl, hibl, hdi,
      fun h => absurd h hlt⟩

/-- The run of `write` on a valid inode up to the label `ret`: the local state
it reaches satisfies the invariant, and it stops short of `length` bytes only
when no block can be handed out, when one block is free where an indirect block
and a data block are needed, or at the last entry of the indirect block. -/
theorem write_trace (g : Geometry) (hg : g.WF) (fs : FileSystem) (d : Disk)
    (hm : Mounted g fs d) (i : Nat) (hi : i < fs.numOfInodes) (x0 : Inode)
    (hx : inodeAt g d i = some x0) (hv : x0.Valid ≠ 0) (data : List Byte)
    (length offset : Nat) (hlen : length ≤ data.length)
    (hoff : offset < 18446744073709551616)
    (hold : ∀ k, k < POINTERS_PER_INODE + g.POINTERS_PER_BLOCK → blockPointer g d x0 k ≠ 0 →
      blockPointer g d x0 k < fs.numOfBlocks ∧
      fs.freemap[blockPointer g d x0 k]? = some false ∧ blockPointer g d x0 k ≠ x0.Indirect)
    (hdist : ∀ k k', k < POINTERS_PER_INODE + g.POINTERS_PER_BLOCK →
      k' < POINTERS_PER_INODE + g.POINTERS_PER_BLOCK → k ≠ k' →
      blockPointer g d x0 k ≠ 0 → blockPointer g d x0 k ≠ blockPointer g d x0 k')
    (holdInd : x0.Indirect ≠ 0 →
      x0.Indirect < fs.numOfBlocks ∧ fs.freemap[x0.Indirect]? = some false) :
    ∃ st lim cur, write g fs i data length offset = writeRet g fs i offset st ∧
      GInv g fs.numOfBlocks data length offset fs.freemap d (blockPointer g d x0) x0.Indirect lim
        (offset / g.BLOCK_SIZE) cur st ∧
      st.inode.Valid = x0.Valid ∧ st.inode.Size = x0.Size ∧
      ((lim = POINTERS_PER_INODE ∧ st.indirectBlock = zeroBlock g ∧
          st.inode.Indirect = x0.Indirect ∧ st.hasWrite < length) ∨
        (lim = POINTERS_PER_INODE ∧ st.inode.Indirect = 0 ∧
          st.disk.read 0 = some st.indirectBlock ∧ st.hasWrite = length) ∨
        (lim = POINTERS_PER_INODE + g.POINTERS_PER_BLOCK ∧ st.inode.Indirect ≠ 0 ∧
          st.indirectBlock.length = g.BLOCK_SIZE ∧
          ∃ ib0, st.disk.read st.inode.Indirect = some ib0 ∧
            ∀ j, j < g.POINTERS_PER_BLOCK →
              getPointer ib0 j = blockPointer g d x0 (POINTERS_PER_INODE + j))) ∧
      (st.hasWrite < length → NoFree fs.numOfBlocks st.freemap ∨
        (st.inode.Indirect = 0 ∧ POINTERS_PER_INODE ≤ cur ∧
          ∃ F, F ≠ 0 ∧ st.freemap[F]? = some true ∧
            NoFree fs.numOfBlocks (st.freemap.set F false)) ∨
        POINTERS_PER_INODE + g.POINTERS_PER_BLOCK ≤ cur) := by
  have hnbpos : 0 < fs.numOfBlocks := by have := hm.inodeBlocks; omega
  have hxwf : x0.WF := by
    obtain ⟨blk, _, rfl⟩ := (inodeAt_some g d i x0).mp hx
    exact getInode_WF _ _
  have hload := load_inode_eq g d i x0 hx
  rw [if_neg hv] at hload
  have hinv0 := GInv.start g hg fs d hm x0 hxwf data length offset
  have hold5 : ∀ k, k < POINTERS_PER_INODE → blockPointer g d x0 k ≠ 0 →
      blockPointer g d x0 k < fs.numOfBlocks ∧
      fs.freemap[blockPointer g d x0 k]? = some false := fun k hk hne =>
    ⟨(hold k (by omega) hne).1, (hold k (by omega) hne).2.1⟩
  have holdI : x0.Indirect ≠ 0 → fs.freemap[x0.Indirect]? = some false := fun h =>
    (holdInd h).2
  obtain ⟨jumped, i', st1, h1, hinv1, hval1, hsz1, hind1, hib1, hle1, hmax1, hj1, hnj1⟩ :=
    writeDirect_gen g hg fs.numOfBlocks data length offset fs.freemap d (blockPointer g d x0)
      x0.Indirect (offset / g.BLOCK_SIZE) hlen hm.freemap hm.small hold5
      (fun k k' hk hk' => hdist k k' (by omega) (by omega)) _
      (offset / g.BLOCK_SIZE) _ rfl hinv0
  have hunf := write_eq_of_direct g fs d i data length offset x0 hlen hi hm.disk hload _ _ _ h1
  have hi64 : i' < 18446744073709551616 := by
    have h1 : offset / g.BLOCK_SIZE ≤ offset := Nat.div_le_self _ _
    unfold POINTERS_PER_INODE at hmax1
    omega
  cases jumped with
  | true =>
    rw [if_pos rfl] at hunf
    exact ⟨st1, _, i', hunf, hinv1, hval1, hsz1, Or.inl ⟨rfl, hib1, hind1, (hj1 rfl).1⟩,
      fun _ => Or.inl (hj1 rfl).2⟩
  | false =>
    rw [if_neg (by decide)] at hunf
    by_cases hA : st1.hasWrite < length ∧ st1.inode.Indirect = 0
    · have hi5 := hnj1 rfl hA.1
      rcases writeAllocIndirect_gen g fs.numOfBlocks length offset fs.freemap d
          (blockPointer g d x0) x0.Indirect (offset / g.BLOCK_SIZE) i' hm.freemap hm.small st1
          hinv1 hA.2 hA.1 hi5 with
        ⟨ha, hstop⟩ | ⟨st2, ha, hinv2, hne2, hoi, hrd2, hv2, hs2, hib2, hhw2⟩
      · refine ⟨st1, _, i', ?_, hinv1, hval1, hsz1, Or.inl ⟨rfl, hib1, hind1, hA.1⟩, fun _ => ?_⟩
        · rw [hunf]
          simp only [writeTail, if_pos hA, ha, Option.bind_eq_bind, Option.some_bind]
        · rcases hstop with h | h
          · exact Or.inl h
          · exact Or.inr (Or.inl ⟨hA.2, hi5, h⟩)
      · obtain ⟨cur, st4, hp4, hinv4, hino4, hibl4, hdi4, hstop4⟩ := writeIndirectPart_gen g hg
          fs.numOfBlocks data length offset fs.freemap d (blockPointer g d x0) x0.Indirect
          (offset / g.BLOCK_SIZE) hlen hm.freemap hm.small hold hdist holdI (zeroBlock g) i' st2
          hinv2 hne2 hrd2
          (fun j _ => by
            rw [getPointer_zeroBlock, blockPointer_no_indirect g d x0 _ hoi (by omega)])
          (fun _ => hi5) hi64
        refine ⟨st4, _, cur, ?_, hinv4, by rw [hino4, hv2, hval1], by rw [hino4, hs2, hsz1],
          Or.inr (Or.inr ⟨rfl, by rw [hino4]; exact hne2, hibl4, zeroBlock g,
            by rw [hino4]; exact hdi4, fun j _ => by
              rw [getPointer_zeroBlock, blockPointer_no_indirect g d x0 _ hoi (by omega)]⟩),
          fun h => ?_⟩
        · rw [hunf]
          simp only [writeTail, if_pos hA, ha, Option.bind_eq_bind, Option.some_bind, hp4]
        · rcases hstop4 h with h | h
          · exact Or.inl h
          · exact Or.inr (Or.inr h)
    · by_cases hI : st1.inode.Indirect = 0
      · have hdone : ¬ st1.hasWrite < length := fun h => hA ⟨h, hI⟩
        obtain ⟨blk0, hr0, _⟩ := Disk.read_isSome st1.disk 0 (by rw [hinv1.size]; exact hnbpos)
        have hp := writeIndirectPart_done g fs.numOfBlocks data length i' st1 blk0
          (by rw [hI]; exact hr0) hdone
        refine ⟨{ st1 with indirectBlock := blk0 }, _, i', ?_, ?_, hval1, hsz1,
          Or.inr (Or.inl ⟨rfl, hI, hr0, by
            show st1.hasWrite = length
            have := hinv1.le
            omega⟩), fun h => absurd h hdone⟩
        · rw [hunf]
          unfold writeTail
          rw [if_neg hA, hp, Option.some_bind]
        · apply GInv.congr g fs.numOfBlocks length offset fs.freemap d _ _ _ _ i' st1
            { st1 with indirectBlock := blk0 } hinv1 rfl rfl rfl rfl rfl
          intro k hk
          unfold WriteState.ptrOf
          rw [if_pos hk, if_pos hk]
      · have hIeq : st1.inode.Indirect = x0.Indirect := hind1
        have hx0I : x0.Indirect ≠ 0 := by rw [← hIeq]; exact hI
        obtain ⟨hIlt, hIused⟩ := holdInd hx0I
        obtain ⟨ib, hrib, _⟩ := Disk.read_isSome d x0.Indirect (by rw [← hm.blocks]; exact hIlt)
        have hdi : st1.disk.read st1.inode.Indirect = some ib := by
          rw [hIeq, hinv1.frame x0.Indirect (Or.inr ⟨hIused, fun k hk => ?_⟩)]
          · exact hrib
          · by_cases hz : blockPointer g d x0 k = 0
            · rw [hz]
              exact Ne.symm hx0I
            · exact (hold k (by omega) hz).2.2
        obtain ⟨cur, st4, hp4, hinv4, hino4, hibl4, hdi4, hstop4⟩ := writeIndirectPart_gen g hg
          fs.numOfBlocks data length offset fs.freemap d (blockPointer g d x0) x0.Indirect
          (offset / g.BLOCK_SIZE) hlen hm.freemap hm.small hold hdist holdI ib i' st1
          hinv1 hI hdi
          (fun j hj => (blockPointer_entry g d x0 j ib hx0I hj hrib).symm)
          (hnj1 rfl) hi64
        refine ⟨st4, _, cur, ?_, hinv4, by rw [hino4, hval1], by rw [hino4, hsz1],
          Or.inr (Or.inr ⟨rfl, by rw [hino4]; exact hI, hibl4, ib,
            by rw [hino4]; exact hdi4,
            fun j hj => (blockPointer_entry g d x0 j ib hx0I hj hrib).symm⟩),
          fun h => ?_⟩
        · rw [hunf]
          unfold writeTail
          rw [if_neg hA, hp4, Option.some_bind]
        · rcases hstop4 h with h | h
          · exact Or.inl h
          · exact Or.inr (Or.inr h)

theorem blockPointer_beyond (g : Geometry) (d : Disk) (x : Inode) (k : Nat)
    (hk : POINTERS_PER_INODE + g.POINTERS_PER_BLOCK ≤ k) : blockPointer g d x k = 0 := by
  unfold blockPointer
  rw [if_neg (by omega)]
  by_cases hind : x.Indirect = 0
  · rw [if_pos hind]
  · rw [if_neg hind, if_pos (by omega)]

/-- The statements at the label `ret` for any file: the indirect block goes back
to the device when its entry 0 is set, and the inode is stored with the new
size. -/
theorem writeRet_gen (g : Geometry) (hg : g.WF) (fs : FileSystem) (d : Disk)
    (hm : Mounted g fs d) (i : Nat) (hi : i < fs.numOfInodes) (x0 : Inode)
    (hx : inodeAt g d i = some x0) (hv : x0.Valid ≠ 0)
    (htable : ∀ b, 1 ≤ b → b ≤ fs.numOfInodeBlocks → fs.freemap[b]? = some false)
    (hold : ∀ k, blockPointer g d x0 k ≠ 0 →
      fs.numOfInodeBlocks < blockPointer g d x0 k ∧ blockPointer g d x0 k ≠ x0.Indirect)
    (holdInd : x0.Indirect ≠ 0 → fs.numOfInodeBlocks < x0.Indirect ∧
      x0.Indirect < fs.numOfBlocks ∧ fs.freemap[x0.Indirect]? = some false)
    {data : List Byte} (length offset : Nat) (st : WriteState) (lim cur : Nat)
    (hinv : GInv g fs.numOfBlocks data length offset fs.freemap d (blockPointer g d x0) x0.Indirect
      lim (offset / g.BLOCK_SIZE) cur st)
    (hval : st.inode.Valid = x0.Valid) (hsz : st.inode.Size = x0.Size)
    (hphase : (lim = POINTERS_PER_INODE ∧ st.indirectBlock = zeroBlock g ∧
          st.inode.Indirect = x0.Indirect) ∨
        (lim = POINTERS_PER_INODE ∧ st.inode.Indirect = 0 ∧
          st.disk.read 0 = some st.indirectBlock) ∨
        (lim = POINTERS_PER_INODE + g.POINTERS_PER_BLOCK ∧ st.inode.Indirect ≠ 0 ∧
          st.indirectBlock.length = g.BLOCK_SIZE ∧
          ∃ ib0, st.disk.read st.inode.Indirect = some ib0 ∧
            ∀ j, j < g.POINTERS_PER_BLOCK →
              getPointer ib0 j = blockPointer g d x0 (POINTERS_PER_INODE + j))) :
    ∃ d2 x2, writeRet g fs i offset st
        = some ((st.hasWrite : Int), { fs with disk := some d2, freemap := st.freemap }) ∧
      inodeAt g d2 i = some x2 ∧ x2.Valid = x0.Valid ∧
      x2.Size = max x0.Size ((offset + st.hasWrite) % 4294967296) ∧
      x2.Direct = st.inode.Direct ∧ x2.Indirect = st.inode.Indirect ∧
      d2.WF g ∧ d2.size = d.size ∧
      (∀ k, k ≠ i → k < fs.numOfInodes → inodeAt g d2 k = inodeAt g d k) ∧
      (∀ b, (b = 0 ∨ (fs.freemap[b]? = some false ∧
          (∀ k, k < POINTERS_PER_INODE + g.POINTERS_PER_BLOCK → blockPointer g d x0 k ≠ b) ∧
          b ≠ x0.Indirect ∧ b ≠ i / g.INODES_PER_BLOCK + 1)) → d2.read b = d.read b) ∧
      (∀ k, blockPointer g d2 x2 k = blockPointer g d x0 k ∨
        (k < lim ∧ blockPointer g d2 x2 k = st.ptrOf k)) ∧
      ((lim = POINTERS_PER_INODE ∨ st.ptrOf POINTERS_PER_INODE ≠ 0) →
        ∀ k, k < lim → blockPointer g d2 x2 k = st.ptrOf k) ∧
      (∀ b, b ≠ i / g.INODES_PER_BLOCK + 1 → b ≠ st.inode.Indirect →
        d2.read b = st.disk.read b) := by
  have h0 : 0 < g.INODES_PER_BLOCK := hg.2.1
  have hlim5 : POINTERS_PER_INODE ≤ lim := by
    rcases hphase with ⟨h, _⟩ | ⟨h, _⟩ | ⟨h, _⟩ <;> omega
  have hlimQ : lim ≤ POINTERS_PER_INODE + g.POINTERS_PER_BLOCK := by
    rcases hphase with ⟨h, _⟩ | ⟨h, _⟩ | ⟨h, _⟩ <;> omega
  -- the blocks of the inode table are not touched by the loops
  have htabframe : ∀ t, 1 ≤ t → t ≤ fs.numOfInodeBlocks → st.disk.read t = d.read t := by
    intro t h1 h2
    apply hinv.frame t (Or.inr ⟨htable t h1 h2, fun k _ hc => ?_⟩)
    have := (hold k (by rw [hc]; omega)).1
    omega
  have htabind : ∀ t, 1 ≤ t → t ≤ fs.numOfInodeBlocks → t ≠ st.inode.Indirect := by
    intro t h1 h2 hc
    rcases hinv.ind with h | ⟨_, _, _, h⟩
    · have := (holdInd (by rw [← h, ← hc]; omega)).1
      omega
    · rw [← hc, htable t h1 h2] at h
      cases h
  have htb1 : i / g.INODES_PER_BLOCK < fs.numOfInodeBlocks := by
    apply Nat.div_lt_of_lt_mul
    rw [Nat.mul_comm, ← hm.inodes]
    exact hi
  have hIlt : st.inode.Indirect ≠ 0 → st.inode.Indirect < st.disk.size := by
    intro hne
    rw [hinv.size]
    rcases hinv.ind with h | ⟨_, _, h, _⟩
    · rw [h]
      exact (holdInd (by rw [← h]; exact hne)).2.1
    · exact h
  -- the indirect block is written back when its entry 0 is set
  have hback : ∃ d1, writeBackIndirect st = some d1 ∧ d1.WF g ∧ d1.size = fs.numOfBlocks ∧
      (∀ b, b ≠ st.inode.Indirect → d1.read b = st.disk.read b) ∧
      (st.inode.Indirect = 0 → d1 = st.disk) ∧
      (st.inode.Indirect ≠ 0 → (getPointer st.indirectBlock 0 = 0 ∧ d1 = st.disk) ∨
        (getPointer st.indirectBlock 0 ≠ 0 ∧
          lim = POINTERS_PER_INODE + g.POINTERS_PER_BLOCK ∧
          d1.read st.inode.Indirect = some st.indirectBlock)) := by
    by_cases hp0 : getPointer st.indirectBlock 0 = 0
    · refine ⟨st.disk, ?_, hinv.wf, hinv.size, fun _ _ => rfl, fun _ => rfl,
        fun _ => Or.inl ⟨hp0, rfl⟩⟩
      unfold writeBackIndirect
      rw [if_neg (by rw [hp0]; exact fun h => h rfl)]
    · rcases hphase with ⟨_, hz, _⟩ | ⟨_, hI, hr0⟩ | ⟨hl, hI, hibl, _⟩
      · rw [hz, getPointer_zeroBlock] at hp0
        exact absurd rfl hp0
      · refine ⟨st.disk, ?_, hinv.wf, hinv.size, fun _ _ => rfl, fun _ => rfl,
          fun h => absurd hI h⟩
        unfold writeBackIndirect
        rw [if_pos hp0, hI]
        exact Disk.write_read_self st.disk 0 _ hr0
      · obtain ⟨d1, hw⟩ := Disk.write_isSome st.disk st.inode.Indirect st.indirectBlock
          (hIlt hI)
        refine ⟨d1, ?_, Disk.WF_write g st.disk d1 _ _ hinv.wf hibl hw,
          (Disk.size_write st.disk d1 _ _ hw).trans hinv.size,
          fun b hb => Disk.read_write_other st.disk d1 _ b _ hw hb,
          fun h => absurd h hI,
          fun _ => Or.inr ⟨hp0, hl, Disk.read_write_same st.disk d1 _ _ hw⟩⟩
        unfold writeBackIndirect
        rw [if_pos hp0]
        exact hw
  obtain ⟨d1, hwb, hwf1, hsz1, hr1, hz1, hc1⟩ := hback
  have htab1 : ∀ t, 1 ≤ t → t ≤ fs.numOfInodeBlocks → d1.read t = d.read t := by
    intro t h1 h2
    rw [hr1 t (htabind t h1 h2)]
    exact htabframe t h1 h2
  have hx1 : inodeAt g d1 i = some x0 := by
    rw [← hx]
    unfold inodeAt
    rw [htab1 _ (Nat.le_add_left 1 _) htb1]
  obtain ⟨x2, hx2, hx2wf, hx2v, hx2s, hx2d, hx2i⟩ : ∃ x2 : Inode,
      x2 = { st.inode with Size := max st.inode.Size ((offset + st.hasWrite) % 4294967296) } ∧
      x2.WF ∧ x2.Valid = st.inode.Valid ∧
      x2.Size = max st.inode.Size ((offset + st.hasWrite) % 4294967296) ∧
      x2.Direct = st.inode.Direct ∧ x2.Indirect = st.inode.Indirect := by
    refine ⟨_, rfl, ?_, rfl, rfl, rfl, rfl⟩
    obtain ⟨w1, w2, w3, w4, w5⟩ := hinv.inodeWF
    refine ⟨w1, ?_, w3, w4, w5⟩
    show max st.inode.Size ((offset + st.hasWrite) % 4294967296) < 4294967296
    have := Nat.mod_lt (offset + st.hasWrite) (by decide : 0 < 4294967296)
    omega
  have hx2I : x2.Indirect ≠ 0 ↔ st.inode.Indirect ≠ 0 := by rw [hx2i]
  obtain ⟨d2, hs, a1, a2, a3, a4, a5⟩ := save_inode_valid g hg d1 hwf1 i x0 x2 hx1 hv hx2wf
  have htbI : st.inode.Indirect ≠ i / g.INODES_PER_BLOCK + 1 :=
    fun hc => htabind _ (Nat.le_add_left 1 _) htb1 hc.symm
  -- the indirect block on the device at the end
  have hfinal : st.inode.Indirect ≠ 0 → ∃ ibf, d2.read st.inode.Indirect = some ibf ∧
      ((∀ j, j < g.POINTERS_PER_BLOCK →
          getPointer ibf j = blockPointer g d x0 (POINTERS_PER_INODE + j)) ∨
        (lim = POINTERS_PER_INODE + g.POINTERS_PER_BLOCK ∧ ibf = st.indirectBlock)) ∧
      (lim = POINTERS_PER_INODE + g.POINTERS_PER_BLOCK → getPointer st.indirectBlock 0 ≠ 0 →
        ibf = st.indirectBlock) := by
    intro hne
    rw [a3 _ htbI]
    rcases hc1 hne with ⟨hp0, hd1⟩ | ⟨hp0, hl, hd1⟩
    · rw [hd1]
      rcases hphase with ⟨hl, _, hI⟩ | ⟨_, hI, _⟩ | ⟨hl, _, _, ib0, hdi, hent⟩
      · have hx0I : x0.Indirect ≠ 0 := by rw [← hI]; exact hne
        obtain ⟨_, hIlt', hIused⟩ := holdInd hx0I
        obtain ⟨ib, hrib, _⟩ := Disk.read_isSome d x0.Indirect (by rw [← hm.blocks]; exact hIlt')
        refine ⟨ib, ?_, Or.inl fun j hj => (blockPointer_entry g d x0 j ib hx0I hj hrib).symm,
          fun _ hnz => absurd hp0 hnz⟩
        rw [hI, hinv.frame x0.Indirect (Or.inr ⟨hIused, fun k _ => ?_⟩)]
        · exact hrib
        · by_cases hz : blockPointer g d x0 k = 0
          · rw [hz]
            exact Ne.symm hx0I
          · exact (hold k hz).2
      · exact absurd hI hne
      · exact ⟨ib0, hdi, Or.inl hent, fun _ hnz => absurd hp0 hnz⟩
    · exact ⟨st.indirectBlock, hd1, Or.inr ⟨hl, rfl⟩, fun _ _ => rfl⟩
  have hbp : ∀ k, blockPointer g d2 x2 k
        = blockPointer g d x0 k ∨
      (k < lim ∧ blockPointer g d2 x2 k = st.ptrOf k) := by
    intro k
    by_cases hk5 : k < POINTERS_PER_INODE
    · right
      refine ⟨by omega, ?_⟩
      rw [blockPointer_direct g d2 x2 k hk5, hx2d]
      unfold WriteState.ptrOf
      rw [if_pos hk5]
    · by_cases hI : st.inode.Indirect = 0
      · left
        have hx0I : x0.Indirect = 0 := by
          rcases hinv.ind with h | ⟨_, h, _⟩
          · rw [← h, hI]
          · exact absurd hI h
        rw [blockPointer_no_indirect g d2 x2 k (by rw [hx2i]; exact hI) (by omega),
          blockPointer_no_indirect g d x0 k hx0I (by omega)]
      · by_cases hkq : k < POINTERS_PER_INODE + g.POINTERS_PER_BLOCK
        · obtain ⟨ibf, hrf, hcf, _⟩ := hfinal hI
          have hke : POINTERS_PER_INODE + (k - POINTERS_PER_INODE) = k := by omega
          have hbpe := blockPointer_entry g d2 x2
            (k - POINTERS_PER_INODE) ibf (hx2I.2 hI) (by omega) (by rw [hx2i]; exact hrf)
          rw [hke] at hbpe
          rcases hcf with h | ⟨hl, h⟩
          · left
            rw [hbpe, h _ (by omega), hke]
          · right
            refine ⟨by omega, ?_⟩
            rw [hbpe, h]
            unfold WriteState.ptrOf
            rw [if_neg hk5]
        · left
          rw [blockPointer_beyond g d2 _ k (by omega), blockPointer_beyond g d x0 k (by omega)]
  refine ⟨d2, x2, ?_, a1, by rw [hx2v, hval], by rw [hx2s, hsz], hx2d, hx2i, a4,
    by rw [a5, hsz1, hm.blocks], ?_, ?_, hbp, ?_, fun b h1 h2 => by rw [a3 b h1, hr1 b h2]⟩
  · rw [hx2] at hs
    simp only [writeRet, hwb, Option.bind_eq_bind, Option.some_bind, hs]
  · intro k hk hkn
    rw [a2 k hk]
    unfold inodeAt
    have hkt : k / g.INODES_PER_BLOCK < fs.numOfInodeBlocks := by
      apply Nat.div_lt_of_lt_mul
      rw [Nat.mul_comm, ← hm.inodes]
      exact hkn
    rw [htab1 _ (Nat.le_add_left 1 _) hkt]
  · intro b hb
    have hbtb : b ≠ i / g.INODES_PER_BLOCK + 1 := by
      rcases hb with hb | ⟨_, _, _, hb⟩
      · rw [hb]
        exact (Nat.succ_ne_zero _).symm
      · exact hb
    have hbI : b ≠ st.inode.Indirect ∨ st.inode.Indirect = 0 := by
      by_cases hI : st.inode.Indirect = 0
      · exact Or.inr hI
      · left
        rcases hb with hb | ⟨hb1, _, hb3, _⟩
        · rw [hb]
          exact Ne.symm hI
        · rcases hinv.ind with h | ⟨_, _, _, h⟩
          · rw [h]
            exact hb3
          · intro hc
            rw [← hc, hb1] at h
            cases h
    have hframe : st.disk.read b = d.read b := by
      apply hinv.frame b
      rcases hb with hb | ⟨hb1, hb2, _, _⟩
      · exact Or.inl hb
      · exact Or.inr ⟨hb1, fun k hk => hb2 k (by omega)⟩
    rw [a3 b hbtb]
    rcases hbI with h | h
    · rw [hr1 b h, hframe]
    · rw [hz1 h, hframe]
  · intro hcond k hk
    rcases hbp k with h | ⟨_, h⟩
    · by_cases hk5 : k < POINTERS_PER_INODE
      · rw [blockPointer_direct g d2 x2 k hk5, hx2d]
        unfold WriteState.ptrOf
        rw [if_pos hk5]
      · have hl : lim = POINTERS_PER_INODE + g.POINTERS_PER_BLOCK := by
          rcases hphase with ⟨h', _⟩ | ⟨h', _⟩ | ⟨h', _⟩ <;> omega
        have hnz : getPointer st.indirectBlock 0 ≠ 0 := by
          rcases hcond with h' | h'
          · omega
          · unfold WriteState.ptrOf at h'
            rw [if_neg (by omega), Nat.sub_self] at h'
            exact h'
        have hI : st.inode.Indirect ≠ 0 := by
          rcases hphase with ⟨h', _⟩ | ⟨h', _⟩ | ⟨_, h', _⟩
          · omega
          · omega
          · exact h'
        obtain ⟨ibf, hrf, _, hex⟩ := hfinal hI
        have hibf := hex hl hnz
        have hke : POINTERS_PER_INODE + (k - POINTERS_PER_INODE) = k := by omega
        have hbpe := blockPointer_entry g d2 x2
          (k - POINTERS_PER_INODE) ibf (hx2I.2 hI) (by omega) (by rw [hx2i]; exact hrf)
        rw [hke] at hbpe
        rw [hbpe, hibf]
        unfold WriteState.ptrOf
        rw [if_neg hk5]
    · exact h

/-! ### `write` on a valid inode of a sound state -/

theorem pointerAt_zero (g : Geometry) (d : Disk) (x : Inode) :
    pointerAt g d x 0 = x.Indirect := by
  unfold pointerAt
  rw [if_pos rfl]

theorem pointerAt_succ (g : Geometry) (d : Disk) (x : Inode) (k : Nat) :
    pointerAt g d x (k + 1) = blockPointer g d x k := by
  unfold pointerAt
  rw [if_neg (Nat.succ_ne_zero k), Nat.add_sub_cancel]

theorem Sound.slot (g : Geometry) (fs : FileSystem) (d : Disk) (hs : Sound g fs d) (i : Nat)
    (x : Inode) (hi : i < fs.numOfInodes) (hx : inodeAt g d i = some x) (hv : x.Valid ≠ 0)
    (k : Nat) (hne : blockPointer g d x k ≠ 0) :
    fs.numOfInodeBlocks < blockPointer g d x k ∧ blockPointer g d x k < fs.numOfBlocks ∧
      fs.freemap[blockPointer g d x k]? = some false ∧ blockPointer g d x k ≠ x.Indirect := by
  have h := hs.range i x (k + 1) hi hx hv (by rw [pointerAt_succ]; exact hne)
  have h2 := hs.distinct i x (k + 1) i x 0 hi hx hv hi hx hv (by rw [pointerAt_succ]; exact hne)
    (Or.inr (Nat.succ_ne_zero k))
  rw [pointerAt_succ] at h
  rw [pointerAt_succ, pointerAt_zero] at h2
  exact ⟨h.1, h.2.1, h.2.2, h2⟩

theorem Sound.apart (g : Geometry) (fs : FileSystem) (d : Disk) (hs : Sound g fs d) (i : Nat)
    (x : Inode) (hi : i < fs.numOfInodes) (hx : inodeAt g d i = some x) (hv : x.Valid ≠ 0)
    (k k' : Nat) (hkk : k ≠ k') (hne : blockPointer g d x k ≠ 0) :
    blockPointer g d x k ≠ blockPointer g d x k' := by
  have h := hs.distinct i x (k + 1) i x (k' + 1) hi hx hv hi hx hv
    (by rw [pointerAt_succ]; exact hne) (Or.inr (by omega))
  rw [pointerAt_succ, pointerAt_succ] at h
  exact h

theorem Sound.indirect (g : Geometry) (fs : FileSystem) (d : Disk) (hs : Sound g fs d) (i : Nat)
    (x : Inode) (hi : i < fs.numOfInodes) (hx : inodeAt g d i = some x) (hv : x.Valid ≠ 0)
    (hne : x.Indirect ≠ 0) :
    fs.numOfInodeBlocks < x.Indirect ∧ x.Indirect < fs.numOfBlocks ∧
      fs.freemap[x.Indirect]? = some false := by
  have h := hs.range i x 0 hi hx hv (by rw [pointerAt_zero]; exact hne)
  rw [pointerAt_zero] at h
  exact h

/-- The call `write` on a valid inode of a sound state returns the number of
bytes it placed; the local state `st` it reached at the label `ret` satisfies
the invariant of the loops, the inode is stored with the pointers of `st`, and
the other inodes and the blocks of others are untouched. -/
theorem write_valid (g : Geometry) (hg : g.WF) (fs : FileSystem) (d : Disk)
    (hs : Sound g fs d) (i : Nat) (hi : i < fs.numOfInodes) (x0 : Inode)
    (hx : inodeAt g d i = some x0) (hv : x0.Valid ≠ 0) (data : List Byte)
    (length offset : Nat) (hlen : length ≤ data.length)
    (hoff : offset < 18446744073709551616) :
    ∃ st lim cur d2 x2, write g fs i data length offset
        = some ((st.hasWrite : Int), { fs with disk := some d2, freemap := st.freemap }) ∧
      GInv g fs.numOfBlocks data length offset fs.freemap d (blockPointer g d x0) x0.Indirect lim
        (offset / g.BLOCK_SIZE) cur st ∧
      (lim = POINTERS_PER_INODE ∨
        (lim = POINTERS_PER_INODE + g.POINTERS_PER_BLOCK ∧ st.inode.Indirect ≠ 0)) ∧
      (st.hasWrite < length → NoFree fs.numOfBlocks st.freemap ∨
        (st.inode.Indirect = 0 ∧ POINTERS_PER_INODE ≤ cur ∧
          ∃ F, F ≠ 0 ∧ st.freemap[F]? = some true ∧
            NoFree fs.numOfBlocks (st.freemap.set F false)) ∨
        POINTERS_PER_INODE + g.POINTERS_PER_BLOCK ≤ cur) ∧
      inodeAt g d2 i = some x2 ∧ x2.Valid = x0.Valid ∧
      x2.Size = max x0.Size ((offset + st.hasWrite) % 4294967296) ∧
      x2.Direct = st.inode.Direct ∧ x2.Indirect = st.inode.Indirect ∧
      d2.WF g ∧ d2.size = d.size ∧
      (∀ k, k ≠ i → k < fs.numOfInodes → inodeAt g d2 k = inodeAt g d k) ∧
      (∀ b, (b = 0 ∨ (fs.freemap[b]? = some false ∧
          (∀ k, k < POINTERS_PER_INODE + g.POINTERS_PER_BLOCK → blockPointer g d x0 k ≠ b) ∧
          b ≠ x0.Indirect ∧ b ≠ i / g.INODES_PER_BLOCK + 1)) → d2.read b = d.read b) ∧
      (∀ k, blockPointer g d2 x2 k = blockPointer g d x0 k ∨
        (k < lim ∧ blockPointer g d2 x2 k = st.ptrOf k)) ∧
      ((lim = POINTERS_PER_INODE ∨ st.ptrOf POINTERS_PER_INODE ≠ 0) →
        ∀ k, k < lim → blockPointer g d2 x2 k = st.ptrOf k) ∧
      (∀ b, b ≠ i / g.INODES_PER_BLOCK + 1 → b ≠ st.inode.Indirect →
        d2.read b = st.disk.read b) := by
  have hm := hs.mounted
  obtain ⟨st, lim, cur, hw, hinv, hval, hsz, hphase, hstop⟩ := write_trace g hg fs d hm i hi x0
    hx hv data length offset hlen hoff
    (fun k _ hne =>
      ⟨(hs.slot g fs d i x0 hi hx hv k hne).2.1, (hs.slot g fs d i x0 hi hx hv k hne).2.2⟩)
    (fun k k' _ _ hkk hne => hs.apart g fs d i x0 hi hx hv k k' hkk hne)
    (fun hne => (hs.indirect g fs d i x0 hi hx hv hne).2)
  obtain ⟨d2, x2, hr, b1, b2, b3, b4, b5, b6, b7, b8, b9, b10, b11, b12⟩ := writeRet_gen g hg fs d
    hm i hi x0 hx hv hs.table
    (fun k hne =>
      ⟨(hs.slot g fs d i x0 hi hx hv k hne).1, (hs.slot g fs d i x0 hi hx hv k hne).2.2.2⟩)
    (hs.indirect g fs d i x0 hi hx hv) length offset st lim cur hinv hval hsz
    (by
      rcases hphase with ⟨h1, h2, h3, _⟩ | ⟨h1, h2, h3, _⟩ | h
      · exact Or.inl ⟨h1, h2, h3⟩
      · exact Or.inr (Or.inl ⟨h1, h2, h3⟩)
      · exact Or.inr (Or.inr h))
  refine ⟨st, lim, cur, d2, x2, by rw [hw, hr], hinv, ?_, hstop, b1, b2, b3, b4, b5, b6, b7, b8,
    b9, b10, b11, b12⟩
  rcases hphase with ⟨h1, _⟩ | ⟨h1, _⟩ | ⟨h1, h2, _⟩
  · exact Or.inl h1
  · exact Or.inl h1
  · exact Or.inr ⟨h1, h2⟩

/-! ### Pointer slots -/

theorem blockPointer_congr (g : Geometry) (d d' : Disk) (x : Inode) (k : Nat)
    (h : x.Indirect ≠ 0 → d'.read x.Indirect = d.read x.Indirect) :
    blockPointer g d' x k = blockPointer g d x k := by
  unfold blockPointer
  by_cases hind : x.Indirect = 0
  · rw [if_pos hind, if_pos hind]
  · rw [h hind]

theorem pointerAt_congr (g : Geometry) (d d' : Disk) (x : Inode) (s : Nat)
    (h : x.Indirect ≠ 0 → d'.read x.Indirect = d.read x.Indirect) :
    pointerAt g d' x s = pointerAt g d x s := by
  unfold pointerAt
  rw [blockPointer_congr g d d' x _ h]

theorem pointerAt_beyond (g : Geometry) (d : Disk) (x : Inode) (s : Nat)
    (hs : POINTERS_PER_INODE + g.POINTERS_PER_BLOCK < s) : pointerAt g d x s = 0 := by
  unfold pointerAt
  rw [if_neg (by omega)]
  exact blockPointer_beyond g d x _ (by omega)

theorem mem_direct_iff (g : Geometry) (d : Disk) (x : Inode) (hx : x.WF) (b : Nat) :
    b ∈ x.Direct ↔ ∃ k, k < POINTERS_PER_INODE ∧ blockPointer g d x k = b := by
  have hl : x.Direct.length = POINTERS_PER_INODE := hx.2.2.1
  constructor
  · intro hb
    obtain ⟨k, hk, hke⟩ := List.getElem_of_mem hb
    refine ⟨k, by omega, ?_⟩
    rw [blockPointer_direct g d x k (by omega), List.getD_eq_getElem?_getD,
      List.getElem?_eq_getElem hk, hke]
    rfl
  · rintro ⟨k, hk, hke⟩
    rw [blockPointer_direct g d x k hk, List.getD_eq_getElem?_getD,
      List.getElem?_eq_getElem (by omega)] at hke
    rw [← hke]
    exact List.getElem_mem _

theorem mem_pointersOf (g : Geometry) (blk : Block) (b : Nat) :
    b ∈ pointersOf g blk ↔ ∃ j, j < g.POINTERS_PER_BLOCK ∧ getPointer blk j = b := by
  unfold pointersOf
  rw [List.mem_map]
  constructor
  · rintro ⟨j, hj, h⟩
    exact ⟨j, List.mem_range.mp hj, h⟩
  · rintro ⟨j, hj, h⟩
    exact ⟨j, List.mem_range.mpr hj, h⟩

theorem mem_indirectPointers_iff (g : Geometry) (d : Disk) (x : Inode) (b : Nat) (hb : b ≠ 0) :
    b ∈ indirectPointers g d x ↔
      ∃ j, j < g.POINTERS_PER_BLOCK ∧ blockPointer g d x (POINTERS_PER_INODE + j) = b := by
  rw [mem_indirectPointers]
  constructor
  · rintro ⟨hind, blk, hr, hmem⟩
    obtain ⟨j, hj, he⟩ := (mem_pointersOf g blk b).mp hmem
    exact ⟨j, hj, by rw [blockPointer_entry g d x j blk hind hj hr]; exact he⟩
  · rintro ⟨j, hj, he⟩
    obtain ⟨hind, _, ib, hr, hbp⟩ := blockPointer_indirect g d x (POINTERS_PER_INODE + j)
      (Nat.le_add_right _ _) (by rw [he]; exact hb)
    rw [Nat.add_sub_cancel_left] at hbp
    exact ⟨hind, ib, hr, (mem_pointersOf g ib b).mpr ⟨j, hj, by rw [← hbp]; exact he⟩⟩

/-- A non-zero pointer of an inode record is in one of its pointer slots. -/
theorem heldBy_iff (g : Geometry) (d : Disk) (x : Inode) (hx : x.WF) (b : Nat) (hb : b ≠ 0) :
    HeldBy g d x b ↔ ∃ s, pointerAt g d x s = b := by
  unfold HeldBy
  constructor
  · rintro (h | h | h)
    · obtain ⟨k, _, hk⟩ := (mem_direct_iff g d x hx b).mp h
      exact ⟨k + 1, by rw [pointerAt_succ]; exact hk⟩
    · exact ⟨0, by rw [pointerAt_zero]; exact h.symm⟩
    · obtain ⟨j, _, hj⟩ := (mem_indirectPointers_iff g d x b hb).mp
        ((mem_indirectPointers g d x b).mpr h)
      exact ⟨POINTERS_PER_INODE + j + 1, by rw [pointerAt_succ]; exact hj⟩
  · rintro ⟨s, hs⟩
    cases s with
    | zero =>
      rw [pointerAt_zero] at hs
      exact Or.inr (Or.inl hs.symm)
    | succ k =>
      rw [pointerAt_succ] at hs
      by_cases hk : k < POINTERS_PER_INODE
      · exact Or.inl ((mem_direct_iff g d x hx b).mpr ⟨k, hk, hs⟩)
      · right
        right
        apply (mem_indirectPointers g d x b).mp
        apply (mem_indirectPointers_iff g d x b hb).mpr
        have h5 : POINTERS_PER_INODE + (k - POINTERS_PER_INODE) = k := by omega
        obtain ⟨_, hq, _⟩ := blockPointer_indirect g d x k (by omega) (by rw [hs]; exact hb)
        exact ⟨k - POINTERS_PER_INODE, hq, by rw [h5]; exact hs⟩

theorem inodeAt_WF (g : Geometry) (d : Disk) (i : Nat) (x : Inode)
    (hx : inodeAt g d i = some x) : x.WF := by
  obtain ⟨blk, _, rfl⟩ := (inodeAt_some g d i x).mp hx
  exact getInode_WF _ _

theorem Sound.pointersBelow (g : Geometry) (fs : FileSystem) (d : Disk) (hs : Sound g fs d)
    (i : Nat) (hi : i < fs.numOfInodes) (x : Inode) (hx : inodeAt g d i = some x)
    (hv : x.Valid ≠ 0) : PointersBelow g d fs.numOfBlocks i := by
  have hnb : 0 < fs.numOfBlocks := by have := hs.mounted.inodeBlocks; omega
  have hxwf := inodeAt_WF g d i x hx
  unfold PointersBelow
  rw [hx]
  refine ⟨fun b hb => ?_, ?_, fun b hb => ?_⟩
  · by_cases hb0 : b = 0
    · omega
    · obtain ⟨k, _, hk⟩ := (mem_direct_iff g d x hxwf b).mp hb
      rw [← hk]
      exact (hs.slot g fs d i x hi hx hv k (by rw [hk]; exact hb0)).2.1
  · by_cases hb0 : x.Indirect = 0
    · omega
    · exact (hs.indirect g fs d i x hi hx hv hb0).2.1
  · by_cases hb0 : b = 0
    · omega
    · obtain ⟨k, _, hk⟩ := (mem_indirectPointers_iff g d x b hb0).mp hb
      rw [← hk]
      exact (hs.slot g fs d i x hi hx hv _ (by rw [hk]; exact hb0)).2.1

/-- The call `write` on a valid inode keeps the state sound, leaves block 0 and
what the other inodes hold untouched, and changes nothing of the free map when
block 0 is marked free. -/
theorem write_sound (g : Geometry) (hg : g.WF) (fs : FileSystem) (d : Disk)
    (hs : Sound g fs d) (i : Nat) (hi : i < fs.numOfInodes) (x0 : Inode)
    (hx : inodeAt g d i = some x0) (hv : x0.Valid ≠ 0) (data : List Byte)
    (length offset : Nat) (hlen : length ≤ data.length)
    (hoff : offset < 18446744073709551616) :
    ∃ (w : Nat) (fs2 : FileSystem) (d2 : Disk) (x2 : Inode),
      write g fs i data length offset = some ((w : Int), fs2) ∧ fs2.disk = some d2 ∧
      Sound g fs2 d2 ∧ w ≤ length ∧
      fs2.numOfBlocks = fs.numOfBlocks ∧ fs2.numOfInodeBlocks = fs.numOfInodeBlocks ∧
      fs2.numOfInodes = fs.numOfInodes ∧ d2.read 0 = d.read 0 ∧
      (fs.freemap[0]? = some true → fs2.freemap = fs.freemap) ∧
      inodeAt g d2 i = some x2 ∧ x2.Valid = x0.Valid ∧
      x2.Size = max x0.Size ((offset + w) % 4294967296) ∧
      (w ≠ 0 → offset + w ≤ (POINTERS_PER_INODE + g.POINTERS_PER_BLOCK) * g.BLOCK_SIZE) ∧
      (∀ k, k ≠ i → k < fs.numOfInodes → inodeAt g d2 k = inodeAt g d k) ∧
      (∀ j y, j ≠ i → j < fs.numOfInodes → inodeAt g d j = some y → y.Valid ≠ 0 →
        ∀ s, pointerAt g d y s ≠ 0 → d2.read (pointerAt g d y s) = d.read (pointerAt g d y s)) := by
  obtain ⟨st, lim, cur, d2, x2, hw, hinv, hlim, hstop, b1, b2, b3, b4, b5, b6, b7, b8, b9, b10,
    b11, _⟩ := write_valid g hg fs d hs i hi x0 hx hv data length offset hlen hoff
  have hm := hs.mounted
  have hlimQ : lim ≤ POINTERS_PER_INODE + g.POINTERS_PER_BLOCK := by
    rcases hlim with h | ⟨h, _⟩ <;> omega
  have hmono : ∀ b, fs.freemap[b]? = some false → st.freemap[b]? = some false :=
    fun b h => (hinv.used b).mpr (Or.inl h)
  have hfree : ∀ p, p ≠ 0 → fs.freemap[p]? = some true → fs.numOfInodeBlocks < p := by
    intro p hp0 hfr
    by_contra hc
    have := hs.table p (by omega) (by omega)
    rw [hfr] at this
    cases this
  have htb1 : i / g.INODES_PER_BLOCK < fs.numOfInodeBlocks := by
    apply Nat.div_lt_of_lt_mul
    rw [Nat.mul_comm, ← hm.inodes]
    exact hi
  -- every pointer of the stored inode is the one it held or a block that was free
  have hcl : ∀ s, pointerAt g d2 x2 s = pointerAt g d x0 s ∨
      (pointerAt g d x0 s = 0 ∧ pointerAt g d2 x2 s ≠ 0 ∧
        pointerAt g d2 x2 s < fs.numOfBlocks ∧
        fs.freemap[pointerAt g d2 x2 s]? = some true ∧
        st.freemap[pointerAt g d2 x2 s]? = some false ∧
        ((s = 0 ∧ x0.Indirect = 0 ∧ pointerAt g d2 x2 s = st.inode.Indirect) ∨
          (∃ k, s = k + 1 ∧ k < lim ∧ blockPointer g d x0 k = 0 ∧
            pointerAt g d2 x2 s = st.ptrOf k))) := by
    intro s
    cases s with
    | zero =>
      rw [pointerAt_zero, pointerAt_zero, b5]
      rcases hinv.ind with h | ⟨h1, h2, h3, h4⟩
      · exact Or.inl h
      · exact Or.inr ⟨h1, h2, h3, h4, (hinv.used _).mpr (Or.inr ⟨h2, Or.inr ⟨h1, rfl⟩⟩),
          Or.inl ⟨rfl, h1, rfl⟩⟩
    | succ k =>
      rw [pointerAt_succ, pointerAt_succ]
      rcases b10 k with h | ⟨hk, h⟩
      · exact Or.inl h
      · rcases hinv.slots k hk with h' | ⟨h1, h2, h3, h4, _⟩
        · left
          rw [h, h']
        · right
          rw [h]
          exact ⟨h1, h2, h3, h4, (hinv.used _).mpr (Or.inr ⟨h2, Or.inl ⟨k, hk, h1, rfl⟩⟩),
            Or.inr ⟨k, rfl, hk, h1, rfl⟩⟩
  -- what the other inodes hold is untouched
  have hfr : ∀ j y, j ≠ i → j < fs.numOfInodes → inodeAt g d j = some y → y.Valid ≠ 0 →
      ∀ s, pointerAt g d y s ≠ 0 →
        d2.read (pointerAt g d y s) = d.read (pointerAt g d y s) := by
    intro j y hji hj hy hyv s hne
    have hr := hs.range j y s hj hy hyv hne
    apply b9
    right
    refine ⟨hr.2.2, fun k _ hc => ?_, fun hc => ?_, ?_⟩
    · have := hs.distinct j y s i x0 (k + 1) hj hy hyv hi hx hv hne (Or.inl hji)
      rw [pointerAt_succ] at this
      exact this hc.symm
    · have := hs.distinct j y s i x0 0 hj hy hyv hi hx hv hne (Or.inl hji)
      rw [pointerAt_zero] at this
      exact this hc
    · omega
  have hpa : ∀ j y, j ≠ i → j < fs.numOfInodes → inodeAt g d j = some y → y.Valid ≠ 0 →
      ∀ s, pointerAt g d2 y s = pointerAt g d y s := by
    intro j y hji hj hy hyv s
    apply pointerAt_congr
    intro hne
    have := hfr j y hji hj hy hyv 0 (by rw [pointerAt_zero]; exact hne)
    rw [pointerAt_zero] at this
    exact this
  have hsound : Sound g { fs with disk := some d2, freemap := st.freemap } d2 := by
    refine ⟨⟨rfl, b6, by show fs.numOfBlocks = d2.size; rw [b7]; exact hm.blocks,
      hm.inodeBlocks, hm.inodes, hinv.fmlen, hm.small⟩, fun b h1 h2 => hmono b (hs.table b h1 h2),
      ?_, ?_⟩
    · intro j y s hj hy hyv hne
      have hj' : j < fs.numOfInodes := hj
      show fs.numOfInodeBlocks < _ ∧ _ < fs.numOfBlocks ∧ st.freemap[_]? = some false
      by_cases hji : j = i
      · rw [hji, b1] at hy
        cases hy
        rcases hcl s with h | ⟨_, h2, h3, h4, h5, _⟩
        · rw [h] at hne ⊢
          have := hs.range i x0 s hi hx hv hne
          exact ⟨this.1, this.2.1, hmono _ this.2.2⟩
        · exact ⟨hfree _ h2 h4, h3, h5⟩
      · rw [b8 j hji hj'] at hy
        rw [hpa j y hji hj' hy hyv s] at hne ⊢
        have := hs.range j y s hj' hy hyv hne
        exact ⟨this.1, this.2.1, hmono _ this.2.2⟩
    · intro j y s j' y' s' hj hy hyv hj' hy' hyv' hne hdiff
      have hjn : j < fs.numOfInodes := hj
      have hjn' : j' < fs.numOfInodes := hj'
      by_cases hji : j = i
      · rw [hji, b1] at hy
        cases hy
        by_cases hji' : j' = i
        · rw [hji', b1] at hy'
          cases hy'
          have hss : s ≠ s' := by
            rcases hdiff with h | h
            · exact absurd (hji.trans hji'.symm) h
            · exact h
          rcases hcl s with h | ⟨n1, n2, n3, n4, n5, n6⟩
          · rcases hcl s' with h' | ⟨m1, m2, m3, m4, m5, m6⟩
            · rw [h, h']
              rw [h] at hne
              exact hs.distinct i x0 s i x0 s' hi hx hv hi hx hv hne (Or.inr hss)
            · intro hc
              rw [h] at hne hc
              have := (hs.range i x0 s hi hx hv hne).2.2
              rw [hc, m4] at this
              cases this
          · rcases hcl s' with h' | ⟨m1, m2, m3, m4, m5, m6⟩
            · intro hc
              have hne' : pointerAt g d x0 s' ≠ 0 := by rw [← h', ← hc]; exact n2
              have := (hs.range i x0 s' hi hx hv hne').2.2
              rw [← h', ← hc, n4] at this
              cases this
            · rcases n6 with ⟨e1, e2, e3⟩ | ⟨k, e1, e2, e3, e4⟩
              · rcases m6 with ⟨f1, _, _⟩ | ⟨k', f1, f2, f3, f4⟩
                · exact absurd (e1.trans f1.symm) hss
                · rw [e3, f4]
                  exact Ne.symm (hinv.distinctInd e2 (by rw [← e3]; exact n2) k' f2 f3)
              · rcases m6 with ⟨f1, f2, f3⟩ | ⟨k', f1, f2, f3, f4⟩
                · rw [e4, f3]
                  exact hinv.distinctInd f2 (by rw [← f3]; exact m2) k e2 e3
                · rw [e4, f4]
                  exact hinv.distinct k k' e2 f2 (by omega) e3 f3 (by rw [← e4]; exact n2)
        · rw [b8 j' hji' hjn'] at hy'
          rw [hpa j' y' hji' hjn' hy' hyv' s']
          rcases hcl s with h | ⟨n1, n2, n3, n4, n5, n6⟩
          · rw [h]
            rw [h] at hne
            exact hs.distinct i x0 s j' y' s' hi hx hv hjn' hy' hyv' hne
              (Or.inl (Ne.symm hji'))
          · intro hc
            have hne' : pointerAt g d y' s' ≠ 0 := by rw [← hc]; exact n2
            have := (hs.range j' y' s' hjn' hy' hyv' hne').2.2
            rw [← hc, n4] at this
            cases this
      · rw [b8 j hji hjn] at hy
        rw [hpa j y hji hjn hy hyv s] at hne ⊢
        by_cases hji' : j' = i
        · rw [hji', b1] at hy'
          cases hy'
          rcases hcl s' with h' | ⟨m1, m2, m3, m4, m5, m6⟩
          · rw [h']
            exact hs.distinct j y s i x0 s' hjn hy hyv hi hx hv hne (Or.inl hji)
          · intro hc
            have := (hs.range j y s hjn hy hyv hne).2.2
            rw [hc, m4] at this
            cases this
        · rw [b8 j' hji' hjn'] at hy'
          rw [hpa j' y' hji' hjn' hy' hyv' s']
          exact hs.distinct j y s j' y' s' hjn hy hyv hjn' hy' hyv' hne hdiff
  refine ⟨st.hasWrite, _, d2, x2, hw, rfl, hsound, hinv.le, rfl, rfl, rfl, b9 0 (Or.inl rfl),
    hinv.stall, b1, b2, b3, fun hw0 => ?_, b8, hfr⟩
  obtain ⟨t1, _, t3⟩ := hinv.tight hw0
  have hpos : 0 < cur := Nat.lt_of_le_of_lt (Nat.zero_le _) t1
  have hc := (hinv.filled (cur - 1) (Nat.le_sub_one_of_lt t1) (Nat.sub_lt hpos Nat.one_pos)).1
  have hle : cur ≤ POINTERS_PER_INODE + g.POINTERS_PER_BLOCK := by
    clear t1
    omega
  have := Nat.mul_le_mul_right g.BLOCK_SIZE hle
  clear t1
  omega

/-! ### The calls keep the state sound -/

theorem write_invalid (g : Geometry) (fs : FileSystem) (d : Disk) (hd : fs.disk = some d)
    (i : Nat) (data : List Byte) (length offset : Nat) (hlen : length ≤ data.length)
    (h : fs.numOfInodes ≤ i ∨ ∃ x, inodeAt g d i = some x ∧ x.Valid = 0) :
    write g fs i data length offset = some (-1, fs) := by
  unfold write
  rw [if_neg (by omega)]
  by_cases hi : i ≥ fs.numOfInodes
  · rw [if_pos hi]
  · rw [if_neg hi]
    rcases h with h | ⟨x, hx, hv⟩
    · omega
    · have hload := load_inode_eq g d i x hx
      rw [if_pos hv] at hload
      simp only [hd, Option.bind_eq_bind, Option.some_bind, hload]

theorem remove_invalid (g : Geometry) (fs : FileSystem) (d : Disk) (hd : fs.disk = some d)
    (i : Nat) (h : fs.numOfInodes ≤ i ∨ ∃ x, inodeAt g d i = some x ∧ x.Valid = 0) :
    remove g fs i = some (false, fs) := by
  unfold remove
  by_cases hi : i ≥ fs.numOfInodes
  · rw [if_pos hi]
  · rw [if_neg hi]
    rcases h with h | ⟨x, hx, hv⟩
    · omega
    · have hload := load_inode_eq g d i x hx
      rw [if_pos hv] at hload
      simp only [hd, Option.bind_eq_bind, Option.some_bind, hload]

theorem create_full (g : Geometry) (fs : FileSystem) (d : Disk)
    (hm : Mounted g fs d) (hfull : ∀ k, k < fs.numOfInodes → IsValid g d k) :
    create g fs = some (-1, fs) := by
  have hlt : 0 + fs.numOfInodeBlocks < d.size := by
    have := hm.inodeBlocks
    rw [hm.blocks] at this
    omega
  rcases createBlocks_spec g d fs.numOfInodeBlocks 0 hlt with
    ⟨hc, _⟩ | ⟨i, j, blk, d', _, hi, hj, hr, hv, _, _, _, _⟩
  · simp only [create, hm.disk, Option.bind_eq_bind, Option.some_bind, hc]
    rw [← hm.disk]
  · exfalso
    have hv' := hfull (i * g.INODES_PER_BLOCK + j)
      (by rw [hm.inodes]; exact slot_lt g i _ j (by omega) hj)
    rw [isValid_mul_add g d i j hj, hr] at hv'
    obtain ⟨blk', hr', hv''⟩ := hv'
    cases hr'
    exact hv'' hv

theorem blockPointer_created (g : Geometry) (d : Disk) (k : Nat) :
    blockPointer g d Inode.created k = 0 := by
  by_cases hk : k < POINTERS_PER_INODE
  · rw [blockPointer_direct g d _ k hk]
    unfold POINTERS_PER_INODE at hk
    interval_cases k <;> rfl
  · exact blockPointer_no_indirect g d _ k rfl (by omega)

theorem pointerAt_created (g : Geometry) (d : Disk) (s : Nat) :
    pointerAt g d Inode.created s = 0 := by
  cases s with
  | zero => rfl
  | succ k =>
    rw [pointerAt_succ]
    exact blockPointer_created g d k

/-- In a sound state, a change of the device that leaves every block behind the
inode table alone leaves the pointers of every valid inode alone. -/
theorem Sound.pointerAt_frame (g : Geometry) (fs : FileSystem) (d d' : Disk)
    (hs : Sound g fs d)
    (hfr : ∀ b, fs.numOfInodeBlocks < b → d'.read b = d.read b)
    (j : Nat) (y : Inode) (hj : j < fs.numOfInodes) (hy : inodeAt g d j = some y)
    (hyv : y.Valid ≠ 0) (s : Nat) : pointerAt g d' y s = pointerAt g d y s := by
  apply pointerAt_congr
  intro hne
  exact hfr _ (hs.indirect g fs d j y hj hy hyv hne).1

/-- The call `create` keeps the state sound: it claims one slot of the inode
table for an inode without blocks, or changes nothing. -/
theorem create_sound (g : Geometry) (hg : g.WF) (fs : FileSystem) (d : Disk)
    (hs : Sound g fs d) :
    ∃ (r : Int) (d' : Disk), create g fs = some (r, { fs with disk := some d' }) ∧
      Sound g { fs with disk := some d' } d' ∧
      (∀ b, (b = 0 ∨ fs.numOfInodeBlocks < b) → d'.read b = d.read b) ∧
      ∀ k y, k < fs.numOfInodes → inodeAt g d' k = some y → y.Valid ≠ 0 →
        y = Inode.created ∨ inodeAt g d k = some y := by
  have hm := hs.mounted
  have h0 : 0 < g.INODES_PER_BLOCK := hg.2.1
  by_cases hfull : ∀ k, k < fs.numOfInodes → IsValid g d k
  · have hfs : { fs with disk := some d } = fs := by
      rw [← hm.disk]
    refine ⟨-1, d, by rw [hfs]; exact create_full g fs d hm hfull, by rw [hfs]; exact hs,
      fun _ _ => rfl, fun k y _ hy _ => Or.inr hy⟩
  · have hex : ∃ k, k < fs.numOfInodes ∧ ¬ IsValid g d k := by
      by_contra hc
      apply hfull
      intro k hk
      by_contra hv
      exact hc ⟨k, hk, hv⟩
    have hk := Nat.find_spec hex
    have hmin : ∀ k', k' < Nat.find hex → IsValid g d k' := by
      intro k' hk'
      have := Nat.find_min hex hk'
      by_contra hv
      exact this ⟨by omega, hv⟩
    obtain ⟨d', hc, hnew, hoth, hfr, hm'⟩ := create_lowest g hg fs d hm (Nat.find hex) hk.1 hk.2
      hmin
    have htb : (Nat.find hex) / g.INODES_PER_BLOCK < fs.numOfInodeBlocks := by
      apply Nat.div_lt_of_lt_mul
      rw [Nat.mul_comm, ← hm.inodes]
      exact hk.1
    have hfr' : ∀ b, fs.numOfInodeBlocks < b → d'.read b = d.read b :=
      fun b hb => hfr b (by omega)
    have hcases : ∀ j y, j < fs.numOfInodes → inodeAt g d' j = some y → y.Valid ≠ 0 →
        (y = Inode.created ∧ j = Nat.find hex) ∨ (j ≠ Nat.find hex ∧ inodeAt g d j = some y) := by
      intro j y _ hy _
      by_cases hjk : j = Nat.find hex
      · rw [hjk, hnew] at hy
        cases hy
        exact Or.inl ⟨rfl, hjk⟩
      · rw [hoth j hjk] at hy
        exact Or.inr ⟨hjk, hy⟩
    refine ⟨_, d', hc, ⟨hm', hs.table, ?_, ?_⟩, fun b hb => hfr b ?_,
      fun k y hk' hy hyv => ?_⟩
    · intro j y s hj hy hyv hne
      rcases hcases j y hj hy hyv with ⟨h, _⟩ | ⟨_, h⟩
      · rw [h, pointerAt_created] at hne
        exact absurd rfl hne
      · rw [hs.pointerAt_frame g fs d d' hfr' j y hj h hyv s] at hne ⊢
        exact hs.range j y s hj h hyv hne
    · intro j y s j' y' s' hj hy hyv hj' hy' hyv' hne hdiff
      rcases hcases j y hj hy hyv with ⟨h, _⟩ | ⟨_, h⟩
      · rw [h, pointerAt_created] at hne
        exact absurd rfl hne
      · rw [hs.pointerAt_frame g fs d d' hfr' j y hj h hyv s] at hne ⊢
        rcases hcases j' y' hj' hy' hyv' with ⟨h', _⟩ | ⟨_, h'⟩
        · rw [h', pointerAt_created]
          exact hne
        · rw [hs.pointerAt_frame g fs d d' hfr' j' y' hj' h' hyv' s']
          exact hs.distinct j y s j' y' s' hj h hyv hj' h' hyv' hne hdiff
    · rcases hb with hb | hb
      · rw [hb]
        exact (Nat.succ_ne_zero _).symm
      · omega
    · rcases hcases k y hk' hy hyv with ⟨h, _⟩ | ⟨_, h⟩
      · exact Or.inl h
      · exact Or.inr h

/-- The call `remove` keeps the state sound: the pointers of the other inodes
stay marked used. -/
theorem remove_sound (g : Geometry) (hg : g.WF) (fs : FileSystem) (d : Disk)
    (hs : Sound g fs d) (i : Nat) :
    ∃ (r : Bool) (fs' : FileSystem) (d' : Disk), remove g fs i = some (r, fs') ∧
      Sound g fs' d' ∧
      fs'.numOfBlocks = fs.numOfBlocks ∧ fs'.numOfInodeBlocks = fs.numOfInodeBlocks ∧
      fs'.numOfInodes = fs.numOfInodes ∧
      (∀ b, (b = 0 ∨ fs.numOfInodeBlocks < b) → d'.read b = d.read b) ∧
      (fs.freemap[0]? = some true → fs'.freemap[0]? = some true) ∧
      (∀ k y, k < fs.numOfInodes → inodeAt g d' k = some y → y.Valid ≠ 0 →
        inodeAt g d k = some y) := by
  have hm := hs.mounted
  by_cases hval : i < fs.numOfInodes ∧ ∃ x, inodeAt g d i = some x ∧ x.Valid ≠ 0
  · obtain ⟨hi, x, hx, hv⟩ := hval
    have hxwf := inodeAt_WF g d i x hx
    obtain ⟨fm, d', h1, h2, h3, h4, h5, h6, h7, h8, h9⟩ := remove_valid g hg fs d hm i hi x hx hv
      (hs.pointersBelow g fs d i hi x hx hv)
    have htb : i / g.INODES_PER_BLOCK < fs.numOfInodeBlocks := by
      apply Nat.div_lt_of_lt_mul
      rw [Nat.mul_comm, ← hm.inodes]
      exact hi
    have hfr' : ∀ b, fs.numOfInodeBlocks < b → d'.read b = d.read b :=
      fun b hb => h4 b (by omega)
    -- a block freed by the call is a pointer of the removed inode, or block 0
    have hfreed : ∀ b, ((b ≠ 0 ∧ b ∈ x.Direct) ∨ (b ≠ 0 ∧ b ∈ indirectPointers g d x) ∨
        (x.Indirect ≠ 0 ∧ b = 0)) → b = 0 ∨ (∃ k, blockPointer g d x k = b ∧ b ≠ 0) := by
      rintro b (⟨hb0, hb⟩ | ⟨hb0, hb⟩ | ⟨_, hb⟩)
      · obtain ⟨k, _, hk⟩ := (mem_direct_iff g d x hxwf b).mp hb
        exact Or.inr ⟨k, hk, hb0⟩
      · obtain ⟨k, _, hk⟩ := (mem_indirectPointers_iff g d x b hb0).mp hb
        exact Or.inr ⟨_, hk, hb0⟩
      · exact Or.inl hb
    have hcases : ∀ j y, j < fs.numOfInodes → inodeAt g d' j = some y → y.Valid ≠ 0 →
        j ≠ i ∧ inodeAt g d j = some y := by
      intro j y _ hy hyv
      by_cases hji : j = i
      · rw [hji, h2] at hy
        cases hy
        exact absurd rfl hyv
      · rw [h3 j hji] at hy
        exact ⟨hji, hy⟩
    have hkeep : ∀ j y s, j < fs.numOfInodes → j ≠ i → inodeAt g d j = some y → y.Valid ≠ 0 →
        pointerAt g d y s ≠ 0 → fm[pointerAt g d y s]? = some false := by
      intro j y s hj hji hy hyv hne
      rw [h9 _ (fun hc => ?_)]
      · exact (hs.range j y s hj hy hyv hne).2.2
      · rcases hfreed _ hc with h | ⟨k, hk, _⟩
        · exact hne h
        · have := hs.distinct j y s i x (k + 1) hj hy hyv hi hx hv hne (Or.inl hji)
          rw [pointerAt_succ] at this
          exact this hk.symm
    refine ⟨true, _, d', h1, ⟨⟨rfl, h5, by show fs.numOfBlocks = d'.size; rw [h6]; exact hm.blocks,
      hm.inodeBlocks, hm.inodes, by show fm.length = fs.numOfBlocks; rw [h7]; exact hm.freemap,
      hm.small⟩, ?_, ?_, ?_⟩, rfl, rfl, rfl, fun b hb => h4 b ?_, fun hz => ?_,
      fun k y hk hy hyv => (hcases k y hk hy hyv).2⟩
    · intro b hb1 hb2
      have hb2' : b ≤ fs.numOfInodeBlocks := hb2
      show fm[b]? = some false
      rw [h9 _ (fun hc => ?_)]
      · exact hs.table b hb1 hb2
      · rcases hfreed _ hc with h | ⟨k, hk, hb0⟩
        · omega
        · have := (hs.slot g fs d i x hi hx hv k (by rw [hk]; exact hb0)).1
          omega
    · intro j y s hj hy hyv hne
      obtain ⟨hji, hy'⟩ := hcases j y hj hy hyv
      rw [hs.pointerAt_frame g fs d d' hfr' j y hj hy' hyv s] at hne ⊢
      have := hs.range j y s hj hy' hyv hne
      exact ⟨this.1, this.2.1, hkeep j y s hj hji hy' hyv hne⟩
    · intro j y s j' y' s' hj hy hyv hj' hy' hyv' hne hdiff
      obtain ⟨_, h⟩ := hcases j y hj hy hyv
      obtain ⟨_, h'⟩ := hcases j' y' hj' hy' hyv'
      rw [hs.pointerAt_frame g fs d d' hfr' j y hj h hyv s] at hne ⊢
      rw [hs.pointerAt_frame g fs d d' hfr' j' y' hj' h' hyv' s']
      exact hs.distinct j y s j' y' s' hj h hyv hj' h' hyv' hne hdiff
    · rcases hb with hb | hb
      · rw [hb]
        exact (Nat.succ_ne_zero _).symm
      · omega
    · exact (h8 0).mpr (Or.inl hz)
  · have hinv : fs.numOfInodes ≤ i ∨ ∃ x, inodeAt g d i = some x ∧ x.Valid = 0 := by
      by_cases hi : i < fs.numOfInodes
      · right
        obtain ⟨x, hx, _⟩ := inodeAt_isSome g fs d hm i hi
        refine ⟨x, hx, ?_⟩
        by_contra hv
        exact hval ⟨hi, x, hx, hv⟩
      · exact Or.inl (by omega)
    exact ⟨false, fs, d, remove_invalid g fs d hm.disk i hinv, hs, rfl, rfl, rfl,
      fun _ _ => rfl, fun h => h, fun _ _ _ hy _ => hy⟩

/-- One call on a sound state is defined and keeps the state sound; it leaves
block 0 alone, keeps block 0 marked free when it was, and keeps the sizes below
the largest file size when its offset is. -/
theorem step_sound (g : Geometry) (hg : g.WF) (fs : FileSystem) (d : Disk)
    (hs : Sound g fs d) (op : Op) (hop : op.WF) :
    ∃ (fs' : FileSystem) (d' : Disk), step g fs op = some fs' ∧ Sound g fs' d' ∧
      fs'.numOfBlocks = fs.numOfBlocks ∧ fs'.numOfInodeBlocks = fs.numOfInodeBlocks ∧
      fs'.numOfInodes = fs.numOfInodes ∧ d'.read 0 = d.read 0 ∧
      (fs.freemap[0]? = some true → fs'.freemap[0]? = some true) ∧
      (op.Within g → SizesLe g fs d (maxFileSize g) → SizesLe g fs' d' (maxFileSize g)) := by
  have hm := hs.mounted
  cases op with
  | create =>
    obtain ⟨r, d', hc, hs', hfr, hsz⟩ := create_sound g hg fs d hs
    refine ⟨_, d', by simp only [step, hc, Option.map_some'], hs', rfl, rfl, rfl,
      hfr 0 (Or.inl rfl), fun h => h, fun _ hle k y hk hy hyv => ?_⟩
    rcases hsz k y hk hy hyv with h | h
    · rw [h]
      exact Nat.zero_le _
    · exact hle k y hk h hyv
  | remove i =>
    obtain ⟨r, fs', d', hc, hs', n1, n2, n3, hfr, hz, hsz⟩ := remove_sound g hg fs d hs i
    refine ⟨fs', d', by simp only [step, hc, Option.map_some'], hs', n1, n2, n3,
      hfr 0 (Or.inl rfl), hz, fun _ hle k y hk hy hyv => ?_⟩
    rw [n3] at hk
    exact hle k y hk (hsz k y hk hy hyv) hyv
  | write i data length offset =>
    obtain ⟨hlen, hoff⟩ := hop
    by_cases hval : i < fs.numOfInodes ∧ ∃ x, inodeAt g d i = some x ∧ x.Valid ≠ 0
    · obtain ⟨hi, x0, hx, hv⟩ := hval
      obtain ⟨w, fs2, d2, x2, hw, _, hs', hwl, n1, n2, n3, hr0, hz, hx2, _, hsize, hcap, hoth, _⟩ :=
        write_sound g hg fs d hs i hi x0 hx hv data length offset hlen hoff
      refine ⟨fs2, d2, by simp only [step, hw, Option.map_some'], hs', n1, n2, n3, hr0,
        fun h => by rw [hz h]; exact h, fun hwithin hle k y hk hy hyv => ?_⟩
      rw [n3] at hk
      by_cases hki : k = i
      · rw [hki, hx2] at hy
        cases hy
        have h1 := hle i x0 hi hx hv
        have h2 : (offset + w) % 4294967296 ≤ maxFileSize g := by
          have hmod := Nat.mod_le (offset + w) 4294967296
          by_cases hw0 : w = 0
          · have hwi : offset ≤ maxFileSize g := hwithin
            omega
          · have := hcap hw0
            unfold maxFileSize
            omega
        rw [hsize]
        exact Nat.max_le.mpr ⟨h1, h2⟩
      · rw [hoth k hki hk] at hy
        exact hle k y hk hy hyv
    · have hinv : fs.numOfInodes ≤ i ∨ ∃ x, inodeAt g d i = some x ∧ x.Valid = 0 := by
        by_cases hi : i < fs.numOfInodes
        · right
          obtain ⟨x, hx, _⟩ := inodeAt_isSome g fs d hm i hi
          refine ⟨x, hx, ?_⟩
          by_contra hv
          exact hval ⟨hi, x, hx, hv⟩
        · exact Or.inl (by omega)
      have hw := write_invalid g fs d hm.disk i data length offset hlen hinv
      exact ⟨fs, d, by simp only [step, hw, Option.map_some'], hs, rfl, rfl, rfl, rfl,
        fun h => h, fun _ h => h⟩

/-- Every sequence of calls on a sound state is defined and ends in a sound
state. -/
theorem run_sound (g : Geometry) (hg : g.WF) : ∀ (ops : List Op) (fs : FileSystem) (d : Disk),
    Sound g fs d → (∀ op, op ∈ ops → op.WF) →
    ∃ (fs' : FileSystem) (d' : Disk), run g fs ops = some fs' ∧ Sound g fs' d' ∧
      fs'.numOfBlocks = fs.numOfBlocks ∧ fs'.numOfInodeBlocks = fs.numOfInodeBlocks ∧
      fs'.numOfInodes = fs.numOfInodes ∧ d'.read 0 = d.read 0 ∧
      (fs.freemap[0]? = some true → fs'.freemap[0]? = some true) ∧
      ((∀ op, op ∈ ops → op.Within g) → SizesLe g fs d (maxFileSize g) →
        SizesLe g fs' d' (maxFileSize g)) := by
  intro ops
  induction ops with
  | nil =>
    intro fs d hs _
    exact ⟨fs, d, rfl, hs, rfl, rfl, rfl, rfl, fun h => h, fun _ h => h⟩
  | cons op ops ih =>
    intro fs d hs hwf
    obtain ⟨fs1, d1, h1, hs1, a1, a2, a3, a4, a5, a6⟩ := step_sound g hg fs d hs op
      (hwf op (List.mem_cons_self _ _))
    obtain ⟨fs2, d2, h2, hs2, b1, b2, b3, b4, b5, b6⟩ := ih fs1 d1 hs1
      (fun o ho => hwf o (List.mem_cons_of_mem _ ho))
    refine ⟨fs2, d2, ?_, hs2, b1.trans a1, b2.trans a2, b3.trans a3, b4.trans a4,
      fun h => b5 (a5 h), fun hw hle => b6 (fun o ho => hw o (List.mem_cons_of_mem _ ho))
        (a6 (hw op (List.mem_cons_self _ _)) hle)⟩
    simp only [run, h1, Option.some_bind]
    exact h2

/-- The state after formatting and mounting a device of `n` blocks is sound, with
no valid inode, block 0 holding the superblock, and exactly block 0 and the
blocks of the inode table marked used. -/
theorem freshFS_sound (g : Geometry) (hg : g.WF) (n : Nat) (h2 : 2 ≤ n) (hlt : n < 4294967296)
    (hI : ceilTenth n * g.INODES_PER_BLOCK < 4294967296) :
    ∃ d, Sound g (freshFS g n) d ∧ d.read 0 = some (formatSuperBlock g n) ∧
      (freshFS g n).numOfBlocks = n ∧ (freshFS g n).numOfInodeBlocks = ceilTenth n ∧
      (∀ b, (freshFS g n).freemap[b]? = some false ↔ b ≤ ceilTenth n) ∧
      ∀ k, k < (freshFS g n).numOfInodes → ¬ IsValid g d k := by
  have hsz := size_filledDisk g n 7
  obtain ⟨d1, fs, hf, hmt, hm, e1, e2, e3, e4⟩ := mounted_fresh g hg (filledDisk g n 7) rfl
    (by rw [hsz]; exact h2) (by rw [hsz]; exact hlt) (by rw [hsz]; exact hI)
  rw [hsz] at e1 e2 e3
  obtain ⟨_, _, _, _, r0, _⟩ := format_fresh g hg _ d1 hf (by rw [hsz]; omega)
  rw [hsz] at r0
  have hfresh : freshFS g n = fs := by
    unfold freshFS
    rw [hf]
    simp only [hmt]
  rw [hfresh]
  have hnone : ∀ i x, i < fs.numOfInodes → inodeAt g d1.mount i = some x → x.Valid ≠ 0 →
      False := fun i x hi hx hv => e4 i hi ((isValid_iff g _ i).mpr ⟨x, hx, hv⟩)
  refine ⟨d1.mount, ⟨hm, fun b _ hb => (e3 b).mpr (by omega), ?_, ?_⟩, r0, e1, e2, e3, e4⟩
  · intro i x s hi hx hv _
    exact (hnone i x hi hx hv).elim
  · intro i x s i' x' s' hi hx hv
    exact (hnone i x hi hx hv).elim

/-! ### `write` with enough free blocks -/

theorem mem_freeBlocks (fm : List Bool) (b : Nat) :
    b ∈ freeBlocks fm ↔ fm[b]? = some true := by
  unfold freeBlocks
  rw [List.mem_filter, List.mem_range, List.getD_eq_getElem?_getD]
  constructor
  · rintro ⟨hb, h⟩
    rw [List.getElem?_eq_getElem hb] at h ⊢
    simp only [Option.getD_some] at h
    rw [h]
  · intro h
    obtain ⟨hb, _⟩ := List.getElem?_eq_some_iff.mp h
    exact ⟨hb, by rw [h]; rfl⟩

theorem nodup_freeBlocks (fm : List Bool) : (freeBlocks fm).Nodup :=
  List.Nodup.filter _ (List.nodup_range _)

/-- The blocks that were free when `write` started and are no longer free are in
the pointer slots from `b0` up to `cur`, or the new indirect block. -/
theorem free_count_le (g : Geometry) (nb : Nat) {data : List Byte} (length offset : Nat)
    (fm0 : List Bool) (d0 : Disk)
    (old : Nat → Nat) (oldInd lim b0 cur : Nat) (st : WriteState)
    (hinv : GInv g nb data length offset fm0 d0 old oldInd lim b0 cur st) (extra : List Nat)
    (hall : ∀ b, fm0[b]? = some true → st.freemap[b]? = some false ∨ b ∈ extra) :
    (freeBlocks fm0).length ≤
      (cur - b0) + (if oldInd = 0 ∧ st.inode.Indirect ≠ 0 then 1 else 0) + extra.length := by
  have hsub : freeBlocks fm0 ⊆ (List.range' b0 (cur - b0)).map st.ptrOf ++
      ((if oldInd = 0 ∧ st.inode.Indirect ≠ 0 then [st.inode.Indirect] else []) ++ extra) := by
    intro b hb
    have hfree := (mem_freeBlocks fm0 b).mp hb
    rw [List.mem_append, List.mem_append]
    rcases hall b hfree with hu | he
    · rcases (hinv.used b).mp hu with h | ⟨hb0, ⟨k, hk, ho, hp⟩ | ⟨ho, hI⟩⟩
      · rw [hfree] at h
        cases h
      · left
        rcases hinv.slots k hk with h | ⟨_, _, _, _, h1, h2⟩
        · rw [hp, ho] at h
          exact absurd h hb0
        · exact List.mem_map.mpr ⟨k, List.mem_range'_1.mpr ⟨h1, by omega⟩, hp⟩
      · right
        left
        rw [if_pos ⟨ho, by rw [hI]; exact hb0⟩, hI]
        exact List.mem_singleton.mpr rfl
    · exact Or.inr (Or.inr he)
  have hlen := (List.subperm_of_subset (nodup_freeBlocks fm0) hsub).length_le
  rw [List.length_append, List.length_map, List.length_range', List.length_append] at hlen
  by_cases hc : oldInd = 0 ∧ st.inode.Indirect ≠ 0
  · rw [if_pos hc] at hlen ⊢
    rw [List.length_singleton] at hlen
    omega
  · rw [if_neg hc] at hlen ⊢
    rw [List.length_nil] at hlen
    omega

/-- With block 0 marked used, within the largest file size, and with more free
blocks than pointer slots to fill, `write` places all its bytes. -/
theorem write_complete (g : Geometry) (nb : Nat) {data : List Byte} (length offset : Nat)
    (fm0 : List Bool) (d0 : Disk)
    (old : Nat → Nat) (oldInd lim cur : Nat) (st : WriteState)
    (hinv : GInv g nb data length offset fm0 d0 old oldInd lim (offset / g.BLOCK_SIZE) cur st)
    (hstop : st.hasWrite < length → NoFree nb st.freemap ∨
      (st.inode.Indirect = 0 ∧ POINTERS_PER_INODE ≤ cur ∧
        ∃ F, F ≠ 0 ∧ st.freemap[F]? = some true ∧ NoFree nb (st.freemap.set F false)) ∨
      POINTERS_PER_INODE + g.POINTERS_PER_BLOCK ≤ cur)
    (hfm0 : fm0.length = nb) (hz : fm0[0]? = some false)
    (hcap : offset + length ≤ maxFileSize g)
    (hcount : ∀ c, offset / g.BLOCK_SIZE ≤ c → c * g.BLOCK_SIZE < offset + length →
      c - offset / g.BLOCK_SIZE
        + (if POINTERS_PER_INODE * g.BLOCK_SIZE < offset + length then 1 else 0)
        < (freeBlocks fm0).length) :
    st.hasWrite = length := by
  by_contra hne
  have hlt : st.hasWrite < length := by
    have := hinv.le
    omega
  have hpos := hinv.pos hlt
  have hcl : cur * g.BLOCK_SIZE < offset + length := by omega
  have hcnt := hcount cur hinv.range hcl
  have hz' : st.freemap[0]? = some false := (hinv.used 0).mpr (Or.inl hz)
  have hlenfm : ∀ b, fm0[b]? = some true → b < nb := by
    intro b hb
    have := (List.getElem?_eq_some_iff.mp hb).1
    omega
  rcases hstop hlt with hno | ⟨hI, h5, F, hF0, hFfree, hno⟩ | hend
  · rcases hno with hall | h0
    · have := free_count_le g nb length offset fm0 d0 old oldInd lim _ cur st hinv []
        (fun b hb => Or.inl (hall b (hlenfm b hb)))
      have hind : (if oldInd = 0 ∧ st.inode.Indirect ≠ 0 then 1 else 0)
          ≤ (if POINTERS_PER_INODE * g.BLOCK_SIZE < offset + length then 1 else 0) := by
        by_cases hc : oldInd = 0 ∧ st.inode.Indirect ≠ 0
        · rw [if_pos hc, if_pos (hinv.indNew hc.1 hc.2)]
        · rw [if_neg hc]
          exact Nat.zero_le _
      rw [List.length_nil] at this
      omega
    · rw [hz'] at h0
      cases h0
  · have h5b := Nat.mul_le_mul_right g.BLOCK_SIZE h5
    rw [if_pos (by omega)] at hcnt
    rcases hno with hall | h0
    · have := free_count_le g nb length offset fm0 d0 old oldInd lim _ cur st hinv [F]
        (fun b hb => by
          by_cases hbF : b = F
          · exact Or.inr (List.mem_singleton.mpr hbF)
          · left
            have := hall b (hlenfm b hb)
            rw [List.getElem?_set_ne (Ne.symm hbF)] at this
            exact this)
      rw [if_neg (fun hc => hc.2 hI), List.length_singleton] at this
      omega
    · rw [List.getElem?_set_ne hF0, hz'] at h0
      cases h0
  · have := Nat.mul_le_mul_right g.BLOCK_SIZE hend
    unfold maxFileSize at hcap
    omega

/-- The call `write` on an inode without blocks, starting in the direct region
or at entry 0 of the indirect block, with block 0 marked used and enough free
blocks: it returns `length`, puts distinct blocks that were free into exactly
the pointer slots `offset / BLOCK_SIZE .. e - 1` that cover the bytes written,
sets `Indirect` to another free block exactly when a slot behind the direct
ones is among them, and marks exactly these blocks used. -/
theorem write_created (g : Geometry) (hg : g.WF) (fs : FileSystem) (d : Disk)
    (hs : Sound g fs d) (i : Nat) (hi : i < fs.numOfInodes)
    (hx : inodeAt g d i = some Inode.created) (data : List Byte) (length offset : Nat)
    (hlen : length ≤ data.length) (hL : 1 ≤ length)
    (hoff5 : offset / g.BLOCK_SIZE ≤ POINTERS_PER_INODE)
    (hz : fs.freemap[0]? = some false) (hcap : offset + length ≤ maxFileSize g)
    (hcount : ∀ c, offset / g.BLOCK_SIZE ≤ c → c * g.BLOCK_SIZE < offset + length →
      c - offset / g.BLOCK_SIZE
        + (if POINTERS_PER_INODE * g.BLOCK_SIZE < offset + length then 1 else 0)
        < (freeBlocks fs.freemap).length) :
    ∃ (e : Nat) (fs2 : FileSystem) (d2 : Disk) (x2 : Inode),
      write g fs i data length offset = some ((length : Int), fs2) ∧ fs2.disk = some d2 ∧
      inodeAt g d2 i = some x2 ∧ x2.Valid = 1 ∧ x2.Size = (offset + length) % 4294967296 ∧
      offset / g.BLOCK_SIZE < e ∧ (e - 1) * g.BLOCK_SIZE < offset + length ∧
      offset + length ≤ e * g.BLOCK_SIZE ∧
      (x2.Indirect ≠ 0 ↔ POINTERS_PER_INODE < e) ∧
      (x2.Indirect ≠ 0 → fs.freemap[x2.Indirect]? = some true) ∧
      (∀ k, offset / g.BLOCK_SIZE ≤ k → k < e →
        blockPointer g d2 x2 k ≠ 0 ∧ fs.freemap[blockPointer g d2 x2 k]? = some true ∧
        blockPointer g d2 x2 k ≠ x2.Indirect) ∧
      (∀ k, ¬ (offset / g.BLOCK_SIZE ≤ k ∧ k < e) → blockPointer g d2 x2 k = 0) ∧
      (∀ k k', offset / g.BLOCK_SIZE ≤ k → k < e → offset / g.BLOCK_SIZE ≤ k' → k' < e →
        k ≠ k' → blockPointer g d2 x2 k ≠ blockPointer g d2 x2 k') ∧
      (∀ b, fs2.freemap[b]? = some false ↔ (fs.freemap[b]? = some false ∨
        (x2.Indirect ≠ 0 ∧ b = x2.Indirect) ∨
        ∃ k, offset / g.BLOCK_SIZE ≤ k ∧ k < e ∧ blockPointer g d2 x2 k = b)) := by
  have hB := hg.1
  have hB32 := hg.2.2.2.2.2.1
  have hoff : offset < 18446744073709551616 := by
    have h1 := Nat.div_add_mod offset g.BLOCK_SIZE
    have h2 := Nat.mod_lt offset (by omega : 0 < g.BLOCK_SIZE)
    have h3 : g.BLOCK_SIZE * (offset / g.BLOCK_SIZE) ≤ g.BLOCK_SIZE * POINTERS_PER_INODE :=
      Nat.mul_le_mul_left _ hoff5
    unfold POINTERS_PER_INODE at h3
    omega
  obtain ⟨st, lim, cur, d2, x2, hw, hinv, hlim, hstop, b1, b2, b3, b4, b5, b6, b7, b8, b9, b10,
    b11, _⟩ := write_valid g hg fs d hs i hi Inode.created hx (by decide) data length offset hlen
      hoff
  have hdone := write_complete g fs.numOfBlocks length offset fs.freemap d _ _ lim cur st hinv
    hstop hs.mounted.freemap hz hcap hcount
  have hold : ∀ k, blockPointer g d Inode.created k = 0 := blockPointer_created g d
  have hoi : Inode.created.Indirect = 0 := rfl
  obtain ⟨t1, t2, t3⟩ := hinv.tight (by omega)
  rw [hdone] at t2 t3
  -- a new indirect block means a slot behind the direct ones was filled
  have hI5 : st.inode.Indirect ≠ 0 → POINTERS_PER_INODE < cur := by
    intro hne
    have := hinv.indNew hoi hne
    exact Nat.lt_of_mul_lt_mul_right (Nat.lt_of_lt_of_le this t3)
  have hfin : ∀ k, k < lim → blockPointer g d2 x2 k = st.ptrOf k := by
    apply b11
    rcases hlim with h | ⟨_, h⟩
    · exact Or.inl h
    · exact Or.inr (hinv.filled _ hoff5 (hI5 h)).2
  have hnew : ∀ k, k < lim → st.ptrOf k ≠ 0 →
      fs.freemap[st.ptrOf k]? = some true ∧ offset / g.BLOCK_SIZE ≤ k ∧ k < cur := by
    intro k hk hne
    rcases hinv.slots k hk with h | ⟨_, _, _, h4, h5, h6⟩
    · rw [hold k] at h
      exact absurd h hne
    · exact ⟨h4, h5, h6⟩
  have hzero : ∀ k, ¬ (offset / g.BLOCK_SIZE ≤ k ∧ k < cur) → blockPointer g d2 x2 k = 0 := by
    intro k hk
    rcases b10 k with h | ⟨hkl, h⟩
    · rw [h, hold k]
    · by_contra hne
      rw [h] at hne
      exact hk (hnew k hkl hne).2
  refine ⟨cur, _, d2, x2, by rw [hw, hdone], rfl, b1, b2, ?_, t1, t2, t3, ?_, ?_, ?_, hzero,
    ?_, ?_⟩
  · rw [b3, hdone]
    exact Nat.max_eq_right (Nat.zero_le _)
  · rw [b5]
    refine ⟨hI5, fun h5 => ?_⟩
    have h5l := (hinv.filled _ hoff5 h5).1
    rcases hlim with h | ⟨_, h⟩
    · omega
    · exact h
  · rw [b5]
    intro hne
    rcases hinv.ind with h | ⟨_, _, _, h⟩
    · rw [hoi] at h
      exact absurd h hne
    · exact h
  · intro k hk1 hk2
    obtain ⟨hkl, hkne⟩ := hinv.filled k hk1 hk2
    rw [hfin k hkl, b5]
    refine ⟨hkne, (hnew k hkl hkne).1, ?_⟩
    by_cases hI : st.inode.Indirect = 0
    · rw [hI]
      exact hkne
    · exact hinv.distinctInd hoi hI k hkl (hold k)
  · intro k k' hk1 hk2 hk1' hk2' hne
    obtain ⟨hkl, hkne⟩ := hinv.filled k hk1 hk2
    obtain ⟨hkl', _⟩ := hinv.filled k' hk1' hk2'
    rw [hfin k hkl, hfin k' hkl']
    exact hinv.distinct k k' hkl hkl' hne (hold k) (hold k') hkne
  · intro b
    show st.freemap[b]? = some false ↔ _
    rw [hinv.used b, b5]
    constructor
    · rintro (h | ⟨hb0, ⟨k, hk, _, hp⟩ | ⟨_, hI⟩⟩)
      · exact Or.inl h
      · obtain ⟨_, h1, h2⟩ := hnew k hk (by rw [hp]; exact hb0)
        exact Or.inr (Or.inr ⟨k, h1, h2, by rw [hfin k hk]; exact hp⟩)
      · exact Or.inr (Or.inl ⟨by rw [hI]; exact hb0, hI.symm⟩)
    · rintro (h | ⟨hI, hb⟩ | ⟨k, hk1, hk2, hp⟩)
      · exact Or.inl h
      · exact Or.inr ⟨by rw [hb]; exact hI, Or.inr ⟨hoi, hb.symm⟩⟩
      · obtain ⟨hkl, hkne⟩ := hinv.filled k hk1 hk2
        rw [hfin k hkl] at hp
        exact Or.inr ⟨by rw [← hp]; exact hkne, Or.inl ⟨k, hkl, hold k, hp⟩⟩

/-! ### Claims about `write` -/

/-- C12: in a sound state (every state reached from a formatted and mounted
device is sound), for a buffer of at least `length` bytes and a `size_t` offset:
`write(i, data, length, offset)` returns -1 with the state unchanged when
`i >= Inodes` or inode `i` is not valid, and returns -1 only then; on a valid
inode it returns a count `w` with `0 <= w <= length`, short only when no block
can be handed out, when one block is free where an indirect block and a data
block are needed, or at the end of the pointer slots; the inode stays valid and
its stored `Size` is `max(old Size, (offset + w) mod 2^32)`, that is
`max(old Size, offset + w)` when `offset + w < 2^32`, and never below the old
`Size`. -/
theorem write_contract (g : Geometry) (hg : g.WF) (fs : FileSystem) (d : Disk)
    (hs : Sound g fs d) (i : Nat) (data : List Byte) (length offset : Nat)
    (hlen : length ≤ data.length) (hoff : offset < 18446744073709551616) :
    ((fs.numOfInodes ≤ i ∨ ¬ IsValid g d i) →
      write g fs i data length offset = some (-1, fs)) ∧
    (∀ fs', write g fs i data length offset = some (-1, fs') →
      fs.numOfInodes ≤ i ∨ ¬ IsValid g d i) ∧
    (i < fs.numOfInodes → ∀ x, inodeAt g d i = some x → x.Valid ≠ 0 →
      ∃ (w : Nat) (fs' : FileSystem) (d' : Disk) (x' : Inode),
        write g fs i data length offset = some ((w : Int), fs') ∧ w ≤ length ∧
        fs'.disk = some d' ∧ inodeAt g d' i = some x' ∧ x'.Valid ≠ 0 ∧
        x'.Size = max x.Size ((offset + w) % 4294967296) ∧
        (offset + w < 4294967296 → x'.Size = max x.Size (offset + w)) ∧
        x.Size ≤ x'.Size ∧
        (w < length → NoFree fs'.numOfBlocks fs'.freemap ∨
          (∃ F, F ≠ 0 ∧ fs'.freemap[F]? = some true ∧
            NoFree fs'.numOfBlocks (fs'.freemap.set F false)) ∨
          maxFileSize g ≤ offset + w)) := by
  have hm := hs.mounted
  have hvalid : ∀ x, i < fs.numOfInodes → inodeAt g d i = some x → x.Valid ≠ 0 →
      ∃ (w : Nat) (fs' : FileSystem) (d' : Disk) (x' : Inode),
        write g fs i data length offset = some ((w : Int), fs') ∧ w ≤ length ∧
        fs'.disk = some d' ∧ inodeAt g d' i = some x' ∧ x'.Valid ≠ 0 ∧
        x'.Size = max x.Size ((offset + w) % 4294967296) ∧
        (offset + w < 4294967296 → x'.Size = max x.Size (offset + w)) ∧
        x.Size ≤ x'.Size ∧
        (w < length → NoFree fs'.numOfBlocks fs'.freemap ∨
          (∃ F, F ≠ 0 ∧ fs'.freemap[F]? = some true ∧
            NoFree fs'.numOfBlocks (fs'.freemap.set F false)) ∨
          maxFileSize g ≤ offset + w) := by
    intro x hi hx hv
    obtain ⟨st, lim, cur, d2, x2, hw, hinv, _, hstop, b1, b2, b3, _⟩ :=
      write_valid g hg fs d hs i hi x hx hv data length offset hlen hoff
    refine ⟨st.hasWrite, _, d2, x2, hw, hinv.le, rfl, b1, by rw [b2]; exact hv, b3,
      fun h => by rw [b3, Nat.mod_eq_of_lt h], by rw [b3]; exact Nat.le_max_left _ _,
      fun hlt => ?_⟩
    rcases hstop hlt with h | ⟨_, _, h⟩ | h
    · exact Or.inl h
    · exact Or.inr (Or.inl h)
    · right
      right
      have hp := hinv.pos hlt
      have := Nat.mul_le_mul_right g.BLOCK_SIZE h
      unfold maxFileSize
      omega
  refine ⟨fun h => ?_, fun fs' hw => ?_, fun hi x hx hv => hvalid x hi hx hv⟩
  · apply write_invalid g fs d hm.disk i data length offset hlen
    rcases h with h | h
    · exact Or.inl h
    · by_cases hi : i < fs.numOfInodes
      · right
        obtain ⟨x, hx, _⟩ := inodeAt_isSome g fs d hm i hi
        refine ⟨x, hx, ?_⟩
        by_contra hv
        exact h ((isValid_iff g d i).mpr ⟨x, hx, hv⟩)
      · exact Or.inl (by omega)
  · by_contra hc
    have hi : i < fs.numOfInodes := by
      by_contra hi
      exact hc (Or.inl (by omega))
    have hv : IsValid g d i := by
      by_contra hv
      exact hc (Or.inr hv)
    obtain ⟨x, hx, hxv⟩ := (isValid_iff g d i).mp hv
    obtain ⟨w, fs2, _, _, hw2, _⟩ := hvalid x hi hx hxv
    rw [hw2] at hw
    simp only [Option.some.injEq, Prod.mk.injEq] at hw
    have := hw.1
    omega

/-- C12, witness: the state after `create()` on a freshly formatted and mounted
device of twelve blocks of 64 bytes, and the call `write(0, "hello", 5, 0)`. -/
theorem write_contract_witness :
    ∃ fs d, run tinyGeometry (freshFS tinyGeometry 12) [.create] = some fs ∧
      Sound tinyGeometry fs d ∧
      ((fs.numOfInodes ≤ 0 ∨ ¬ IsValid tinyGeometry d 0) →
        write tinyGeometry fs 0 hello 5 0 = some (-1, fs)) ∧
      (∀ fs', write tinyGeometry fs 0 hello 5 0 = some (-1, fs') →
        fs.numOfInodes ≤ 0 ∨ ¬ IsValid tinyGeometry d 0) ∧
      (0 < fs.numOfInodes → ∀ x, inodeAt tinyGeometry d 0 = some x → x.Valid ≠ 0 →
        ∃ (w : Nat) (fs' : FileSystem) (d' : Disk) (x' : Inode),
          write tinyGeometry fs 0 hello 5 0 = some ((w : Int), fs') ∧ w ≤ 5 ∧
          fs'.disk = some d' ∧ inodeAt tinyGeometry d' 0 = some x' ∧ x'.Valid ≠ 0 ∧
          x'.Size = max x.Size ((0 + w) % 4294967296) ∧
          (0 + w < 4294967296 → x'.Size = max x.Size (0 + w)) ∧
          x.Size ≤ x'.Size ∧
          (w < 5 → NoFree fs'.numOfBlocks fs'.freemap ∨
            (∃ F, F ≠ 0 ∧ fs'.freemap[F]? = some true ∧
              NoFree fs'.numOfBlocks (fs'.freemap.set F false)) ∨
            maxFileSize tinyGeometry ≤ 0 + w)) := by
  obtain ⟨d0, hs0, _⟩ := freshFS_sound tinyGeometry (by decide) 12 (by decide) (by decide)
    (by decide)
  obtain ⟨fs, d, hrun, hs, _⟩ := run_sound tinyGeometry (by decide) [.create] _ d0 hs0
    (fun op hop => by
      rw [List.mem_singleton] at hop
      rw [hop]
      exact trivial)
  exact ⟨fs, d, hrun, hs,
    write_contract tinyGeometry (by decide) fs d hs 0 hello 5 0 (by decide) (by decide)⟩

/-- The first `create()` on a freshly formatted and mounted device returns 0 and
leaves a sound state whose inode 0 has no blocks and whose free map marks exactly
block 0 and the blocks of the inode table used. -/
theorem fresh_created (g : Geometry) (hg : g.WF) (n : Nat) (h2 : 2 ≤ n) (hlt : n < 4294967296)
    (hI : ceilTenth n * g.INODES_PER_BLOCK < 4294967296) :
    ∃ fs1 d1, create g (freshFS g n) = some (0, fs1) ∧ Sound g fs1 d1 ∧
      inodeAt g d1 0 = some Inode.created ∧ fs1.freemap = (freshFS g n).freemap ∧
      fs1.freemap[0]? = some false ∧ 0 < fs1.numOfInodes ∧
      d1.read 0 = some (formatSuperBlock g n) := by
  obtain ⟨d, hs, r0, e1, e2, e3, e4⟩ := freshFS_sound g hg n h2 hlt hI
  have hm := hs.mounted
  have hpos : 0 < (freshFS g n).numOfInodes := by
    rw [hm.inodes, e2]
    have h1 : 0 < ceilTenth n := by unfold ceilTenth; omega
    exact Nat.mul_pos h1 hg.2.1
  obtain ⟨d', hc, hnew, _, hfr, _⟩ := create_lowest g hg _ d hm 0 hpos (e4 0 hpos)
    (fun k hk => absurd hk (Nat.not_lt_zero k))
  obtain ⟨r, d'', hc2, hs2, _⟩ := create_sound g hg _ d hs
  rw [hc] at hc2
  simp only [Option.some.injEq, Prod.mk.injEq, FileSystem.mk.injEq, true_and, and_true] at hc2
  obtain ⟨_, hdd⟩ := hc2
  rw [← hdd] at hs2
  refine ⟨_, d', hc, hs2, hnew, rfl, (e3 0).mpr (Nat.zero_le _), hpos, ?_⟩
  rw [hfr 0 (Nat.succ_ne_zero _).symm]
  exact r0

/-- C13: on a freshly formatted and mounted device whose free map marks at least
`P + 2` blocks free, after the first `create()` (which returns 0): writing
`P * BLOCK_SIZE` bytes at offset 0 returns `P * BLOCK_SIZE`, sets the `P` entries
of `Direct` to distinct non-zero blocks that were marked free, leaves
`Indirect = 0`, and marks exactly these `P` blocks used in addition; writing
`P * BLOCK_SIZE + 1` bytes at offset 0 instead returns `P * BLOCK_SIZE + 1`, sets
`Indirect` to a block that was marked free, stores in entry 0 of the indirect
block on the device a data block that was marked free, and marks exactly the `P`
blocks of `Direct`, the indirect block and that data block, all distinct, used
in addition. -/
theorem direct_indirect_boundary (g : Geometry) (hg : g.WF) (n : Nat) (h2 : 2 ≤ n)
    (hlt : n < 4294967296) (hI : ceilTenth n * g.INODES_PER_BLOCK < 4294967296)
    (hfree : POINTERS_PER_INODE + 2 ≤ (freeBlocks (freshFS g n).freemap).length) :
    ∃ fs1, create g (freshFS g n) = some (0, fs1) ∧
      (∀ data : List Byte, POINTERS_PER_INODE * g.BLOCK_SIZE ≤ data.length →
        ∃ fs2 d2 x2, write g fs1 0 data (POINTERS_PER_INODE * g.BLOCK_SIZE) 0
            = some (((POINTERS_PER_INODE * g.BLOCK_SIZE : Nat) : Int), fs2) ∧
          fs2.disk = some d2 ∧ inodeAt g d2 0 = some x2 ∧ x2.Indirect = 0 ∧
          (∀ k, k < POINTERS_PER_INODE → x2.Direct.getD k 0 ≠ 0 ∧
            fs1.freemap[x2.Direct.getD k 0]? = some true) ∧
          (∀ k k', k < POINTERS_PER_INODE → k' < POINTERS_PER_INODE → k ≠ k' →
            x2.Direct.getD k 0 ≠ x2.Direct.getD k' 0) ∧
          (∀ b, fs2.freemap[b]? = some false ↔ (fs1.freemap[b]? = some false ∨
            ∃ k, k < POINTERS_PER_INODE ∧ x2.Direct.getD k 0 = b))) ∧
      (∀ data : List Byte, POINTERS_PER_INODE * g.BLOCK_SIZE + 1 ≤ data.length →
        ∃ fs2 d2 x2 ib, write g fs1 0 data (POINTERS_PER_INODE * g.BLOCK_SIZE + 1) 0
            = some (((POINTERS_PER_INODE * g.BLOCK_SIZE + 1 : Nat) : Int), fs2) ∧
          fs2.disk = some d2 ∧ inodeAt g d2 0 = some x2 ∧
          x2.Indirect ≠ 0 ∧ fs1.freemap[x2.Indirect]? = some true ∧
          d2.read x2.Indirect = some ib ∧ getPointer ib 0 ≠ 0 ∧
          fs1.freemap[getPointer ib 0]? = some true ∧ getPointer ib 0 ≠ x2.Indirect ∧
          (∀ k, k < POINTERS_PER_INODE → x2.Direct.getD k 0 ≠ 0 ∧
            fs1.freemap[x2.Direct.getD k 0]? = some true ∧
            x2.Direct.getD k 0 ≠ x2.Indirect ∧ x2.Direct.getD k 0 ≠ getPointer ib 0) ∧
          (∀ k k', k < POINTERS_PER_INODE → k' < POINTERS_PER_INODE → k ≠ k' →
            x2.Direct.getD k 0 ≠ x2.Direct.getD k' 0) ∧
          (∀ b, fs2.freemap[b]? = some false ↔ (fs1.freemap[b]? = some false ∨
            b = x2.Indirect ∨ b = getPointer ib 0 ∨
            ∃ k, k < POINTERS_PER_INODE ∧ x2.Direct.getD k 0 = b))) := by
  have hB := hg.1
  have hQ := hg.2.2.2.1
  obtain ⟨fs1, d1, hc, hs, hx, hfm, hz, hpos, _⟩ := fresh_created g hg n h2 hlt hI
  rw [← hfm] at hfree
  have hz0 : 0 / g.BLOCK_SIZE = 0 := Nat.zero_div _
  refine ⟨fs1, hc, fun data hlen => ?_, fun data hlen => ?_⟩
  · obtain ⟨e, fs2, d2, x2, hw, hd2, hx2, _, _, t1, t2, t3, c1, c2, c3, c4, c5, c6⟩ :=
      write_created g hg fs1 d1 hs 0 hpos hx data (POINTERS_PER_INODE * g.BLOCK_SIZE) 0 hlen
        (by unfold POINTERS_PER_INODE; omega) (by rw [hz0]; exact Nat.zero_le _) hz
        (by
          rw [Nat.zero_add]
          exact Nat.mul_le_mul_right _ (Nat.le_add_right _ _))
        (fun c _ hc' => by
          rw [Nat.zero_add] at hc' ⊢
          rw [if_neg (Nat.lt_irrefl _), hz0]
          have := Nat.lt_of_mul_lt_mul_right hc'
          omega)
    rw [Nat.zero_add] at t2 t3
    rw [hz0] at c3 c4 c5 c6
    have he : e = POINTERS_PER_INODE := by
      have h1 := Nat.lt_of_mul_lt_mul_right t2
      have h3 := Nat.le_of_mul_le_mul_right t3 (by omega)
      omega
    rw [he] at c1 c3 c5 c6
    have hind : x2.Indirect = 0 := by
      by_contra hne
      exact absurd (c1.mp hne) (Nat.lt_irrefl _)
    have hbp : ∀ k, k < POINTERS_PER_INODE → blockPointer g d2 x2 k = x2.Direct.getD k 0 :=
      fun k hk => blockPointer_direct g d2 x2 k hk
    refine ⟨fs2, d2, x2, hw, hd2, hx2, hind, fun k hk => ?_, fun k k' hk hk' hne => ?_,
      fun b => ?_⟩
    · have := c3 k (Nat.zero_le _) hk
      rw [hbp k hk] at this
      exact ⟨this.1, this.2.1⟩
    · have := c5 k k' (Nat.zero_le _) hk (Nat.zero_le _) hk' hne
      rw [hbp k hk, hbp k' hk'] at this
      exact this
    · rw [c6 b]
      constructor
      · rintro (h | ⟨h, _⟩ | ⟨k, _, hk, hp⟩)
        · exact Or.inl h
        · exact absurd hind h
        · exact Or.inr ⟨k, hk, by rw [← hbp k hk]; exact hp⟩
      · rintro (h | ⟨k, hk, hp⟩)
        · exact Or.inl h
        · exact Or.inr (Or.inr ⟨k, Nat.zero_le _, hk, by rw [hbp k hk]; exact hp⟩)
  · have h5Q : POINTERS_PER_INODE * g.BLOCK_SIZE + g.BLOCK_SIZE ≤ maxFileSize g := by
      unfold maxFileSize
      rw [Nat.add_mul]
      exact Nat.add_le_add_left (Nat.le_mul_of_pos_left _ hQ) _
    obtain ⟨e, fs2, d2, x2, hw, hd2, hx2, _, _, t1, t2, t3, c1, c2, c3, c4, c5, c6⟩ :=
      write_created g hg fs1 d1 hs 0 hpos hx data (POINTERS_PER_INODE * g.BLOCK_SIZE + 1) 0 hlen
        (Nat.succ_le_succ (Nat.zero_le _)) (by rw [hz0]; exact Nat.zero_le _) hz
        (by omega)
        (fun c _ hc' => by
          rw [Nat.zero_add] at hc' ⊢
          rw [if_pos (Nat.lt_succ_self _), hz0]
          have h1 : c * g.BLOCK_SIZE < (POINTERS_PER_INODE + 1) * g.BLOCK_SIZE := by
            rw [Nat.add_mul, Nat.one_mul]
            omega
          have := Nat.lt_of_mul_lt_mul_right h1
          omega)
    rw [Nat.zero_add] at t2 t3
    rw [hz0] at c3 c4 c5 c6
    have he : e = POINTERS_PER_INODE + 1 := by
      have h1 : (e - 1) * g.BLOCK_SIZE < (POINTERS_PER_INODE + 1) * g.BLOCK_SIZE := by
        rw [Nat.add_mul, Nat.one_mul]
        omega
      have h1' := Nat.lt_of_mul_lt_mul_right h1
      have h3 : POINTERS_PER_INODE * g.BLOCK_SIZE < e * g.BLOCK_SIZE := by omega
      have h3' := Nat.lt_of_mul_lt_mul_right h3
      omega
    rw [he] at c1 c3 c5 c6
    have hind : x2.Indirect ≠ 0 := c1.mpr (Nat.lt_succ_self _)
    have hbp : ∀ k, k < POINTERS_PER_INODE → blockPointer g d2 x2 k = x2.Direct.getD k 0 :=
      fun k hk => blockPointer_direct g d2 x2 k hk
    obtain ⟨p1, p2, p3⟩ := c3 POINTERS_PER_INODE (Nat.zero_le _) (Nat.lt_succ_self _)
    obtain ⟨_, _, ib, hrib, hent⟩ := blockPointer_indirect g d2 x2 POINTERS_PER_INODE
      (Nat.le_refl _) p1
    rw [Nat.sub_self] at hent
    rw [hent] at p1 p2 p3
    refine ⟨fs2, d2, x2, ib, hw, hd2, hx2, hind, c2 hind, hrib, p1, p2, p3, fun k hk => ?_,
      fun k k' hk hk' hne => ?_, fun b => ?_⟩
    · have h := c3 k (Nat.zero_le _) (by omega)
      have h' := c5 k POINTERS_PER_INODE (Nat.zero_le _) (by omega) (Nat.zero_le _)
        (Nat.lt_succ_self _) (by omega)
      rw [hbp k hk] at h h'
      rw [hent] at h'
      exact ⟨h.1, h.2.1, h.2.2, h'⟩
    · have := c5 k k' (Nat.zero_le _) (by omega) (Nat.zero_le _) (by omega) hne
      rw [hbp k hk, hbp k' hk'] at this
      exact this
    · rw [c6 b]
      constructor
      · rintro (h | ⟨_, h⟩ | ⟨k, _, hk, hp⟩)
        · exact Or.inl h
        · exact Or.inr (Or.inl h)
        · by_cases hk5 : k < POINTERS_PER_INODE
          · exact Or.inr (Or.inr (Or.inr ⟨k, hk5, by rw [← hbp k hk5]; exact hp⟩))
          · have hk' : k = POINTERS_PER_INODE := by omega
            rw [hk', hent] at hp
            exact Or.inr (Or.inr (Or.inl hp.symm))
      · rintro (h | h | h | ⟨k, hk, hp⟩)
        · exact Or.inl h
        · exact Or.inr (Or.inl ⟨hind, h⟩)
        · exact Or.inr (Or.inr ⟨POINTERS_PER_INODE, Nat.zero_le _, Nat.lt_succ_self _,
            by rw [hent]; exact h.symm⟩)
        · exact Or.inr (Or.inr ⟨k, Nat.zero_le _, by omega, by rw [hbp k hk]; exact hp⟩)

set_option maxRecDepth 100000 in
/-- C13, witness: a device of twelve blocks of 64 bytes, which has nine free
blocks after `format` and `mount`. -/
theorem direct_indirect_boundary_witness :
    tinyGeometry.WF ∧
    POINTERS_PER_INODE + 2 ≤ (freeBlocks (freshFS tinyGeometry 12).freemap).length ∧
    ∃ fs1, create tinyGeometry (freshFS tinyGeometry 12) = some (0, fs1) ∧
      (∀ data : List Byte, POINTERS_PER_INODE * tinyGeometry.BLOCK_SIZE ≤ data.length →
        ∃ fs2 d2 x2, write tinyGeometry fs1 0 data (POINTERS_PER_INODE * tinyGeometry.BLOCK_SIZE) 0
            = some (((POINTERS_PER_INODE * tinyGeometry.BLOCK_SIZE : Nat) : Int), fs2) ∧
          fs2.disk = some d2 ∧ inodeAt tinyGeometry d2 0 = some x2 ∧ x2.Indirect = 0 ∧
          (∀ k, k < POINTERS_PER_INODE → x2.Direct.getD k 0 ≠ 0 ∧
            fs1.freemap[x2.Direct.getD k 0]? = some true) ∧
          (∀ k k', k < POINTERS_PER_INODE → k' < POINTERS_PER_INODE → k ≠ k' →
            x2.Direct.getD k 0 ≠ x2.Direct.getD k' 0) ∧
          (∀ b, fs2.freemap[b]? = some false ↔ (fs1.freemap[b]? = some false ∨
            ∃ k, k < POINTERS_PER_INODE ∧ x2.Direct.getD k 0 = b))) ∧
      (∀ data : List Byte, POINTERS_PER_INODE * tinyGeometry.BLOCK_SIZE + 1 ≤ data.length →
        ∃ fs2 d2 x2 ib,
          write tinyGeometry fs1 0 data (POINTERS_PER_INODE * tinyGeometry.BLOCK_SIZE + 1) 0
            = some (((POINTERS_PER_INODE * tinyGeometry.BLOCK_SIZE + 1 : Nat) : Int), fs2) ∧
          fs2.disk = some d2 ∧ inodeAt tinyGeometry d2 0 = some x2 ∧
          x2.Indirect ≠ 0 ∧ fs1.freemap[x2.Indirect]? = some true ∧
          d2.read x2.Indirect = some ib ∧ getPointer ib 0 ≠ 0 ∧
          fs1.freemap[getPointer ib 0]? = some true ∧ getPointer ib 0 ≠ x2.Indirect ∧
          (∀ k, k < POINTERS_PER_INODE → x2.Direct.getD k 0 ≠ 0 ∧
            fs1.freemap[x2.Direct.getD k 0]? = some true ∧
            x2.Direct.getD k 0 ≠ x2.Indirect ∧ x2.Direct.getD k 0 ≠ getPointer ib 0) ∧
          (∀ k k', k < POINTERS_PER_INODE → k' < POINTERS_PER_INODE → k ≠ k' →
            x2.Direct.getD k 0 ≠ x2.Direct.getD k' 0) ∧
          (∀ b, fs2.freemap[b]? = some false ↔ (fs1.freemap[b]? = some false ∨
            b = x2.Indirect ∨ b = getPointer ib 0 ∨
            ∃ k, k < POINTERS_PER_INODE ∧ x2.Direct.getD k 0 = b))) :=
  ⟨by decide, by decide,
    direct_indirect_boundary tinyGeometry (by decide) 12 (by decide) (by decide) (by decide)
      (by decide)⟩

theorem fileByte_at (g : Geometry) (hg : g.WF) (d : Disk) (x : Inode) (q r : Nat)
    (hr : r < g.BLOCK_SIZE) (blk : Block) (hb : d.read (blockPointer g d x q) = some blk) :
    fileByte g d x (q * g.BLOCK_SIZE + r) = blk[r]? := by
  have hpos : 0 < g.BLOCK_SIZE := by have := hg.1; omega
  have hdiv : (q * g.BLOCK_SIZE + r) / g.BLOCK_SIZE = q := by
    rw [Nat.mul_comm, Nat.mul_add_div hpos, Nat.div_eq_of_lt hr, Nat.add_zero]
  have hmod : (q * g.BLOCK_SIZE + r) % g.BLOCK_SIZE = r := by
    rw [Nat.mul_comm, Nat.mul_add_mod, Nat.mod_eq_of_lt hr]
  unfold fileByte
  rw [hdiv, hmod, hb]

/-- C14, where block 0 is marked used: in a sound state whose free map marks
block 0 used and at least two blocks free, on an inode `i` without blocks as
`create` leaves it, for every string `D` of 5 bytes: `write(i, D, 5, BLOCK_SIZE - 2)`
returns 5, sets `Direct[0]` and `Direct[1]` to two distinct blocks that were
marked free and marks exactly these two used in addition, the last two bytes of
block `Direct[0]` are `D[0], D[1]`, the first three bytes of block `Direct[1]`
are `D[2], D[3], D[4]`, and `read(i, buf, 5, BLOCK_SIZE - 2)` then returns 5 and
copies `D`. -/
theorem write_across_blocks (g : Geometry) (hg : g.WF) (hfit : g.BLOCK_SIZE + 3 < 4294967296)
    (fs : FileSystem) (d : Disk) (hs : Sound g fs d) (i : Nat) (hi : i < fs.numOfInodes)
    (hx : inodeAt g d i = some Inode.created) (hz : fs.freemap[0]? = some false)
    (hfree : 2 ≤ (freeBlocks fs.freemap).length) (D : List Byte) (hD : D.length = 5) :
    ∃ fs2 d2 x2 blk0 blk1,
      write g fs i D 5 (g.BLOCK_SIZE - 2) = some (5, fs2) ∧ fs2.disk = some d2 ∧
      inodeAt g d2 i = some x2 ∧
      x2.Direct.getD 0 0 ≠ 0 ∧ x2.Direct.getD 1 0 ≠ 0 ∧
      x2.Direct.getD 0 0 ≠ x2.Direct.getD 1 0 ∧
      fs.freemap[x2.Direct.getD 0 0]? = some true ∧
      fs.freemap[x2.Direct.getD 1 0]? = some true ∧
      (∀ b, fs2.freemap[b]? = some false ↔
        (fs.freemap[b]? = some false ∨ b = x2.Direct.getD 0 0 ∨ b = x2.Direct.getD 1 0)) ∧
      d2.read (x2.Direct.getD 0 0) = some blk0 ∧ d2.read (x2.Direct.getD 1 0) = some blk1 ∧
      blk0[g.BLOCK_SIZE - 2]? = D[0]? ∧ blk0[g.BLOCK_SIZE - 1]? = D[1]? ∧
      blk1[0]? = D[2]? ∧ blk1[1]? = D[3]? ∧ blk1[2]? = D[4]? ∧
      read g fs2 i 5 (g.BLOCK_SIZE - 2) = some (5, D) := by
  have hB := hg.1
  have hQ := hg.2.2.2.1
  have hb0 : (g.BLOCK_SIZE - 2) / g.BLOCK_SIZE = 0 := Nat.div_eq_of_lt (by omega)
  have hsum : g.BLOCK_SIZE - 2 + 5 = g.BLOCK_SIZE + 3 := by omega
  have h2B : 2 * g.BLOCK_SIZE = g.BLOCK_SIZE + g.BLOCK_SIZE := Nat.two_mul _
  have hcapB : g.BLOCK_SIZE + g.BLOCK_SIZE ≤ maxFileSize g := by
    unfold maxFileSize
    rw [Nat.add_mul]
    have h1 : g.BLOCK_SIZE ≤ POINTERS_PER_INODE * g.BLOCK_SIZE :=
      Nat.le_mul_of_pos_left _ (by decide)
    have h2 : g.BLOCK_SIZE ≤ g.POINTERS_PER_BLOCK * g.BLOCK_SIZE := Nat.le_mul_of_pos_left _ hQ
    omega
  have h5B : ¬ POINTERS_PER_INODE * g.BLOCK_SIZE < g.BLOCK_SIZE - 2 + 5 := by
    have h1 : 2 * g.BLOCK_SIZE ≤ POINTERS_PER_INODE * g.BLOCK_SIZE :=
      Nat.mul_le_mul_right _ (by decide)
    omega
  obtain ⟨e, fs2, d2, x2, hw, hd2, hx2, _, _, t1, t2, t3, c1, c2, c3, c4, c5, c6⟩ :=
    write_created g hg fs d hs i hi hx D 5 (g.BLOCK_SIZE - 2) (by omega) (by omega)
      (by rw [hb0]; exact Nat.zero_le _) hz (by omega)
      (fun c _ hc' => by
        rw [if_neg h5B, hb0]
        have h1 : c * g.BLOCK_SIZE < 2 * g.BLOCK_SIZE := by omega
        have := Nat.lt_of_mul_lt_mul_right h1
        omega)
  rw [hb0] at c3 c5 c6
  have he : e = 2 := by
    have h1 : (e - 1) * g.BLOCK_SIZE < 2 * g.BLOCK_SIZE := by omega
    have h1' := Nat.lt_of_mul_lt_mul_right h1
    have h3 : 1 * g.BLOCK_SIZE < e * g.BLOCK_SIZE := by omega
    have h3' := Nat.lt_of_mul_lt_mul_right h3
    omega
  rw [he] at c3 c5 c6
  have hbp0 : blockPointer g d2 x2 0 = x2.Direct.getD 0 0 :=
    blockPointer_direct g d2 x2 0 (by decide)
  have hbp1 : blockPointer g d2 x2 1 = x2.Direct.getD 1 0 :=
    blockPointer_direct g d2 x2 1 (by decide)
  obtain ⟨p1, p2, _⟩ := c3 0 (Nat.le_refl _) (by decide)
  obtain ⟨q1, q2, _⟩ := c3 1 (Nat.zero_le _) (by decide)
  have hne := c5 0 1 (Nat.le_refl _) (by decide) (Nat.zero_le _) (by decide) (by decide)
  -- the bytes of the file
  obtain ⟨d2', x2', hd2', hW, hib, _⟩ := write_fresh g hg fs d hs.mounted i hi hx hs.table D 5
    (g.BLOCK_SIZE - 2) (by omega) (by omega) (by rw [hb0]; exact Nat.zero_le _) (by omega) fs2 hw
  rw [hd2] at hd2'
  cases hd2'
  have hxx := hW.inode
  rw [hx2] at hxx
  cases hxx
  have hcov0 := hW.covered 0 (by rw [hb0]) (by omega)
  have hcov1 := hW.covered 1 (by rw [hb0]; exact Nat.zero_le _) (by omega)
  obtain ⟨blk0, hr0, _⟩ := Disk.read_isSome d2 _ hcov0.2
  obtain ⟨blk1, hr1, _⟩ := Disk.read_isSome d2 _ hcov1.2
  have hbyte : ∀ k, k < 5 → fileByte g d2 x2 (g.BLOCK_SIZE - 2 + k) = D[k]? := by
    intro k hk
    have := hW.bytes (g.BLOCK_SIZE - 2 + k) (Nat.le_add_right _ _) (by omega)
    rw [Nat.add_sub_cancel_left] at this
    exact this
  have hat0 : ∀ r, r < g.BLOCK_SIZE → fileByte g d2 x2 r = blk0[r]? := by
    intro r hr
    have := fileByte_at g hg d2 x2 0 r hr blk0 hr0
    rw [Nat.zero_mul, Nat.zero_add] at this
    exact this
  have hat1 : ∀ r, r < g.BLOCK_SIZE → fileByte g d2 x2 (g.BLOCK_SIZE + r) = blk1[r]? := by
    intro r hr
    have := fileByte_at g hg d2 x2 1 r hr blk1 hr1
    rw [Nat.one_mul] at this
    exact this
  have hW' : Written g fs2 d2 i x2 D D.length (g.BLOCK_SIZE - 2) := by
    rw [hD]
    exact hW
  have hi2 : i < fs2.numOfInodes := by
    rw [hW.mounted.inodes, hib, ← hs.mounted.inodes]
    exact hi
  have hread := read_written g hg fs2 d2 i x2 D (g.BLOCK_SIZE - 2) hW' hi2 (by omega)
    (by
      rw [hD]
      unfold maxFileSize at hcapB
      omega)
  rw [hD] at hread
  rw [hbp0] at p1 p2 hne hr0
  rw [hbp1] at q1 q2 hne hr1
  refine ⟨fs2, d2, x2, blk0, blk1, hw, hd2, hx2, p1, q1, hne, p2, q2, fun b => ?_, hr0, hr1, ?_,
    ?_, ?_, ?_, ?_, hread⟩
  · rw [c6 b]
    constructor
    · rintro (h | ⟨h, _⟩ | ⟨k, _, hk, hp⟩)
      · exact Or.inl h
      · have h5 := c1.mp h
        rw [he] at h5
        exact absurd h5 (by decide)
      · have hk01 : k = 0 ∨ k = 1 := by omega
        rcases hk01 with h | h
        · rw [h, hbp0] at hp
          exact Or.inr (Or.inl hp.symm)
        · rw [h, hbp1] at hp
          exact Or.inr (Or.inr hp.symm)
    · rintro (h | h | h)
      · exact Or.inl h
      · exact Or.inr (Or.inr ⟨0, Nat.le_refl _, by decide, by rw [hbp0]; exact h.symm⟩)
      · exact Or.inr (Or.inr ⟨1, Nat.zero_le _, by decide, by rw [hbp1]; exact h.symm⟩)
  · rw [← hat0 _ (by omega)]
    exact hbyte 0 (by decide)
  · rw [← hat0 _ (by omega)]
    have := hbyte 1 (by decide)
    have h1 : g.BLOCK_SIZE - 2 + 1 = g.BLOCK_SIZE - 1 := by omega
    rw [h1] at this
    exact this
  · rw [← hat1 0 (by omega)]
    have := hbyte 2 (by decide)
    have h1 : g.BLOCK_SIZE - 2 + 2 = g.BLOCK_SIZE + 0 := by omega
    rw [h1] at this
    exact this
  · rw [← hat1 1 (by omega)]
    have := hbyte 3 (by decide)
    have h1 : g.BLOCK_SIZE - 2 + 3 = g.BLOCK_SIZE + 1 := by omega
    rw [h1] at this
    exact this
  · rw [← hat1 2 (by omega)]
    have := hbyte 4 (by decide)
    have h1 : g.BLOCK_SIZE - 2 + 4 = g.BLOCK_SIZE + 2 := by omega
    rw [h1] at this
    exact this

/-! ### `read` looks only at the inode and at the blocks it points to -/

theorem readDirect_congr (g : Geometry) (d d' : Disk) (x : Inode) (rl : Nat)
    (h : ∀ k, x.Direct.getD k 0 ≠ 0 → d'.read (x.Direct.getD k 0) = d.read (x.Direct.getD k 0)) :
    ∀ (fuel i : Nat) (st : ReadState),
      readDirect g d' x rl fuel i st = readDirect g d x rl fuel i st := by
  intro fuel
  induction fuel with
  | zero =>
    intro i st
    rfl
  | succ fuel ih =>
    intro i st
    unfold readDirect
    by_cases hlt : st.hasRead < rl
    · rw [if_pos hlt, if_pos hlt]
      by_cases hz : x.Direct.getD i 0 = 0
      · rw [if_pos hz, if_pos hz]
      · rw [if_neg hz, if_neg hz]
        have hb : readBlock g d' x rl (x.Direct.getD i 0) i st
            = readBlock g d x rl (x.Direct.getD i 0) i st := by
          unfold readBlock
          rw [h i hz]
        rw [hb]
        simp only [ih]
    · rw [if_neg hlt, if_neg hlt]

theorem readIndirect_congr (g : Geometry) (d d' : Disk) (x : Inode) (ib : Block) (rl : Nat)
    (h : ∀ j, j < g.POINTERS_PER_BLOCK → getPointer ib j ≠ 0 →
      d'.read (getPointer ib j) = d.read (getPointer ib j)) :
    ∀ (fuel j : Nat) (st : ReadState), fuel ≤ g.POINTERS_PER_BLOCK - j →
      readIndirect g d' x ib rl fuel j st = readIndirect g d x ib rl fuel j st := by
  intro fuel
  induction fuel with
  | zero =>
    intro j st _
    rfl
  | succ fuel ih =>
    intro j st hj
    unfold readIndirect
    by_cases hlt : st.hasRead < rl
    · rw [if_pos hlt, if_pos hlt]
      by_cases hz : getPointer ib j = 0
      · rw [if_pos hz, if_pos hz]
      · rw [if_neg hz, if_neg hz]
        have hb : readBlock g d' x rl (getPointer ib j) (POINTERS_PER_INODE + j) st
            = readBlock g d x rl (getPointer ib j) (POINTERS_PER_INODE + j) st := by
          unfold readBlock
          rw [h j (by omega) hz]
        rw [hb]
        cases readBlock g d x rl (getPointer ib j) (POINTERS_PER_INODE + j) st with
        | none => rfl
        | some st1 =>
          simp only [Option.bind_eq_bind, Option.some_bind]
          exact ih (j + 1) st1 (by omega)
    · rw [if_neg hlt, if_neg hlt]

/-- The call `read` on inode `i` gives the same on two devices that agree on the
inode record and on every block a pointer slot of the inode names. -/
theorem read_congr (g : Geometry) (fs fs' : FileSystem) (d d' : Disk)
    (hd : fs.disk = some d) (hd' : fs'.disk = some d')
    (hn : fs'.numOfInodes = fs.numOfInodes) (i : Nat)
    (hinode : inodeAt g d' i = inodeAt g d i)
    (hptr : ∀ x, inodeAt g d i = some x → x.Valid ≠ 0 → ∀ s, pointerAt g d x s ≠ 0 →
      d'.read (pointerAt g d x s) = d.read (pointerAt g d x s))
    (length offset : Nat) :
    read g fs' i length offset = read g fs i length offset := by
  unfold read
  rw [hn]
  by_cases hi : i ≥ fs.numOfInodes
  · rw [if_pos hi, if_pos hi]
  · rw [if_neg hi, if_neg hi, hd, hd', Option.bind_eq_bind, Option.bind_eq_bind,
      Option.some_bind, Option.some_bind]
    have hload : load_inode g d' i = load_inode g d i := by
      rcases hia : inodeAt g d i with _ | x
      · rw [hia] at hinode
        unfold inodeAt at hia hinode
        rw [Option.map_eq_none'] at hia hinode
        unfold load_inode
        rw [hia, hinode]
      · rw [hia] at hinode
        rw [load_inode_eq g d i x hia, load_inode_eq g d' i x hinode]
    rw [hload]
    rcases hl : load_inode g d i with _ | _ | x
    · rw [Option.none_bind, Option.none_bind]
    · rw [Option.some_bind, Option.some_bind]
    · rw [Option.some_bind, Option.some_bind]
      dsimp only
      have hx : inodeAt g d i = some x ∧ x.Valid ≠ 0 := by
        unfold load_inode at hl
        unfold inodeAt
        rcases hr : d.read (i / g.INODES_PER_BLOCK + 1) with _ | blk
        · rw [hr] at hl
          cases hl
        · rw [hr, Option.bind_eq_bind, Option.some_bind] at hl
          by_cases hv : (getInode blk (i % g.INODES_PER_BLOCK)).Valid = 0
          · rw [if_pos hv] at hl
            cases hl
          · rw [if_neg hv] at hl
            simp only [Option.some.injEq] at hl
            rw [← hl]
            exact ⟨rfl, hv⟩
      have hxwf := inodeAt_WF g d i x hx.1
      have hp := hptr x hx.1 hx.2
      by_cases hoff : offset ≥ x.Size
      · rw [if_pos hoff, if_pos hoff]
      · rw [if_neg hoff, if_neg hoff]
        have hdir : ∀ k, x.Direct.getD k 0 ≠ 0 →
            d'.read (x.Direct.getD k 0) = d.read (x.Direct.getD k 0) := by
          intro k hk
          by_cases hk5 : k < POINTERS_PER_INODE
          · have := hp (k + 1) (by
              rw [pointerAt_succ, blockPointer_direct g d x k hk5]
              exact hk)
            rw [pointerAt_succ, blockPointer_direct g d x k hk5] at this
            exact this
          · exfalso
            apply hk
            rw [List.getD_eq_getElem?_getD, List.getElem?_eq_none (by rw [hxwf.2.2.1]; omega)]
            rfl
        rw [readDirect_congr g d d' x _ hdir]
        rcases hrd : readDirect g d x (min length (x.Size - offset))
            (POINTERS_PER_INODE - offset / g.BLOCK_SIZE) (offset / g.BLOCK_SIZE)
            { out := [], hasRead := 0, startByte := offset % g.BLOCK_SIZE } with _ | ⟨ret, i', st⟩
        · rw [Option.bind_eq_bind, Option.bind_eq_bind, Option.none_bind, Option.none_bind]
        · rw [Option.bind_eq_bind, Option.bind_eq_bind, Option.some_bind, Option.some_bind]
          dsimp only
          by_cases hret : ret = true
          · rw [if_pos hret, if_pos hret]
          · rw [if_neg hret, if_neg hret]
            by_cases hstop : st.hasRead = min length (x.Size - offset) ∨ x.Indirect = 0
            · rw [if_pos hstop, if_pos hstop]
            · rw [if_neg hstop, if_neg hstop]
              have hI : x.Indirect ≠ 0 := fun h => hstop (Or.inr h)
              have hrI : d'.read x.Indirect = d.read x.Indirect := by
                have := hp 0 (by rw [pointerAt_zero]; exact hI)
                rw [pointerAt_zero] at this
                exact this
              rw [hrI]
              rcases hib : d.read x.Indirect with _ | ib
              · rw [Option.none_bind, Option.none_bind]
              · rw [Option.some_bind, Option.some_bind,
                  readIndirect_congr g d d' x ib _ (fun j hj hne => by
                    have hbe := blockPointer_entry g d x j ib hI hj hib
                    have := hp (POINTERS_PER_INODE + j + 1) (by
                      rw [pointerAt_succ, hbe]
                      exact hne)
                    rw [pointerAt_succ, hbe] at this
                    exact this) _ _ _ (Nat.le_refl _)]

/-! ### The allocation of the indirect block is undone -/

theorem free_unique (fm : List Bool) (h : (freeBlocks fm).length < 2) (b b' : Nat)
    (hb : fm[b]? = some true) (hb' : fm[b']? = some true) : b = b' := by
  by_contra hne
  have hsub : [b, b'] ⊆ freeBlocks fm := by
    intro c hc
    rw [List.mem_cons, List.mem_singleton] at hc
    rcases hc with hc | hc
    · rw [hc]
      exact (mem_freeBlocks fm b).mpr hb
    · rw [hc]
      exact (mem_freeBlocks fm b').mpr hb'
  have hnd : [b, b'].Nodup := by
    rw [List.nodup_cons]
    exact ⟨by rw [List.mem_singleton]; exact hne, List.nodup_singleton _⟩
  have := (List.subperm_of_subset hnd hsub).length_le
  rw [List.length_cons, List.length_singleton] at this
  omega

/-- With fewer than two blocks marked free, the allocation of the indirect block
goes to `ret` and leaves the local state as it was: a block reserved for the
indirect block is marked free again. -/
theorem writeAllocIndirect_few (g : Geometry) (nb : Nat) (st : WriteState)
    (hlen : st.freemap.length = nb) (hnb : nb < 4294967296)
    (hfew : (freeBlocks st.freemap).length < 2) :
    writeAllocIndirect g nb st = some (true, st) := by
  obtain ⟨fi, hfind, _, hspec⟩ := find_free_block_spec nb st.freemap hlen
  rcases hspec with ⟨h0, _⟩ | ⟨h0, h1, h2, _⟩
  · simp only [writeAllocIndirect, hfind, Option.bind_eq_bind, Option.some_bind, h0,
      Nat.zero_mod, if_true]
  · have hmod : fi % 4294967296 = fi := Nat.mod_eq_of_lt (by omega)
    have hfl : fi < st.freemap.length := by rw [hlen]; exact h1
    have hset : setFree st.freemap fi false = some (st.freemap.set fi false) :=
      (setFree_some _ _ _ _).mpr ⟨hfl, rfl⟩
    obtain ⟨fb, hfb, _, hspec2⟩ := find_free_block_spec nb (st.freemap.set fi false)
      (by rw [List.length_set]; exact hlen)
    have hfbz : fb = 0 := by
      rcases hspec2 with ⟨h, _⟩ | ⟨_, _, hb2, _⟩
      · exact h
      · exfalso
        by_cases hsame : fb = fi
        · rw [hsame, List.getElem?_set_self hfl] at hb2
          cases hb2
        · rw [List.getElem?_set_ne (Ne.symm hsame)] at hb2
          exact hsame (free_unique st.freemap hfew fb fi hb2 h2)
    have hfb0 : fb % 4294967296 = 0 := by rw [hfbz]
    have hset2 : setFree (st.freemap.set fi false) fi true
        = some ((st.freemap.set fi false).set fi true) :=
      (setFree_some _ _ _ _).mpr ⟨by rw [List.length_set]; exact hfl, rfl⟩
    have hrest : (st.freemap.set fi false).set fi true = st.freemap :=
      set_set_restore st.freemap fi false true h2
    simp only [writeAllocIndirect, hfind, Option.bind_eq_bind, Option.some_bind, hmod,
      if_neg h0, hset, hfb, if_pos hfb0, hset2, hrest]

/-- C17: in a sound state, for a valid inode with `Indirect = 0` and a buffer of
at least `length` bytes: when the loop of `write` over the
direct pointers has ended without `goto ret` in the local state `st` with bytes
left to write, and the free map of `st` marks fewer than two blocks free, then
`write` returns the number of bytes placed so far, the stored inode has
`Indirect = 0` and the direct pointers of `st`, and the free map afterwards is
the free map of `st`. -/
theorem indirect_rollback (g : Geometry) (hg : g.WF) (fs : FileSystem) (d : Disk)
    (hs : Sound g fs d) (i : Nat) (hi : i < fs.numOfInodes) (x0 : Inode)
    (hx : inodeAt g d i = some x0) (hv : x0.Valid ≠ 0) (hind : x0.Indirect = 0)
    (data : List Byte) (length offset : Nat) (hlen : length ≤ data.length)
    (i' : Nat) (st : WriteState)
    (hd : writeDirect g fs.numOfBlocks data length
      (POINTERS_PER_INODE - offset / g.BLOCK_SIZE) (offset / g.BLOCK_SIZE)
      { disk := d, freemap := fs.freemap, inode := x0, indirectBlock := zeroBlock g,
        hasWrite := 0, startByte := offset % g.BLOCK_SIZE } = some (false, i', st))
    (hleft : st.hasWrite < length) (hfew : (freeBlocks st.freemap).length < 2) :
    ∃ d2 x2, write g fs i data length offset
        = some ((st.hasWrite : Int), { fs with disk := some d2, freemap := st.freemap }) ∧
      inodeAt g d2 i = some x2 ∧ x2.Indirect = 0 ∧ x2.Direct = st.inode.Direct ∧
      x2.Valid = x0.Valid ∧ x2.Size = max x0.Size ((offset + st.hasWrite) % 4294967296) := by
  have hm := hs.mounted
  have hload := load_inode_eq g d i x0 hx
  rw [if_neg hv] at hload
  obtain ⟨jumped, i'', st1, h1, hinv1, hval1, hsz1, hind1, hib1, _⟩ :=
    writeDirect_gen g hg fs.numOfBlocks data length offset fs.freemap d (blockPointer g d x0)
      x0.Indirect (offset / g.BLOCK_SIZE) hlen hm.freemap hm.small
      (fun k _ hne => ⟨(hs.slot g fs d i x0 hi hx hv k hne).2.1,
        (hs.slot g fs d i x0 hi hx hv k hne).2.2.1⟩)
      (fun k k' _ _ hkk hne => hs.apart g fs d i x0 hi hx hv k k' hkk hne) _
      (offset / g.BLOCK_SIZE) _ rfl (GInv.start g hg fs d hm x0 (inodeAt_WF g d i x0 hx) data
        length offset)
  rw [hd] at h1
  simp only [Option.some.injEq, Prod.mk.injEq] at h1
  obtain ⟨hj, hii, hst⟩ := h1
  rw [← hst, ← hii] at hinv1
  rw [← hst] at hval1 hsz1 hind1 hib1
  have hI : st.inode.Indirect = 0 := by
    have h : st.inode.Indirect = x0.Indirect := hind1
    rw [h]
    exact hind
  have hunf := write_eq_of_direct g fs d i data length offset x0 hlen hi hm.disk hload _ _ _ hd
  rw [if_neg (by decide)] at hunf
  have hall := writeAllocIndirect_few g fs.numOfBlocks st hinv1.fmlen hm.small hfew
  have htail : writeTail g fs.numOfBlocks data length i' st = some st := by
    simp only [writeTail, if_pos (And.intro hleft hI), hall, Option.bind_eq_bind,
      Option.some_bind]
  rw [htail, Option.some_bind] at hunf
  obtain ⟨d2, x2, hr, b1, b2, b3, b4, b5, _⟩ := writeRet_gen g hg fs d hm i hi x0 hx hv hs.table
    (fun k hne =>
      ⟨(hs.slot g fs d i x0 hi hx hv k hne).1, (hs.slot g fs d i x0 hi hx hv k hne).2.2.2⟩)
    (hs.indirect g fs d i x0 hi hx hv) length offset st POINTERS_PER_INODE i' hinv1 hval1 hsz1
    (Or.inl ⟨rfl, hib1, hind1⟩)
  exact ⟨d2, x2, by rw [hunf, hr], b1, by rw [b5]; exact hI, b4, b2, b3⟩

set_option maxRecDepth 100000 in
theorem smallFS_sound : Sound tinyGeometry smallFS (diskOf smallFS) := by
  obtain ⟨d0, hs0, _⟩ := freshFS_sound tinyGeometry (by decide) 8 (by decide) (by decide)
    (by decide)
  obtain ⟨fs, d, hrun, hs, _⟩ := run_sound tinyGeometry (by decide) [.create] _ d0 hs0
    (fun op hop => by
      rw [List.mem_singleton] at hop
      rw [hop]
      exact trivial)
  have hconc : run tinyGeometry (freshFS tinyGeometry 8) [.create] = some smallFS := by decide
  rw [hconc] at hrun
  cases hrun
  have hd : diskOf smallFS = d := by
    unfold diskOf
    rw [hs.mounted.disk]
    rfl
  rw [hd]
  exact hs

set_option maxRecDepth 100000 in
/-- C17, witness: on a device of eight blocks of 64 bytes with six free blocks,
`write(0, data, 321, 0)` on a new inode fills the five direct blocks with 320
bytes; one block is free then, the call returns 320 and the free map still marks
that one block free. -/
theorem indirect_rollback_witness :
    tinyGeometry.WF ∧ Sound tinyGeometry smallFS (diskOf smallFS) ∧
    smallFS.freemap = [false, false, true, true, true, true, true, true] ∧
    rollbackState.hasWrite = 320 ∧
    rollbackState.freemap = [false, false, false, false, false, false, false, true] ∧
    (freeBlocks rollbackState.freemap).length < 2 ∧
    ∃ d2 x2, write tinyGeometry smallFS 0 (List.replicate 321 65) 321 0
        = some ((rollbackState.hasWrite : Int),
            { smallFS with disk := some d2, freemap := rollbackState.freemap }) ∧
      inodeAt tinyGeometry d2 0 = some x2 ∧ x2.Indirect = 0 ∧
      x2.Direct = rollbackState.inode.Direct ∧ x2.Valid = Inode.created.Valid ∧
      x2.Size = max Inode.created.Size ((0 + rollbackState.hasWrite) % 4294967296) :=
  ⟨by decide, smallFS_sound, by decide, by decide, by decide, by decide,
    indirect_rollback tinyGeometry (by decide) smallFS (diskOf smallFS) smallFS_sound 0
      (by decide) Inode.created (by decide) (by decide) rfl (List.replicate 321 65) 321 0
      (by decide) 5 rollbackState (by decide) (by decide) (by decide)⟩

/-! ### A write across two direct blocks, with and without block 0 marked used -/

set_option maxRecDepth 100000 in
/-- C14, witness: the inode that `create` returns on a fresh device of eight
blocks of 64 bytes, and the string `hello` written at offset 62. -/
theorem write_across_blocks_witness :
    tinyGeometry.WF ∧ Sound tinyGeometry smallFS (diskOf smallFS) ∧
    inodeAt tinyGeometry (diskOf smallFS) 0 = some Inode.created ∧
    smallFS.freemap[0]? = some false ∧ 2 ≤ (freeBlocks smallFS.freemap).length ∧
    ∃ fs2 d2 x2 blk0 blk1,
      write tinyGeometry smallFS 0 hello 5 (tinyGeometry.BLOCK_SIZE - 2) = some (5, fs2) ∧
      fs2.disk = some d2 ∧ inodeAt tinyGeometry d2 0 = some x2 ∧
      x2.Direct.getD 0 0 ≠ 0 ∧ x2.Direct.getD 1 0 ≠ 0 ∧
      x2.Direct.getD 0 0 ≠ x2.Direct.getD 1 0 ∧
      smallFS.freemap[x2.Direct.getD 0 0]? = some true ∧
      smallFS.freemap[x2.Direct.getD 1 0]? = some true ∧
      (∀ b, fs2.freemap[b]? = some false ↔
        (smallFS.freemap[b]? = some false ∨ b = x2.Direct.getD 0 0 ∨
          b = x2.Direct.getD 1 0)) ∧
      d2.read (x2.Direct.getD 0 0) = some blk0 ∧ d2.read (x2.Direct.getD 1 0) = some blk1 ∧
      blk0[tinyGeometry.BLOCK_SIZE - 2]? = hello[0]? ∧
      blk0[tinyGeometry.BLOCK_SIZE - 1]? = hello[1]? ∧
      blk1[0]? = hello[2]? ∧ blk1[1]? = hello[3]? ∧ blk1[2]? = hello[4]? ∧
      read tinyGeometry fs2 0 5 (tinyGeometry.BLOCK_SIZE - 2) = some (5, hello) :=
  ⟨by decide, smallFS_sound, by decide, by decide, by decide,
    write_across_blocks tinyGeometry (by decide) (by decide) smallFS (diskOf smallFS)
      smallFS_sound 0 (by decide) (by decide) (by decide) (by decide) hello (by decide)⟩

set_option maxRecDepth 100000 in
/-- C14, where the claim fails: on a device of twelve blocks of 64 bytes, after
`create()`, a write of 321 bytes that takes an indirect block, `remove(0)` and
`create()` again, inode 0 is a new inode without blocks and the free map marks
nine blocks free, among them block 0; `write(0, "hello", 5, 62)` returns 0. -/
theorem write_across_blocks_after_remove :
    run tinyGeometry (freshFS tinyGeometry 12)
      [.create, .write 0 (List.replicate 321 65) 321 0, .remove 0, .create] = some reusedFS ∧
    inodeAt tinyGeometry (diskOf reusedFS) 0 = some Inode.created ∧
    (freeBlocks reusedFS.freemap).length = 9 ∧ reusedFS.freemap[0]? = some true ∧
    (write tinyGeometry reusedFS 0 hello 5 62).map Prod.fst = some 0 := by
  decide

/-! ### The largest file size -/

set_option maxRecDepth 100000 in
/-- C15, where the claim fails: with 64-byte blocks and 16 pointers in a block the
largest file size is `(5 + 16) * 64 = 1344`; after `create()` and
`write(0, "x", 1, 1345)`, which returns 0, inode 0 is valid with `Size = 1345`. -/
theorem size_exceeds_maximum :
    maxFileSize tinyGeometry = 1344 ∧
    (write tinyGeometry (stateAfter tinyGeometry (freshFS tinyGeometry 12) [.create]) 0 [120]
      1 1345).map Prod.fst = some 0 ∧
    (run tinyGeometry (freshFS tinyGeometry 12) [.create, .write 0 [120] 1 1345]).isSome = true ∧
    stat tinyGeometry
      (stateAfter tinyGeometry (freshFS tinyGeometry 12) [.create, .write 0 [120] 1 1345]) 0
      = some 1345 := by
  decide

/-- C15, amended: starting from a freshly formatted and mounted device, every
sequence of `create`, `write` and `remove` calls whose `write` calls have an
offset of at most `(P + Q) * BLOCK_SIZE` (and any length, with a buffer of at
least that many bytes) is defined and leaves every valid inode with
`Size <= (P + Q) * BLOCK_SIZE`. -/
theorem size_within_maximum (g : Geometry) (hg : g.WF) (n : Nat) (h2 : 2 ≤ n)
    (hlt : n < 4294967296) (hI : ceilTenth n * g.INODES_PER_BLOCK < 4294967296)
    (ops : List Op) (hwf : ∀ op, op ∈ ops → op.WF) (hin : ∀ op, op ∈ ops → op.Within g) :
    ∃ fs d, run g (freshFS g n) ops = some fs ∧ fs.disk = some d ∧
      ∀ k y, k < fs.numOfInodes → inodeAt g d k = some y → y.Valid ≠ 0 →
        y.Size ≤ (POINTERS_PER_INODE + g.POINTERS_PER_BLOCK) * g.BLOCK_SIZE := by
  obtain ⟨d0, hs0, _, _, _, _, hnone⟩ := freshFS_sound g hg n h2 hlt hI
  obtain ⟨fs, d, hrun, hs, _, _, _, _, _, hsz⟩ := run_sound g hg ops _ d0 hs0 hwf
  refine ⟨fs, d, hrun, hs.mounted.disk, hsz hin ?_⟩
  intro k y hk hy hyv
  exact absurd ((isValid_iff g d0 k).mpr ⟨y, hy, hyv⟩) (hnone k hk)

set_option maxRecDepth 100000 in
/-- C15, witness: a device of twelve blocks of 64 bytes and a write of five bytes
at offset 1340, which ends at the largest file size 1344. -/
theorem size_within_maximum_witness :
    tinyGeometry.WF ∧
    (∀ op, op ∈ [Op.create, Op.write 0 hello 5 1340] → op.WF) ∧
    (∀ op, op ∈ [Op.create, Op.write 0 hello 5 1340] → op.Within tinyGeometry) ∧
    ∃ fs d, run tinyGeometry (freshFS tinyGeometry 12) [.create, .write 0 hello 5 1340]
        = some fs ∧ fs.disk = some d ∧
      ∀ k y, k < fs.numOfInodes → inodeAt tinyGeometry d k = some y → y.Valid ≠ 0 →
        y.Size ≤ (POINTERS_PER_INODE + tinyGeometry.POINTERS_PER_BLOCK) * tinyGeometry.BLOCK_SIZE :=
  ⟨by decide, by decide, by decide,
    size_within_maximum tinyGeometry (by decide) 12 (by decide) (by decide) (by decide)
      [.create, .write 0 hello 5 1340] (by decide) (by decide)⟩

/-! ### The indirect block at the label `ret` -/

set_option maxRecDepth 100000 in
/-- C16, where the code fails: on a device of twelve blocks of 64 bytes, after
`create()`, the call `write(0, "x", 1, 384)` returns 1: it takes block 3 as the
indirect block and block 4, which was free, as the data block of entry 1, writes
the byte to block 4 and marks it used; but the indirect block on the device is
all zero when `write` has returned, so entry 1 does not hold block 4, pointer
slot 6 of the file is empty, and reading the byte back returns 0 bytes. -/
theorem indirect_block_not_persisted :
    (write tinyGeometry (stateAfter tinyGeometry (freshFS tinyGeometry 12) [.create]) 0 [120]
      1 384).map Prod.fst = some 1 ∧
    run tinyGeometry (freshFS tinyGeometry 12) [.create, .write 0 [120] 1 384]
      = some lostEntryFS ∧
    inodeAt tinyGeometry (diskOf lostEntryFS) 0
      = some { Valid := 1, Size := 385, Direct := [0, 0, 0, 0, 0], Indirect := 3 } ∧
    (diskOf lostEntryFS).read 3 = some (zeroBlock tinyGeometry) ∧
    (stateAfter tinyGeometry (freshFS tinyGeometry 12) [.create]).freemap[4]? = some true ∧
    lostEntryFS.freemap[4]? = some false ∧
    ((diskOf lostEntryFS).read 4).bind (fun blk => blk[0]?) = some 120 ∧
    (∀ j, j < tinyGeometry.POINTERS_PER_BLOCK →
      getPointer (zeroBlock tinyGeometry) j = 0) ∧
    read tinyGeometry lostEntryFS 0 1 384 = some (0, []) := by
  decide

/-! ### Block 0 -/

/-- C18: starting from a freshly formatted and mounted device, every sequence of
`create`, `write` and `remove` calls is defined and leaves block 0 holding the
superblock that `format` wrote (`stat` and `read` return values only and have no
device to change in this model). -/
theorem superblock_unchanged (g : Geometry) (hg : g.WF) (n : Nat) (h2 : 2 ≤ n)
    (hlt : n < 4294967296) (hI : ceilTenth n * g.INODES_PER_BLOCK < 4294967296)
    (ops : List Op) (hwf : ∀ op, op ∈ ops → op.WF) :
    ∃ d0 fs d, (freshFS g n).disk = some d0 ∧ d0.read 0 = some (formatSuperBlock g n) ∧
      run g (freshFS g n) ops = some fs ∧ fs.disk = some d ∧
      d.read 0 = some (formatSuperBlock g n) := by
  obtain ⟨d0, hs0, hr0, _⟩ := freshFS_sound g hg n h2 hlt hI
  obtain ⟨fs, d, hrun, hs, _, _, _, hr, _⟩ := run_sound g hg ops _ d0 hs0 hwf
  exact ⟨d0, fs, d, hs0.mounted.disk, hr0, hrun, hs.mounted.disk, by rw [hr]; exact hr0⟩

set_option maxRecDepth 100000 in
/-- C18, witness: a device of twelve blocks of 64 bytes; the write of five bytes
ends in the direct region of an inode with `Indirect = 0`. -/
theorem superblock_unchanged_witness :
    tinyGeometry.WF ∧
    (∀ op, op ∈ [Op.create, Op.write 0 hello 5 0, Op.remove 0] → op.WF) ∧
    ∃ d0 fs d, (freshFS tinyGeometry 12).disk = some d0 ∧
      d0.read 0 = some (formatSuperBlock tinyGeometry 12) ∧
      run tinyGeometry (freshFS tinyGeometry 12) [.create, .write 0 hello 5 0, .remove 0]
        = some fs ∧ fs.disk = some d ∧
      d.read 0 = some (formatSuperBlock tinyGeometry 12) :=
  ⟨by decide, by decide,
    superblock_unchanged tinyGeometry (by decide) 12 (by decide) (by decide) (by decide)
      [.create, .write 0 hello 5 0, .remove 0] (by decide)⟩

/-! ### Block 0 marked free -/

/-- With block 0 marked free, `write` marks no block used and puts no block into
a pointer slot; on an inode without blocks it returns 0. -/
theorem write_stalled (g : Geometry) (hg : g.WF) (fs : FileSystem) (d : Disk)
    (hs : Sound g fs d) (hz : fs.freemap[0]? = some true) (j : Nat) (data : List Byte)
    (length offset : Nat) (hlen : length ≤ data.length)
    (hoff : offset < 18446744073709551616) :
    ∃ (w : Int) (fs3 : FileSystem) (d3 : Disk),
      write g fs j data length offset = some (w, fs3) ∧ fs3.disk = some d3 ∧
      fs3.freemap = fs.freemap ∧
      (j < fs.numOfInodes → ∀ y, inodeAt g d j = some y → y.Valid ≠ 0 →
        ∃ y3, inodeAt g d3 j = some y3 ∧ ∀ s, pointerAt g d3 y3 s = pointerAt g d y s) ∧
      (j < fs.numOfInodes → inodeAt g d j = some Inode.created → w = 0) := by
  have hm := hs.mounted
  by_cases hval : j < fs.numOfInodes ∧ ∃ x, inodeAt g d j = some x ∧ x.Valid ≠ 0
  · obtain ⟨hj, x0, hx, hv⟩ := hval
    obtain ⟨st, lim, cur, d2, x2, hw, hinv, hlim, _, b1, _, _, _, b5, _, _, _, _, b10, _⟩ :=
      write_valid g hg fs d hs j hj x0 hx hv data length offset hlen hoff
    have hfm : st.freemap = fs.freemap := hinv.stall hz
    -- no block that was free is marked used, so no pointer slot holds a new block
    have hnonew : ∀ p : Nat, fs.freemap[p]? = some true → st.freemap[p]? = some false →
        False := by
      intro p h1 h2
      rw [hfm, h1] at h2
      cases h2
    have hslot : ∀ k, k < lim → st.ptrOf k = blockPointer g d x0 k := by
      intro k hk
      rcases hinv.slots k hk with h | ⟨h1, h2, _, h4, _⟩
      · exact h
      · exact (hnonew _ h4 ((hinv.used _).mpr (Or.inr ⟨h2, Or.inl ⟨k, hk, h1, rfl⟩⟩))).elim
    have hindeq : st.inode.Indirect = x0.Indirect := by
      rcases hinv.ind with h | ⟨h1, h2, _, h4⟩
      · exact h
      · exact (hnonew _ h4 ((hinv.used _).mpr (Or.inr ⟨h2, Or.inr ⟨h1, rfl⟩⟩))).elim
    refine ⟨_, _, d2, hw, rfl, hfm, fun _ y hy _ => ?_, fun _ hc => ?_⟩
    · rw [hx] at hy
      cases hy
      refine ⟨x2, b1, fun s => ?_⟩
      cases s with
      | zero => rw [pointerAt_zero, pointerAt_zero, b5, hindeq]
      | succ k =>
        rw [pointerAt_succ, pointerAt_succ]
        rcases b10 k with h | ⟨hk, h⟩
        · exact h
        · rw [h, hslot k hk]
    · rw [hx] at hc
      cases hc
      by_contra hne
      have hw0 : st.hasWrite ≠ 0 := fun h => hne (by rw [h]; rfl)
      obtain ⟨t1, _, _⟩ := hinv.tight hw0
      have hpos : 0 < cur := Nat.lt_of_le_of_lt (Nat.zero_le _) t1
      obtain ⟨hk, hnz⟩ := hinv.filled (cur - 1) (Nat.le_sub_one_of_lt t1)
        (Nat.sub_lt hpos Nat.one_pos)
      rw [hslot _ hk, blockPointer_created] at hnz
      exact hnz rfl
  · have hinv : fs.numOfInodes ≤ j ∨ ∃ x, inodeAt g d j = some x ∧ x.Valid = 0 := by
      by_cases hj : j < fs.numOfInodes
      · right
        obtain ⟨x, hx, _⟩ := inodeAt_isSome g fs d hm j hj
        refine ⟨x, hx, ?_⟩
        by_contra hv
        exact hval ⟨hj, x, hx, hv⟩
      · exact Or.inl (by omega)
    refine ⟨-1, fs, d, write_invalid g fs d hm.disk j data length offset hlen hinv, hm.disk, rfl,
      fun hj y hy hyv => ?_, fun hj hc => ?_⟩
    · exact (hval ⟨hj, y, hy, hyv⟩).elim
    · exact (hval ⟨hj, _, hc, by decide⟩).elim

/-- C19: in a sound state, `remove(i)` on a valid inode whose `Indirect` is not 0
returns true and leaves block 0 marked free; after every sequence of later
calls block 0 is still marked free and `find_free_block` returns 0; every later
`write` then leaves the free map as it is and every pointer slot of its inode as
it is, so no block is newly allocated and no byte goes to a new block, and
`write` on an inode without blocks returns 0. -/
theorem allocation_stalls_after_remove (g : Geometry) (hg : g.WF) (fs : FileSystem)
    (d : Disk) (hs : Sound g fs d) (i : Nat) (hi : i < fs.numOfInodes) (x : Inode)
    (hx : inodeAt g d i = some x) (hv : x.Valid ≠ 0) (hind : x.Indirect ≠ 0) :
    ∃ fs1, remove g fs i = some (true, fs1) ∧ fs1.freemap[0]? = some true ∧
      ∀ ops : List Op, (∀ op, op ∈ ops → op.WF) →
        ∃ fs2 d2, run g fs1 ops = some fs2 ∧ fs2.disk = some d2 ∧
          fs2.freemap[0]? = some true ∧
          find_free_block fs2.numOfBlocks fs2.freemap = some 0 ∧
          ∀ (j : Nat) (data : List Byte) (length offset : Nat), length ≤ data.length →
            offset < 18446744073709551616 →
            ∃ (w : Int) (fs3 : FileSystem) (d3 : Disk),
              write g fs2 j data length offset = some (w, fs3) ∧ fs3.disk = some d3 ∧
              fs3.freemap = fs2.freemap ∧
              (j < fs2.numOfInodes → ∀ y, inodeAt g d2 j = some y → y.Valid ≠ 0 →
                ∃ y3, inodeAt g d3 j = some y3 ∧
                  ∀ s, pointerAt g d3 y3 s = pointerAt g d2 y s) ∧
              (j < fs2.numOfInodes → inodeAt g d2 j = some Inode.created → w = 0) := by
  obtain ⟨fm, d', h1, _, _, _, _, _, _, h8, _⟩ := remove_valid g hg fs d hs.mounted i hi x hx hv
    (hs.pointersBelow g fs d i hi x hx hv)
  obtain ⟨r, fs', d1, h1', hs1, _⟩ := remove_sound g hg fs d hs i
  rw [h1] at h1'
  simp only [Option.some.injEq, Prod.mk.injEq] at h1'
  obtain ⟨_, hfs⟩ := h1'
  rw [← hfs] at hs1
  have hz1 : fm[0]? = some true := (h8 0).mpr (Or.inr (Or.inr (Or.inr ⟨hind, rfl⟩)))
  refine ⟨_, h1, hz1, fun ops hwf => ?_⟩
  obtain ⟨fs2, d2, hrun, hs2, _, _, _, _, hz2, _⟩ := run_sound g hg ops _ d1 hs1 hwf
  have hz2' := hz2 hz1
  refine ⟨fs2, d2, hrun, hs2.mounted.disk, hz2', ?_, fun j data length offset hlen hoff =>
    write_stalled g hg fs2 d2 hs2 hz2' j data length offset hlen hoff⟩
  obtain ⟨f, hf, _, hspec⟩ := find_free_block_spec fs2.numOfBlocks fs2.freemap
    hs2.mounted.freemap
  rcases hspec with ⟨h0, _⟩ | ⟨h0, _, _, hlow⟩
  · rw [hf, h0]
  · have := hlow 0 (by omega)
    rw [hz2'] at this
    cases this

set_option maxRecDepth 100000 in
theorem indirectFS_sound : Sound tinyGeometry indirectFS (diskOf indirectFS) := by
  obtain ⟨d0, hs0, _⟩ := freshFS_sound tinyGeometry (by decide) 12 (by decide) (by decide)
    (by decide)
  obtain ⟨fs, d, hrun, hs, _⟩ := run_sound tinyGeometry (by decide)
    [.create, .write 0 (List.replicate 321 65) 321 0] _ d0 hs0 (by decide)
  have hconc : run tinyGeometry (freshFS tinyGeometry 12)
      [.create, .write 0 (List.replicate 321 65) 321 0] = some indirectFS := by decide
  rw [hconc] at hrun
  cases hrun
  have hd : diskOf indirectFS = d := by
    unfold diskOf
    rw [hs.mounted.disk]
    rfl
  rw [hd]
  exact hs

set_option maxRecDepth 100000 in
/-- C19, witness: inode 0 of a device of twelve blocks of 64 bytes after a write
of 321 bytes, which holds five direct blocks, the indirect block 8 and one more
data block. -/
theorem allocation_stalls_after_remove_witness :
    tinyGeometry.WF ∧ Sound tinyGeometry indirectFS (diskOf indirectFS) ∧
    inodeAt tinyGeometry (diskOf indirectFS) 0
      = some { Valid := 1, Size := 321, Direct := [3, 4, 5, 6, 7], Indirect := 8 } ∧
    ∃ fs1, remove tinyGeometry indirectFS 0 = some (true, fs1) ∧ fs1.freemap[0]? = some true ∧
      ∀ ops : List Op, (∀ op, op ∈ ops → op.WF) →
        ∃ fs2 d2, run tinyGeometry fs1 ops = some fs2 ∧ fs2.disk = some d2 ∧
          fs2.freemap[0]? = some true ∧
          find_free_block fs2.numOfBlocks fs2.freemap = some 0 ∧
          ∀ (j : Nat) (data : List Byte) (length offset : Nat), length ≤ data.length →
            offset < 18446744073709551616 →
            ∃ (w : Int) (fs3 : FileSystem) (d3 : Disk),
              write tinyGeometry fs2 j data length offset = some (w, fs3) ∧
              fs3.disk = some d3 ∧ fs3.freemap = fs2.freemap ∧
              (j < fs2.numOfInodes → ∀ y, inodeAt tinyGeometry d2 j = some y → y.Valid ≠ 0 →
                ∃ y3, inodeAt tinyGeometry d3 j = some y3 ∧
                  ∀ s, pointerAt tinyGeometry d3 y3 s = pointerAt tinyGeometry d2 y s) ∧
              (j < fs2.numOfInodes → inodeAt tinyGeometry d2 j = some Inode.created →
                w = 0) :=
  ⟨by decide, indirectFS_sound, by decide,
    allocation_stalls_after_remove tinyGeometry (by decide) indirectFS (diskOf indirectFS)
      indirectFS_sound 0 (by decide)
      { Valid := 1, Size := 321, Direct := [3, 4, 5, 6, 7], Indirect := 8 } (by decide)
      (by decide) (by decide)⟩

/-! ### No block in two pointer slots -/

/-- C20: starting from a freshly formatted and mounted device of `n >= 2` blocks
(with `n` and the inode count `uint32_t` values), every sequence of `create`,
`write` and `remove` calls is defined and ends in a state where every non-zero
pointer held by a valid inode (an entry of `Direct`, the field `Indirect`, an
entry of the indirect block on the device) is a block number `b` with
`InodeBlocks < b < Blocks`, no block number is in two pointer slots of valid
inodes (of one inode or of two), and a `write` to one inode leaves what `read`
returns for every other inode as it was. -/
theorem pointers_disjoint (g : Geometry) (hg : g.WF) (n : Nat) (h2 : 2 ≤ n)
    (hlt : n < 4294967296) (hI : ceilTenth n * g.INODES_PER_BLOCK < 4294967296)
    (ops : List Op) (hwf : ∀ op, op ∈ ops → op.WF) :
    ∃ fs d, run g (freshFS g n) ops = some fs ∧ fs.disk = some d ∧
      fs.numOfBlocks = n ∧ fs.numOfInodeBlocks = ceilTenth n ∧
      (∀ i x b, i < fs.numOfInodes → inodeAt g d i = some x → x.Valid ≠ 0 →
        HeldBy g d x b → b ≠ 0 → fs.numOfInodeBlocks < b ∧ b < fs.numOfBlocks) ∧
      (∀ i x s i' x' s', i < fs.numOfInodes → inodeAt g d i = some x → x.Valid ≠ 0 →
        i' < fs.numOfInodes → inodeAt g d i' = some x' → x'.Valid ≠ 0 →
        pointerAt g d x s ≠ 0 → (i ≠ i' ∨ s ≠ s') →
        pointerAt g d x s ≠ pointerAt g d x' s') ∧
      (∀ (i i' : Nat) (data : List Byte) (length offset l o : Nat), i ≠ i' →
        length ≤ data.length → offset < 18446744073709551616 →
        ∃ (w : Int) (fs' : FileSystem), write g fs i data length offset = some (w, fs') ∧
          read g fs' i' l o = read g fs i' l o) := by
  obtain ⟨d0, hs0, _, e1, e2, _⟩ := freshFS_sound g hg n h2 hlt hI
  obtain ⟨fs, d, hrun, hs, n1, n2, _⟩ := run_sound g hg ops _ d0 hs0 hwf
  have hm := hs.mounted
  refine ⟨fs, d, hrun, hm.disk, by rw [n1, e1], by rw [n2, e2], ?_, hs.distinct, ?_⟩
  · intro i x b hi hx hv hheld hb
    obtain ⟨s, hsb⟩ := (heldBy_iff g d x (inodeAt_WF g d i x hx) b hb).mp hheld
    have := hs.range i x s hi hx hv (by rw [hsb]; exact hb)
    rw [hsb] at this
    exact ⟨this.1, this.2.1⟩
  · intro i i' data length offset l o hne hlen hoff
    by_cases hval : i < fs.numOfInodes ∧ ∃ x, inodeAt g d i = some x ∧ x.Valid ≠ 0
    · obtain ⟨hi, x0, hx, hv⟩ := hval
      obtain ⟨w, fs2, d2, x2, hw, hd2, hs2, _, _, _, n3, _, _, _, _, _, _, hoth, hfr⟩ :=
        write_sound g hg fs d hs i hi x0 hx hv data length offset hlen hoff
      refine ⟨_, fs2, hw, ?_⟩
      by_cases hi' : i' < fs.numOfInodes
      · exact read_congr g fs fs2 d d2 hm.disk hd2 n3 i' (hoth i' (Ne.symm hne) hi')
          (fun y hy hyv s hs' => hfr i' y (Ne.symm hne) hi' hy hyv s hs') l o
      · rw [read_fails g fs d hm i' l o (Or.inl (by omega)),
          read_fails g fs2 d2 hs2.mounted i' l o (Or.inl (by rw [n3]; omega))]
    · have hinv : fs.numOfInodes ≤ i ∨ ∃ x, inodeAt g d i = some x ∧ x.Valid = 0 := by
        by_cases hi : i < fs.numOfInodes
        · right
          obtain ⟨x, hx, _⟩ := inodeAt_isSome g fs d hm i hi
          refine ⟨x, hx, ?_⟩
          by_contra hv
          exact hval ⟨hi, x, hx, hv⟩
        · exact Or.inl (by omega)
      exact ⟨-1, fs, write_invalid g fs d hm.disk i data length offset hlen hinv, rfl⟩

set_option maxRecDepth 100000 in
/-- C20, witness: a device of twelve blocks of 64 bytes with two files, one of
them written. -/
theorem pointers_disjoint_witness :
    tinyGeometry.WF ∧
    (∀ op, op ∈ [Op.create, Op.create, Op.write 0 hello 5 0] → op.WF) ∧
    ∃ fs d, run tinyGeometry (freshFS tinyGeometry 12)
        [.create, .create, .write 0 hello 5 0] = some fs ∧ fs.disk = some d ∧
      fs.numOfBlocks = 12 ∧ fs.numOfInodeBlocks = ceilTenth 12 ∧
      (∀ i x b, i < fs.numOfInodes → inodeAt tinyGeometry d i = some x → x.Valid ≠ 0 →
        HeldBy tinyGeometry d x b → b ≠ 0 → fs.numOfInodeBlocks < b ∧ b < fs.numOfBlocks) ∧
      (∀ i x s i' x' s', i < fs.numOfInodes → inodeAt tinyGeometry d i = some x →
        x.Valid ≠ 0 → i' < fs.numOfInodes → inodeAt tinyGeometry d i' = some x' →
        x'.Valid ≠ 0 → pointerAt tinyGeometry d x s ≠ 0 → (i ≠ i' ∨ s ≠ s') →
        pointerAt tinyGeometry d x s ≠ pointerAt tinyGeometry d x' s') ∧
      (∀ (i i' : Nat) (data : List Byte) (length offset l o : Nat), i ≠ i' →
        length ≤ data.length → offset < 18446744073709551616 →
        ∃ (w : Int) (fs' : FileSystem),
          write tinyGeometry fs i data length offset = some (w, fs') ∧
          read tinyGeometry fs' i' l o = read tinyGeometry fs i' l o) :=
  ⟨by decide, by decide,
    pointers_disjoint tinyGeometry (by decide) 12 (by decide) (by decide) (by decide)
      [.create, .create, .write 0 hello 5 0] (by decide)⟩

/-! ### `write` followed by `read` of the same range -/

/-- The bytes that `write` placed on a valid inode of a sound state come back
from `read` of the same range: for every non-empty `data` whose first byte lies
before slot `P + 1` of the file, or on a file whose indirect block has entry 0
set on the device, a call `write` that returns `len(data)` is followed by a
`read` that returns `len(data)` and copies `data`. -/
theorem write_then_read (g : Geometry) (hg : g.WF) (fs : FileSystem) (d : Disk)
    (hs : Sound g fs d)
    (hcap : (POINTERS_PER_INODE + g.POINTERS_PER_BLOCK) * g.BLOCK_SIZE < 4294967296)
    (i : Nat) (hi : i < fs.numOfInodes) (x : Inode) (hx : inodeAt g d i = some x)
    (hv : x.Valid ≠ 0) (data : List Byte) (offset : Nat) (hne : data ≠ [])
    (hmax : offset + data.length ≤ (POINTERS_PER_INODE + g.POINTERS_PER_BLOCK) * g.BLOCK_SIZE)
    (hpers : offset < (POINTERS_PER_INODE + 1) * g.BLOCK_SIZE ∨
      blockPointer g d x POINTERS_PER_INODE ≠ 0)
    (fs2 : FileSystem)
    (hw : write g fs i data data.length offset = some ((data.length : Int), fs2)) :
    read g fs2 i data.length offset = some ((data.length : Int), data) := by
  have hB : 0 < g.BLOCK_SIZE := by have := hg.1; omega
  have hm := hs.mounted
  have hL : 1 ≤ data.length := by
    cases data with
    | nil => exact absurd rfl hne
    | cons a l => exact Nat.succ_le_succ (Nat.zero_le _)
  obtain ⟨st, lim, cur, d2, x2, hw', hinv, hlim, _, b1, b2, b3, b4, b5, b6, b7, _, _, _, b11,
    b12⟩ := write_valid g hg fs d hs i hi x hx hv data data.length offset (Nat.le_refl _)
      (by omega)
  rw [hw'] at hw
  simp only [Option.some.injEq, Prod.mk.injEq, Nat.cast_inj] at hw
  obtain ⟨hhw, hfs2⟩ := hw
  have hm2 : Mounted g fs2 d2 := by
    rw [← hfs2]
    exact ⟨rfl, b6, hm.blocks.trans b7.symm, hm.inodeBlocks, hm.inodes, hinv.fmlen, hm.small⟩
  have hi2 : i < fs2.numOfInodes := by
    rw [← hfs2]
    exact hi
  have hsize : offset + data.length ≤ x2.Size := by
    rw [b3, hhw, Nat.mod_eq_of_lt (by omega)]
    exact Nat.le_max_right _ _
  have hmin : min data.length (x2.Size - offset) = data.length := by omega
  obtain ⟨t1, t2, t3⟩ := hinv.tight (by omega)
  rw [hhw] at t2 t3
  -- the pointer slots of the written range are stored as the loops left them
  have hslot : ∀ q, offset / g.BLOCK_SIZE ≤ q → q * g.BLOCK_SIZE < offset + data.length →
      q < lim ∧ st.ptrOf q ≠ 0 ∧ blockPointer g d2 x2 q = st.ptrOf q := by
    intro q hq1 hq2
    have hqc : q < cur :=
      Nat.lt_of_mul_lt_mul_right (Nat.lt_of_lt_of_le hq2 t3)
    obtain ⟨hql, hqn⟩ := hinv.filled q hq1 hqc
    refine ⟨hql, hqn, ?_⟩
    by_cases hq5 : q < POINTERS_PER_INODE
    · rw [blockPointer_direct g d2 x2 q hq5, b4]
      unfold WriteState.ptrOf
      rw [if_pos hq5]
    · apply b11 _ q hql
      right
      rcases hpers with h | h
      · have hb0 : offset / g.BLOCK_SIZE < POINTERS_PER_INODE + 1 :=
          Nat.div_lt_of_lt_mul (by rwa [Nat.mul_comm] at h)
        exact (hinv.filled POINTERS_PER_INODE (by omega) (by omega)).2
      · rcases hinv.slots POINTERS_PER_INODE (by omega) with h' | ⟨h', _⟩
        · rw [h']
          exact h
        · exact absurd h' h
  -- the blocks of these slots are neither the inode block nor the indirect block
  have hblock : ∀ q, q < lim → st.ptrOf q ≠ 0 →
      st.ptrOf q < fs.numOfBlocks ∧ st.ptrOf q ≠ i / g.INODES_PER_BLOCK + 1 ∧
        st.ptrOf q ≠ st.inode.Indirect := by
    intro q hql hqn
    have htb : i / g.INODES_PER_BLOCK < fs.numOfInodeBlocks := by
      apply Nat.div_lt_of_lt_mul
      rw [Nat.mul_comm, ← hm.inodes]
      exact hi
    rcases hinv.slots q hql with h | ⟨h1, _, h3, h4, _⟩
    · have hold : blockPointer g d x q ≠ 0 := by rw [← h]; exact hqn
      obtain ⟨s1, s2, s3, s4⟩ := hs.slot g fs d i x hi hx hv q hold
      rw [h]
      refine ⟨s2, by omega, ?_⟩
      rcases hinv.ind with e | ⟨_, _, _, e⟩
      · rw [e]
        exact s4
      · intro hc
        rw [← hc, s3] at e
        cases e
    · refine ⟨h3, fun hc => ?_, ?_⟩
      · have := hs.table _ (Nat.le_add_left 1 _) htb
        rw [← hc, h4] at this
        cases this
      · rcases hinv.ind with e | ⟨e1, e2, _⟩
        · rw [e]
          by_cases hI : x.Indirect = 0
          · rw [hI]
            exact hqn
          · intro hc
            have := (hs.indirect g fs d i x hi hx hv hI).2.2
            rw [← hc, h4] at this
            cases this
        · exact hinv.distinctInd e1 e2 q hql h1
  have hcov : Covered g d2 x2 offset (offset + min data.length (x2.Size - offset)) := by
    rw [hmin]
    intro q hq1 hq2
    obtain ⟨hql, hqn, hqe⟩ := hslot q hq1 hq2
    rw [hqe, b7, ← hm.blocks]
    exact ⟨hqn, (hblock q hql hqn).1⟩
  obtain ⟨out, hr, hol, hob⟩ := read_covered g hg fs2 d2 hm2 i hi2 x2 b1
    (by rw [b2]; exact hv) data.length offset (by omega) (by rw [hmin]; exact hmax) hcov
  rw [hmin] at hr hol hob
  have hout : out = data := by
    apply List.ext_getElem?
    intro k
    by_cases hk : k < data.length
    · obtain ⟨c1, _, c3, _, blk, c5, c6⟩ := hinv.content (offset + k) (Nat.le_add_right _ _)
        (by omega)
      have hdm := Nat.div_add_mod' (offset + k) g.BLOCK_SIZE
      obtain ⟨_, _, hqe⟩ := hslot ((offset + k) / g.BLOCK_SIZE)
        (Nat.div_le_div_right (Nat.le_add_right _ _)) (by omega)
      obtain ⟨_, n2, n3⟩ := hblock _ c1 c3
      rw [hob k hk]
      unfold fileByte
      rw [hqe, b12 _ n2 n3, c5]
      dsimp only
      rw [c6, Nat.add_sub_cancel_left]
    · rw [List.getElem?_eq_none (by omega), List.getElem?_eq_none (by omega)]
  rw [hr, hout]
/-- A `write` of no bytes at an offset inside a valid file of a sound state, and
the `read` of no bytes at that offset after it, which returns 0. -/
theorem write_nothing_then_read (g : Geometry) (hg : g.WF) (fs : FileSystem) (d : Disk)
    (hs : Sound g fs d) (i : Nat) (hi : i < fs.numOfInodes) (x : Inode)
    (hx : inodeAt g d i = some x) (hv : x.Valid ≠ 0) (data : List Byte) (offset : Nat)
    (hoff : offset < x.Size) (w : Int) (fs2 : FileSystem)
    (hw : write g fs i data 0 offset = some (w, fs2)) :
    read g fs2 i 0 offset = some (0, []) := by
  have hx32 : x.Size < 4294967296 := (inodeAt_WF g d i x hx).2.1
  obtain ⟨w', fs2', d2, x2, hw', hd2, hs2, _, _, _, hni, _, _, hx2, hv2, hsz2, _⟩ :=
    write_sound g hg fs d hs i hi x hx hv data 0 offset (Nat.zero_le _) (by omega)
  rw [hw'] at hw
  simp only [Option.some.injEq, Prod.mk.injEq] at hw
  obtain ⟨_, hfs2⟩ := hw
  subst hfs2
  have hi2 : i < fs2'.numOfInodes := by rw [hni]; exact hi
  have hv2' : x2.Valid ≠ 0 := by rw [hv2]; exact hv
  have hpb := hs2.pointersBelow g fs2' d2 i hi2 x2 hx2 hv2'
  unfold PointersBelow at hpb
  rw [hx2] at hpb
  obtain ⟨r1, r2, r3⟩ := hpb
  have hoff2 : offset < x2.Size := by
    rw [hsz2]
    exact Nat.lt_of_lt_of_le hoff (Nat.le_max_left _ _)
  obtain ⟨r, out, hr, hle, hlen, _⟩ := read_any g hg fs2' d2 hs2.mounted i hi2 x2 hx2 hv2' 0
    offset hoff2 r1 r2 r3
  have hr0 : r = 0 := by omega
  rw [hr0] at hr hlen
  rw [hr, List.length_eq_zero.mp hlen]
  rfl

/-- C1, amended: in a sound state (every state reached from a formatted and
mounted device is sound) whose maximum file size `(P + Q) * BLOCK_SIZE` is a
`uint32_t` value, for every inode `i` with record `x`, every byte string `data`
and every offset with `offset + len(data)` at most the maximum file size: if
`write(i, data, len(data), offset)` returns `len(data)`, then
`read(i, buf, len(data), offset)` returns `len(data)` and copies exactly `data`,
provided that an empty `data` is written at an offset inside the file
(`offset < Size`), and that a non-empty `data` starts before pointer slot `P + 1`
(`offset < (P + 1) * BLOCK_SIZE`) or the file already has entry 0 of its
indirect block set on the device.  The inode may hold data of earlier writes. -/
theorem write_read_round_trip (g : Geometry) (hg : g.WF) (fs : FileSystem) (d : Disk)
    (hs : Sound g fs d)
    (hcap : (POINTERS_PER_INODE + g.POINTERS_PER_BLOCK) * g.BLOCK_SIZE < 4294967296)
    (i : Nat) (x : Inode) (hx : inodeAt g d i = some x) (data : List Byte) (offset : Nat)
    (hmax : offset + data.length ≤ (POINTERS_PER_INODE + g.POINTERS_PER_BLOCK) * g.BLOCK_SIZE)
    (hempty : data = [] → offset < x.Size)
    (hpers : data ≠ [] → offset < (POINTERS_PER_INODE + 1) * g.BLOCK_SIZE ∨
      blockPointer g d x POINTERS_PER_INODE ≠ 0)
    (fs2 : FileSystem)
    (hw : write g fs i data data.length offset = some ((data.length : Int), fs2)) :
    read g fs2 i data.length offset = some ((data.length : Int), data) := by
  have hbad : write g fs i data data.length offset ≠ some (-1, fs) := by
    rw [hw]
    intro hc
    simp only [Option.some.injEq, Prod.mk.injEq] at hc
    omega
  have hi : i < fs.numOfInodes := by
    by_contra hc
    exact hbad (write_invalid g fs d hs.mounted.disk i data data.length offset (Nat.le_refl _)
      (Or.inl (by omega)))
  have hv : x.Valid ≠ 0 := fun hc =>
    hbad (write_invalid g fs d hs.mounted.disk i data data.length offset (Nat.le_refl _)
      (Or.inr ⟨x, hx, hc⟩))
  by_cases hd : data = []
  · have hoff := hempty hd
    subst hd
    exact write_nothing_then_read g hg fs d hs i hi x hx hv [] offset hoff _ fs2 hw
  · exact write_then_read g hg fs d hs hcap i hi x hx hv data offset hd hmax (hpers hd) fs2 hw

set_option maxRecDepth 100000 in
/-- C1, witness: inode 0 of a device of twelve blocks of 64 bytes after a write
of 321 bytes, which holds five direct blocks, the indirect block 8 and one more
data block; the five bytes of `hello` written at offset 390, in pointer slot
`P + 1`, come back from `read`. -/
theorem write_read_round_trip_witness :
    Sound tinyGeometry indirectFS (diskOf indirectFS) ∧
    inodeAt tinyGeometry (diskOf indirectFS) 0
      = some { Valid := 1, Size := 321, Direct := [3, 4, 5, 6, 7], Indirect := 8 } ∧
    write tinyGeometry indirectFS 0 hello hello.length 390
      = some ((hello.length : Int), stateAfter tinyGeometry indirectFS [.write 0 hello 5 390]) ∧
    read tinyGeometry (stateAfter tinyGeometry indirectFS [.write 0 hello 5 390]) 0
        hello.length 390
      = some ((hello.length : Int), hello) :=
  ⟨indirectFS_sound, by decide, by decide,
    write_read_round_trip tinyGeometry (by decide) indirectFS (diskOf indirectFS)
      indirectFS_sound (by decide) 0
      { Valid := 1, Size := 321, Direct := [3, 4, 5, 6, 7], Indirect := 8 } (by decide) hello
      390 (by decide) (by decide) (by decide)
      (stateAfter tinyGeometry indirectFS [.write 0 hello 5 390]) (by decide)⟩
set_option maxRecDepth 100000 in
/-- On the file of `lostEntryFS`, whose one byte in pointer slot `P + 1` was
written while entry 0 of the indirect block was unset, `write(0, "hello", 5, 450)`
starts in slot `P + 2` and returns 5, and the `read` of that range returns 0. -/
theorem unstored_entries_not_read :
    write tinyGeometry lostEntryFS 0 hello 5 450
      = some (5, stateAfter tinyGeometry lostEntryFS [.write 0 hello 5 450]) ∧
    read tinyGeometry (stateAfter tinyGeometry lostEntryFS [.write 0 hello 5 450]) 0 5 450
      = some (0, []) := by
  decide

end SimpleFS
